import Mathlib

/-! Verification of dewy-bootstrap: the SRNGLR table generator and the clustered nonterminal
parser.

A shallow embedding of `src/compiler/srnglr.c` (first sets, LR(1) closure, goto and the
generation of the itemset table and of the multi-action parse table) and of
`src/compiler/parser.c` (first and follow sets, the labels and the actions of the clustered
nonterminal parser), followed by the theorems about them.

Conventions of the embedding.
* `uint64_t` indices are natural numbers; no arithmetic of the embedded functions can wrap
  (the only additions are `position + 1` below a vector length and loop counters below a size).
* A C `for (i = 0; i < size(x); i++)` whose bound is re-read while the body grows `x` is the
  combinator `scan_growing`; a `while (true) { ...; if (stable) break; }` is `loop_until_stable`.
  Both take the number of iterations they may run as a first argument; the embedded functions
  pass a bound computed from their input, and the theorems of the section "Termination" show that
  the bound is never reached.
* The containers (`set`, `vect`, `dict`), `slice`, `slot`, `fset`, `charset`, `metaitem`, the
  call return forest and the `metaparser_*` accessors are not among the sources: they are
  modelled from the specification.
* `parser_dsc_add`, `parser_call`, `parser_return` and `parser_bsr_add` have no statements in
  the source. The functions that call them are embedded on a `parser_run`, which keeps, next to
  the context of the parse, the record of the calls made to these four functions.
-/

namespace Dewy

/-! ## Containers -/

/-- Modelled from the spec: the lookup of the missing set.c. A set is the sequence
`entries[0..size)` of its items in insertion order, without two equal items (equality `eq` is
`obj_equals`). The index of the entry equal to `x`, if there is one. -/
def set_find {α : Type} (eq : α → α → Bool) : List α → α → Option Nat
  | [], _ => none
  | e :: es, x => if eq e x then some 0 else (set_find eq es x).map (· + 1)

/-- Modelled from the spec: `set_add_return_index` of the missing set.c. Adding an item that is
already present leaves the set unchanged and returns the index of the present item; otherwise the
item is appended and its new index returned. -/
def set_add_return_index {α : Type} (eq : α → α → Bool) (s : List α) (item : α) : List α × Nat :=
  match set_find eq s item with
  | some i => (s, i)
  | none => (s ++ [item], s.length)

/-- Modelled from the spec: `set_add` of the missing set.c, which deduplicates and preserves the
insertion order. -/
def set_add {α : Type} (eq : α → α → Bool) (s : List α) (item : α) : List α :=
  (set_add_return_index eq s item).1

/-- Modelled from the spec: `set_equals` of the missing set.c, the equality of two `Set_t` objects:
same size and every item of the left set is contained in the right one. -/
def set_equals {α : Type} [DecidableEq α] (left right : List α) : Bool :=
  left.length == right.length && left.all (fun x => decide (x ∈ right))

/-- The loop `for (i = start; i < size(s); i++) s = step(s, i)`, in which the bound `size(s)` is
read again before every iteration. The first argument bounds the number of iterations. -/
def scan_growing {σ : Type} (size : σ → Nat) (step : σ → Nat → σ) : Nat → Nat → σ → σ
  | 0, _, s => s
  | fuel + 1, i, s => if i < size s then scan_growing size step fuel (i + 1) (step s i) else s

/-- The loop `while (true) { prev = size(s); s = pass(s); if (prev == size(s)) break; }`.
The first argument bounds the number of passes. -/
def loop_until_stable {σ : Type} (size : σ → Nat) (pass : σ → σ) : Nat → σ → σ
  | 0, s => s
  | fuel + 1, s =>
    let s' := pass s
    if size s = size s' then s' else loop_until_stable size pass fuel s'

/-- Modelled from the spec: `dict_get` of the missing dictionary.c, the value stored under a key,
`none` (C `NULL`) when the key is absent. A dictionary is the sequence of its entries in insertion
order, no two with the same key. -/
def dict_get {κ ν : Type} [DecidableEq κ] : List (κ × ν) → κ → Option ν
  | [], _ => none
  | (k', v) :: rest, k => if k' = k then some v else dict_get rest k

/-- Modelled from the spec: `dict_set` of the missing dictionary.c, store a value under a key:
the value of a present key is replaced, an absent key is appended. -/
def dict_set {κ ν : Type} [DecidableEq κ] : List (κ × ν) → κ → ν → List (κ × ν)
  | [], k, v => [(k, v)]
  | (k', v') :: rest, k, v =>
    if k' = k then (k', v) :: rest else (k', v') :: dict_set rest k v

/-! ## Grammar: symbol table and production store -/

/-- A range of code points of charset.h. -/
structure urange where
  start : Nat
  stop : Nat
deriving DecidableEq, Repr

/-- Modelled from the spec: a grammar symbol is a terminal wrapping a charset or a nonterminal
wrapping its name (a string of code points). -/
inductive symbol where
  | terminal (cs : List urange)
  | nonterminal (name : List Nat)
deriving DecidableEq, Repr

/-- Modelled from the spec: the state of the missing metaparser after a grammar was read.
`symbols` is the symbol table (`symbol_idx` is the position), `productions` the production store,
a dictionary from a head index to the sequence of its bodies in insertion order, each body a
sequence of symbol indices. `start_idx` is what `metaparser_get_start_symbol_idx` returns, the head
of the augmented start rule, and `endmarker_idx` what `metaparser_get_endmarker_symbol_idx` returns. -/
structure Grammar where
  symbols : List symbol
  productions : List (Nat × List (List Nat))
  start_idx : Nat
  endmarker_idx : Nat
deriving Repr

/-- Modelled from the spec: `metaparser_is_symbol_terminal`. An index outside the symbol table is
not a terminal. -/
def metaparser_is_symbol_terminal (g : Grammar) (symbol_idx : Nat) : Bool :=
  match g.symbols[symbol_idx]? with
  | some (symbol.terminal _) => true
  | _ => false

/-- Modelled from the spec: `metaparser_get_production_bodies`, the bodies of a head; a head
without an entry in the production store has none. -/
def metaparser_get_production_bodies (g : Grammar) (head_idx : Nat) : List (List Nat) :=
  match dict_get g.productions head_idx with
  | some bodies => bodies
  | none => []

/-- Modelled from the spec: `metaparser_get_production_body`, the body `production_idx` of a head,
`none` (C `NULL`) when there is no such production. -/
def metaparser_get_production_body (g : Grammar) (head_idx production_idx : Nat) :
    Option (List Nat) :=
  (metaparser_get_production_bodies g head_idx)[production_idx]?

/-! ## First sets -/

/-- Modelled from the spec: the `fset` used by srnglr.c, a set of terminal symbol indices and the
flag `nullable` (the later fset.h calls the flag `special`). -/
structure fset where
  terminals : List Nat
  nullable : Bool
deriving DecidableEq, Repr

/-- Modelled from the spec: `new_fset`, the empty first set. -/
def new_fset : fset := { terminals := [], nullable := false }

/-- Modelled from the spec: `fset_add`, add one terminal to the set. -/
def fset_add (s : fset) (symbol_idx : Nat) : fset :=
  { s with terminals := set_add (fun a b => decide (a = b)) s.terminals symbol_idx }

/-- Modelled from the spec: `fset_union_into(left, right, do_nullable)`, merge the terminals of
`right` into `left`, and its nullable flag too when `do_nullable` is set. -/
def fset_union_into (left right : fset) (do_nullable : Bool) : fset :=
  { terminals := right.terminals.foldl (set_add (fun a b => decide (a = b))) left.terminals,
    nullable := if do_nullable then left.nullable || right.nullable else left.nullable }

/-- The entry `vect_get(firsts, symbol_idx)` of a table of first sets; an index outside the table
reads as the empty set. -/
def first_of_symbol (firsts : List fset) (symbol_idx : Nat) : fset :=
  firsts.getD symbol_idx new_fset

/-- Modelled from the spec: a `slice` of a body, `v[start..stop)`, with an optional lookahead
symbol appended at its end. -/
structure slice where
  v : List Nat
  start : Nat
  stop : Nat
  lookahead : Option Nat
deriving DecidableEq, Repr

/-- Modelled from the spec: `slice_size`, the number of symbols of the slice, lookahead included. -/
def slice_size (s : slice) : Nat :=
  (s.stop - s.start) + (if s.lookahead.isSome then 1 else 0)

/-- Modelled from the spec: `slice_get`, the `i`-th symbol of the slice; the lookahead comes last. -/
def slice_get (s : slice) (i : Nat) : Option Nat :=
  if i < s.stop - s.start then s.v[s.start + i]?
  else if i = s.stop - s.start then s.lookahead
  else none

/-- The loop of `srnglr_first_of_string`, from index `i`, with `n` symbols of the slice left. -/
def srnglr_first_of_string_loop (firsts : List fset) (string : slice) : Nat → Nat → fset → fset
  | 0, _, result => result
  | n + 1, i, result =>
    match slice_get string i with
    | none => result
    | some symbol_idx =>
      let first_i := first_of_symbol firsts symbol_idx
      let nullable := first_i.nullable
      let result := fset_union_into result first_i false
      let result :=
        if i = slice_size string - 1 ∧ nullable = true then { result with nullable := true }
        else result
      if nullable = false then result
      else srnglr_first_of_string_loop firsts string n (i + 1) result

/-- `srnglr_first_of_string` (srnglr.c:257): the first set of a string of symbols, given the table
`srnglr_symbol_firsts`. -/
def srnglr_first_of_string (firsts : List fset) (string : slice) : fset :=
  if slice_size string = 0 then { terminals := [], nullable := true }
  else srnglr_first_of_string_loop firsts string (slice_size string) 0 new_fset

/-! ## LR(1) items and closure -/

/-- Modelled from the spec: the LR(1) item `metaitem`. -/
structure metaitem where
  head_idx : Nat
  production_idx : Nat
  position : Nat
  lookahead_idx : Nat
deriving DecidableEq, Repr

/-- Equality of two items as `obj_equals` sees it: all four fields. -/
def metaitem_equals (a b : metaitem) : Bool := decide (a = b)

/-- The body of the `for` loop of `srnglr_closure` (srnglr.c:321-356) for the entry `i`. -/
def srnglr_closure_step (g : Grammar) (firsts : List fset) (closure : List metaitem) (i : Nat) :
    List metaitem :=
  match closure[i]? with
  | none => closure
  | some item =>
    match metaparser_get_production_body g item.head_idx item.production_idx with
    | none => closure
    | some item_body =>
      match item_body[item.position]? with
      | none => closure
      | some symbol_idx =>
        if metaparser_is_symbol_terminal g symbol_idx then closure
        else
          let remaining : slice :=
            { v := item_body, start := item.position + 1, stop := item_body.length,
              lookahead := some item.lookahead_idx }
          let lookaheads := srnglr_first_of_string firsts remaining
          (List.range (metaparser_get_production_bodies g symbol_idx).length).foldl
            (fun closure production_idx =>
              lookaheads.terminals.foldl
                (fun closure lookahead =>
                  set_add metaitem_equals closure ⟨symbol_idx, production_idx, 0, lookahead⟩)
                closure)
            closure

/-- One pass of the `for` loop of `srnglr_closure` over the growing closure. -/
def srnglr_closure_pass (g : Grammar) (firsts : List fset) (bound : Nat)
    (closure : List metaitem) : List metaitem :=
  scan_growing List.length (srnglr_closure_step g firsts) bound 0 closure

/-- All symbols that occur in a body of the production store. -/
def body_symbols (g : Grammar) : List Nat :=
  g.productions.flatMap (fun e => e.2.flatMap id)

/-- All terminals that occur in an entry of a table of first sets. -/
def first_terminals (firsts : List fset) : List Nat :=
  firsts.flatMap (fun s => s.terminals)

/-- The items `srnglr_closure` can add: position 0, the head a symbol of some body, a
production of that head, the lookahead a terminal of some first set. -/
def closure_candidates (g : Grammar) (firsts : List fset) : List metaitem :=
  (body_symbols g).flatMap (fun symbol_idx =>
    (List.range (metaparser_get_production_bodies g symbol_idx).length).flatMap
      (fun production_idx =>
        (first_terminals firsts).map (fun lookahead =>
          (⟨symbol_idx, production_idx, 0, lookahead⟩ : metaitem))))

/-- A bound on the number of items of a closure of `kernel`, hence on the iterations of its loops. -/
def closure_bound (g : Grammar) (firsts : List fset) (kernel : List metaitem) : Nat :=
  kernel.length + (closure_candidates g firsts).length + 2

/-- `srnglr_closure` (srnglr.c:308): the closure of a kernel, given the table of first sets. -/
def srnglr_closure (g : Grammar) (firsts : List fset) (kernel : List metaitem) : List metaitem :=
  loop_until_stable List.length
    (srnglr_closure_pass g firsts (closure_bound g firsts kernel))
    (closure_bound g firsts kernel) kernel


/-- The items that one step of `srnglr_closure` adds for `item`: for an item whose next symbol is
a nonterminal, one item for every production of that nonterminal and every terminal of the first
set of the rest of the body followed by the lookahead. -/
def closure_derived (g : Grammar) (firsts : List fset) (item : metaitem) : List metaitem :=
  match metaparser_get_production_body g item.head_idx item.production_idx with
  | none => []
  | some item_body =>
    match item_body[item.position]? with
    | none => []
    | some symbol_idx =>
      if metaparser_is_symbol_terminal g symbol_idx then []
      else
        (List.range (metaparser_get_production_bodies g symbol_idx).length).flatMap
          (fun production_idx =>
            (srnglr_first_of_string firsts
              { v := item_body, start := item.position + 1, stop := item_body.length,
                lookahead := some item.lookahead_idx }).terminals.map
              (fun lookahead => (⟨symbol_idx, production_idx, 0, lookahead⟩ : metaitem)))

/-- An itemset is closed when it contains what a closure step derives from each of its items. -/
def closed_under (g : Grammar) (firsts : List fset) (c : List metaitem) : Prop :=
  ∀ item ∈ c, ∀ y ∈ closure_derived g firsts item, y ∈ c

/-! ## The table of first sets -/

/-- `srnglr_count_firsts_size` (srnglr.c:215): the total number of elements of all first sets,
the nullable flag counted as one element. -/
def srnglr_count_firsts_size (firsts : List fset) : Nat :=
  firsts.foldl (fun count s => count + (s.terminals.length + (if s.nullable then 1 else 0))) 0

/-- The first loops of `srnglr_compute_symbol_firsts` (srnglr.c:157-171): an empty first set for
every symbol, then the first set of every terminal is the terminal itself. -/
def srnglr_firsts_init (g : Grammar) : List fset :=
  (List.range g.symbols.length).foldl
    (fun firsts symbol_idx =>
      if metaparser_is_symbol_terminal g symbol_idx then
        firsts.set symbol_idx
          { fset_add (first_of_symbol firsts symbol_idx) symbol_idx with nullable := false }
      else firsts)
    (List.replicate g.symbols.length new_fset)

/-- The loop over the elements of one body (srnglr.c:192-198): merge the first set of each element
into the first set of the head, nullable flag included, and stop after an element that is not
nullable. -/
def srnglr_firsts_body (symbol_idx : Nat) : List Nat → List fset → List fset
  | [], firsts => firsts
  | body_symbol_idx :: rest, firsts =>
    let firsts := firsts.set symbol_idx
      (fset_union_into (first_of_symbol firsts symbol_idx)
        (first_of_symbol firsts body_symbol_idx) true)
    if (first_of_symbol firsts body_symbol_idx).nullable = false then firsts
    else srnglr_firsts_body symbol_idx rest firsts

/-- The body of the loop over the productions of a head (srnglr.c:189-204). -/
def srnglr_firsts_production (symbol_idx : Nat) (firsts : List fset) (body : List Nat) :
    List fset :=
  let firsts := srnglr_firsts_body symbol_idx body firsts
  if body.length = 0 then
    firsts.set symbol_idx { first_of_symbol firsts symbol_idx with nullable := true }
  else firsts

/-- One pass over all nonterminals and their productions (srnglr.c:181-206). -/
def srnglr_firsts_pass (g : Grammar) (firsts : List fset) : List fset :=
  (List.range g.symbols.length).foldl
    (fun firsts symbol_idx =>
      if metaparser_is_symbol_terminal g symbol_idx then firsts
      else
        (metaparser_get_production_bodies g symbol_idx).foldl
          (srnglr_firsts_production symbol_idx) firsts)
    firsts

/-- The loop `do { count = size; pass } while (count < size)` of `srnglr_compute_symbol_firsts`;
its first argument bounds the number of passes. -/
def srnglr_firsts_loop (g : Grammar) : Nat → List fset → List fset
  | 0, firsts => firsts
  | fuel + 1, firsts =>
    let count := srnglr_count_firsts_size firsts
    let firsts := srnglr_firsts_pass g firsts
    if count < srnglr_count_firsts_size firsts then srnglr_firsts_loop g fuel firsts
    else firsts

/-- A bound on the number of passes of the first-set loop: every set holds at most every symbol
and the flag, and every pass but the last adds an element. -/
def firsts_bound (g : Grammar) : Nat :=
  g.symbols.length * (g.symbols.length + 1) + 1

/-- `srnglr_compute_symbol_firsts` (srnglr.c:152): the table `srnglr_symbol_firsts`. The grammar
is taken after `metaparser_get_endmarker_symbol_idx` has entered the endmarker into the symbol
table. -/
def srnglr_compute_symbol_firsts (g : Grammar) : List fset :=
  srnglr_firsts_loop g (firsts_bound g) (srnglr_firsts_init g)

/-! ## Goto -/

/-- The body of the loop of `srnglr_goto` (srnglr.c:385-397) for one item. An item whose
position is not below the size of its body has no next symbol and is skipped. -/
def srnglr_goto_step (g : Grammar) (symbol_idx : Nat) (gotoset : List metaitem)
    (item : metaitem) : List metaitem :=
  match metaparser_get_production_body g item.head_idx item.production_idx with
  | none => gotoset
  | some item_body =>
    match item_body[item.position]? with
    | none => gotoset
    | some next_symbol_idx =>
      if next_symbol_idx = symbol_idx then
        set_add metaitem_equals gotoset
          ⟨item.head_idx, item.production_idx, item.position + 1, item.lookahead_idx⟩
      else gotoset

/-- The loop of `srnglr_goto` (srnglr.c:381-398): the kernel of the goto set. -/
def srnglr_goto_kernel (g : Grammar) (itemset : List metaitem) (symbol_idx : Nat) :
    List metaitem :=
  itemset.foldl (srnglr_goto_step g symbol_idx) []

/-- `srnglr_goto` (srnglr.c:379). -/
def srnglr_goto (g : Grammar) (firsts : List fset) (itemset : List metaitem) (symbol_idx : Nat) :
    List metaitem :=
  srnglr_closure g firsts (srnglr_goto_kernel g itemset symbol_idx)

/-! ## The parse table -/

/-- Modelled from the spec: an action of the parse table. -/
inductive action where
  | Push (state_idx : Nat)
  | Reduce (head_idx : Nat) (length : Nat)
  | Accept
deriving DecidableEq, Repr

/-- Equality of two actions as `obj_equals` sees it. -/
def action_equals (a b : action) : Bool := decide (a = b)

/-- Modelled from the spec: the key of a table cell. -/
structure gotokey where
  state_idx : Nat
  symbol_idx : Nat
deriving DecidableEq, Repr

/-- `srnglr_get_table_actions` (srnglr.c:522): the action set of a cell; a cell without an entry
gets an empty set first. Returns the table and the set. -/
def srnglr_get_table_actions (table : List (gotokey × List action)) (state_idx symbol_idx : Nat) :
    List (gotokey × List action) × List action :=
  match dict_get table ⟨state_idx, symbol_idx⟩ with
  | some actions => (table, actions)
  | none => (dict_set table ⟨state_idx, symbol_idx⟩ [], [])

/-- The content of a cell of the table as a reader sees it; a cell without an entry is empty. -/
def table_cell (table : List (gotokey × List action)) (state_idx symbol_idx : Nat) : List action :=
  (dict_get table ⟨state_idx, symbol_idx⟩).getD []

/-- `srnglr_insert_push` (srnglr.c:546). The set of the cell is updated in place. -/
def srnglr_insert_push (table : List (gotokey × List action))
    (state_idx symbol_idx goto_idx : Nat) : List (gotokey × List action) :=
  let r := srnglr_get_table_actions table state_idx symbol_idx
  dict_set r.1 ⟨state_idx, symbol_idx⟩ (set_add action_equals r.2 (action.Push goto_idx))

/-- `srnglr_insert_reduction` (srnglr.c:559). -/
def srnglr_insert_reduction (table : List (gotokey × List action))
    (state_idx symbol_idx head_idx length : Nat) : List (gotokey × List action) :=
  let r := srnglr_get_table_actions table state_idx symbol_idx
  dict_set r.1 ⟨state_idx, symbol_idx⟩ (set_add action_equals r.2 (action.Reduce head_idx length))

/-- `srnglr_insert_accept` (srnglr.c:573). -/
def srnglr_insert_accept (table : List (gotokey × List action))
    (state_idx symbol_idx : Nat) : List (gotokey × List action) :=
  let r := srnglr_get_table_actions table state_idx symbol_idx
  dict_set r.1 ⟨state_idx, symbol_idx⟩ (set_add action_equals r.2 action.Accept)

/-! ## Generation of the itemsets and of the table -/

/-- The globals `srnglr_itemsets` and `srnglr_table` while the table is generated. -/
structure srnglr_state where
  itemsets : List (List metaitem)
  table : List (gotokey × List action)
deriving Repr

/-- The body of the loop over the symbols (srnglr.c:453-464) for one itemset and one symbol. -/
def srnglr_generate_symbol (g : Grammar) (firsts : List fset) (itemset_idx : Nat)
    (itemset : List metaitem) (st : srnglr_state) (symbol_idx : Nat) : srnglr_state :=
  let gotoset := srnglr_goto g firsts itemset symbol_idx
  if gotoset.length > 0 then
    let r := set_add_return_index set_equals st.itemsets gotoset
    { itemsets := r.1, table := srnglr_insert_push st.table itemset_idx symbol_idx r.2 }
  else st

/-- The body of the loop over the itemsets (srnglr.c:447-465) for the itemset `itemset_idx`. -/
def srnglr_generate_itemset (g : Grammar) (firsts : List fset) (st : srnglr_state)
    (itemset_idx : Nat) : srnglr_state :=
  match st.itemsets[itemset_idx]? with
  | none => st
  | some itemset =>
    (List.range g.symbols.length).foldl (srnglr_generate_symbol g firsts itemset_idx itemset) st

/-- One pass of the loop over the growing set of itemsets (srnglr.c:445-466). -/
def srnglr_generate_pass (g : Grammar) (firsts : List fset) (bound : Nat) (st : srnglr_state) :
    srnglr_state :=
  scan_growing (fun st => st.itemsets.length) (srnglr_generate_itemset g firsts) bound 0 st

/-- Modelled from the spec: `metaitem_is_accept`, the dot of the item is at the end of its body. -/
def metaitem_is_accept (g : Grammar) (item : metaitem) : Bool :=
  match metaparser_get_production_body g item.head_idx item.production_idx with
  | none => false
  | some body => decide (item.position = body.length)

/-- The body of the loop over the items of a state (srnglr.c:480-494). -/
def srnglr_generate_reduction (g : Grammar) (state_idx : Nat)
    (table : List (gotokey × List action)) (item : metaitem) : List (gotokey × List action) :=
  if metaitem_is_accept g item then
    if item.head_idx = g.start_idx then srnglr_insert_accept table state_idx item.lookahead_idx
    else srnglr_insert_reduction table state_idx item.lookahead_idx item.head_idx item.position
  else table

/-- The loop that inserts the reduce and accept actions (srnglr.c:473-496). -/
def srnglr_generate_reductions (g : Grammar) (itemsets : List (List metaitem))
    (table : List (gotokey × List action)) : List (gotokey × List action) :=
  (List.range itemsets.length).foldl
    (fun table state_idx =>
      match itemsets[state_idx]? with
      | none => table
      | some itemset => itemset.foldl (srnglr_generate_reduction g state_idx) table)
    table

/-- The item `[S' → ·S, $]` the generation starts from. -/
def start_item (g : Grammar) : metaitem := ⟨g.start_idx, 0, 0, g.endmarker_idx⟩

/-- The items that can occur in a generated state: the start item and the candidates of the
closure, with the dot at any position of their body. -/
def state_items (g : Grammar) (firsts : List fset) : List metaitem :=
  (start_item g :: closure_candidates g firsts).flatMap (fun x =>
    (List.range
      (((metaparser_get_production_body g x.head_idx x.production_idx).getD []).length + 1)).map
      (fun position => ({ x with position := position } : metaitem)))

/-- A bound on the number of generated states, hence on the iterations of the loops of the
generation: the states are different sets of items that can occur. -/
def generate_bound (g : Grammar) (firsts : List fset) : Nat :=
  2 ^ (state_items g firsts).length + 2

/-- The loop that generates the itemsets and the push actions (srnglr.c:440-470). -/
def srnglr_generate_gotos (g : Grammar) (firsts : List fset) (st : srnglr_state) : srnglr_state :=
  loop_until_stable (fun st => st.itemsets.length)
    (srnglr_generate_pass g firsts (generate_bound g firsts)) (generate_bound g firsts) st

/-- The globals of srnglr.c after the generation. -/
structure srnglr_globals where
  srnglr_itemsets : List (List metaitem)
  srnglr_table : List (gotokey × List action)
  srnglr_symbol_firsts : List fset
deriving Repr

/-- `srnglr_generate_grammar_itemsets` (srnglr.c:420), run on the fresh globals that
`initialize_srnglr` creates: the itemsets, the table and the table of first sets it leaves. -/
def srnglr_generate_grammar_itemsets (g : Grammar) : srnglr_globals :=
  let firsts := srnglr_compute_symbol_firsts g
  let kernel := set_add metaitem_equals [] (start_item g)
  let start_set := srnglr_closure g firsts kernel
  let itemsets := set_add set_equals [] start_set
  let st := srnglr_generate_gotos g firsts { itemsets := itemsets, table := [] }
  { srnglr_itemsets := st.itemsets,
    srnglr_table := srnglr_generate_reductions g st.itemsets st.table,
    srnglr_symbol_firsts := firsts }

/-! ## Example grammars -/

/-- The ambiguous grammar `S' → S`, `S → S + S | a`. Symbol indices: 0 is `S'`, 1 is `S`,
2 is `+`, 3 is `a`, 4 is the endmarker. -/
def grammar_sum : Grammar :=
  { symbols := [symbol.nonterminal [83, 39], symbol.nonterminal [83],
      symbol.terminal [urange.mk 43 43], symbol.terminal [urange.mk 97 97],
      symbol.terminal [urange.mk 2097152 2097152]]
    productions := [(0, [[1]]), (1, [[1, 2, 1], [3]])]
    start_idx := 0
    endmarker_idx := 4 }

/-- The grammar `S' → S`, `S → A B`, `A → a`, `B → ε`, with a nullable nonterminal. Symbol
indices: 0 is `S'`, 1 is `S`, 2 is `A`, 3 is `B`, 4 is `a`, 5 is the endmarker. -/
def grammar_nullable : Grammar :=
  { symbols := [symbol.nonterminal [83, 39], symbol.nonterminal [83], symbol.nonterminal [65],
      symbol.nonterminal [66], symbol.terminal [urange.mk 97 97],
      symbol.terminal [urange.mk 2097152 2097152]]
    productions := [(0, [[1]]), (1, [[2, 3]]), (2, [[4]]), (3, [[]])]
    start_idx := 0
    endmarker_idx := 5 }

/-! ## Invariants of the generation (used by the proofs) -/

/-- The invariant of the itemsets and of the table while the push actions are generated: every
state is a set of items that can occur, is not empty, no two states are equal, and every action
of the table is a push along a goto edge between two states. -/
structure generate_inv (g : Grammar) (firsts : List fset) (st : srnglr_state) : Prop where
  nodup : ∀ I ∈ st.itemsets, I.Nodup
  nonempty : ∀ I ∈ st.itemsets, I ≠ []
  items : ∀ I ∈ st.itemsets, ∀ x ∈ I, x ∈ state_items g firsts
  distinct : ∀ (j k : Nat) (Ij Ik : List metaitem), st.itemsets[j]? = some Ij →
    st.itemsets[k]? = some Ik → set_equals Ij Ik = true → j = k
  sound : ∀ (s X : Nat) (a : action), a ∈ table_cell st.table s X →
    ∃ (gidx : Nat) (Is Ig : List metaitem), a = action.Push gidx ∧ X < g.symbols.length ∧ st.itemsets[s]? = some Is ∧
      st.itemsets[gidx]? = some Ig ∧ srnglr_goto g firsts Is X ≠ [] ∧
      set_equals Ig (srnglr_goto g firsts Is X) = true

/-- The state `j` has been handled: each of its goto edges leads to a state and is in the table. -/
def generate_done (g : Grammar) (firsts : List fset) (st : srnglr_state) (j : Nat) : Prop :=
  ∀ Is, st.itemsets[j]? = some Is → ∀ X, X < g.symbols.length →
    srnglr_goto g firsts Is X ≠ [] →
    ∃ gidx Ig, st.itemsets[gidx]? = some Ig ∧
      set_equals Ig (srnglr_goto g firsts Is X) = true ∧
      action.Push gidx ∈ table_cell st.table j X

/-- The generation only appends states and only adds actions. -/
def generate_ext (st st' : srnglr_state) : Prop :=
  (∃ t, st'.itemsets = st.itemsets ++ t) ∧
    ∀ s X a, a ∈ table_cell st.table s X → a ∈ table_cell st'.table s X

/-- The action that the last loop of the generation records for an accepting item. -/
def reduction_action (g : Grammar) (item : metaitem) : action :=
  if item.head_idx = g.start_idx then action.Accept
  else action.Reduce item.head_idx item.position

/-- A table of first sets over `n` symbols is well formed: one set per symbol, every set without
duplicates and made of symbol indices. -/
def firsts_wf (n : Nat) (firsts : List fset) : Prop :=
  firsts.length = n ∧ ∀ s ∈ firsts, s.terminals.Nodup ∧ ∀ t ∈ s.terminals, t < n

/-! ## Well-formed items (used by the theorems) -/

/-- An item is well formed when its production exists and its position is in `[0, |body|]`. -/
def metaitem_wf (g : Grammar) (x : metaitem) : Prop :=
  ∃ body, metaparser_get_production_body g x.head_idx x.production_idx = some body ∧
    x.position ≤ body.length

/-- The grammar of scenario S1, `S' → S`, `S → a`. Symbol indices: 0 is `S'`, 1 is `S`,
2 is `a`, 3 is the endmarker. -/
def grammar_s1 : Grammar :=
  { symbols := [symbol.nonterminal [83, 39], symbol.nonterminal [83],
      symbol.terminal [urange.mk 97 97], symbol.terminal [urange.mk 2097152 2097152]]
    productions := [(0, [[1]]), (1, [[2]])]
    start_idx := 0
    endmarker_idx := 3 }

/-- Every element of every set of a table of first sets satisfies `P`. -/
def firsts_all (P : Nat → Prop) (firsts : List fset) : Prop :=
  ∀ s ∈ firsts, ∀ t ∈ s.terminals, P t

/-! ## parser.c: first sets, first of a string, follow sets

parser.c uses the same `fset` as srnglr.c, a set of terminal symbol indices with a flag; it calls
the flag `special` (ε in a first set, `$` in a follow set). The flag is the field `nullable` of
`fset`. -/

/-- The loop `do { count = size(s); s = pass(s); } while (count < size(s));`. The first argument
bounds the number of passes. -/
def do_while_grows {σ : Type} (size : σ → Nat) (pass : σ → σ) : Nat → σ → σ
  | 0, s => s
  | fuel + 1, s =>
    let count := size s
    let s := pass s
    if count < size s then do_while_grows size pass fuel s else s

/-- `parser_count_fsets_size` (parser.c:365): the total number of elements of all sets of a
table, the flag `special` counted as one element. -/
def parser_count_fsets_size (fsets : List fset) : Nat :=
  fsets.foldl (fun count s => count + (s.terminals.length + (if s.nullable then 1 else 0))) 0

/-- The first loops of `parser_compute_symbol_firsts` (parser.c:383-393): an empty first set for
every symbol, then the first set of every terminal is the terminal itself, `special` false. -/
def parser_firsts_init (g : Grammar) : List fset :=
  (List.range g.symbols.length).foldl
    (fun firsts symbol_idx =>
      if metaparser_is_symbol_terminal g symbol_idx then
        firsts.set symbol_idx
          { fset_add (first_of_symbol firsts symbol_idx) symbol_idx with nullable := false }
      else firsts)
    (List.replicate g.symbols.length new_fset)

/-- The loop over the elements of one body (parser.c:413-419): merge the first set of each
element into the first set of the head, flag included (`do_nullable` is `true`), and stop after
an element whose flag is not set. -/
def parser_firsts_body (symbol_idx : Nat) : List Nat → List fset → List fset
  | [], firsts => firsts
  | body_symbol_idx :: rest, firsts =>
    let firsts := firsts.set symbol_idx
      (fset_union_into (first_of_symbol firsts symbol_idx)
        (first_of_symbol firsts body_symbol_idx) true)
    if (first_of_symbol firsts body_symbol_idx).nullable = false then firsts
    else parser_firsts_body symbol_idx rest firsts

/-- The body of the loop over the productions of a head (parser.c:410-422). -/
def parser_firsts_production (symbol_idx : Nat) (firsts : List fset) (body : List Nat) :
    List fset :=
  let firsts := parser_firsts_body symbol_idx body firsts
  if body.length = 0 then
    firsts.set symbol_idx { first_of_symbol firsts symbol_idx with nullable := true }
  else firsts

/-- One pass over all nonterminals and their productions (parser.c:402-424). -/
def parser_firsts_pass (g : Grammar) (firsts : List fset) : List fset :=
  (List.range g.symbols.length).foldl
    (fun firsts symbol_idx =>
      if metaparser_is_symbol_terminal g symbol_idx then firsts
      else
        (metaparser_get_production_bodies g symbol_idx).foldl
          (parser_firsts_production symbol_idx) firsts)
    firsts

/-- `parser_compute_symbol_firsts` (parser.c:379): the table `parser_symbol_firsts`. -/
def parser_compute_symbol_firsts (g : Grammar) : List fset :=
  do_while_grows parser_count_fsets_size (parser_firsts_pass g) (firsts_bound g)
    (parser_firsts_init g)

/-- `parser_first_of_symbol` (parser.c:507). -/
def parser_first_of_symbol (firsts : List fset) (symbol_idx : Nat) : fset :=
  first_of_symbol firsts symbol_idx

/-- `parser_follow_of_symbol` (parser.c:567). -/
def parser_follow_of_symbol (follows : List fset) (symbol_idx : Nat) : fset :=
  first_of_symbol follows symbol_idx

/-- The loop of `parser_first_of_string` (parser.c:528-539), from index `i`, with `n` symbols of
the slice left. -/
def parser_first_of_string_loop (firsts : List fset) (string : slice) : Nat → Nat → fset → fset
  | 0, _, result => result
  | n + 1, i, result =>
    match slice_get string i with
    | none => result
    | some symbol_idx =>
      let first_i := first_of_symbol firsts symbol_idx
      let nullable := first_i.nullable
      let result := fset_union_into result first_i false
      let result :=
        if i = slice_size string - 1 ∧ nullable = true then { result with nullable := true }
        else result
      if nullable = false then result
      else parser_first_of_string_loop firsts string n (i + 1) result

/-- `parser_first_of_string` (parser.c:515): the first set of a string of symbols, given the
table `parser_symbol_firsts`. -/
def parser_first_of_string (firsts : List fset) (string : slice) : fset :=
  if slice_size string = 0 then { terminals := [], nullable := true }
  else parser_first_of_string_loop firsts string (slice_size string) 0 new_fset

/-- Modelled from the spec: `slice_equals`, two slices are equal when they denote the same
sequence of symbol indices, with the same lookahead. -/
def slice_equals (a b : slice) : Bool :=
  decide (a.stop - a.start = b.stop - b.start) &&
    (List.range (a.stop - a.start)).all
      (fun i => decide (a.v[a.start + i]? = b.v[b.start + i]?)) &&
    decide (a.lookahead = b.lookahead)

/-- Modelled from the spec: `dict_get` of the missing dictionary.c for keys that are compared
with `eq` (`obj_equals`). -/
def dict_get_by {κ ν : Type} (eq : κ → κ → Bool) : List (κ × ν) → κ → Option ν
  | [], _ => none
  | (k', v) :: rest, k => if eq k' k then some v else dict_get_by eq rest k

/-- Modelled from the spec: `dict_set` of the missing dictionary.c for keys that are compared
with `eq`: the value of a present key is replaced, an absent key is appended. -/
def dict_set_by {κ ν : Type} (eq : κ → κ → Bool) : List (κ × ν) → κ → ν → List (κ × ν)
  | [], k, v => [(k, v)]
  | (k', v') :: rest, k, v =>
    if eq k' k then (k', v) :: rest else (k', v') :: dict_set_by eq rest k v

/-- `parser_memo_first_of_string` (parser.c:548): the memoized first set of a string. Takes the
dictionary `parser_substring_firsts_dict` and returns the first set and the dictionary. -/
def parser_memo_first_of_string (firsts : List fset) (dict : List (slice × fset))
    (string : slice) : fset × List (slice × fset) :=
  match dict_get_by slice_equals dict string with
  | some result => (result, dict)
  | none =>
    let result_fset := parser_first_of_string firsts string
    (result_fset, dict_set_by slice_equals dict string result_fset)

/-- The states of the memo dictionary that calls of `parser_memo_first_of_string` reach from the
empty dictionary of `allocate_parser`. -/
inductive memo_reachable (firsts : List fset) : List (slice × fset) → Prop where
  | empty : memo_reachable firsts []
  | call (dict : List (slice × fset)) (string : slice) :
      memo_reachable firsts dict →
      memo_reachable firsts (parser_memo_first_of_string firsts dict string).2

/-- The body of the loop over the elements of a body (parser.c:471-487) for the element `i`:
the first set of the rest `β` of the body goes into the follow set of the element, without its
flag, and when `β` is nullable the follow set of the head goes there too, with its flag. -/
def parser_follows_element (firsts : List fset) (head_idx : Nat) (body : List Nat)
    (follows : List fset) (i : Nat) : List fset :=
  match body[i]? with
  | none => follows
  | some symbol_idx =>
    let beta : slice := { v := body, start := i + 1, stop := body.length, lookahead := none }
    let beta_first := parser_first_of_string firsts beta
    let nullable := beta_first.nullable
    let follows := follows.set symbol_idx
      (fset_union_into (first_of_symbol follows symbol_idx) beta_first false)
    if nullable = true then
      follows.set symbol_idx
        (fset_union_into (first_of_symbol follows symbol_idx)
          (first_of_symbol follows head_idx) true)
    else follows

/-- The loop over the elements of a body (parser.c:469-488). -/
def parser_follows_body (firsts : List fset) (head_idx : Nat) (follows : List fset)
    (body : List Nat) : List fset :=
  (List.range body.length).foldl (parser_follows_element firsts head_idx body) follows

/-- The body of the loop over the bodies of a head (parser.c:466-488): fetch the body
`body_idx` of the head and run the loop over its elements. -/
def parser_follows_body_at (g : Grammar) (firsts : List fset) (head_idx : Nat)
    (follows : List fset) (body_idx : Nat) : List fset :=
  match metaparser_get_production_body g head_idx body_idx with
  | none => follows
  | some body => parser_follows_body firsts head_idx follows body

/-- The body of the loop over the entries of the production store (parser.c:457-489): the loop
over the bodies of the head of the entry. -/
def parser_follows_entry (g : Grammar) (firsts : List fset) (follows : List fset)
    (entry : Nat × List (List Nat)) : List fset :=
  (List.range entry.2.length).foldl (parser_follows_body_at g firsts entry.1) follows

/-- One pass over the production store (parser.c:455-490). -/
def parser_follows_pass (g : Grammar) (firsts : List fset) (follows : List fset) : List fset :=
  g.productions.foldl (parser_follows_entry g firsts) follows

/-- The start of `parser_compute_symbol_follows` (parser.c:442-446): an empty follow set for
every symbol, and `$` (the flag) in the follow set of the start symbol. -/
def parser_follows_init (g : Grammar) : List fset :=
  (List.replicate g.symbols.length new_fset).set g.start_idx
    { first_of_symbol (List.replicate g.symbols.length new_fset) g.start_idx with
      nullable := true }

/-- `parser_compute_symbol_follows` (parser.c:431): the table `parser_symbol_follows`, given the
table `parser_symbol_firsts`. -/
def parser_compute_symbol_follows (g : Grammar) (firsts : List fset) : List fset :=
  do_while_grows parser_count_fsets_size (parser_follows_pass g firsts) (firsts_bound g)
    (parser_follows_init g)

/-- The grammar `S' → A`, `A → B c`, `B → ε`: the only body of `A` is a nullable symbol followed
by a terminal. Symbol indices: 0 is `S'`, 1 is `A`, 2 is `B`, 3 is `c`, 4 is the endmarker. -/
def grammar_nullable_prefix : Grammar :=
  { symbols := [symbol.nonterminal [83, 39], symbol.nonterminal [65], symbol.nonterminal [66],
      symbol.terminal [urange.mk 99 99], symbol.terminal [urange.mk 2097152 2097152]]
    productions := [(0, [[1]]), (1, [[2, 3]]), (2, [[]])]
    start_idx := 0
    endmarker_idx := 4 }

/-! ## The order in which the tables of first and follow sets grow (used by the theorems) -/

/-- The set `b` extends the set `a`: the terminals of `a` are the first terminals of `b`, and
the flag of `a` implies the flag of `b`. -/
def fset_le (a b : fset) : Prop :=
  a.terminals <+: b.terminals ∧ (a.nullable = true → b.nullable = true)

/-- The table `F'` extends the table `F`, entry by entry. -/
def firsts_le (F F' : List fset) : Prop :=
  F.length = F'.length ∧ ∀ i, fset_le (first_of_symbol F i) (first_of_symbol F' i)

/-- Every terminal of the first set of a nonterminal comes from a production of the nonterminal:
from the first set of an element of a body whose preceding elements all have the flag. -/
def firsts_sound (g : Grammar) (F : List fset) : Prop :=
  ∀ A, metaparser_is_symbol_terminal g A = false → ∀ t ∈ (first_of_symbol F A).terminals,
    ∃ body ∈ metaparser_get_production_bodies g A, ∃ i Y : Nat, body[i]? = some Y ∧
      (∀ j : Nat, j < i → ∀ Yj : Nat, body[j]? = some Yj →
        (first_of_symbol F Yj).nullable = true) ∧
      t ∈ (first_of_symbol F Y).terminals

/-- The rules of the follow sets hold in the table `F` at the occurrence `i` of the symbol `B` in
the body `body` of the head `A`: the terminals of the first set of the rest of the body are in
`follow(B)`, and when the flag of that first set is set, the terminals of `follow(A)` are in
`follow(B)` and the flag of `follow(A)` implies the flag of `follow(B)`. -/
def follows_closed_at (firsts F : List fset) (A : Nat) (body : List Nat) (i B : Nat) : Prop :=
  (∀ t ∈ (parser_first_of_string firsts ⟨body, i + 1, body.length, none⟩).terminals,
      t ∈ (first_of_symbol F B).terminals) ∧
    ((parser_first_of_string firsts ⟨body, i + 1, body.length, none⟩).nullable = true →
      (∀ t ∈ (first_of_symbol F A).terminals, t ∈ (first_of_symbol F B).terminals) ∧
        ((first_of_symbol F A).nullable = true → (first_of_symbol F B).nullable = true))

/-- Where the flags of a table of follow sets come from: a flag that is set belongs to the start
symbol, or to a symbol `B` of a body `αBβ` of a head `A` whose follow set has the flag, the flag
of the first set of `β` being set. -/
def follows_sound (g : Grammar) (firsts F : List fset) : Prop :=
  ∀ B, (first_of_symbol F B).nullable = true →
    B = g.start_idx ∨
      ∃ A : Nat, ∃ body ∈ metaparser_get_production_bodies g A, ∃ i : Nat, body[i]? = some B ∧
        (parser_first_of_string firsts ⟨body, i + 1, body.length, none⟩).nullable = true ∧
        (first_of_symbol F A).nullable = true

/-! ## ustring.h: code points -/

/-- `MAX_UNICODE_POINT` (ustring.h:9). -/
def MAX_UNICODE_POINT : Nat := 0x10FFFF

/-- `UNICODE_ENDMARKER_POINT` (ustring.h:10): the first invalid code point, the end of the
input. -/
def UNICODE_ENDMARKER_POINT : Nat := 0x200000

/-! ## parser.c: the clustered nonterminal parser -/

/-- Modelled from the spec: a `slot` of the missing slot.h, a dotted production
`{ head_idx, production_idx, dot }`. -/
structure slot where
  head_idx : Nat
  production_idx : Nat
  dot : Nat
deriving DecidableEq, Repr

/-- Modelled from the spec: `urange_contains_c` of the missing charset.c, the code point lies in
the inclusive range. -/
def urange_contains_c (r : urange) (c : Nat) : Bool :=
  decide (r.start ≤ c) && decide (c ≤ r.stop)

/-- Modelled from the spec: `charset_contains_c` of the missing charset.c, the code point lies in
one of the ranges of the charset. -/
def charset_contains_c (s : List urange) (c : Nat) : Bool :=
  s.any (fun r => urange_contains_c r c)

/-- Modelled from the spec: `fset_contains_c` of the missing fset.c, the code point `c` is in the
set: it lies in the charset of one of the terminals of the set. The flag `special` is a channel
of its own and plays no part. -/
def fset_contains_c (g : Grammar) (s : fset) (c : Nat) : Bool :=
  s.terminals.any
    (fun t =>
      match g.symbols[t]? with
      | some (symbol.terminal cs) => charset_contains_c cs c
      | _ => false)

/-- `parser_test_select` (parser.c:286). Takes the memo dictionary of the first sets of strings
and returns it with the answer. -/
def parser_test_select (g : Grammar) (firsts follows : List fset) (dict : List (slice × fset))
    (c head_idx : Nat) (string : slice) : Bool × List (slice × fset) :=
  let r := parser_memo_first_of_string firsts dict string
  let first := r.1
  if fset_contains_c g first c then (true, r.2)
  else if first.nullable then
    let follow := parser_follow_of_symbol follows head_idx
    if fset_contains_c g follow c then (true, r.2) else (false, r.2)
  else (false, r.2)

/-- The test of the spec, `TEST_SELECT(c, A, σ)`: `c ∈ first(σ)`, or `first(σ).special` and
`c ∈ follow(A)`, with `first(σ)` the first set of the string `σ`. -/
def TEST_SELECT (g : Grammar) (firsts follows : List fset) (c head_idx : Nat) (string : slice) :
    Prop :=
  fset_contains_c g (parser_first_of_string firsts string) c = true ∨
    ((parser_first_of_string firsts string).nullable = true ∧
      fset_contains_c g (parser_follow_of_symbol follows head_idx) c = true)

/-- The loop over the dot of `parser_generate_labels` (parser.c:127-135): for `dot` from 1 to
the size of the body, a slot is appended when the symbol before the dot is a nonterminal. -/
def parser_generate_labels_dots (g : Grammar) (head_idx body_idx : Nat) (body : List Nat)
    (labels : List slot) : List slot :=
  (List.range' 1 body.length).foldl
    (fun labels dot =>
      match body[dot - 1]? with
      | none => labels
      | some symbol_idx =>
        if metaparser_is_symbol_terminal g symbol_idx = false then
          labels ++ [{ head_idx := head_idx, production_idx := body_idx, dot := dot }]
        else labels)
    labels

/-- The body of the loop over the bodies of a head (parser.c:119-135): the slot with the dot at
0, then the slots after the nonterminals. A body that the production store does not return has
size 0. -/
def parser_generate_labels_body (g : Grammar) (head_idx : Nat) (labels : List slot)
    (body_idx : Nat) : List slot :=
  let labels := labels ++ [{ head_idx := head_idx, production_idx := body_idx, dot := 0 }]
  match metaparser_get_production_body g head_idx body_idx with
  | none => labels
  | some body => parser_generate_labels_dots g head_idx body_idx body labels

/-- The body of the loop over the entries of the production store (parser.c:111-136). -/
def parser_generate_labels_entry (g : Grammar) (labels : List slot)
    (entry : Nat × List (List Nat)) : List slot :=
  (List.range entry.2.length).foldl (parser_generate_labels_body g entry.1) labels

/-- `parser_generate_labels` (parser.c:105): the vector `parser_labels` after the call, given
the vector before. -/
def parser_generate_labels (g : Grammar) (labels : List slot) : List slot :=
  g.productions.foldl (parser_generate_labels_entry g) labels

/-- A node `(X, j)` of the call return forest (crf.h:15). -/
structure crf_cluster_node where
  head_idx : Nat
  j : Nat
deriving DecidableEq, Repr

/-- A node `(X ::= α•β, j)` of the call return forest (crf.h:21). -/
structure crf_label_node where
  label : slot
  j : Nat
deriving DecidableEq, Repr

/-- The call return forest (crf.h:27): the cluster nodes with the indices of their children, and
the label nodes. -/
structure crf where
  cluster_nodes : List (crf_cluster_node × List Nat)
  label_nodes : List crf_label_node
deriving DecidableEq, Repr

/-- Modelled from the spec: `new_crf` of the missing crf.c, the empty forest. -/
def new_crf : crf := { cluster_nodes := [], label_nodes := [] }

/-- Modelled from the spec: `crf_add_cluster_node` of the missing crf.c: the node is interned and
its index returned; a new node gets an empty set of children. -/
def crf_add_cluster_node (CRF : crf) (node : crf_cluster_node) : crf × Nat :=
  match set_find (fun a b => decide (a = b)) (CRF.cluster_nodes.map (fun e => e.1)) node with
  | some i => (CRF, i)
  | none =>
    ({ CRF with cluster_nodes := CRF.cluster_nodes ++ [(node, [])] }, CRF.cluster_nodes.length)

/-- An entry of the store `Y` of binary subtrees, as the comments of `parser_bsr_add` name them
(parser.c:351, 356): `(head_idx, production_idx, i, k, j)` for a whole body, `(s, i, k, j)` for
the slice `s` of a body before the dot; `i` is the left end, `k` the pivot, `j` the right end. -/
inductive bsr where
  | complete (head_idx production_idx i k j : Nat)
  | intermediate (s : slice) (i k j : Nat)
deriving DecidableEq, Repr

/-- The `parser_context` of one parse (parser.c:61): the input `I` of length `m` followed by
the endmarker, the current input index `cI` and cluster node `cU`, the forest `CRF`, the actions
`P`, the store `Y` of binary subtrees, the descriptors `R` to do and the descriptors `U` seen. -/
structure parser_context where
  I : List Nat
  m : Nat
  cI : Nat
  cU : Nat
  CRF : crf
  P : List (Nat × Nat × Nat)
  Y : List bsr
  R : List (slot × Nat × Nat)
  U : List (slot × Nat × Nat)
deriving DecidableEq, Repr

/-- `new_parser_context` (parser.c:61). -/
def new_parser_context (src : List Nat) (len : Nat) : parser_context :=
  { I := src, m := len, cI := 0, cU := 0, CRF := new_crf, P := [], Y := [], R := [], U := [] }

/-- The read `con->I[i]` of the input. The input ends with the endmarker. The code makes the read
without a check of the index; a read past the array is outside the C language, and the
definition gives the endmarker there. A theorem about a value that is read says that the index
is inside the array. -/
def parser_input (con : parser_context) (i : Nat) : Nat :=
  con.I.getD i UNICODE_ENDMARKER_POINT

/-- `parser_dsc_add` (parser.c:303). The body of the function in the source is comments only,
and the function is not given the context: the context is as it was. -/
def parser_dsc_add (con : parser_context) (_s : slot) (_k _j : Nat) : parser_context := con

/-- `parser_return` (parser.c:313). The body of the function in the source is comments only. -/
def parser_return (con : parser_context) (_head_idx _k _j : Nat) : parser_context := con

/-- `parser_call` (parser.c:327). The body of the function in the source is comments only. -/
def parser_call (con : parser_context) (_s : slot) (_i _j : Nat) : parser_context := con

/-- `parser_bsr_add` (parser.c:346): the body is fetched and the dot compared, but both branches
hold comments only, and the function is not given the context: the context is as it was. -/
def parser_bsr_add (g : Grammar) (con : parser_context) (s : slot) (_i _k _j : Nat) :
    parser_context :=
  match metaparser_get_production_body g s.head_idx s.production_idx with
  | none => con
  | some body =>
    if body.length = s.dot then con
    else if s.dot > 1 then con
    else con

/-- A call of one of the four functions whose bodies are still to be written, with the
arguments it was given. -/
inductive parser_call_record where
  | bsr_add (s : slot) (i k j : Nat)
  | call (s : slot) (i j : Nat)
  | rtn (head_idx k j : Nat)
  | dsc_add (s : slot) (k j : Nat)
deriving DecidableEq, Repr

/-- The state that the functions of the parser work on: the context of the parse, the memo
dictionary `parser_substring_firsts_dict`, and the record of the calls made so far to
`parser_bsr_add`, `parser_call`, `parser_return` and `parser_dsc_add`. -/
structure parser_run where
  con : parser_context
  dict : List (slice × fset)
  calls : List parser_call_record
deriving DecidableEq, Repr

/-- The guard `if (dot != 0) { if (!parser_test_select(I[cI], head, body[dot..])) return; }`
(parser.c:163-167, 176-180): the answer of the test (true when there is no test) and the memo
dictionary after it. -/
def parser_handle_label_guard (g : Grammar) (firsts follows : List fset) (label : slot)
    (body : List Nat) (dot : Nat) (run : parser_run) : Bool × List (slice × fset) :=
  if dot ≠ 0 then
    parser_test_select g firsts follows run.dict (parser_input run.con run.con.cI)
      label.head_idx { v := body, start := dot, stop := body.length, lookahead := none }
  else (true, run.dict)

/-- The loop `while (dot < vect_size(body))` of `parser_handle_label` (parser.c:160-172), over
the symbols of the body from the dot on. The first component is the dot after the loop, or
`none` when the function returned from inside the loop. -/
def parser_handle_label_walk (g : Grammar) (firsts follows : List fset) (label : slot)
    (body : List Nat) : List Nat → Nat → parser_run → Option Nat × parser_run
  | [], dot, run => (some dot, run)
  | symbol_idx :: rest, dot, run =>
    if metaparser_is_symbol_terminal g symbol_idx = false then (some dot, run)
    else
      let t := parser_handle_label_guard g firsts follows label body dot run
      if t.1 = false then (none, { run with dict := t.2 })
      else
        let con := parser_bsr_add g run.con label run.con.cU run.con.cI (run.con.cI + 1)
        parser_handle_label_walk g firsts follows label body rest (dot + 1)
          { con := { con with cI := con.cI + 1 }
            dict := t.2
            calls := run.calls ++
              [parser_call_record.bsr_add label run.con.cU run.con.cI (run.con.cI + 1)] }

/-- The step `if (dot < vect_size(body)) { ...; dot++; parser_call(...); }` of
`parser_handle_label` (parser.c:174-183). -/
def parser_handle_label_call (g : Grammar) (firsts follows : List fset) (label : slot)
    (body : List Nat) (dot : Nat) (run : parser_run) : Option Nat × parser_run :=
  if dot < body.length then
    let t := parser_handle_label_guard g firsts follows label body dot run
    if t.1 = false then (none, { run with dict := t.2 })
    else
      (some (dot + 1),
        { con := parser_call run.con label run.con.cU run.con.cI
          dict := t.2
          calls := run.calls ++ [parser_call_record.call label run.con.cU run.con.cI] })
  else (some dot, run)

/-- The end of `parser_handle_label` (parser.c:186-196). -/
def parser_handle_label_return (g : Grammar) (follows : List fset) (label : slot)
    (body : List Nat) (dot : Nat) (run : parser_run) : parser_run :=
  if label.dot = body.length ∨
      (dot = body.length ∧
        (match body[dot - 1]? with
          | some symbol_idx => metaparser_is_symbol_terminal g symbol_idx
          | none => false) = true) then
    let follow := parser_follow_of_symbol follows label.head_idx
    if fset_contains_c g follow (parser_input run.con run.con.cI) then
      { run with
        con := parser_return run.con label.head_idx run.con.cU run.con.cI
        calls := run.calls ++
          [parser_call_record.rtn label.head_idx run.con.cU run.con.cI] }
    else run
  else run

/-- The part of `parser_handle_label` before its last `if` (parser.c:154-184): the dot after
it, or `none` when the function returned from a guard. -/
def parser_handle_label_actions (g : Grammar) (firsts follows : List fset) (label : slot)
    (body : List Nat) (run : parser_run) : Option Nat × parser_run :=
  if label.dot = 0 ∧ body.length = 0 then (some label.dot, run)
  else
    match parser_handle_label_walk g firsts follows label body (body.drop label.dot) label.dot
        run with
    | (none, run) => (none, run)
    | (some dot, run) => parser_handle_label_call g firsts follows label body dot run

/-- `parser_handle_label` (parser.c:148). A label whose body the production store does not
return does nothing. -/
def parser_handle_label (g : Grammar) (firsts follows : List fset) (label : slot)
    (run : parser_run) : parser_run :=
  match metaparser_get_production_body g label.head_idx label.production_idx with
  | none => run
  | some body =>
    match parser_handle_label_actions g firsts follows label body run with
    | (none, run) => run
    | (some dot, run) => parser_handle_label_return g follows label body dot run

/-- What `parser_print_label` prints (parser.c:202), piece by piece: the label, the action of an
empty body, a guard `if (!parser_test_select(I[cI], head, slice)) goto L0`, a call of
`parser_bsr_add` or of `parser_call` with its slot, the test of the follow set with `rtn`, and
the final `goto L0`. -/
inductive parser_print where
  | label (s : slot)
  | epsilon
  | guard (head_idx : Nat) (s : slice)
  | bsr_add (s : slot)
  | call (s : slot)
  | rtn (head_idx : Nat)
  | goto_L0
deriving DecidableEq, Repr

/-- The loop `while (dot < vect_size(body))` of `parser_print_label` (parser.c:217-233). -/
def parser_print_label_walk (g : Grammar) (label : slot) (body : List Nat) :
    List Nat → Nat → List parser_print → Nat × List parser_print
  | [], dot, out => (dot, out)
  | symbol_idx :: rest, dot, out =>
    if metaparser_is_symbol_terminal g symbol_idx = false then (dot, out)
    else
      let out :=
        if dot ≠ 0 then
          out ++ [parser_print.guard label.head_idx
            { v := body, start := dot, stop := body.length, lookahead := none }]
        else out
      let dot := dot + 1
      parser_print_label_walk g label body rest dot
        (out ++ [parser_print.bsr_add
          { head_idx := label.head_idx, production_idx := label.production_idx, dot := dot }])

/-- The step `if (dot < vect_size(body))` of `parser_print_label` (parser.c:235-250). -/
def parser_print_label_call (label : slot) (body : List Nat) (dot : Nat)
    (out : List parser_print) : Nat × List parser_print :=
  if dot < body.length then
    let out :=
      if dot ≠ 0 then
        out ++ [parser_print.guard label.head_idx
          { v := body, start := dot, stop := body.length, lookahead := none }]
      else out
    let dot := dot + 1
    (dot, out ++ [parser_print.call
      { head_idx := label.head_idx, production_idx := label.production_idx, dot := dot }])
  else (dot, out)

/-- `parser_print_label` (parser.c:202): the pieces it prints, in order. A label whose body the
production store does not return prints the label only. -/
def parser_print_label (g : Grammar) (label : slot) : List parser_print :=
  match metaparser_get_production_body g label.head_idx label.production_idx with
  | none => [parser_print.label label]
  | some body =>
    let out := [parser_print.label label]
    let r : Nat × List parser_print :=
      if label.dot = 0 ∧ body.length = 0 then (label.dot, out ++ [parser_print.epsilon])
      else
        let w := parser_print_label_walk g label body (body.drop label.dot) label.dot out
        parser_print_label_call label body w.1 w.2
    let out :=
      if label.dot = body.length ∨
          (r.1 = body.length ∧
            (match body[r.1 - 1]? with
              | some symbol_idx => metaparser_is_symbol_terminal g symbol_idx
              | none => false) = true) then
        r.2 ++ [parser_print.rtn label.head_idx]
      else r.2
    out ++ [parser_print.goto_L0]

/-- Modelled from the spec: the table of the bodies of the missing metaparser.c. The production
store keeps every body once, in the order of the store, and the set of a head holds body
indices. -/
def metaparser_bodies (g : Grammar) : List (List Nat) :=
  (g.productions.flatMap (fun entry => entry.2)).foldl (set_add (fun a b => decide (a = b))) []

/-- Modelled from the spec: the element `set_get_at_index(bodies, production_idx)` of the set
`bodies` that `metaparser_get_production_bodies(head_idx)` returns, a body index: the index in
the table of bodies of the body that `metaparser_get_production_body(head_idx, production_idx)`
returns. -/
def metaparser_get_production_body_idx (g : Grammar) (head_idx production_idx : Nat) :
    Option Nat :=
  match metaparser_get_production_body g head_idx production_idx with
  | none => none
  | some body => set_find (fun a b => decide (a = b)) (metaparser_bodies g) body

/-- The body of the loop of `parser_nt_add` (parser.c:273-279). The index put into the slot is
the element of the set of bodies read at line 273; the body that is tested is fetched with the
loop index. -/
def parser_nt_add_body (g : Grammar) (firsts follows : List fset) (head_idx j : Nat)
    (run : parser_run) (body_idx : Nat) : parser_run :=
  match metaparser_get_production_body_idx g head_idx body_idx,
      metaparser_get_production_body g head_idx body_idx with
  | some production_idx, some body =>
    let t := parser_test_select g firsts follows run.dict (parser_input run.con j) head_idx
      { v := body, start := 0, stop := body.length, lookahead := none }
    if t.1 = true then
      { con := parser_dsc_add run.con
          { head_idx := head_idx, production_idx := production_idx, dot := 0 } j j
        dict := t.2
        calls := run.calls ++
          [parser_call_record.dsc_add
            { head_idx := head_idx, production_idx := production_idx, dot := 0 } j j] }
    else { run with dict := t.2 }
  | _, _ => run

/-- `parser_nt_add` (parser.c:268). -/
def parser_nt_add (g : Grammar) (firsts follows : List fset) (head_idx j : Nat)
    (run : parser_run) : parser_run :=
  (List.range (metaparser_get_production_bodies g head_idx).length).foldl
    (parser_nt_add_body g firsts follows head_idx j) run

/-- `parser_parse` (parser.c:94): the cluster node of the start symbol at 0 is added to the
forest, then `parser_nt_add(start_symbol_idx, 0, con)`. -/
def parser_parse (g : Grammar) (firsts follows : List fset) (run : parser_run) : parser_run :=
  let start_symbol_idx := g.start_idx
  let u0 : crf_cluster_node := { head_idx := start_symbol_idx, j := 0 }
  let r := crf_add_cluster_node run.con.CRF u0
  parser_nt_add g firsts follows start_symbol_idx 0
    { run with con := { run.con with CRF := r.1 } }

/-- The grammar `S → a` with `S` the start symbol. Symbol indices: 0 is `S`, 1 is `a`, 2 is the
endmarker. -/
def grammar_cnp_s1 : Grammar :=
  { symbols := [symbol.nonterminal [83], symbol.terminal [urange.mk 97 97],
      symbol.terminal [urange.mk 2097152 2097152]]
    productions := [(0, [[1]])]
    start_idx := 0
    endmarker_idx := 2 }

/-! ## The order of the visits of the first and follow passes (used by the theorems) -/

/-- The visits of one pass of `parser_compute_symbol_firsts`, in the order of the code: for
every nonterminal in the order of the symbol table, every body in the order of its set. -/
def parser_firsts_steps (g : Grammar) : List (Nat × List Nat) :=
  (List.range g.symbols.length).flatMap
    (fun symbol_idx =>
      if metaparser_is_symbol_terminal g symbol_idx then []
      else (metaparser_get_production_bodies g symbol_idx).map (fun body => (symbol_idx, body)))

/-- One pass of the first sets that makes the visits `steps`, in that order. -/
def parser_firsts_pass_along (steps : List (Nat × List Nat)) (firsts : List fset) : List fset :=
  steps.foldl (fun firsts s => parser_firsts_production s.1 firsts s.2) firsts

/-- The table of first sets computed like `parser_compute_symbol_firsts`, every pass making the
visits `steps` in that order. -/
def parser_compute_symbol_firsts_along (g : Grammar) (steps : List (Nat × List Nat)) :
    List fset :=
  do_while_grows parser_count_fsets_size (parser_firsts_pass_along steps) (firsts_bound g)
    (parser_firsts_init g)

/-- The visits of one pass of `parser_compute_symbol_follows`, in the order of the code: for
every entry of the production store, every body of its head, every element of the body. A visit
is the head, the body and the index of the element. -/
def parser_follows_steps (g : Grammar) : List (Nat × List Nat × Nat) :=
  g.productions.flatMap
    (fun entry =>
      (List.range entry.2.length).flatMap
        (fun body_idx =>
          match metaparser_get_production_body g entry.1 body_idx with
          | none => []
          | some body => (List.range body.length).map (fun i => (entry.1, body, i))))

/-- One pass of the follow sets that makes the visits `steps`, in that order. -/
def parser_follows_pass_along (firsts : List fset) (steps : List (Nat × List Nat × Nat))
    (follows : List fset) : List fset :=
  steps.foldl (fun follows s => parser_follows_element firsts s.1 s.2.1 follows s.2.2) follows

/-- The table of follow sets computed like `parser_compute_symbol_follows`, every pass making
the visits `steps` in that order. -/
def parser_compute_symbol_follows_along (g : Grammar) (firsts : List fset)
    (steps : List (Nat × List Nat × Nat)) : List fset :=
  do_while_grows parser_count_fsets_size (parser_follows_pass_along firsts steps)
    (firsts_bound g) (parser_follows_init g)

/-- The set `a` is inside the set `b`: every terminal of `a` is one of `b`, and the flag of `a`
implies the flag of `b`. -/
def fset_sub (a b : fset) : Prop :=
  (∀ t ∈ a.terminals, t ∈ b.terminals) ∧ (a.nullable = true → b.nullable = true)

/-- Every set of the table `F` is inside the set of the same symbol in `F'`. -/
def firsts_sub (F F' : List fset) : Prop :=
  F.length = F'.length ∧ ∀ i, fset_sub (first_of_symbol F i) (first_of_symbol F' i)

/-- The sets `a` and `b` are the same set: the same terminals and the same flag. -/
def fset_same (a b : fset) : Prop :=
  (∀ t, t ∈ a.terminals ↔ t ∈ b.terminals) ∧ a.nullable = b.nullable

/-- The number of terminals of the body that follow the dot one after the other, up to the
first nonterminal or the end of the body: the terminals that the loop of `parser_handle_label`
can shift from the dot. -/
def parser_terminal_run (g : Grammar) (body : List Nat) (dot : Nat) : Nat :=
  ((body.drop dot).takeWhile (fun symbol_idx => metaparser_is_symbol_terminal g symbol_idx)).length

/-- A read of the body in `parser_handle_label`: `vect_get(body, dot)` in the condition of the
loop (parser.c:162), or `vect_get(body, dot - 1)` in the last condition (parser.c:187), with the
value of `dot` at the read. -/
inductive parser_body_read where
  | at_dot (dot : Nat)
  | before_dot (dot : Nat)
deriving DecidableEq, Repr

/-- The reads `vect_get(body, dot)` of the loop of `parser_handle_label` (parser.c:160-172), in
order: one at the start of every iteration, the loop running as `parser_handle_label_walk`. -/
def parser_handle_label_walk_reads (g : Grammar) (firsts follows : List fset) (label : slot)
    (body : List Nat) : List Nat → Nat → parser_run → List parser_body_read
  | [], _, _ => []
  | symbol_idx :: rest, dot, run =>
    parser_body_read.at_dot dot ::
      (if metaparser_is_symbol_terminal g symbol_idx = false then []
        else
          let t := parser_handle_label_guard g firsts follows label body dot run
          if t.1 = false then []
          else
            let con := parser_bsr_add g run.con label run.con.cU run.con.cI (run.con.cI + 1)
            parser_handle_label_walk_reads g firsts follows label body rest (dot + 1)
              { con := { con with cI := con.cI + 1 }
                dict := t.2
                calls := run.calls ++
                  [parser_call_record.bsr_add label run.con.cU run.con.cI (run.con.cI + 1)] })

/-- The reads of the body that one run of `parser_handle_label` makes, in order: those of the
loop, then the read `vect_get(body, dot - 1)` of the last condition, which C evaluates only when
`label->dot == vect_size(body)` is false and `dot == vect_size(body)` is true. -/
def parser_handle_label_reads (g : Grammar) (firsts follows : List fset) (label : slot)
    (run : parser_run) : List parser_body_read :=
  match metaparser_get_production_body g label.head_idx label.production_idx with
  | none => []
  | some body =>
    (if label.dot = 0 ∧ body.length = 0 then []
      else parser_handle_label_walk_reads g firsts follows label body (body.drop label.dot)
        label.dot run) ++
      (match (parser_handle_label_actions g firsts follows label body run).1 with
        | none => []
        | some dot =>
          if label.dot = body.length then []
          else if dot = body.length then [parser_body_read.before_dot dot]
          else [])

/-- The action is a push (the tag test `action->type == Push`). -/
def action_is_push : action → Bool
  | action.Push _ => true
  | _ => false

/-- The productions of the grammar: the pairs of a head and the index of one of its bodies. -/
def grammar_productions (g : Grammar) : List (Nat × Nat) :=
  g.productions.flatMap (fun e => (List.range e.2.length).map (fun p => (e.1, p)))

/-- The terminal symbols of the grammar, by index. -/
def grammar_terminals (g : Grammar) : List Nat :=
  (List.range g.symbols.length).filter (metaparser_is_symbol_terminal g)

/-! ## charset.h: adding a range to a charset

charset.h declares `charset_add_range`, `charset_rectify`, `charset_sort` and `charset_reduce`;
their bodies are in charset.c, which is not among the sources. They are modelled on the
specification: `add_range(r)` rejects an inverted range, else inserts `r` and rectifies, that is
sorts the ranges by `start` and merges overlapping or adjacent ranges. A charset is the sequence
of its ranges. -/

/-- Modelled from the spec: `charset_sort` of the missing charset.c, the ranges sorted by
`start`. -/
def charset_sort (s : List urange) : List urange :=
  s.insertionSort (fun a b => a.start ≤ b.start)

/-- Modelled from the spec: the loop of `charset_reduce` over sorted ranges. `cur` is the range
being built; a next range that overlaps it or is adjacent to it is merged into it, any other
range closes it. -/
def charset_reduce_loop : urange → List urange → List urange
  | cur, [] => [cur]
  | cur, b :: rest =>
    if b.start ≤ cur.stop + 1 then charset_reduce_loop ⟨cur.start, max cur.stop b.stop⟩ rest
    else cur :: charset_reduce_loop b rest

/-- Modelled from the spec: `charset_reduce` of the missing charset.c, overlapping or adjacent
ranges of a sorted charset merged into coalesced ones. -/
def charset_reduce : List urange → List urange
  | [] => []
  | a :: rest => charset_reduce_loop a rest

/-- Modelled from the spec: `charset_rectify` of the missing charset.c, sort then reduce. -/
def charset_rectify (s : List urange) : List urange :=
  charset_reduce (charset_sort s)

/-- Modelled from the spec: `charset_add_range` of the missing charset.c. An inverted range is
rejected (`none`); any other range is inserted and the charset rectified. -/
def charset_add_range (s : List urange) (r : urange) : Option (List urange) :=
  if r.start > r.stop then none else some (charset_rectify (s ++ [r]))

/-- The canonical form of a charset: every range has `start ≤ stop`, and of any two ranges the
earlier one ends more than one code point before the later one starts, so the ranges are sorted
by `start`, do not overlap and are not adjacent. -/
def charset_canonical (s : List urange) : Prop :=
  (∀ r ∈ s, r.start ≤ r.stop) ∧ s.Pairwise (fun a b => a.stop + 1 < b.start)

instance (s : List urange) : Decidable (charset_canonical s) := by
  unfold charset_canonical
  infer_instance

/-! ## dewy0alpha/set.c: union and intersection of two sets

A set of dewy0alpha is a wrapper around a dict (set.c:12) and `set_union`, `set_intersect` walk
the table of that dict slot by slot. dict.c and obj.c of dewy0alpha are not among the sources: the
table is modelled as the sequence of its slots, an empty slot (`hash == 0` and `key == NULL`)
being `none`; objects are values, `obj_equals` is equality of values and the copy `obj_copy`
makes of a key is that value. The definitions are in the namespace `dewy0alpha`, apart from the
sets of the compiler above. -/

namespace dewy0alpha

/-- The `new_set` of set.c:32, a set around a new dict; no slot of its table is taken. -/
def new_set {α : Type} : List (Option α) := []

/-- The `set_size` of set.c:39. Modelled from the spec: `dict_size`, the number of slots that
hold a key. -/
def set_size {α : Type} (S : List (Option α)) : Nat :=
  (S.filter Option.isSome).length

/-- The `set_capacity` of set.c:44. Modelled from the spec: `dict_capacity`, the number of slots
of the table. -/
def set_capacity {α : Type} (S : List (Option α)) : Nat :=
  S.length

/-- The `set_contains` of set.c:54. Modelled from the spec: `dict_contains`, some slot holds a key
equal to the item. -/
def set_contains {α : Type} [DecidableEq α] (S : List (Option α)) (item : α) : Bool :=
  S.any (fun e => match e with
    | some key => decide (key = item)
    | none => false)

/-- The `set_add` of set.c:49, `dict_set(S->d, item, item)`. Modelled from the spec: `dict_set`
stores under a key that is present in the slot of that key, and takes a free slot for a key that
is not. -/
def set_add {α : Type} [DecidableEq α] (S : List (Option α)) (item : α) : List (Option α) :=
  if set_contains S item then S else S ++ [some item]

/-- The two loops of `set_union` (set.c:66): every key of a taken slot of `A` is added, then every
key of a taken slot of `B` that the union does not contain yet. -/
def set_union {α : Type} [DecidableEq α] (A B : List (Option α)) : List (Option α) :=
  let S := (List.range (set_capacity A)).foldl
    (fun S i =>
      match A[i]? with
      | some (some key) => set_add S key
      | _ => S)
    new_set
  (List.range (set_capacity B)).foldl
    (fun S i =>
      match B[i]? with
      | some (some key) => if !set_contains S key then set_add S key else S
      | _ => S)
    S

/-- The loop of `set_intersect` (set.c:95): every key of a taken slot of `A` that `B` contains is
added. -/
def set_intersect {α : Type} [DecidableEq α] (A B : List (Option α)) : List (Option α) :=
  (List.range (set_capacity A)).foldl
    (fun S i =>
      match A[i]? with
      | some (some key) => if set_contains B key then set_add S key else S
      | _ => S)
    new_set

end dewy0alpha

/-! ## object.c: copy, comparison and equality of objects

An object is a type tag and a pointer to its data (object.h:42). The four primitive types hold
a value: a `bool`, a `uint32_t`, an `int64_t`, a `uint64_t`. The data of the other types belong to
files that are not among the sources (strings, vectors, charsets, slots, sets and so on): they are
values of a type `δ`, and the functions of those files that object.c calls on them are
parameters. `NULL` is `none`. -/

/-- The enum `obj_type` (object.h:13). -/
inductive obj_type where
  | Boolean_t
  | Character_t
  | CharSet_t
  | Integer_t
  | UInteger_t
  | Pointer_t
  | String_t
  | UnicodeString_t
  | MetaToken_t
  | MetaAST_t
  | Slot_t
  | Slice_t
  | FSet_t
  | CRFClusterNode_t
  | CRFLabelNode_t
  | CRFActionHead_t
  | Descriptor_t
  | BSRHead_t
  | Vector_t
  | Dictionary_t
  | Set_t
deriving DecidableEq, Repr

/-- The value of an enumerator of `obj_type`. -/
def obj_type.val : obj_type → Nat
  | Boolean_t => 0
  | Character_t => 1
  | CharSet_t => 2
  | Integer_t => 3
  | UInteger_t => 4
  | Pointer_t => 5
  | String_t => 6
  | UnicodeString_t => 7
  | MetaToken_t => 8
  | MetaAST_t => 9
  | Slot_t => 10
  | Slice_t => 11
  | FSet_t => 12
  | CRFClusterNode_t => 13
  | CRFLabelNode_t => 14
  | CRFActionHead_t => 15
  | Descriptor_t => 16
  | BSRHead_t => 17
  | Vector_t => 18
  | Dictionary_t => 19
  | Set_t => 20

/-- An object (object.h:42): one of the four primitives with its value, or an object of another
type with its data pointer, which may be `NULL`. -/
inductive obj (δ : Type) where
  | Boolean (b : Bool)
  | Character (c : Nat)
  | Integer (i : Int)
  | UInteger (u : Nat)
  | other (type : obj_type) (data : Option δ)
deriving DecidableEq, Repr

/-- The field `type` of an object. -/
def obj.type {δ : Type} : obj δ → obj_type
  | Boolean _ => obj_type.Boolean_t
  | Character _ => obj_type.Character_t
  | Integer _ => obj_type.Integer_t
  | UInteger _ => obj_type.UInteger_t
  | other type _ => type

/-- The object is well formed: the value of a primitive is in the range of its C type
(`uint32_t`, `int64_t`, `uint64_t`), and an object with a data pointer has none of the four
primitive types. -/
def obj_wf {δ : Type} : obj δ → Prop
  | obj.Boolean _ => True
  | obj.Character c => c < 2 ^ 32
  | obj.Integer i => -(2 ^ 63) ≤ i ∧ i < 2 ^ 63
  | obj.UInteger u => u < 2 ^ 64
  | obj.other type _ =>
    type ≠ obj_type.Boolean_t ∧ type ≠ obj_type.Character_t ∧ type ≠ obj_type.Integer_t ∧
      type ≠ obj_type.UInteger_t

instance {δ : Type} (o : obj δ) : Decidable (obj_wf o) := by
  cases o <;> unfold obj_wf <;> infer_instance

/-- The value of an unsigned integer of `w` bits as the `int64_t` that `obj_compare` returns: a
value of less than 64 bits keeps its value, a value of 64 bits is read in two's complement. -/
def to_int64 (w : Nat) (u : Int) : Int :=
  if w < 64 then u else if u < 2 ^ 63 then u else u - 2 ^ 64

/-- The difference `l - r` in the arithmetic of `w` bits, wrapped around modulo `2 ^ w`, as the
`int64_t` returned. -/
def wrapping_sub (w : Nat) (l r : Int) : Int :=
  to_int64 w ((l - r) % 2 ^ w)

/-- `obj_compare` (object.c:292). `none` is the `exit(1)` of the default branch. The comparisons
of the types whose data are not primitives (`strcmp`, `ustring_cmp`, `vect_compare`, the
difference of two pointers) are the parameter `data_compare`. For two objects of different types
the result is `left->type - right->type`: the enumerators of `obj_type` are unsigned integers of
32 bits, so the difference wraps around modulo `2 ^ 32` before it is converted to `int64_t`. Two
objects of one type are both primitives or both not, when they are well formed (`obj_wf`); the
last case covers the pairs that are not. -/
def obj_compare {δ : Type} (data_compare : obj_type → Option δ → Option δ → Int) :
    Option (obj δ) → Option (obj δ) → Option Int
  | none, none => some 0
  | none, some _ => some (-1)
  | some _, none => some 1
  | some left, some right =>
    if left.type ≠ right.type then some (wrapping_sub 32 left.type.val right.type.val)
    else
      match left, right with
      | obj.Boolean l, obj.Boolean r => some ((if l then 1 else 0) - (if r then 1 else 0))
      | obj.Character l, obj.Character r => some (wrapping_sub 32 l r)
      | obj.Integer l, obj.Integer r => some (wrapping_sub 64 l r)
      | obj.UInteger l, obj.UInteger r => some (wrapping_sub 64 l r)
      | obj.other type l, obj.other _ r =>
        if type = obj_type.Pointer_t ∨ type = obj_type.String_t ∨
            type = obj_type.UnicodeString_t ∨ type = obj_type.Vector_t then
          some (data_compare type l r)
        else none
      | _, _ => none

/-- `obj_equals` (object.c:333). The equality functions of the types that have one (`set_equals`,
`charset_equals`, `slot_equals` and so on) are the parameter `data_equals`; every other type falls
back on `obj_compare(left, right) == 0`, and `none` is the `exit(1)` of `obj_compare`. -/
def obj_equals {δ : Type} (data_compare : obj_type → Option δ → Option δ → Int)
    (data_equals : obj_type → Option δ → Option δ → Bool) :
    Option (obj δ) → Option (obj δ) → Option Bool
  | none, none => some true
  | none, some _ => some false
  | some _, none => some false
  | some left, some right =>
    if left.type ≠ right.type then some false
    else
      match left, right with
      | obj.other type l, obj.other _ r =>
        if type = obj_type.Set_t ∨ type = obj_type.CharSet_t ∨ type = obj_type.Slot_t ∨
            type = obj_type.MetaAST_t ∨ type = obj_type.Slice_t ∨
            type = obj_type.CRFClusterNode_t ∨ type = obj_type.CRFLabelNode_t ∨
            type = obj_type.CRFActionHead_t ∨ type = obj_type.BSRHead_t ∨
            type = obj_type.Descriptor_t then
          some (data_equals type l r)
        else (obj_compare data_compare (some left) (some right)).map (fun v => decide (v = 0))
      | _, _ => (obj_compare data_compare (some left) (some right)).map (fun v => decide (v = 0))

/-- `obj_hash` (object.c:259). The hash functions of the types (`hash_bool`, `hash_uint`,
`slot_hash` and so on) are in files that are not among the sources: they are the parameter
`hash`. The default branch, which the types `MetaToken_t`, `FSet_t` and `Dictionary_t` reach, ends
the process with `exit(1)`: `none`. -/
def obj_hash {δ : Type} (hash : obj δ → Nat) : Option (obj δ) → Option Nat
  | none => some 0
  | some o =>
    if o.type = obj_type.MetaToken_t ∨ o.type = obj_type.FSet_t ∨
        o.type = obj_type.Dictionary_t then none
    else some (hash o)

/-- Modelled from the spec: `dict_get(refs, o)` of the missing dictionary.c on the dictionary
`refs` of `obj_copy`: the key is hashed with `obj_hash`, which may end the process (outer `none`),
and looked up. -/
def refs_dict_get {δ : Type} [DecidableEq δ] (hash : obj δ → Nat) (refs : List (obj δ × obj δ))
    (o : obj δ) : Option (Option (obj δ)) :=
  match obj_hash hash (some o) with
  | none => none
  | some _ => some (dict_get refs o)

/-- `obj_copy_with_refs` (object.c:113). `refs` maps the objects already copied to their copies;
the result is the copy and `refs` after the call, or `none` when the process is ended. The copy
functions of the types whose data are not primitives (`clone`, `ustring_clone`, `metatoken_copy`,
`vect_copy_with_refs` and so on) are the parameter `data_copy`. The default branch prints a
warning and leaves the data of the copy `NULL`. -/
def obj_copy_with_refs {δ : Type} [DecidableEq δ] (hash : obj δ → Nat)
    (data_copy : obj_type → Option δ → Option δ)
    (o : Option (obj δ)) (refs : List (obj δ × obj δ)) :
    Option (Option (obj δ) × List (obj δ × obj δ)) :=
  match o with
  | none => some (none, refs)
  | some o =>
    match refs_dict_get hash refs o with
    | none => none
    | some (some copy) => some (some copy, refs)
    | some none =>
      let copy : obj δ :=
        match o with
        | obj.Boolean b => obj.Boolean b
        | obj.Character c => obj.Character c
        | obj.Integer i => obj.Integer i
        | obj.UInteger u => obj.UInteger u
        | obj.other type data =>
          if type = obj_type.String_t ∨ type = obj_type.UnicodeString_t ∨
              type = obj_type.MetaToken_t ∨ type = obj_type.CRFClusterNode_t ∨
              type = obj_type.CRFLabelNode_t ∨ type = obj_type.CRFActionHead_t ∨
              type = obj_type.BSRHead_t ∨ type = obj_type.Vector_t then
            obj.other type (data_copy type data)
          else obj.other type none
      some (some copy, dict_set refs o copy)

/-- `obj_copy` (object.c:99): the copy with a new, empty `refs`, which is freed afterwards. `none`
when the process is ended. -/
def obj_copy {δ : Type} [DecidableEq δ] (hash : obj δ → Nat)
    (data_copy : obj_type → Option δ → Option δ)
    (o : Option (obj δ)) : Option (Option (obj δ)) :=
  (obj_copy_with_refs hash data_copy o []).map (fun r => r.1)

/-! ## dewy_compiler_compiler.c: the exit status of main

`main` calls functions of files that are not among the sources (`read_file`, `read_unicode_file`,
the `initialize_` and `release_` functions) and the two phases `run_compiler_compiler` and
`run_compiler`. The calls are recorded. A callee either returns to `main` or ends the process
itself with `exit(code)`, as the default branches of object.c do: the parameter `callee_exit`
gives, for each call, `none` when it returns and the exit code when it does not. -/

/-- The least relation that the rule of the first sets closes, with the flags of the table `F`:
the terminal `t` is derived for the terminal `t` itself, and for a nonterminal `A` of the symbol
table with a body `Y1…Yk` and an index `i` such that the flag of `first(Yj)` is set in `F` for
every `j < i` and `t` is derived for `Yi`. -/
inductive first_derives (g : Grammar) (F : List fset) (t : Nat) : Nat → Prop where
  | terminal : metaparser_is_symbol_terminal g t = true → first_derives g F t t
  | production (A : Nat) (body : List Nat) (i Y : Nat) :
      A < g.symbols.length →
      metaparser_is_symbol_terminal g A = false →
      body ∈ metaparser_get_production_bodies g A →
      body[i]? = some Y →
      (∀ j : Nat, j < i → ∀ Yj : Nat, body[j]? = some Yj →
        (first_of_symbol F Yj).nullable = true) →
      first_derives g F t Y →
      first_derives g F t A

/-- Every terminal of every entry of the table `F` is derived for the symbol of the entry. -/
def firsts_derivable (g : Grammar) (F : List fset) : Prop :=
  ∀ X, ∀ t ∈ (first_of_symbol F X).terminals, first_derives g F t X

/-- The table `T` is closed under the rule of the first sets, with the flags of the table `F`:
the entry of a terminal holds the terminal, and the entry of a nonterminal `A` of the symbol
table with a body `Y1…Yk` holds the terminals of the entry of `Yi` when the flag of `first(Yj)`
is set in `F` for every `j < i`. -/
def firsts_rule_closed (g : Grammar) (F T : List fset) : Prop :=
  (∀ a, metaparser_is_symbol_terminal g a = true → a ∈ (first_of_symbol T a).terminals) ∧
    ∀ A, A < g.symbols.length → metaparser_is_symbol_terminal g A = false →
      ∀ body ∈ metaparser_get_production_bodies g A, ∀ i Y : Nat, body[i]? = some Y →
        (∀ j : Nat, j < i → ∀ Yj : Nat, body[j]? = some Yj →
          (first_of_symbol F Yj).nullable = true) →
        ∀ t ∈ (first_of_symbol T Y).terminals, t ∈ (first_of_symbol T A).terminals

theorem set_find_eq_none {α : Type} (eq : α → α → Bool) (s : List α) (x : α) :
    set_find eq s x = none ↔ ∀ e ∈ s, eq e x = false := by
  induction s with
  | nil => simp [set_find]
  | cons e es ih =>
    by_cases h : eq e x = true
    · simp [set_find, h]
    · simp [set_find, h, ih]

theorem set_find_eq_some {α : Type} (eq : α → α → Bool) (s : List α) (x : α) (i : Nat)
    (h : set_find eq s x = some i) :
    (∃ e, s[i]? = some e ∧ eq e x = true) ∧
      ∀ j e, j < i → s[j]? = some e → eq e x = false := by
  induction s generalizing i with
  | nil => simp [set_find] at h
  | cons e es ih =>
    by_cases he : eq e x = true
    · simp [set_find, he] at h
      subst h
      exact ⟨⟨e, by simp, he⟩, fun j e' hj _ => absurd hj (Nat.not_lt_zero j)⟩
    · simp [set_find, he] at h
      obtain ⟨k, hk, rfl⟩ := h
      obtain ⟨⟨e', he', hx⟩, hmin⟩ := ih k hk
      refine ⟨⟨e', by simpa using he', hx⟩, ?_⟩
      intro j e'' hj hget
      cases j with
      | zero =>
        simp at hget
        subst hget
        simpa using he
      | succ j =>
        simp at hget
        exact hmin j e'' (by omega) hget

theorem set_add_decide {α : Type} [DecidableEq α] (s : List α) (x : α) :
    set_add (fun a b => decide (a = b)) s x = if x ∈ s then s else s ++ [x] := by
  unfold set_add set_add_return_index
  by_cases hx : x ∈ s
  · have : set_find (fun a b => decide (a = b)) s x ≠ none := by
      rw [Ne, set_find_eq_none]
      intro h
      have := h x hx
      simp at this
    cases hf : set_find (fun a b => decide (a = b)) s x with
    | none => exact absurd hf this
    | some i => simp [hx]
  · have : set_find (fun a b => decide (a = b)) s x = none := by
      rw [set_find_eq_none]
      intro e he
      simp
      rintro rfl
      exact hx he
    simp [this, hx]

theorem foldl_set_add_decide {α : Type} [DecidableEq α] (l : List α) (s : List α) :
    ∃ t, l.foldl (set_add (fun a b => decide (a = b))) s = s ++ t ∧ t.Nodup ∧
      (∀ y ∈ t, y ∈ l ∧ y ∉ s) ∧ (∀ y ∈ l, y ∈ s ++ t) := by
  induction l generalizing s with
  | nil => exact ⟨[], by simp⟩
  | cons x xs ih =>
    rw [List.foldl_cons, set_add_decide]
    by_cases hx : x ∈ s
    · obtain ⟨t, h1, h2, h3, h4⟩ := ih s
      refine ⟨t, by simpa [hx] using h1, h2, ?_, ?_⟩
      · intro y hy
        exact ⟨List.mem_cons_of_mem _ (h3 y hy).1, (h3 y hy).2⟩
      · intro y hy
        rcases List.mem_cons.1 hy with rfl | hy
        · exact List.mem_append_left _ hx
        · exact h4 y hy
    · obtain ⟨t, h1, h2, h3, h4⟩ := ih (s ++ [x])
      refine ⟨x :: t, by simpa [hx] using h1, ?_, ?_, ?_⟩
      · refine List.nodup_cons.2 ⟨?_, h2⟩
        intro hxt
        exact (h3 x hxt).2 (by simp)
      · intro y hy
        rcases List.mem_cons.1 hy with rfl | hy
        · exact ⟨by simp, hx⟩
        · refine ⟨List.mem_cons_of_mem _ (h3 y hy).1, ?_⟩
          intro hys
          exact (h3 y hy).2 (List.mem_append_left _ hys)
      · intro y hy
        rcases List.mem_cons.1 hy with rfl | hy
        · simp
        · have := h4 y hy
          simp only [List.mem_append, List.mem_singleton, List.mem_cons] at this ⊢
          tauto

theorem foldl_set_add_decide_of_subset {α : Type} [DecidableEq α] (l : List α) (s : List α)
    (h : ∀ y ∈ l, y ∈ s) : l.foldl (set_add (fun a b => decide (a = b))) s = s := by
  induction l with
  | nil => rfl
  | cons x xs ih =>
    rw [List.foldl_cons, set_add_decide, if_pos (h x (by simp))]
    exact ih (fun y hy => h y (List.mem_cons_of_mem _ hy))

/-- A scan over a growing state whose size stays below `B` runs to the end of the state when it
is given more than `B - i` iterations, and an invariant of its steps holds at the end. -/
theorem scan_growing_inv {σ : Type} (size : σ → Nat) (step : σ → Nat → σ)
    (Inv : σ → Nat → Prop) (B : Nat)
    (hstep : ∀ s i, Inv s i → i < size s → Inv (step s i) (i + 1))
    (hB : ∀ s i, Inv s i → size s ≤ B) :
    ∀ fuel i s, Inv s i → B < fuel + i →
      ∃ j, Inv (scan_growing size step fuel i s) j ∧ size (scan_growing size step fuel i s) ≤ j := by
  intro fuel
  induction fuel with
  | zero =>
    intro i s hI hf
    refine ⟨i, by simpa [scan_growing] using hI, ?_⟩
    have := hB s i hI
    simp only [scan_growing]
    omega
  | succ n ih =>
    intro i s hI hf
    by_cases hlt : i < size s
    · simp only [scan_growing, if_pos hlt]
      exact ih (i + 1) (step s i) (hstep s i hI hlt) (by omega)
    · simp only [scan_growing, if_neg hlt]
      exact ⟨i, hI, by omega⟩

theorem scan_growing_fixed {σ : Type} (size : σ → Nat) (step : σ → Nat → σ) (s : σ)
    (h : ∀ i, i < size s → step s i = s) : ∀ fuel i, scan_growing size step fuel i s = s := by
  intro fuel
  induction fuel with
  | zero => intro i; rfl
  | succ n ih =>
    intro i
    by_cases hlt : i < size s
    · simp only [scan_growing, if_pos hlt, h i hlt]
      exact ih (i + 1)
    · simp only [scan_growing, if_neg hlt]

/-! ## Closure -/

theorem foldl_foldl_eq_foldl_flatMap {α β γ δ : Type} (f : α → δ → α) (mk : β → γ → δ)
    (ps : List β) (bs : List γ) (c : α) :
    ps.foldl (fun c p => bs.foldl (fun c b => f c (mk p b)) c) c =
      (ps.flatMap (fun p => bs.map (fun b => mk p b))).foldl f c := by
  induction ps generalizing c with
  | nil => rfl
  | cons p ps ih =>
    simp only [List.foldl_cons, List.flatMap_cons, List.foldl_append, List.foldl_map]
    exact ih _

theorem srnglr_closure_step_eq (g : Grammar) (firsts : List fset) (cl : List metaitem) (i : Nat)
    (item : metaitem) (hi : cl[i]? = some item) :
    srnglr_closure_step g firsts cl i =
      (closure_derived g firsts item).foldl (set_add (fun a b => decide (a = b))) cl := by
  unfold srnglr_closure_step closure_derived
  simp only [hi]
  cases metaparser_get_production_body g item.head_idx item.production_idx with
  | none => rfl
  | some item_body =>
    simp only
    cases (item_body[item.position]?) with
    | none => rfl
    | some symbol_idx =>
      simp only
      by_cases ht : metaparser_is_symbol_terminal g symbol_idx = true
      · simp [ht]
      · simp only [ht, Bool.false_eq_true, if_false]
        exact foldl_foldl_eq_foldl_flatMap (set_add metaitem_equals)
          (fun p b => (⟨symbol_idx, p, 0, b⟩ : metaitem)) _ _ cl

theorem dict_get_mem {κ ν : Type} [DecidableEq κ] (d : List (κ × ν)) (k : κ) (v : ν)
    (h : dict_get d k = some v) : (k, v) ∈ d := by
  induction d with
  | nil => simp [dict_get] at h
  | cons e es ih =>
    obtain ⟨k', v'⟩ := e
    by_cases hk : k' = k
    · simp [dict_get, hk] at h
      simp [hk, h]
    · simp only [dict_get, hk, if_false] at h
      exact List.mem_cons_of_mem _ (ih h)

theorem body_mem_body_symbols (g : Grammar) (head_idx production_idx : Nat) (body : List Nat)
    (h : metaparser_get_production_body g head_idx production_idx = some body)
    (x : Nat) (hx : x ∈ body) : x ∈ body_symbols g := by
  unfold metaparser_get_production_body metaparser_get_production_bodies at h
  cases hl : dict_get g.productions head_idx with
  | none => simp [hl] at h
  | some bodies =>
    simp only [hl] at h
    have hk := dict_get_mem g.productions head_idx bodies hl
    have hb : body ∈ bodies := List.getElem?_mem h
    unfold body_symbols
    simp only [List.mem_flatMap, id]
    exact ⟨(head_idx, bodies), hk, body, hb, hx⟩

theorem first_of_symbol_terminals_subset (firsts : List fset) (x b : Nat)
    (h : b ∈ (first_of_symbol firsts x).terminals) : b ∈ first_terminals firsts := by
  unfold first_of_symbol at h
  unfold first_terminals
  rw [List.getD_eq_getElem?_getD] at h
  cases hx : firsts[x]? with
  | none => simp [hx, new_fset] at h
  | some s =>
    simp only [hx, Option.getD_some] at h
    exact List.mem_flatMap.2 ⟨s, List.getElem?_mem hx, h⟩

theorem fset_union_into_terminals (left right : fset) (d : Bool) (b : Nat) :
    b ∈ (fset_union_into left right d).terminals ↔ b ∈ left.terminals ∨ b ∈ right.terminals := by
  unfold fset_union_into
  obtain ⟨t, h1, _, h3, h4⟩ := foldl_set_add_decide right.terminals left.terminals
  simp only [h1, List.mem_append]
  constructor
  · rintro (h | h)
    · exact Or.inl h
    · exact Or.inr (h3 b h).1
  · rintro (h | h)
    · exact Or.inl h
    · exact List.mem_append.1 (h4 b h)

theorem first_of_string_loop_terminals_subset (firsts : List fset) (string : slice) (T : List Nat)
    (hT : ∀ x b, b ∈ (first_of_symbol firsts x).terminals → b ∈ T) :
    ∀ n i result, (∀ b ∈ result.terminals, b ∈ T) →
      ∀ b ∈ (srnglr_first_of_string_loop firsts string n i result).terminals, b ∈ T := by
  intro n
  induction n with
  | zero => intro i result h b hb; exact h b (by simpa [srnglr_first_of_string_loop] using hb)
  | succ n ih =>
    intro i result h b hb
    unfold srnglr_first_of_string_loop at hb
    cases hs : slice_get string i with
    | none =>
      simp only [hs] at hb
      exact h b hb
    | some x =>
      simp only [hs] at hb
      have hu : ∀ b ∈ (fset_union_into result (first_of_symbol firsts x) false).terminals,
          b ∈ T := by
        intro b hb
        rcases (fset_union_into_terminals _ _ _ b).1 hb with h' | h'
        · exact h b h'
        · exact hT x b h'
      split_ifs at hb with h1 h2 h2
      all_goals first
        | exact hu b hb
        | exact ih _ _ hu b hb
        | exact ih (i + 1) { terminals := _, nullable := true } hu b hb

theorem first_of_string_terminals_subset (firsts : List fset) (string : slice) (b : Nat)
    (h : b ∈ (srnglr_first_of_string firsts string).terminals) : b ∈ first_terminals firsts := by
  unfold srnglr_first_of_string at h
  split_ifs at h with h0
  · simp at h
  · exact first_of_string_loop_terminals_subset firsts string (first_terminals firsts)
      (first_of_symbol_terminals_subset firsts) _ _ _ (by simp [new_fset]) b h

theorem mem_closure_derived (g : Grammar) (firsts : List fset) (item y : metaitem) :
    y ∈ closure_derived g firsts item ↔
      ∃ body B p b, metaparser_get_production_body g item.head_idx item.production_idx = some body ∧
        body[item.position]? = some B ∧ metaparser_is_symbol_terminal g B = false ∧
        p < (metaparser_get_production_bodies g B).length ∧
        b ∈ (srnglr_first_of_string firsts
              { v := body, start := item.position + 1, stop := body.length,
                lookahead := some item.lookahead_idx }).terminals ∧
        y = ⟨B, p, 0, b⟩ := by
  unfold closure_derived
  cases hb : metaparser_get_production_body g item.head_idx item.production_idx with
  | none => simp
  | some body =>
    simp only
    cases hs : (body[item.position]?) with
    | none => simp [hs]
    | some B =>
      simp only
      by_cases ht : metaparser_is_symbol_terminal g B = true
      · simp only [ht, if_true, List.not_mem_nil, false_iff]
        rintro ⟨body', B', p, b, hbody', hB', hnt, _⟩
        cases hbody'
        rw [hs] at hB'
        cases hB'
        rw [ht] at hnt
        cases hnt
      · simp only [ht, Bool.false_eq_true, if_false, List.mem_flatMap, List.mem_range,
          List.mem_map]
        constructor
        · rintro ⟨p, hp, b, hb', rfl⟩
          exact ⟨body, B, p, b, rfl, hs, by simpa using ht, hp, hb', rfl⟩
        · rintro ⟨body', B', p, b, hbody', hB', _, hp, hb', rfl⟩
          cases hbody'
          rw [hs] at hB'
          cases hB'
          exact ⟨p, hp, b, hb', rfl⟩

theorem closure_derived_subset_candidates (g : Grammar) (firsts : List fset) (item y : metaitem)
    (h : y ∈ closure_derived g firsts item) : y ∈ closure_candidates g firsts := by
  obtain ⟨body, B, p, b, hbody, hB, _, hp, hb, rfl⟩ := (mem_closure_derived g firsts item y).1 h
  unfold closure_candidates
  simp only [List.mem_flatMap, List.mem_range, List.mem_map]
  exact ⟨B, body_mem_body_symbols g _ _ body hbody B (List.getElem?_mem hB), p, hp, b,
    first_of_string_terminals_subset firsts _ b hb, rfl⟩

/-- What a pass of the closure loop started on `c0` with enough iterations produces: `c0` followed
by new, pairwise different candidates, and a closed set. -/
theorem srnglr_closure_pass_spec (g : Grammar) (firsts : List fset) (c0 : List metaitem)
    (fuel : Nat) (hf : c0.length + (closure_candidates g firsts).length < fuel) :
    (∃ added, srnglr_closure_pass g firsts fuel c0 = c0 ++ added ∧ added.Nodup ∧
        (∀ y ∈ added, y ∈ closure_candidates g firsts ∧ y ∉ c0)) ∧
      closed_under g firsts (srnglr_closure_pass g firsts fuel c0) := by
  have key := scan_growing_inv List.length (srnglr_closure_step g firsts)
    (fun cl i => (∃ added, cl = c0 ++ added ∧ added.Nodup ∧
        (∀ y ∈ added, y ∈ closure_candidates g firsts ∧ y ∉ c0)) ∧
      ∀ j, j < i → ∀ item, cl[j]? = some item → ∀ y ∈ closure_derived g firsts item, y ∈ cl)
    (c0.length + (closure_candidates g firsts).length) ?_ ?_ fuel 0 c0 ?_ (by omega)
  · obtain ⟨j, ⟨hadd, hcl⟩, hj⟩ := key
    refine ⟨hadd, ?_⟩
    intro item hitem y hy
    obtain ⟨k, hk⟩ := List.mem_iff_getElem?.1 hitem
    have hklt : k < (srnglr_closure_pass g firsts fuel c0).length := by
      rcases List.getElem?_eq_some.1 hk with ⟨h, _⟩
      exact h
    exact hcl k (Nat.lt_of_lt_of_le hklt hj) item hk y hy
  · rintro cl i ⟨⟨added, rfl, hnd, hsub⟩, hcl⟩ hi
    obtain ⟨item, hitem⟩ : ∃ item, (c0 ++ added)[i]? = some item :=
      ⟨(c0 ++ added)[i], List.getElem?_eq_getElem hi⟩
    rw [srnglr_closure_step_eq g firsts _ i item hitem]
    obtain ⟨t, h1, h2, h3, h4⟩ := foldl_set_add_decide (closure_derived g firsts item) (c0 ++ added)
    rw [h1]
    refine ⟨⟨added ++ t, by simp, ?_, ?_⟩, ?_⟩
    · refine List.Nodup.append hnd h2 ?_
      intro y hya hyt
      exact (h3 y hyt).2 (List.mem_append_right _ hya)
    · intro y hy
      rcases List.mem_append.1 hy with hy | hy
      · exact hsub y hy
      · exact ⟨closure_derived_subset_candidates g firsts item y (h3 y hy).1,
          fun hc => (h3 y hy).2 (List.mem_append_left _ hc)⟩
    · intro j hj item' hitem' y hy
      have hjlt : j < (c0 ++ added).length := by omega
      rw [List.getElem?_append_left hjlt] at hitem'
      rcases Nat.lt_succ_iff_lt_or_eq.1 hj with hj' | rfl
      · exact List.mem_append_left _ (hcl j hj' item' hitem' y hy)
      · rw [hitem] at hitem'
        cases hitem'
        exact h4 y hy
  · rintro cl i ⟨⟨added, rfl, hnd, hsub⟩, _⟩
    have : added.length ≤ (closure_candidates g firsts).length :=
      (List.Nodup.subperm hnd (fun y hy => (hsub y hy).1)).length_le
    simp only [List.length_append]
    omega
  · exact ⟨⟨[], by simp⟩, fun j hj => absurd hj (Nat.not_lt_zero j)⟩

theorem srnglr_closure_pass_closed (g : Grammar) (firsts : List fset) (cl : List metaitem)
    (h : closed_under g firsts cl) (fuel : Nat) : srnglr_closure_pass g firsts fuel cl = cl := by
  unfold srnglr_closure_pass
  apply scan_growing_fixed
  intro i hi
  have hitem : cl[i]? = some cl[i] := List.getElem?_eq_getElem hi
  rw [srnglr_closure_step_eq g firsts cl i _ hitem]
  exact foldl_set_add_decide_of_subset _ _ (h _ (List.getElem_mem hi))

/-- The closure is computed by the first pass of the loop: the second pass finds nothing to add
and the loop leaves through its `break`. -/
theorem srnglr_closure_eq_pass (g : Grammar) (firsts : List fset) (kernel : List metaitem) :
    srnglr_closure g firsts kernel =
      srnglr_closure_pass g firsts (closure_bound g firsts kernel) kernel := by
  have hspec := srnglr_closure_pass_spec g firsts kernel (closure_bound g firsts kernel)
    (by unfold closure_bound; omega)
  have hfix := srnglr_closure_pass_closed g firsts _ hspec.2 (closure_bound g firsts kernel)
  unfold srnglr_closure
  have hb : closure_bound g firsts kernel =
      (kernel.length + (closure_candidates g firsts).length) + 1 + 1 := rfl
  generalize hP : srnglr_closure_pass g firsts (closure_bound g firsts kernel) = P at *
  rw [hb]
  simp only [loop_until_stable]
  split_ifs with h1 h2
  · rfl
  · exact hfix
  · exact absurd (by rw [hfix]) h2

theorem srnglr_closure_spec (g : Grammar) (firsts : List fset) (kernel : List metaitem) :
    (∃ added, srnglr_closure g firsts kernel = kernel ++ added ∧ added.Nodup ∧
        (∀ y ∈ added, y ∈ closure_candidates g firsts ∧ y ∉ kernel)) ∧
      closed_under g firsts (srnglr_closure g firsts kernel) := by
  rw [srnglr_closure_eq_pass]
  exact srnglr_closure_pass_spec g firsts kernel _ (by unfold closure_bound; omega)

/-! ## Claims on the closure and on goto -/

/-- C1: for every grammar, table of first sets and kernel itemset `I`, the closure
`srnglr_closure I` contains `I` and is closed: for every item `[A → α·Bβ, a]` of it whose next
symbol `B` is a nonterminal, every production index `p` of `B` and every terminal `b` of
`srnglr_first_of_string(βa)`, the item `(B, p, 0, b)` is in it. -/
theorem srnglr_closure_contains_kernel_and_is_closed (g : Grammar) (firsts : List fset)
    (I : List metaitem) :
    (∀ x ∈ I, x ∈ srnglr_closure g firsts I) ∧
      ∀ item ∈ srnglr_closure g firsts I, ∀ (body : List Nat) (B p b : Nat),
        metaparser_get_production_body g item.head_idx item.production_idx = some body →
        body[item.position]? = some B →
        metaparser_is_symbol_terminal g B = false →
        p < (metaparser_get_production_bodies g B).length →
        b ∈ (srnglr_first_of_string firsts
              { v := body, start := item.position + 1, stop := body.length,
                lookahead := some item.lookahead_idx }).terminals →
        (⟨B, p, 0, b⟩ : metaitem) ∈ srnglr_closure g firsts I := by
  obtain ⟨⟨added, hadd, _, _⟩, hclosed⟩ := srnglr_closure_spec g firsts I
  refine ⟨fun x hx => by rw [hadd]; exact List.mem_append_left _ hx, ?_⟩
  intro item hitem body B p b hbody hB hnt hp hb
  exact hclosed item hitem _
    ((mem_closure_derived g firsts item _).2 ⟨body, B, p, b, hbody, hB, hnt, hp, hb, rfl⟩)

set_option maxRecDepth 100000 in
/-- C1 at the grammar `S → S + S | a`: the start item `[S' → ·S, $]` puts `[S → ·S+S, $]` into
the closure of the start kernel. -/
theorem srnglr_closure_contains_kernel_and_is_closed_witness :
    (⟨0, 0, 0, 4⟩ : metaitem) ∈
        srnglr_closure grammar_sum (srnglr_compute_symbol_firsts grammar_sum) [⟨0, 0, 0, 4⟩] ∧
      metaparser_get_production_body grammar_sum 0 0 = some [1] ∧
      [1][0]? = some 1 ∧
      metaparser_is_symbol_terminal grammar_sum 1 = false ∧
      0 < (metaparser_get_production_bodies grammar_sum 1).length ∧
      4 ∈ (srnglr_first_of_string (srnglr_compute_symbol_firsts grammar_sum)
            { v := [1], start := 1, stop := 1, lookahead := some 4 }).terminals ∧
      (⟨1, 0, 0, 4⟩ : metaitem) ∈
        srnglr_closure grammar_sum (srnglr_compute_symbol_firsts grammar_sum) [⟨0, 0, 0, 4⟩] :=
  have h1 : (⟨0, 0, 0, 4⟩ : metaitem) ∈
      srnglr_closure grammar_sum (srnglr_compute_symbol_firsts grammar_sum) [⟨0, 0, 0, 4⟩] := by
    decide!
  have h2 : metaparser_get_production_body grammar_sum 0 0 = some [1] := by decide!
  have h3 : [1][0]? = some 1 := by decide
  have h4 : metaparser_is_symbol_terminal grammar_sum 1 = false := by decide!
  have h5 : 0 < (metaparser_get_production_bodies grammar_sum 1).length := by decide!
  have h6 : 4 ∈ (srnglr_first_of_string (srnglr_compute_symbol_firsts grammar_sum)
      { v := [1], start := 1, stop := 1, lookahead := some 4 }).terminals := by decide!
  ⟨h1, h2, h3, h4, h5, h6,
    (srnglr_closure_contains_kernel_and_is_closed grammar_sum
      (srnglr_compute_symbol_firsts grammar_sum) [⟨0, 0, 0, 4⟩]).2 ⟨0, 0, 0, 4⟩ h1 [1] 1 0 4
      h2 h3 h4 h5 h6⟩

/-- C3: the closure is idempotent: the closure of a closure is the same sequence of items, hence
the same set of items. -/
theorem srnglr_closure_idempotent (g : Grammar) (firsts : List fset) (I : List metaitem) :
    srnglr_closure g firsts (srnglr_closure g firsts I) = srnglr_closure g firsts I ∧
      set_equals (srnglr_closure g firsts (srnglr_closure g firsts I))
        (srnglr_closure g firsts I) = true := by
  have h : srnglr_closure g firsts (srnglr_closure g firsts I) = srnglr_closure g firsts I := by
    rw [srnglr_closure_eq_pass g firsts (srnglr_closure g firsts I)]
    exact srnglr_closure_pass_closed g firsts _ (srnglr_closure_spec g firsts I).2 _
  refine ⟨h, ?_⟩
  rw [h]
  simp [set_equals]

theorem srnglr_goto_step_eq (g : Grammar) (symbol_idx : Nat) (acc : List metaitem)
    (item : metaitem) :
    srnglr_goto_step g symbol_idx acc item =
      if (∃ body, metaparser_get_production_body g item.head_idx item.production_idx = some body ∧
          item.position < body.length ∧ body[item.position]? = some symbol_idx) then
        (if (⟨item.head_idx, item.production_idx, item.position + 1, item.lookahead_idx⟩ :
            metaitem) ∈ acc then acc
          else acc ++ [⟨item.head_idx, item.production_idx, item.position + 1,
            item.lookahead_idx⟩])
      else acc := by
  unfold srnglr_goto_step
  cases hbody : metaparser_get_production_body g item.head_idx item.production_idx with
  | none => simp
  | some body =>
    cases hs : (body[item.position]?) with
    | none => simp [hs]
    | some next =>
      have hlt : item.position < body.length := (List.getElem?_eq_some.1 hs).1
      by_cases hn : next = symbol_idx
      · subst hn
        have hP : ∃ body', some body = some body' ∧
            item.position < body'.length ∧ body'[item.position]? = some next :=
          ⟨body, rfl, hlt, hs⟩
        simp only [hs, if_true, if_pos hP]
        exact set_add_decide acc _
      · have hP : ¬ ∃ body', some body = some body' ∧
            item.position < body'.length ∧ body'[item.position]? = some symbol_idx := by
          rintro ⟨body', hb', _, hs'⟩
          cases hb'
          rw [hs] at hs'
          cases hs'
          exact hn rfl
        simp only [hs, hn, if_false, if_neg hP]

theorem foldl_srnglr_goto_step_spec (g : Grammar) (symbol_idx : Nat) (l : List metaitem) :
    ∀ acc : List metaitem, acc.Nodup →
      (l.foldl (srnglr_goto_step g symbol_idx) acc).Nodup ∧
      ∀ y, y ∈ l.foldl (srnglr_goto_step g symbol_idx) acc ↔
        y ∈ acc ∨ ∃ item ∈ l, ∃ body,
          metaparser_get_production_body g item.head_idx item.production_idx = some body ∧
          item.position < body.length ∧ body[item.position]? = some symbol_idx ∧
          y = ⟨item.head_idx, item.production_idx, item.position + 1, item.lookahead_idx⟩ := by
  induction l with
  | nil => intro acc hacc; simp [hacc]
  | cons item rest ih =>
    intro acc hacc
    rw [List.foldl_cons, srnglr_goto_step_eq]
    by_cases hP : ∃ body,
        metaparser_get_production_body g item.head_idx item.production_idx = some body ∧
          item.position < body.length ∧ body[item.position]? = some symbol_idx
    · rw [if_pos hP]
      obtain ⟨body, hbody, hlt, hs⟩ := hP
      by_cases hmem : (⟨item.head_idx, item.production_idx, item.position + 1,
          item.lookahead_idx⟩ : metaitem) ∈ acc
      · rw [if_pos hmem]
        obtain ⟨h1, h2⟩ := ih acc hacc
        refine ⟨h1, fun y => ?_⟩
        rw [h2 y]
        constructor
        · rintro (h | ⟨it, hit, hrest⟩)
          · exact Or.inl h
          · exact Or.inr ⟨it, List.mem_cons_of_mem _ hit, hrest⟩
        · rintro (h | ⟨it, hit, b', hb', hlt', hs', rfl⟩)
          · exact Or.inl h
          · rcases List.mem_cons.1 hit with rfl | hit
            · exact Or.inl hmem
            · exact Or.inr ⟨it, hit, b', hb', hlt', hs', rfl⟩
      · rw [if_neg hmem]
        obtain ⟨h1, h2⟩ := ih (acc ++ [⟨item.head_idx, item.production_idx,
          item.position + 1, item.lookahead_idx⟩])
          (List.Nodup.append hacc (by simp) (by
            intro a ha ha'
            rw [List.mem_singleton] at ha'
            exact hmem (ha' ▸ ha)))
        refine ⟨h1, fun y => ?_⟩
        rw [h2 y]
        constructor
        · rintro (h | ⟨it, hit, hrest⟩)
          · rcases List.mem_append.1 h with h | h
            · exact Or.inl h
            · rw [List.mem_singleton] at h
              exact Or.inr ⟨item, by simp, body, hbody, hlt, hs, h⟩
          · exact Or.inr ⟨it, List.mem_cons_of_mem _ hit, hrest⟩
        · rintro (h | ⟨it, hit, b', hb', hlt', hs', rfl⟩)
          · exact Or.inl (List.mem_append_left _ h)
          · rcases List.mem_cons.1 hit with rfl | hit
            · exact Or.inl (List.mem_append_right _ (by simp))
            · exact Or.inr ⟨it, hit, b', hb', hlt', hs', rfl⟩
    · rw [if_neg hP]
      obtain ⟨h1, h2⟩ := ih acc hacc
      refine ⟨h1, fun y => ?_⟩
      rw [h2 y]
      constructor
      · rintro (h | ⟨it, hit, hrest⟩)
        · exact Or.inl h
        · exact Or.inr ⟨it, List.mem_cons_of_mem _ hit, hrest⟩
      · rintro (h | ⟨it, hit, b', hb', hlt', hs', rfl⟩)
        · exact Or.inl h
        · rcases List.mem_cons.1 hit with rfl | hit
          · exact absurd ⟨b', hb', hlt', hs'⟩ hP
          · exact Or.inr ⟨it, hit, b', hb', hlt', hs', rfl⟩

theorem srnglr_goto_kernel_spec (g : Grammar) (symbol_idx : Nat) (itemset : List metaitem) :
    (srnglr_goto_kernel g itemset symbol_idx).Nodup ∧
      ∀ y, y ∈ srnglr_goto_kernel g itemset symbol_idx ↔
        ∃ item ∈ itemset, ∃ body,
          metaparser_get_production_body g item.head_idx item.production_idx = some body ∧
          item.position < body.length ∧ body[item.position]? = some symbol_idx ∧
          y = ⟨item.head_idx, item.production_idx, item.position + 1, item.lookahead_idx⟩ := by
  obtain ⟨h1, h2⟩ := foldl_srnglr_goto_step_spec g symbol_idx itemset [] List.nodup_nil
  refine ⟨h1, fun y => ?_⟩
  unfold srnglr_goto_kernel
  rw [h2 y]
  simp

/-- C4: `srnglr_goto(I, X)` is the closure of the kernel `K` that holds exactly the items
`(h, p, pos + 1, a)` with `(h, p, pos, a)` in `I`, `pos < |body(h, p)|` and `body(h, p)[pos] = X`;
the kernel is a set (no item twice), and items with the dot at the end of their body, without a
body or with another next symbol contribute nothing to it. -/
theorem srnglr_goto_is_closure_of_advanced_items (g : Grammar) (firsts : List fset)
    (I : List metaitem) (X : Nat) :
    srnglr_goto g firsts I X = srnglr_closure g firsts (srnglr_goto_kernel g I X) ∧
      (srnglr_goto_kernel g I X).Nodup ∧
      ∀ y, y ∈ srnglr_goto_kernel g I X ↔
        ∃ item ∈ I, ∃ body,
          metaparser_get_production_body g item.head_idx item.production_idx = some body ∧
          item.position < body.length ∧ body[item.position]? = some X ∧
          y = ⟨item.head_idx, item.production_idx, item.position + 1, item.lookahead_idx⟩ :=
  ⟨rfl, srnglr_goto_kernel_spec g X I⟩

/-! ## First sets of the terminals -/

theorem srnglr_firsts_body_other (symbol_idx a : Nat) (h : a ≠ symbol_idx) (body : List Nat) :
    ∀ firsts : List fset, (srnglr_firsts_body symbol_idx body firsts)[a]? = firsts[a]? := by
  induction body with
  | nil => intro firsts; rfl
  | cons x rest ih =>
    intro firsts
    unfold srnglr_firsts_body
    simp only
    split_ifs
    · exact List.getElem?_set_ne (Ne.symm h)
    · rw [ih]
      exact List.getElem?_set_ne (Ne.symm h)

theorem srnglr_firsts_production_other (symbol_idx a : Nat) (h : a ≠ symbol_idx)
    (firsts : List fset) (body : List Nat) :
    (srnglr_firsts_production symbol_idx firsts body)[a]? = firsts[a]? := by
  unfold srnglr_firsts_production
  simp only
  split_ifs
  · rw [List.getElem?_set_ne (Ne.symm h)]
    exact srnglr_firsts_body_other symbol_idx a h body firsts
  · exact srnglr_firsts_body_other symbol_idx a h body firsts

theorem foldl_srnglr_firsts_production_other (symbol_idx a : Nat) (h : a ≠ symbol_idx)
    (bodies : List (List Nat)) :
    ∀ firsts : List fset,
      (bodies.foldl (srnglr_firsts_production symbol_idx) firsts)[a]? = firsts[a]? := by
  induction bodies with
  | nil => intro firsts; rfl
  | cons b rest ih =>
    intro firsts
    rw [List.foldl_cons, ih]
    exact srnglr_firsts_production_other symbol_idx a h firsts b

theorem srnglr_firsts_pass_terminal (g : Grammar) (a : Nat)
    (ha : metaparser_is_symbol_terminal g a = true) (firsts : List fset) :
    (srnglr_firsts_pass g firsts)[a]? = firsts[a]? := by
  unfold srnglr_firsts_pass
  generalize List.range g.symbols.length = l
  induction l generalizing firsts with
  | nil => rfl
  | cons idx rest ih =>
    rw [List.foldl_cons, ih]
    split_ifs with ht
    · rfl
    · apply foldl_srnglr_firsts_production_other
      rintro rfl
      exact ht ha

theorem srnglr_firsts_loop_terminal (g : Grammar) (a : Nat)
    (ha : metaparser_is_symbol_terminal g a = true) (fuel : Nat) :
    ∀ firsts : List fset, (srnglr_firsts_loop g fuel firsts)[a]? = firsts[a]? := by
  induction fuel with
  | zero => intro firsts; rfl
  | succ n ih =>
    intro firsts
    unfold srnglr_firsts_loop
    simp only
    split_ifs
    · rw [ih]
      exact srnglr_firsts_pass_terminal g a ha firsts
    · exact srnglr_firsts_pass_terminal g a ha firsts

theorem metaparser_is_symbol_terminal_lt (g : Grammar) (a : Nat)
    (ha : metaparser_is_symbol_terminal g a = true) : a < g.symbols.length := by
  unfold metaparser_is_symbol_terminal at ha
  by_contra hlt
  rw [List.getElem?_eq_none (by omega)] at ha
  simp at ha

theorem srnglr_firsts_init_step (g : Grammar) (l : List Nat) :
    ∀ firsts : List fset,
      (∀ a : Nat, firsts[a]? = some new_fset ∨ firsts[a]? = some (⟨[a], false⟩ : fset) ∨
        firsts[a]? = none) →
      (∀ a : Nat, (l.foldl
          (fun firsts symbol_idx =>
            if metaparser_is_symbol_terminal g symbol_idx then
              firsts.set symbol_idx
                { fset_add (first_of_symbol firsts symbol_idx) symbol_idx with nullable := false }
            else firsts) firsts)[a]? =
        if (a ∈ l ∧ metaparser_is_symbol_terminal g a = true ∧ a < firsts.length) then
          some (⟨[a], false⟩ : fset)
        else firsts[a]?) := by
  induction l with
  | nil => intro firsts _ a; simp
  | cons idx rest ih =>
    intro firsts hF a
    rw [List.foldl_cons]
    by_cases ht : metaparser_is_symbol_terminal g idx = true
    · simp only [ht, if_true]
      have hentry : idx < firsts.length →
          ({ fset_add (first_of_symbol firsts idx) idx with nullable := false } : fset) =
            ⟨[idx], false⟩ := by
        intro hlt
        unfold first_of_symbol fset_add
        rw [List.getD_eq_getElem?_getD, set_add_decide]
        rcases hF idx with h | h | h
        · simp [h, new_fset]
        · simp [h]
        · rw [List.getElem?_eq_none_iff] at h
          omega
      have hF' : ∀ a : Nat, (firsts.set idx
          { fset_add (first_of_symbol firsts idx) idx with nullable := false })[a]? =
            some new_fset ∨
          (firsts.set idx
            { fset_add (first_of_symbol firsts idx) idx with nullable := false })[a]? =
            some (⟨[a], false⟩ : fset) ∨
          (firsts.set idx
            { fset_add (first_of_symbol firsts idx) idx with nullable := false })[a]? =
            none := by
        intro a
        rw [List.getElem?_set]
        by_cases hia : idx = a
        · subst hia
          by_cases hlt : idx < firsts.length
          · simp [hlt, hentry hlt]
          · simp [hlt]
        · simp only [hia, if_false]
          exact hF a
      rw [ih _ hF' a, List.length_set, List.getElem?_set]
      by_cases hia : idx = a
      · subst hia
        by_cases hlt : idx < firsts.length
        · simp [ht, hlt, hentry hlt]
        · have : firsts[idx]? = none := List.getElem?_eq_none (by omega)
          simp [hlt, this]
      · have hne : ¬ a = idx := fun h => hia h.symm
        simp [hia, hne]
    · simp only [ht, Bool.false_eq_true, if_false]
      rw [ih firsts hF a]
      by_cases hia : a = idx
      · subst hia
        simp [ht]
      · simp [hia]

theorem srnglr_firsts_init_terminal (g : Grammar) (a : Nat)
    (ha : metaparser_is_symbol_terminal g a = true) :
    (srnglr_firsts_init g)[a]? = some ⟨[a], false⟩ := by
  unfold srnglr_firsts_init
  have hlt := metaparser_is_symbol_terminal_lt g a ha
  rw [srnglr_firsts_init_step g _ _ ?_ a]
  · simp [ha, hlt]
  · intro b
    rw [List.getElem?_replicate]
    by_cases hb : b < g.symbols.length
    · simp [hb]
    · simp [hb]

/-- The first set of a terminal in the computed table is the terminal itself, not nullable. -/
theorem srnglr_compute_symbol_firsts_terminal (g : Grammar) (a : Nat)
    (ha : metaparser_is_symbol_terminal g a = true) :
    first_of_symbol (srnglr_compute_symbol_firsts g) a = ⟨[a], false⟩ := by
  unfold first_of_symbol srnglr_compute_symbol_firsts
  rw [List.getD_eq_getElem?_getD, srnglr_firsts_loop_terminal g a ha,
    srnglr_firsts_init_terminal g a ha]
  rfl

/-! ## Lookaheads through nullable right contexts -/

theorem first_of_string_loop_terminals_mono (firsts : List fset) (string : slice) (b : Nat) :
    ∀ n i result, b ∈ result.terminals →
      b ∈ (srnglr_first_of_string_loop firsts string n i result).terminals := by
  intro n
  induction n with
  | zero => intro i result h; simpa [srnglr_first_of_string_loop] using h
  | succ n ih =>
    intro i result h
    unfold srnglr_first_of_string_loop
    cases hs : slice_get string i with
    | none => simpa using h
    | some x =>
      simp only
      have hu : b ∈ (fset_union_into result (first_of_symbol firsts x) false).terminals :=
        (fset_union_into_terminals _ _ _ b).2 (Or.inl h)
      split_ifs
      all_goals first
        | exact hu
        | exact ih _ _ hu

theorem first_of_string_loop_reaches_lookahead (firsts : List fset) (string : slice) (a : Nat)
    (hla : string.lookahead = some a)
    (hin : ∀ j, j < string.stop - string.start → ∃ x, string.v[string.start + j]? = some x ∧
      (first_of_symbol firsts x).nullable = true)
    (b : Nat) (hb : b ∈ (first_of_symbol firsts a).terminals) :
    ∀ k i n result, i + k = string.stop - string.start → k < n →
      b ∈ (srnglr_first_of_string_loop firsts string n i result).terminals := by
  intro k
  induction k with
  | zero =>
    intro i n result hik hn
    obtain ⟨n', rfl⟩ : ∃ n', n = n' + 1 := ⟨n - 1, by omega⟩
    have hget : slice_get string i = some a := by
      unfold slice_get
      rw [if_neg (by omega), if_pos (by omega), hla]
    unfold srnglr_first_of_string_loop
    simp only [hget]
    have hu : b ∈ (fset_union_into result (first_of_symbol firsts a) false).terminals :=
      (fset_union_into_terminals _ _ _ b).2 (Or.inr hb)
    split_ifs
    all_goals first
      | exact hu
      | exact first_of_string_loop_terminals_mono firsts string b _ _ _ hu
  | succ k ih =>
    intro i n result hik hn
    obtain ⟨n', rfl⟩ : ∃ n', n = n' + 1 := ⟨n - 1, by omega⟩
    obtain ⟨x, hx, hnull⟩ := hin i (by omega)
    have hget : slice_get string i = some x := by
      unfold slice_get
      rw [if_pos (by omega), hx]
    unfold srnglr_first_of_string_loop
    simp only [hget, hnull]
    split_ifs
    all_goals first
      | exact ih (i + 1) n' _ (by omega) (by omega)
      | simp_all

/-- C2: lookaheads propagate through nullable right contexts. For every item `[A → α·Bβ, a]` of a
closure (computed with the table of first sets that `srnglr_compute_symbol_firsts` builds) whose
next symbol `B` is a nonterminal, whose rest `β` is empty or made of symbols whose first set has
the nullable flag, and whose lookahead `a` is a terminal of the symbol table, the closure holds
the item `(B, p, 0, a)` for every production index `p` of `B`. -/
theorem srnglr_closure_propagates_lookahead (g : Grammar) (I : List metaitem) :
    ∀ item ∈ srnglr_closure g (srnglr_compute_symbol_firsts g) I, ∀ (body : List Nat) (B p : Nat),
      metaparser_get_production_body g item.head_idx item.production_idx = some body →
      body[item.position]? = some B →
      metaparser_is_symbol_terminal g B = false →
      (∀ x ∈ body.drop (item.position + 1),
        (first_of_symbol (srnglr_compute_symbol_firsts g) x).nullable = true) →
      metaparser_is_symbol_terminal g item.lookahead_idx = true →
      p < (metaparser_get_production_bodies g B).length →
      (⟨B, p, 0, item.lookahead_idx⟩ : metaitem) ∈
        srnglr_closure g (srnglr_compute_symbol_firsts g) I := by
  intro item hitem body B p hbody hB hnt hnull hla hp
  have hclosed := (srnglr_closure_spec g (srnglr_compute_symbol_firsts g) I).2
  refine hclosed item hitem _ ((mem_closure_derived g _ item _).2
    ⟨body, B, p, item.lookahead_idx, hbody, hB, hnt, hp, ?_, rfl⟩)
  have hlt : item.position < body.length := (List.getElem?_eq_some.1 hB).1
  unfold srnglr_first_of_string
  have hsize : slice_size (⟨body, item.position + 1, body.length, some item.lookahead_idx⟩ :
      slice) = (body.length - (item.position + 1)) + 1 := by
    simp [slice_size]
  rw [if_neg (by rw [hsize]; omega), hsize]
  refine first_of_string_loop_reaches_lookahead _ _ item.lookahead_idx rfl ?_ _ ?_
    (body.length - (item.position + 1)) 0 _ _ (by simp) (by omega)
  · intro j hj
    simp only at hj
    have hjlt : item.position + 1 + j < body.length := by omega
    refine ⟨body[item.position + 1 + j], List.getElem?_eq_getElem hjlt, ?_⟩
    apply hnull
    rw [List.mem_iff_getElem?]
    exact ⟨j, by rw [List.getElem?_drop]; exact List.getElem?_eq_getElem hjlt⟩
  · rw [srnglr_compute_symbol_firsts_terminal g _ hla]
    simp

set_option maxRecDepth 100000 in
/-- C2 at the grammar `S → A B`, `A → a`, `B → ε`: the item `[S → ·A B, $]` with the nullable
rest `B` puts `[A → ·a, $]` into the closure of the start kernel. -/
theorem srnglr_closure_propagates_lookahead_witness :
    (⟨1, 0, 0, 5⟩ : metaitem) ∈
        srnglr_closure grammar_nullable (srnglr_compute_symbol_firsts grammar_nullable)
          [⟨0, 0, 0, 5⟩] ∧
      metaparser_get_production_body grammar_nullable 1 0 = some [2, 3] ∧
      [2, 3][0]? = some 2 ∧
      metaparser_is_symbol_terminal grammar_nullable 2 = false ∧
      (∀ x ∈ [2, 3].drop (0 + 1),
        (first_of_symbol (srnglr_compute_symbol_firsts grammar_nullable) x).nullable = true) ∧
      metaparser_is_symbol_terminal grammar_nullable 5 = true ∧
      0 < (metaparser_get_production_bodies grammar_nullable 2).length ∧
      (⟨2, 0, 0, 5⟩ : metaitem) ∈
        srnglr_closure grammar_nullable (srnglr_compute_symbol_firsts grammar_nullable)
          [⟨0, 0, 0, 5⟩] :=
  have h1 : (⟨1, 0, 0, 5⟩ : metaitem) ∈
      srnglr_closure grammar_nullable (srnglr_compute_symbol_firsts grammar_nullable)
        [⟨0, 0, 0, 5⟩] := by decide!
  have h2 : metaparser_get_production_body grammar_nullable 1 0 = some [2, 3] := by decide!
  have h3 : [2, 3][0]? = some 2 := by decide
  have h4 : metaparser_is_symbol_terminal grammar_nullable 2 = false := by decide!
  have h5 : ∀ x ∈ [2, 3].drop (0 + 1),
      (first_of_symbol (srnglr_compute_symbol_firsts grammar_nullable) x).nullable = true := by
    decide!
  have h6 : metaparser_is_symbol_terminal grammar_nullable 5 = true := by decide!
  have h7 : 0 < (metaparser_get_production_bodies grammar_nullable 2).length := by decide!
  ⟨h1, h2, h3, h4, h5, h6, h7,
    srnglr_closure_propagates_lookahead grammar_nullable [⟨0, 0, 0, 5⟩] ⟨1, 0, 0, 5⟩ h1
      [2, 3] 2 0 h2 h3 h4 h5 h6 h7⟩

/-! ## Dictionary, table cells and equality of itemsets -/

theorem dict_get_set {κ ν : Type} [DecidableEq κ] (d : List (κ × ν)) (k k' : κ) (v : ν) :
    dict_get (dict_set d k v) k' = if k = k' then some v else dict_get d k' := by
  induction d with
  | nil =>
    by_cases h : k = k'
    · simp [dict_set, dict_get, h]
    · simp [dict_set, dict_get, h]
  | cons e es ih =>
    obtain ⟨k0, v0⟩ := e
    by_cases h0 : k0 = k
    · subst h0
      by_cases h : k0 = k'
      · simp [dict_set, dict_get, h]
      · simp [dict_set, dict_get, h]
    · by_cases h : k0 = k'
      · subst h
        have : ¬ k = k0 := fun h' => h0 h'.symm
        simp [dict_set, dict_get, h0, this]
      · simp only [dict_set, dict_get, h0, h, if_false, ih]

theorem dict_set_get_self {κ ν : Type} [DecidableEq κ] (d : List (κ × ν)) (k : κ) (v : ν)
    (h : dict_get d k = some v) : dict_set d k v = d := by
  induction d with
  | nil => simp [dict_get] at h
  | cons e es ih =>
    obtain ⟨k0, v0⟩ := e
    by_cases h0 : k0 = k
    · subst h0
      simp [dict_get] at h
      simp [dict_set, h]
    · simp only [dict_get, h0, if_false] at h
      simp [dict_set, h0, ih h]

/-- The cell that an insertion of `a` at `(s, X)` leaves at `(s', X')`. -/
theorem table_cell_insert (table : List (gotokey × List action)) (s X s' X' : Nat) (a : action) :
    table_cell (dict_set (srnglr_get_table_actions table s X).1 ⟨s, X⟩
        (set_add action_equals (srnglr_get_table_actions table s X).2 a)) s' X' =
      if s = s' ∧ X = X' then
        (if a ∈ table_cell table s X then table_cell table s X else table_cell table s X ++ [a])
      else table_cell table s' X' := by
  have hadd : ∀ l : List action, set_add action_equals l a =
      if a ∈ l then l else l ++ [a] := fun l => set_add_decide l a
  unfold table_cell srnglr_get_table_actions
  cases hget : dict_get table (⟨s, X⟩ : gotokey) with
  | none =>
    simp only [dict_get_set, hadd]
    by_cases h : s = s' ∧ X = X'
    · obtain ⟨rfl, rfl⟩ := h
      simp
    · have hk : ¬ (⟨s, X⟩ : gotokey) = ⟨s', X'⟩ := by
        intro hk
        cases hk
        exact h ⟨rfl, rfl⟩
      simp [h, hk]
  | some actions =>
    simp only [dict_get_set, hadd]
    by_cases h : s = s' ∧ X = X'
    · obtain ⟨rfl, rfl⟩ := h
      simp
    · have hk : ¬ (⟨s, X⟩ : gotokey) = ⟨s', X'⟩ := by
        intro hk
        cases hk
        exact h ⟨rfl, rfl⟩
      simp [h, hk]

theorem mem_table_cell_insert (table : List (gotokey × List action)) (s X s' X' : Nat)
    (a b : action) :
    b ∈ table_cell (dict_set (srnglr_get_table_actions table s X).1 ⟨s, X⟩
        (set_add action_equals (srnglr_get_table_actions table s X).2 a)) s' X' ↔
      b ∈ table_cell table s' X' ∨ (s = s' ∧ X = X' ∧ b = a) := by
  rw [table_cell_insert]
  by_cases h : s = s' ∧ X = X'
  · obtain ⟨rfl, rfl⟩ := h
    by_cases ha : a ∈ table_cell table s X
    · simp only [and_self, if_true, if_pos ha, true_and]
      constructor
      · exact Or.inl
      · rintro (h | rfl)
        · exact h
        · exact ha
    · simp [ha]
  · simp only [if_neg h]
    constructor
    · exact Or.inl
    · rintro (h' | ⟨h1, h2, _⟩)
      · exact h'
      · exact absurd ⟨h1, h2⟩ h

theorem set_equals_iff {α : Type} [DecidableEq α] (l r : List α) :
    set_equals l r = true ↔ l.length = r.length ∧ ∀ x ∈ l, x ∈ r := by
  simp [set_equals]

theorem set_equals_iff_of_nodup {α : Type} [DecidableEq α] (l r : List α) (hl : l.Nodup)
    (hr : r.Nodup) : set_equals l r = true ↔ ∀ x, x ∈ l ↔ x ∈ r := by
  rw [set_equals_iff]
  constructor
  · rintro ⟨hlen, hsub⟩
    have hperm : l.Perm r := (hl.subperm hsub).perm_of_length_le (by omega)
    exact fun x => hperm.mem_iff
  · intro h
    have hperm : l.Perm r := (List.perm_ext_iff_of_nodup hl hr).2 h
    exact ⟨hperm.length_eq, fun x hx => (h x).1 hx⟩

theorem foldl_range_inv {σ : Type} (f : σ → Nat → σ) (P : Nat → σ → Prop) (n : Nat) (s0 : σ)
    (h0 : P 0 s0) (hstep : ∀ k s, k < n → P k s → P (k + 1) (f s k)) :
    P n ((List.range n).foldl f s0) := by
  induction n with
  | zero => simpa using h0
  | succ n ih =>
    rw [List.range_succ, List.foldl_append]
    simp only [List.foldl_cons, List.foldl_nil]
    exact hstep n _ (Nat.lt_succ_self n)
      (ih (fun k s hk hP => hstep k s (Nat.lt_succ_of_lt hk) hP))

theorem loop_until_stable_inv {σ : Type} (size : σ → Nat) (pass : σ → σ) (P Q : σ → Prop)
    (hP : ∀ s, P s → P (pass s)) (hQ : ∀ s, P s → Q (pass s)) :
    ∀ fuel s, P s → P (loop_until_stable size pass (fuel + 1) s) ∧
      Q (loop_until_stable size pass (fuel + 1) s) := by
  intro fuel
  induction fuel with
  | zero =>
    intro s hs
    simp only [loop_until_stable]
    split_ifs
    · exact ⟨hP s hs, hQ s hs⟩
    · exact ⟨hP s hs, hQ s hs⟩
  | succ n ih =>
    intro s hs
    rw [loop_until_stable]
    split_ifs
    · exact ⟨hP s hs, hQ s hs⟩
    · exact ih (pass s) (hP s hs)

/-! ## Invariants of the generation -/

theorem getElem?_append_of_some {α : Type} (l t : List α) (i : Nat) (x : α)
    (h : l[i]? = some x) : (l ++ t)[i]? = some x := by
  rw [List.getElem?_append_left (List.getElem?_eq_some.1 h).1]
  exact h

theorem closure_candidates_position (g : Grammar) (firsts : List fset) (y : metaitem)
    (h : y ∈ closure_candidates g firsts) : y.position = 0 := by
  unfold closure_candidates at h
  simp only [List.mem_flatMap, List.mem_range, List.mem_map] at h
  obtain ⟨_, _, _, _, _, _, rfl⟩ := h
  rfl

theorem mem_state_items (g : Grammar) (firsts : List fset) (x : metaitem) :
    x ∈ state_items g firsts ↔
      (⟨x.head_idx, x.production_idx, 0, x.lookahead_idx⟩ : metaitem) ∈
          start_item g :: closure_candidates g firsts ∧
        x.position ≤
          ((metaparser_get_production_body g x.head_idx x.production_idx).getD []).length := by
  have hpos : ∀ y ∈ start_item g :: closure_candidates g firsts, y.position = 0 := by
    intro y hy
    rcases List.mem_cons.1 hy with rfl | hy
    · rfl
    · exact closure_candidates_position g firsts y hy
  unfold state_items
  simp only [List.mem_flatMap, List.mem_map, List.mem_range]
  constructor
  · rintro ⟨y, hy, pos, hlt, rfl⟩
    have h0 := hpos y hy
    obtain ⟨h, p, q, a⟩ := y
    simp only at h0
    subst h0
    refine ⟨hy, ?_⟩
    simp only at hlt ⊢
    omega
  · rintro ⟨hbase, hle⟩
    refine ⟨_, hbase, x.position, ?_, ?_⟩
    · simp only
      omega
    · cases x
      rfl

theorem state_items_of_base (g : Grammar) (firsts : List fset) (y : metaitem)
    (hy : y ∈ start_item g :: closure_candidates g firsts) : y ∈ state_items g firsts := by
  have h0 : y.position = 0 := by
    rcases List.mem_cons.1 hy with rfl | hy
    · rfl
    · exact closure_candidates_position g firsts y hy
  obtain ⟨h, p, q, a⟩ := y
  simp only at h0
  subst h0
  exact (mem_state_items g firsts _).2 ⟨hy, Nat.zero_le _⟩

theorem state_items_advance (g : Grammar) (firsts : List fset) (x : metaitem) (body : List Nat)
    (hx : x ∈ state_items g firsts)
    (hbody : metaparser_get_production_body g x.head_idx x.production_idx = some body)
    (hlt : x.position < body.length) :
    (⟨x.head_idx, x.production_idx, x.position + 1, x.lookahead_idx⟩ : metaitem) ∈
      state_items g firsts := by
  rw [mem_state_items] at hx ⊢
  refine ⟨hx.1, ?_⟩
  simp only [hbody, Option.getD_some]
  omega

theorem srnglr_goto_inv (g : Grammar) (firsts : List fset) (I : List metaitem) (X : Nat)
    (hI : ∀ x ∈ I, x ∈ state_items g firsts) :
    (srnglr_goto g firsts I X).Nodup ∧ ∀ x ∈ srnglr_goto g firsts I X, x ∈ state_items g firsts := by
  obtain ⟨hnd, hmem⟩ := srnglr_goto_kernel_spec g X I
  obtain ⟨⟨added, hadd, hand, hsub⟩, _⟩ := srnglr_closure_spec g firsts (srnglr_goto_kernel g I X)
  unfold srnglr_goto
  rw [hadd]
  constructor
  · refine List.Nodup.append hnd hand ?_
    intro y hy hy'
    exact (hsub y hy').2 hy
  · intro x hx
    rcases List.mem_append.1 hx with hx | hx
    · obtain ⟨item, hitem, body, hbody, hlt, _, rfl⟩ := (hmem x).1 hx
      exact state_items_advance g firsts item body (hI item hitem) hbody hlt
    · exact state_items_of_base g firsts x (List.mem_cons_of_mem _ (hsub x hx).1)

theorem srnglr_closure_start_inv (g : Grammar) (firsts : List fset) :
    (srnglr_closure g firsts [start_item g]).Nodup ∧
      srnglr_closure g firsts [start_item g] ≠ [] ∧
      ∀ x ∈ srnglr_closure g firsts [start_item g], x ∈ state_items g firsts := by
  obtain ⟨⟨added, hadd, hand, hsub⟩, _⟩ := srnglr_closure_spec g firsts [start_item g]
  rw [hadd]
  refine ⟨?_, by simp, ?_⟩
  · refine List.Nodup.append (by simp) hand ?_
    intro y hy hy'
    exact (hsub y hy').2 hy
  · intro x hx
    rcases List.mem_append.1 hx with hx | hx
    · rw [List.mem_singleton] at hx
      subst hx
      exact state_items_of_base g firsts _ (by simp)
    · exact state_items_of_base g firsts x (List.mem_cons_of_mem _ (hsub x hx).1)

/-- Pairwise different sets of items out of `V` are at most `2 ^ |V|`. -/
theorem length_le_two_pow_of_distinct (V : List metaitem) (S : List (List metaitem))
    (hnd : ∀ I ∈ S, I.Nodup) (hsub : ∀ I ∈ S, ∀ x ∈ I, x ∈ V)
    (hdist : ∀ (j k : Nat) (Ij Ik : List metaitem), S[j]? = some Ij → S[k]? = some Ik →
      set_equals Ij Ik = true → j = k) :
    S.length ≤ 2 ^ V.length := by
  have hinj : (S.map List.toFinset).Nodup := by
    rw [List.nodup_iff_getElem?_ne_getElem?]
    intro j k hjk hk hEq
    rw [List.length_map] at hk
    have hj : j < S.length := by omega
    simp only [List.getElem?_map, List.getElem?_eq_getElem hj, List.getElem?_eq_getElem hk,
      Option.map_some', Option.some.injEq] at hEq
    have hset : set_equals S[j] S[k] = true := by
      rw [set_equals_iff_of_nodup _ _ (hnd _ (List.getElem_mem hj)) (hnd _ (List.getElem_mem hk))]
      intro x
      rw [← List.mem_toFinset, hEq, List.mem_toFinset]
    have := hdist j k _ _ (List.getElem?_eq_getElem hj) (List.getElem?_eq_getElem hk) hset
    omega
  have hsubset : (S.map List.toFinset).toFinset ⊆ V.toFinset.powerset := by
    intro F hF
    rw [List.mem_toFinset, List.mem_map] at hF
    obtain ⟨I, hI, rfl⟩ := hF
    rw [Finset.mem_powerset]
    intro x hx
    rw [List.mem_toFinset] at hx ⊢
    exact hsub I hI x hx
  calc S.length = (S.map List.toFinset).length := by simp
    _ = (S.map List.toFinset).toFinset.card := (List.toFinset_card_of_nodup hinj).symm
    _ ≤ V.toFinset.powerset.card := Finset.card_le_card hsubset
    _ = 2 ^ V.toFinset.card := Finset.card_powerset _
    _ ≤ 2 ^ V.length := Nat.pow_le_pow_right (by norm_num) (List.toFinset_card_le V)

theorem generate_inv_length (g : Grammar) (firsts : List fset) (st : srnglr_state)
    (h : generate_inv g firsts st) : st.itemsets.length ≤ 2 ^ (state_items g firsts).length :=
  length_le_two_pow_of_distinct _ _ h.nodup h.items h.distinct

theorem generate_ext_refl (st : srnglr_state) : generate_ext st st :=
  ⟨⟨[], by simp⟩, fun _ _ _ h => h⟩

theorem generate_ext_trans (a b c : srnglr_state) (h1 : generate_ext a b)
    (h2 : generate_ext b c) : generate_ext a c := by
  obtain ⟨⟨t1, ht1⟩, hc1⟩ := h1
  obtain ⟨⟨t2, ht2⟩, hc2⟩ := h2
  exact ⟨⟨t1 ++ t2, by rw [ht2, ht1, List.append_assoc]⟩,
    fun s X x h => hc2 s X x (hc1 s X x h)⟩

theorem generate_ext_getElem? (st st' : srnglr_state) (h : generate_ext st st') (i : Nat)
    (I : List metaitem) (hi : st.itemsets[i]? = some I) : st'.itemsets[i]? = some I := by
  obtain ⟨⟨t, ht⟩, _⟩ := h
  rw [ht]
  exact getElem?_append_of_some _ _ _ _ hi

theorem generate_done_ext (g : Grammar) (firsts : List fset) (st st' : srnglr_state) (j : Nat)
    (hj : j < st.itemsets.length) (h : generate_ext st st')
    (hd : generate_done g firsts st j) : generate_done g firsts st' j := by
  intro Is hIs X hX hne
  have hIs0 : st.itemsets[j]? = some Is := by
    have := generate_ext_getElem? st st' h j _ (List.getElem?_eq_getElem hj)
    rw [this] at hIs
    rw [List.getElem?_eq_getElem hj, hIs]
  obtain ⟨gidx, Ig, h1, h2, h3⟩ := hd Is hIs0 X hX hne
  exact ⟨gidx, Ig, generate_ext_getElem? st st' h gidx Ig h1, h2, h.2 j X _ h3⟩

theorem set_add_return_index_cases {α : Type} (eq : α → α → Bool) (s : List α) (x : α) :
    ((∀ e ∈ s, eq e x = false) ∧ set_add_return_index eq s x = (s ++ [x], s.length)) ∨
      (∃ i e, set_add_return_index eq s x = (s, i) ∧ s[i]? = some e ∧ eq e x = true) := by
  unfold set_add_return_index
  cases h : set_find eq s x with
  | none => exact Or.inl ⟨(set_find_eq_none eq s x).1 h, rfl⟩
  | some i =>
    obtain ⟨⟨e, he, hx⟩, _⟩ := set_find_eq_some eq s x i h
    exact Or.inr ⟨i, e, rfl, he, hx⟩

theorem getElem?_concat_of_not_lt {α : Type} (l : List α) (x y : α) (j : Nat)
    (h : (l ++ [x])[j]? = some y) (hj : ¬ j < l.length) : j = l.length ∧ y = x := by
  rw [List.getElem?_append_right (by omega)] at h
  cases hm : j - l.length with
  | zero =>
    rw [hm] at h
    simp at h
    exact ⟨by omega, h.symm⟩
  | succ m =>
    rw [hm] at h
    simp at h

theorem mem_table_cell_insert_push (table : List (gotokey × List action))
    (s X gidx s' X' : Nat) (b : action) :
    b ∈ table_cell (srnglr_insert_push table s X gidx) s' X' ↔
      b ∈ table_cell table s' X' ∨ (s = s' ∧ X = X' ∧ b = action.Push gidx) :=
  mem_table_cell_insert table s X s' X' (action.Push gidx) b

theorem set_equals_refl {α : Type} [DecidableEq α] (l : List α) : set_equals l l = true := by
  rw [set_equals_iff]
  exact ⟨rfl, fun _ h => h⟩

theorem srnglr_generate_symbol_spec (g : Grammar) (firsts : List fset) (st : srnglr_state)
    (i : Nat) (Ii : List metaitem) (X : Nat) (hinv : generate_inv g firsts st)
    (hi : st.itemsets[i]? = some Ii) (hX : X < g.symbols.length) :
    generate_inv g firsts (srnglr_generate_symbol g firsts i Ii st X) ∧
      generate_ext st (srnglr_generate_symbol g firsts i Ii st X) ∧
      (srnglr_goto g firsts Ii X ≠ [] →
        ∃ gidx Ig, (srnglr_generate_symbol g firsts i Ii st X).itemsets[gidx]? = some Ig ∧
          set_equals Ig (srnglr_goto g firsts Ii X) = true ∧
          action.Push gidx ∈ table_cell (srnglr_generate_symbol g firsts i Ii st X).table i X) := by
  have hG := srnglr_goto_inv g firsts Ii X (hinv.items Ii (List.getElem?_mem hi))
  unfold srnglr_generate_symbol
  by_cases hne : srnglr_goto g firsts Ii X = []
  · simp only [hne, List.length_nil, gt_iff_lt, Nat.lt_irrefl, if_false]
    exact ⟨hinv, generate_ext_refl st, fun h => absurd rfl h⟩
  · have hpos : (srnglr_goto g firsts Ii X).length > 0 := List.length_pos.2 hne
    simp only [hpos, if_true]
    rcases set_add_return_index_cases set_equals st.itemsets (srnglr_goto g firsts Ii X) with
      ⟨hnone, hr⟩ | ⟨i0, e, hr, he, heq⟩
    · rw [hr]
      simp only
      have hnew : (st.itemsets ++ [srnglr_goto g firsts Ii X])[st.itemsets.length]? =
          some (srnglr_goto g firsts Ii X) := by
        rw [List.getElem?_append_right (Nat.le_refl _)]
        simp
      refine ⟨⟨?_, ?_, ?_, ?_, ?_⟩, ⟨⟨[srnglr_goto g firsts Ii X], rfl⟩, ?_⟩, ?_⟩
      · intro I hI
        rcases List.mem_append.1 hI with hI | hI
        · exact hinv.nodup I hI
        · rw [List.mem_singleton] at hI
          rw [hI]
          exact hG.1
      · intro I hI
        rcases List.mem_append.1 hI with hI | hI
        · exact hinv.nonempty I hI
        · rw [List.mem_singleton] at hI
          rw [hI]
          exact hne
      · intro I hI
        rcases List.mem_append.1 hI with hI | hI
        · exact hinv.items I hI
        · rw [List.mem_singleton] at hI
          rw [hI]
          exact hG.2
      · intro j k Ij Ik hj hk hjk
        by_cases hjl : j < st.itemsets.length
        · rw [List.getElem?_append_left hjl] at hj
          by_cases hkl : k < st.itemsets.length
          · rw [List.getElem?_append_left hkl] at hk
            exact hinv.distinct j k Ij Ik hj hk hjk
          · obtain ⟨_, rfl⟩ := getElem?_concat_of_not_lt _ _ _ _ hk hkl
            have := hnone Ij (List.getElem?_mem hj)
            rw [hjk] at this
            cases this
        · obtain ⟨hjeq, rfl⟩ := getElem?_concat_of_not_lt _ _ _ _ hj hjl
          by_cases hkl : k < st.itemsets.length
          · rw [List.getElem?_append_left hkl] at hk
            have hnk := hinv.nodup Ik (List.getElem?_mem hk)
            have hsym : set_equals Ik (srnglr_goto g firsts Ii X) = true := by
              rw [set_equals_iff_of_nodup _ _ hnk hG.1]
              rw [set_equals_iff_of_nodup _ _ hG.1 hnk] at hjk
              exact fun x => (hjk x).symm
            have := hnone Ik (List.getElem?_mem hk)
            rw [hsym] at this
            cases this
          · obtain ⟨hkeq, _⟩ := getElem?_concat_of_not_lt _ _ _ _ hk hkl
            omega
      · intro s X' a ha
        rcases (mem_table_cell_insert_push _ _ _ _ _ _ _).1 ha with ha | ⟨rfl, rfl, rfl⟩
        · obtain ⟨gidx, Is, Ig, h1, h2, h3, h4, h5, h6⟩ := hinv.sound s X' a ha
          exact ⟨gidx, Is, Ig, h1, h2, getElem?_append_of_some _ _ _ _ h3,
            getElem?_append_of_some _ _ _ _ h4, h5, h6⟩
        · exact ⟨st.itemsets.length, Ii, _, rfl, hX, getElem?_append_of_some _ _ _ _ hi,
            hnew, hne, set_equals_refl _⟩
      · intro s X' a ha
        exact (mem_table_cell_insert_push _ _ _ _ _ _ _).2 (Or.inl ha)
      · intro _
        exact ⟨st.itemsets.length, _, hnew, set_equals_refl _,
          (mem_table_cell_insert_push _ _ _ _ _ _ _).2 (Or.inr ⟨rfl, rfl, rfl⟩)⟩
    · rw [hr]
      simp only
      refine ⟨⟨hinv.nodup, hinv.nonempty, hinv.items, hinv.distinct, ?_⟩, ⟨⟨[], by simp⟩, ?_⟩, ?_⟩
      · intro s X' a ha
        rcases (mem_table_cell_insert_push _ _ _ _ _ _ _).1 ha with ha | ⟨rfl, rfl, rfl⟩
        · exact hinv.sound s X' a ha
        · exact ⟨i0, Ii, e, rfl, hX, hi, he, hne, heq⟩
      · intro s X' a ha
        exact (mem_table_cell_insert_push _ _ _ _ _ _ _).2 (Or.inl ha)
      · intro _
        exact ⟨i0, e, he, heq,
          (mem_table_cell_insert_push _ _ _ _ _ _ _).2 (Or.inr ⟨rfl, rfl, rfl⟩)⟩

theorem srnglr_generate_itemset_spec (g : Grammar) (firsts : List fset) (st : srnglr_state)
    (i : Nat) (Ii : List metaitem) (hinv : generate_inv g firsts st)
    (hi : st.itemsets[i]? = some Ii) :
    generate_inv g firsts (srnglr_generate_itemset g firsts st i) ∧
      generate_ext st (srnglr_generate_itemset g firsts st i) ∧
      generate_done g firsts (srnglr_generate_itemset g firsts st i) i := by
  unfold srnglr_generate_itemset
  simp only [hi]
  have key := foldl_range_inv (srnglr_generate_symbol g firsts i Ii)
    (fun k s => generate_inv g firsts s ∧ generate_ext st s ∧
      ∀ X, X < k → srnglr_goto g firsts Ii X ≠ [] →
        ∃ gidx Ig, s.itemsets[gidx]? = some Ig ∧
          set_equals Ig (srnglr_goto g firsts Ii X) = true ∧
          action.Push gidx ∈ table_cell s.table i X)
    g.symbols.length st ⟨hinv, generate_ext_refl st, fun X hX => absurd hX (Nat.not_lt_zero X)⟩ ?_
  · obtain ⟨h1, h2, h3⟩ := key
    refine ⟨h1, h2, ?_⟩
    intro Is hIs X hX hne
    have hIi := generate_ext_getElem? st _ h2 i Ii hi
    rw [hIi] at hIs
    cases hIs
    exact h3 X hX hne
  · rintro k s hk ⟨h1, h2, h3⟩
    have hIi := generate_ext_getElem? st s h2 i Ii hi
    obtain ⟨h1', h2', h3'⟩ := srnglr_generate_symbol_spec g firsts s i Ii k h1 hIi hk
    refine ⟨h1', generate_ext_trans _ _ _ h2 h2', ?_⟩
    intro X hX hne
    rcases Nat.lt_succ_iff_lt_or_eq.1 hX with hX | rfl
    · obtain ⟨gidx, Ig, h4, h5, h6⟩ := h3 X hX hne
      exact ⟨gidx, Ig, generate_ext_getElem? _ _ h2' gidx Ig h4, h5, h2'.2 i X _ h6⟩
    · exact h3' hne

theorem srnglr_generate_pass_spec (g : Grammar) (firsts : List fset) (st : srnglr_state)
    (fuel : Nat) (hinv : generate_inv g firsts st)
    (hf : 2 ^ (state_items g firsts).length < fuel) :
    generate_inv g firsts (srnglr_generate_pass g firsts fuel st) ∧
      generate_ext st (srnglr_generate_pass g firsts fuel st) ∧
      ∀ j, generate_done g firsts (srnglr_generate_pass g firsts fuel st) j := by
  have key := scan_growing_inv (fun s : srnglr_state => s.itemsets.length)
    (srnglr_generate_itemset g firsts)
    (fun s i => generate_inv g firsts s ∧ generate_ext st s ∧
      ∀ j, j < i → generate_done g firsts s j)
    (2 ^ (state_items g firsts).length) ?_ ?_ fuel 0 st
    ⟨hinv, generate_ext_refl st, fun j hj => absurd hj (Nat.not_lt_zero j)⟩ (by omega)
  · obtain ⟨jend, ⟨h1, h2, h3⟩, hlen⟩ := key
    refine ⟨h1, h2, fun j => ?_⟩
    by_cases hj : j < jend
    · exact h3 j hj
    · intro Is hIs
      have : j < (srnglr_generate_pass g firsts fuel st).itemsets.length :=
        (List.getElem?_eq_some.1 hIs).1
      have hlen' : (srnglr_generate_pass g firsts fuel st).itemsets.length ≤ jend := hlen
      omega
  · rintro s i ⟨h1, h2, h3⟩ hi
    have hi' : i < s.itemsets.length := hi
    obtain ⟨h1', h2', h3'⟩ := srnglr_generate_itemset_spec g firsts s i _ h1
      (List.getElem?_eq_getElem hi')
    refine ⟨h1', generate_ext_trans _ _ _ h2 h2', ?_⟩
    intro j hj
    rcases Nat.lt_succ_iff_lt_or_eq.1 hj with hj | rfl
    · exact generate_done_ext g firsts s _ j (by omega) h2' (h3 j hj)
    · exact h3'
  · rintro s i ⟨h1, _, _⟩
    exact generate_inv_length g firsts s h1

theorem srnglr_generate_gotos_spec (g : Grammar) (firsts : List fset) (st : srnglr_state)
    (hinv : generate_inv g firsts st) :
    generate_inv g firsts (srnglr_generate_gotos g firsts st) ∧
      generate_ext st (srnglr_generate_gotos g firsts st) ∧
      ∀ j, generate_done g firsts (srnglr_generate_gotos g firsts st) j := by
  have hb : generate_bound g firsts = (2 ^ (state_items g firsts).length + 1) + 1 := rfl
  have key := loop_until_stable_inv (fun s : srnglr_state => s.itemsets.length)
    (srnglr_generate_pass g firsts (generate_bound g firsts))
    (fun s => generate_inv g firsts s ∧ generate_ext st s)
    (fun s => ∀ j, generate_done g firsts s j) ?_ ?_
    (2 ^ (state_items g firsts).length + 1) st ⟨hinv, generate_ext_refl st⟩
  · unfold srnglr_generate_gotos
    rw [← hb] at key
    exact ⟨key.1.1, key.1.2, key.2⟩
  · rintro s ⟨h1, h2⟩
    obtain ⟨h1', h2', _⟩ := srnglr_generate_pass_spec g firsts s (generate_bound g firsts) h1
      (by rw [hb]; omega)
    exact ⟨h1', generate_ext_trans _ _ _ h2 h2'⟩
  · rintro s ⟨h1, _⟩
    exact (srnglr_generate_pass_spec g firsts s (generate_bound g firsts) h1
      (by rw [hb]; omega)).2.2

/-! ## The reduce and accept actions -/

theorem mem_table_cell_generate_reduction (g : Grammar) (state_idx : Nat)
    (table : List (gotokey × List action)) (item : metaitem) (s X : Nat) (b : action) :
    b ∈ table_cell (srnglr_generate_reduction g state_idx table item) s X ↔
      b ∈ table_cell table s X ∨
        (metaitem_is_accept g item = true ∧ state_idx = s ∧ item.lookahead_idx = X ∧
          b = reduction_action g item) := by
  unfold srnglr_generate_reduction reduction_action
  by_cases hacc : metaitem_is_accept g item = true
  · simp only [hacc, if_true, true_and]
    by_cases hstart : item.head_idx = g.start_idx
    · simp only [hstart, if_true]
      exact mem_table_cell_insert table state_idx item.lookahead_idx s X action.Accept b
    · simp only [hstart, if_false]
      exact mem_table_cell_insert table state_idx item.lookahead_idx s X
        (action.Reduce item.head_idx item.position) b
  · simp [hacc]

theorem mem_table_cell_foldl_generate_reduction (g : Grammar) (state_idx : Nat)
    (items : List metaitem) (s X : Nat) (b : action) :
    ∀ table : List (gotokey × List action),
      b ∈ table_cell (items.foldl (srnglr_generate_reduction g state_idx) table) s X ↔
        b ∈ table_cell table s X ∨
          ∃ item ∈ items, metaitem_is_accept g item = true ∧ state_idx = s ∧
            item.lookahead_idx = X ∧ b = reduction_action g item := by
  induction items with
  | nil => intro table; simp
  | cons item rest ih =>
    intro table
    rw [List.foldl_cons, ih, mem_table_cell_generate_reduction]
    constructor
    · rintro ((h | h) | ⟨it, hit, h⟩)
      · exact Or.inl h
      · exact Or.inr ⟨item, by simp, h⟩
      · exact Or.inr ⟨it, List.mem_cons_of_mem _ hit, h⟩
    · rintro (h | ⟨it, hit, h⟩)
      · exact Or.inl (Or.inl h)
      · rcases List.mem_cons.1 hit with rfl | hit
        · exact Or.inl (Or.inr h)
        · exact Or.inr ⟨it, hit, h⟩

theorem mem_table_cell_generate_reductions (g : Grammar) (itemsets : List (List metaitem))
    (table : List (gotokey × List action)) (s X : Nat) (b : action) :
    b ∈ table_cell (srnglr_generate_reductions g itemsets table) s X ↔
      b ∈ table_cell table s X ∨
        ∃ Is item, itemsets[s]? = some Is ∧ item ∈ Is ∧ metaitem_is_accept g item = true ∧
          item.lookahead_idx = X ∧ b = reduction_action g item := by
  unfold srnglr_generate_reductions
  have key := foldl_range_inv
    (fun (table : List (gotokey × List action)) state_idx =>
      match itemsets[state_idx]? with
      | none => table
      | some itemset => itemset.foldl (srnglr_generate_reduction g state_idx) table)
    (fun k t => b ∈ table_cell t s X ↔
      b ∈ table_cell table s X ∨
        (s < k ∧ ∃ Is item, itemsets[s]? = some Is ∧ item ∈ Is ∧
          metaitem_is_accept g item = true ∧ item.lookahead_idx = X ∧
          b = reduction_action g item))
    itemsets.length table (by simp) ?_
  · beta_reduce at key
    rw [key]
    constructor
    · rintro (h | ⟨_, h⟩)
      · exact Or.inl h
      · exact Or.inr h
    · rintro (h | ⟨Is, item, hIs, h⟩)
      · exact Or.inl h
      · exact Or.inr ⟨(List.getElem?_eq_some.1 hIs).1, Is, item, hIs, h⟩
  · intro k t hk hP
    simp only [List.getElem?_eq_getElem hk]
    rw [mem_table_cell_foldl_generate_reduction, hP]
    constructor
    · rintro ((h | ⟨hs, h⟩) | ⟨item, hitem, hacc, rfl, hla, hb⟩)
      · exact Or.inl h
      · exact Or.inr ⟨Nat.lt_succ_of_lt hs, h⟩
      · exact Or.inr ⟨Nat.lt_succ_self _, _, item, List.getElem?_eq_getElem hk, hitem, hacc,
          hla, hb⟩
    · rintro (h | ⟨hs, Is, item, hIs, hitem, hacc, hla, hb⟩)
      · exact Or.inl (Or.inl h)
      · rcases Nat.lt_succ_iff_lt_or_eq.1 hs with hs | rfl
        · exact Or.inl (Or.inr ⟨hs, Is, item, hIs, hitem, hacc, hla, hb⟩)
        · rw [List.getElem?_eq_getElem hk] at hIs
          cases hIs
          exact Or.inr ⟨item, hitem, hacc, rfl, hla, hb⟩

/-- What `srnglr_generate_grammar_itemsets` leaves: the itemsets with the table of the push
actions satisfy the invariant, every state has been handled, state 0 is the closure of the start
kernel, and the final table adds the reduce and accept actions of the accepting items. -/
theorem srnglr_generate_grammar_itemsets_spec (g : Grammar) :
    ∃ table0 : List (gotokey × List action),
      generate_inv g (srnglr_compute_symbol_firsts g)
        ⟨(srnglr_generate_grammar_itemsets g).srnglr_itemsets, table0⟩ ∧
      (∀ j, generate_done g (srnglr_compute_symbol_firsts g)
        ⟨(srnglr_generate_grammar_itemsets g).srnglr_itemsets, table0⟩ j) ∧
      (srnglr_generate_grammar_itemsets g).srnglr_itemsets[0]? =
        some (srnglr_closure g (srnglr_compute_symbol_firsts g) [start_item g]) ∧
      ∀ (s X : Nat) (b : action),
        b ∈ table_cell (srnglr_generate_grammar_itemsets g).srnglr_table s X ↔
          b ∈ table_cell table0 s X ∨
            ∃ Is item, (srnglr_generate_grammar_itemsets g).srnglr_itemsets[s]? = some Is ∧
              item ∈ Is ∧ metaitem_is_accept g item = true ∧ item.lookahead_idx = X ∧
              b = reduction_action g item := by
  have hk : set_add metaitem_equals [] (start_item g) = [start_item g] := rfl
  have hs : ∀ x : List metaitem, set_add set_equals [] x = [x] := fun _ => rfl
  have hstart := srnglr_closure_start_inv g (srnglr_compute_symbol_firsts g)
  have hinv0 : generate_inv g (srnglr_compute_symbol_firsts g)
      ⟨[srnglr_closure g (srnglr_compute_symbol_firsts g) [start_item g]], []⟩ := by
    refine ⟨?_, ?_, ?_, ?_, ?_⟩
    · intro I hI
      rw [List.mem_singleton] at hI
      rw [hI]
      exact hstart.1
    · intro I hI
      rw [List.mem_singleton] at hI
      rw [hI]
      exact hstart.2.1
    · intro I hI
      rw [List.mem_singleton] at hI
      rw [hI]
      exact hstart.2.2
    · intro j k Ij Ik hj hk' _
      have hjl := (List.getElem?_eq_some.1 hj).1
      have hkl := (List.getElem?_eq_some.1 hk').1
      simp only [List.length_singleton] at hjl hkl
      omega
    · intro s X a ha
      simp [table_cell, dict_get] at ha
  obtain ⟨h1, h2, h3⟩ := srnglr_generate_gotos_spec g (srnglr_compute_symbol_firsts g) _ hinv0
  refine ⟨(srnglr_generate_gotos g (srnglr_compute_symbol_firsts g)
    ⟨[srnglr_closure g (srnglr_compute_symbol_firsts g) [start_item g]], []⟩).table, ?_, ?_, ?_, ?_⟩
  · exact h1
  · exact h3
  · exact generate_ext_getElem? _ _ h2 0 _ rfl
  · intro s X b
    exact mem_table_cell_generate_reductions g _ _ s X b

/-! ## Claims on the generation of the itemsets and of the table -/

/-- C5: after `srnglr_generate_grammar_itemsets` on fresh globals, the itemset at state index 0
is `srnglr_closure` of the kernel that holds the single item (start symbol, production 0,
position 0, lookahead the endmarker symbol), the closure of `[S' → ·S, $]`. -/
theorem srnglr_generate_state_zero_is_start_closure (g : Grammar) :
    (srnglr_generate_grammar_itemsets g).srnglr_itemsets[0]? =
      some (srnglr_closure g (srnglr_generate_grammar_itemsets g).srnglr_symbol_firsts
        [⟨g.start_idx, 0, 0, g.endmarker_idx⟩]) := by
  obtain ⟨_, _, _, h, _⟩ := srnglr_generate_grammar_itemsets_spec g
  exact h

/-- C6: after `srnglr_generate_grammar_itemsets`, for every state index `i` of the itemset table
and every symbol `X` of the grammar, the cell `(i, X)` contains `Push(t)` if and only if
`srnglr_goto(itemsets[i], X)` is not empty and `itemsets[t]` is a state that holds the same
items. -/
theorem srnglr_generate_push_iff_goto (g : Grammar) (i X t : Nat) (Ii : List metaitem)
    (hi : (srnglr_generate_grammar_itemsets g).srnglr_itemsets[i]? = some Ii)
    (hX : X < g.symbols.length) :
    action.Push t ∈ table_cell (srnglr_generate_grammar_itemsets g).srnglr_table i X ↔
      srnglr_goto g (srnglr_generate_grammar_itemsets g).srnglr_symbol_firsts Ii X ≠ [] ∧
        ∃ It, (srnglr_generate_grammar_itemsets g).srnglr_itemsets[t]? = some It ∧
          ∀ x, x ∈ It ↔
            x ∈ srnglr_goto g (srnglr_generate_grammar_itemsets g).srnglr_symbol_firsts Ii X := by
  obtain ⟨table0, hinv, hdone, _, htable⟩ := srnglr_generate_grammar_itemsets_spec g
  have hF : (srnglr_generate_grammar_itemsets g).srnglr_symbol_firsts =
      srnglr_compute_symbol_firsts g := rfl
  rw [hF]
  have hG := srnglr_goto_inv g (srnglr_compute_symbol_firsts g) Ii X
    (hinv.items Ii (List.getElem?_mem hi))
  constructor
  · intro hpush
    rcases (htable i X _).1 hpush with h0 | ⟨Is, item, _, _, _, _, hact⟩
    · obtain ⟨gidx, Is, Ig, h1, _, h3, h4, h5, h6⟩ := hinv.sound i X _ h0
      cases h1
      have h3' : (srnglr_generate_grammar_itemsets g).srnglr_itemsets[i]? = some Is := h3
      rw [hi] at h3'
      cases h3'
      refine ⟨h5, Ig, h4, ?_⟩
      exact (set_equals_iff_of_nodup _ _ (hinv.nodup Ig (List.getElem?_mem h4)) hG.1).1 h6
    · unfold reduction_action at hact
      split_ifs at hact
  · rintro ⟨hne, It, hIt, hmem⟩
    obtain ⟨gidx, Ig, h1, h2, h3⟩ := hdone i Ii hi X hX hne
    have hnIt := hinv.nodup It (List.getElem?_mem hIt)
    have hnIg := hinv.nodup Ig (List.getElem?_mem h1)
    have h2' := (set_equals_iff_of_nodup _ _ hnIg hG.1).1 h2
    have heq : set_equals It Ig = true := by
      rw [set_equals_iff_of_nodup _ _ hnIt hnIg]
      intro x
      rw [hmem x, h2' x]
    have : t = gidx := hinv.distinct t gidx It Ig hIt h1 heq
    subst this
    exact (htable i X _).2 (Or.inl h3)

set_option maxRecDepth 100000 in
/-- C6 at the grammar `S → S + S | a`: the cell (0, `S`) holds `Push(1)`, state 1 being the goto
of state 0 on `S`. -/
theorem srnglr_generate_push_iff_goto_witness :
    (srnglr_generate_grammar_itemsets grammar_sum).srnglr_itemsets[0]? =
        some [⟨0, 0, 0, 4⟩, ⟨1, 0, 0, 4⟩, ⟨1, 1, 0, 4⟩, ⟨1, 0, 0, 2⟩, ⟨1, 1, 0, 2⟩] ∧
      1 < grammar_sum.symbols.length ∧
      (action.Push 1 ∈ table_cell (srnglr_generate_grammar_itemsets grammar_sum).srnglr_table 0 1 ↔
        srnglr_goto grammar_sum (srnglr_generate_grammar_itemsets grammar_sum).srnglr_symbol_firsts
            [⟨0, 0, 0, 4⟩, ⟨1, 0, 0, 4⟩, ⟨1, 1, 0, 4⟩, ⟨1, 0, 0, 2⟩, ⟨1, 1, 0, 2⟩] 1 ≠ [] ∧
          ∃ It, (srnglr_generate_grammar_itemsets grammar_sum).srnglr_itemsets[1]? = some It ∧
            ∀ x, x ∈ It ↔
              x ∈ srnglr_goto grammar_sum
                (srnglr_generate_grammar_itemsets grammar_sum).srnglr_symbol_firsts
                [⟨0, 0, 0, 4⟩, ⟨1, 0, 0, 4⟩, ⟨1, 1, 0, 4⟩, ⟨1, 0, 0, 2⟩, ⟨1, 1, 0, 2⟩] 1) :=
  have h1 : (srnglr_generate_grammar_itemsets grammar_sum).srnglr_itemsets[0]? =
      some [⟨0, 0, 0, 4⟩, ⟨1, 0, 0, 4⟩, ⟨1, 1, 0, 4⟩, ⟨1, 0, 0, 2⟩, ⟨1, 1, 0, 2⟩] := by decide!
  have h2 : 1 < grammar_sum.symbols.length := by decide
  ⟨h1, h2, srnglr_generate_push_iff_goto grammar_sum 0 1 1 _ h1 h2⟩

/-- C7: after `srnglr_generate_grammar_itemsets`, for every state `s` and lookahead symbol `a`:
the cell `(s, a)` contains `Accept` iff `itemsets[s]` contains an item
`(start_idx, p, |body|, a)` of the augmented start with the dot at the end; and it contains
`Reduce(A, n)` iff `itemsets[s]` contains an item `(A, p, n, a)` with `A` different from the
augmented start and `n = |body(A, p)|`. -/
theorem srnglr_generate_accept_reduce_iff (g : Grammar) (s a : Nat) (Is : List metaitem)
    (hs : (srnglr_generate_grammar_itemsets g).srnglr_itemsets[s]? = some Is) :
    (action.Accept ∈ table_cell (srnglr_generate_grammar_itemsets g).srnglr_table s a ↔
        ∃ p body, metaparser_get_production_body g g.start_idx p = some body ∧
          (⟨g.start_idx, p, body.length, a⟩ : metaitem) ∈ Is) ∧
      ∀ A n, action.Reduce A n ∈ table_cell (srnglr_generate_grammar_itemsets g).srnglr_table s a ↔
        ∃ p body, A ≠ g.start_idx ∧ metaparser_get_production_body g A p = some body ∧
          n = body.length ∧ (⟨A, p, n, a⟩ : metaitem) ∈ Is := by
  obtain ⟨table0, hinv, _, _, htable⟩ := srnglr_generate_grammar_itemsets_spec g
  have hacc : ∀ item : metaitem, metaitem_is_accept g item = true ↔
      ∃ body, metaparser_get_production_body g item.head_idx item.production_idx = some body ∧
        item.position = body.length := by
    intro item
    unfold metaitem_is_accept
    cases metaparser_get_production_body g item.head_idx item.production_idx with
    | none => simp
    | some body => simp
  constructor
  · rw [htable]
    constructor
    · rintro (h0 | ⟨Is', item, hIs', hitem, hac, hla, hact⟩)
      · obtain ⟨_, _, _, h1, _⟩ := hinv.sound s a _ h0
        cases h1
      · have hIs'' : (srnglr_generate_grammar_itemsets g).srnglr_itemsets[s]? = some Is' := hIs'
        rw [hs] at hIs''
        cases hIs''
        obtain ⟨body, hbody, hpos⟩ := (hacc item).1 hac
        unfold reduction_action at hact
        split_ifs at hact with hstart
        obtain ⟨h, p, q, la⟩ := item
        simp only at hstart hla hbody hpos
        subst hstart hla hpos
        exact ⟨p, body, hbody, hitem⟩
    · rintro ⟨p, body, hbody, hitem⟩
      refine Or.inr ⟨Is, _, hs, hitem, (hacc _).2 ⟨body, hbody, rfl⟩, rfl, ?_⟩
      simp [reduction_action]
  · intro A n
    rw [htable]
    constructor
    · rintro (h0 | ⟨Is', item, hIs', hitem, hac, hla, hact⟩)
      · obtain ⟨_, _, _, h1, _⟩ := hinv.sound s a _ h0
        cases h1
      · have hIs'' : (srnglr_generate_grammar_itemsets g).srnglr_itemsets[s]? = some Is' := hIs'
        rw [hs] at hIs''
        cases hIs''
        obtain ⟨body, hbody, hpos⟩ := (hacc item).1 hac
        unfold reduction_action at hact
        split_ifs at hact with hstart
        obtain ⟨h, p, q, la⟩ := item
        simp only [action.Reduce.injEq] at hstart hla hbody hpos hact
        obtain ⟨rfl, rfl⟩ := hact
        subst hla
        exact ⟨p, body, hstart, hbody, hpos, hitem⟩
    · rintro ⟨p, body, hA, hbody, rfl, hitem⟩
      refine Or.inr ⟨Is, _, hs, hitem, (hacc _).2 ⟨body, hbody, rfl⟩, rfl, ?_⟩
      simp [reduction_action, hA]

set_option maxRecDepth 100000 in
/-- C7 at the grammar `S → S + S | a` and its state 1, which holds `[S' → S·, $]`. -/
theorem srnglr_generate_accept_reduce_iff_witness :
    (srnglr_generate_grammar_itemsets grammar_sum).srnglr_itemsets[1]? =
        some [⟨0, 0, 1, 4⟩, ⟨1, 0, 1, 4⟩, ⟨1, 0, 1, 2⟩] ∧
      ((action.Accept ∈ table_cell (srnglr_generate_grammar_itemsets grammar_sum).srnglr_table 1 4 ↔
          ∃ p body, metaparser_get_production_body grammar_sum grammar_sum.start_idx p =
              some body ∧
            (⟨grammar_sum.start_idx, p, body.length, 4⟩ : metaitem) ∈
              [⟨0, 0, 1, 4⟩, ⟨1, 0, 1, 4⟩, ⟨1, 0, 1, 2⟩]) ∧
        ∀ A n,
          action.Reduce A n ∈
              table_cell (srnglr_generate_grammar_itemsets grammar_sum).srnglr_table 1 4 ↔
            ∃ p body, A ≠ grammar_sum.start_idx ∧
              metaparser_get_production_body grammar_sum A p = some body ∧
              n = body.length ∧
              (⟨A, p, n, 4⟩ : metaitem) ∈ [⟨0, 0, 1, 4⟩, ⟨1, 0, 1, 4⟩, ⟨1, 0, 1, 2⟩]) :=
  have h1 : (srnglr_generate_grammar_itemsets grammar_sum).srnglr_itemsets[1]? =
      some [⟨0, 0, 1, 4⟩, ⟨1, 0, 1, 4⟩, ⟨1, 0, 1, 2⟩] := by decide!
  ⟨h1, srnglr_generate_accept_reduce_iff grammar_sum 1 4 _ h1⟩

set_option maxRecDepth 100000 in
/-- C8: conflicts are preserved, not resolved. For the ambiguous grammar `S' → S`,
`S → S + S | a` the table built by `srnglr_generate_grammar_itemsets` has a cell
`(state, '+')` that holds a `Push` action and the action `Reduce(S, 3)` at once. -/
theorem srnglr_generate_keeps_shift_reduce_conflict :
    ∃ state t,
      action.Push t ∈
          table_cell (srnglr_generate_grammar_itemsets grammar_sum).srnglr_table state 2 ∧
        action.Reduce 1 3 ∈
          table_cell (srnglr_generate_grammar_itemsets grammar_sum).srnglr_table state 2 :=
  ⟨4, 3, by decide!⟩

/-- C9: for every nonterminal `A` other than the augmented start with an empty production body
`p`, and every generated state `s` that contains the item `(A, p, 0, a)`: the cell `(s, a)`
contains `Reduce(A, 0)`, and the item adds nothing to the kernel that `srnglr_goto` builds, for
any symbol `X` (it yields no push). -/
theorem srnglr_generate_empty_production_reduces (g : Grammar) (A p a s : Nat)
    (Is : List metaitem) (hA : A ≠ g.start_idx)
    (hbody : metaparser_get_production_body g A p = some [])
    (hs : (srnglr_generate_grammar_itemsets g).srnglr_itemsets[s]? = some Is)
    (hitem : (⟨A, p, 0, a⟩ : metaitem) ∈ Is) :
    action.Reduce A 0 ∈ table_cell (srnglr_generate_grammar_itemsets g).srnglr_table s a ∧
      ∀ (X : Nat) (gotoset : List metaitem),
        srnglr_goto_step g X gotoset ⟨A, p, 0, a⟩ = gotoset := by
  obtain ⟨_, _, _, _, htable⟩ := srnglr_generate_grammar_itemsets_spec g
  constructor
  · refine (htable s a _).2 (Or.inr ⟨Is, ⟨A, p, 0, a⟩, hs, hitem, ?_, rfl, ?_⟩)
    · simp [metaitem_is_accept, hbody]
    · simp [reduction_action, hA]
  · intro X gotoset
    unfold srnglr_goto_step
    simp [hbody]

set_option maxRecDepth 100000 in
/-- C9 at the grammar `S → A B`, `A → a`, `B → ε` and its state 2, which holds `[B → ·, $]`. -/
theorem srnglr_generate_empty_production_reduces_witness :
    3 ≠ grammar_nullable.start_idx ∧
      metaparser_get_production_body grammar_nullable 3 0 = some [] ∧
      (srnglr_generate_grammar_itemsets grammar_nullable).srnglr_itemsets[2]? =
        some [⟨1, 0, 1, 5⟩, ⟨3, 0, 0, 5⟩] ∧
      (⟨3, 0, 0, 5⟩ : metaitem) ∈ [(⟨1, 0, 1, 5⟩ : metaitem), ⟨3, 0, 0, 5⟩] ∧
      (action.Reduce 3 0 ∈
          table_cell (srnglr_generate_grammar_itemsets grammar_nullable).srnglr_table 2 5 ∧
        ∀ (X : Nat) (gotoset : List metaitem),
          srnglr_goto_step grammar_nullable X gotoset ⟨3, 0, 0, 5⟩ = gotoset) :=
  have h1 : 3 ≠ grammar_nullable.start_idx := by decide
  have h2 : metaparser_get_production_body grammar_nullable 3 0 = some [] := by decide!
  have h3 : (srnglr_generate_grammar_itemsets grammar_nullable).srnglr_itemsets[2]? =
      some [⟨1, 0, 1, 5⟩, ⟨3, 0, 0, 5⟩] := by decide!
  have h4 : (⟨3, 0, 0, 5⟩ : metaitem) ∈ [(⟨1, 0, 1, 5⟩ : metaitem), ⟨3, 0, 0, 5⟩] := by decide
  ⟨h1, h2, h3, h4, srnglr_generate_empty_production_reduces grammar_nullable 3 0 5 2 _ h1 h2 h3 h4⟩

/-- C10: every itemset that `srnglr_generate_grammar_itemsets` stores in the itemset table is
non-empty, and every `Push` of the table leads to a stored, non-empty itemset: an empty
`srnglr_goto` result never becomes a state or the target of a push. -/
theorem srnglr_generate_states_nonempty (g : Grammar) :
    (∀ I ∈ (srnglr_generate_grammar_itemsets g).srnglr_itemsets, I ≠ []) ∧
      ∀ s X t, action.Push t ∈ table_cell (srnglr_generate_grammar_itemsets g).srnglr_table s X →
        ∃ It, (srnglr_generate_grammar_itemsets g).srnglr_itemsets[t]? = some It ∧ It ≠ [] ∧
          ∃ Is, (srnglr_generate_grammar_itemsets g).srnglr_itemsets[s]? = some Is ∧
            srnglr_goto g (srnglr_generate_grammar_itemsets g).srnglr_symbol_firsts Is X ≠ [] := by
  obtain ⟨table0, hinv, _, _, htable⟩ := srnglr_generate_grammar_itemsets_spec g
  refine ⟨hinv.nonempty, ?_⟩
  intro s X t hpush
  rcases (htable s X _).1 hpush with h0 | ⟨Is, item, _, _, _, _, hact⟩
  · obtain ⟨gidx, Is, Ig, h1, _, h3, h4, h5, _⟩ := hinv.sound s X _ h0
    cases h1
    exact ⟨Ig, h4, hinv.nonempty Ig (List.getElem?_mem h4), Is, h3, h5⟩
  · unfold reduction_action at hact
    split_ifs at hact

set_option maxRecDepth 100000 in
/-- C10 at the grammar `S → S + S | a`: its state 3 is not empty, and the push of the cell
(0, `a`) leads to the non-empty state 2. -/
theorem srnglr_generate_states_nonempty_witness :
    ([⟨1, 1, 1, 4⟩, ⟨1, 1, 1, 2⟩] : List metaitem) ∈
        (srnglr_generate_grammar_itemsets grammar_sum).srnglr_itemsets ∧
      ([⟨1, 1, 1, 4⟩, ⟨1, 1, 1, 2⟩] : List metaitem) ≠ [] ∧
      action.Push 2 ∈ table_cell (srnglr_generate_grammar_itemsets grammar_sum).srnglr_table 0 3 ∧
      ∃ It, (srnglr_generate_grammar_itemsets grammar_sum).srnglr_itemsets[2]? = some It ∧
        It ≠ [] ∧
        ∃ Is, (srnglr_generate_grammar_itemsets grammar_sum).srnglr_itemsets[0]? = some Is ∧
          srnglr_goto grammar_sum
            (srnglr_generate_grammar_itemsets grammar_sum).srnglr_symbol_firsts Is 3 ≠ [] :=
  have h1 : ([⟨1, 1, 1, 4⟩, ⟨1, 1, 1, 2⟩] : List metaitem) ∈
      (srnglr_generate_grammar_itemsets grammar_sum).srnglr_itemsets := by decide!
  have h2 : action.Push 2 ∈
      table_cell (srnglr_generate_grammar_itemsets grammar_sum).srnglr_table 0 3 := by decide!
  ⟨h1, (srnglr_generate_states_nonempty grammar_sum).1 _ h1, h2,
    (srnglr_generate_states_nonempty grammar_sum).2 0 3 2 h2⟩

/-! ## Termination: the bounds on the iterations are never reached -/

/-- Two runs of a scan that are both given enough iterations produce the same state. -/
theorem scan_growing_enough_fuel {σ : Type} (size : σ → Nat) (step : σ → Nat → σ)
    (Inv : σ → Nat → Prop) (B : Nat)
    (hstep : ∀ s i, Inv s i → i < size s → Inv (step s i) (i + 1))
    (hB : ∀ s i, Inv s i → size s ≤ B) :
    ∀ fuel1 fuel2 i s, Inv s i → B < fuel1 + i → B < fuel2 + i →
      scan_growing size step fuel1 i s = scan_growing size step fuel2 i s := by
  intro fuel1
  induction fuel1 with
  | zero =>
    intro fuel2 i s hI h1 _
    have := hB s i hI
    cases fuel2 with
    | zero => rfl
    | succ m => simp only [scan_growing, if_neg (show ¬ i < size s by omega)]
  | succ n ih =>
    intro fuel2 i s hI h1 h2
    have hsz := hB s i hI
    by_cases hlt : i < size s
    · cases fuel2 with
      | zero => omega
      | succ m =>
        simp only [scan_growing, if_pos hlt]
        exact ih m (i + 1) (step s i) (hstep s i hI hlt) (by omega) (by omega)
    · cases fuel2 with
      | zero => simp only [scan_growing, if_neg hlt]
      | succ m => simp only [scan_growing, if_neg hlt]

/-- A loop whose second pass changes nothing returns the result of its first pass, whatever
number of passes (at least two) it is allowed. -/
theorem loop_until_stable_of_fixed {σ : Type} (size : σ → Nat) (pass : σ → σ) (s : σ)
    (hfix : pass (pass s) = pass s) (fuel : Nat) :
    loop_until_stable size pass (fuel + 2) s = pass s := by
  simp only [loop_until_stable]
  split_ifs with h1 h2
  · rfl
  · exact hfix
  · exact absurd (by rw [hfix]) h2

theorem srnglr_closure_pass_enough_fuel (g : Grammar) (firsts : List fset)
    (kernel : List metaitem) (n1 n2 : Nat)
    (h1 : kernel.length + (closure_candidates g firsts).length < n1)
    (h2 : kernel.length + (closure_candidates g firsts).length < n2) :
    srnglr_closure_pass g firsts n1 kernel = srnglr_closure_pass g firsts n2 kernel := by
  unfold srnglr_closure_pass
  refine scan_growing_enough_fuel List.length (srnglr_closure_step g firsts)
    (fun cl _ => ∃ added, cl = kernel ++ added ∧ added.Nodup ∧
        (∀ y ∈ added, y ∈ closure_candidates g firsts ∧ y ∉ kernel))
    (kernel.length + (closure_candidates g firsts).length) ?_ ?_ n1 n2 0 kernel
    ⟨[], by simp⟩ (by omega) (by omega)
  · rintro cl i ⟨added, rfl, hnd, hsub⟩ hi
    obtain ⟨item, hitem⟩ : ∃ item, (kernel ++ added)[i]? = some item :=
      ⟨(kernel ++ added)[i], List.getElem?_eq_getElem hi⟩
    rw [srnglr_closure_step_eq g firsts _ i item hitem]
    obtain ⟨t, h1, h2, h3, _⟩ :=
      foldl_set_add_decide (closure_derived g firsts item) (kernel ++ added)
    rw [h1]
    refine ⟨added ++ t, by simp, ?_, ?_⟩
    · refine List.Nodup.append hnd h2 ?_
      intro y hya hyt
      exact (h3 y hyt).2 (List.mem_append_right _ hya)
    · intro y hy
      rcases List.mem_append.1 hy with hy | hy
      · exact hsub y hy
      · exact ⟨closure_derived_subset_candidates g firsts item y (h3 y hy).1,
          fun hc => (h3 y hy).2 (List.mem_append_left _ hc)⟩
  · rintro cl i ⟨added, rfl, hnd, hsub⟩
    have : added.length ≤ (closure_candidates g firsts).length :=
      (List.Nodup.subperm hnd (fun y hy => (hsub y hy).1)).length_le
    simp only [List.length_append]
    omega

/-- The loops of `srnglr_closure` terminate within their bounds: with any number of iterations
above the number of items that can be in the closure, and any number of passes from two on, the
scan runs to the end of the item set, the loop leaves through its `break`, and the result is
`srnglr_closure`; a further pass over the result adds nothing. -/
theorem srnglr_closure_enough_fuel (g : Grammar) (firsts : List fset) (kernel : List metaitem)
    (n m : Nat) (hn : kernel.length + (closure_candidates g firsts).length < n) :
    loop_until_stable List.length (srnglr_closure_pass g firsts n) (m + 2) kernel =
        srnglr_closure g firsts kernel ∧
      srnglr_closure_pass g firsts n (srnglr_closure g firsts kernel) =
        srnglr_closure g firsts kernel := by
  have hclosed := (srnglr_closure_pass_spec g firsts kernel n hn).2
  have hfix := srnglr_closure_pass_closed g firsts _ hclosed n
  have heq : srnglr_closure g firsts kernel = srnglr_closure_pass g firsts n kernel := by
    rw [srnglr_closure_eq_pass]
    exact srnglr_closure_pass_enough_fuel g firsts kernel _ _
      (by unfold closure_bound; omega) hn
  rw [loop_until_stable_of_fixed _ _ _ hfix, heq]
  exact ⟨rfl, hfix⟩

theorem srnglr_insert_push_of_mem (table : List (gotokey × List action)) (s X t : Nat)
    (h : action.Push t ∈ table_cell table s X) : srnglr_insert_push table s X t = table := by
  unfold srnglr_insert_push srnglr_get_table_actions
  unfold table_cell at h
  cases hget : dict_get table (⟨s, X⟩ : gotokey) with
  | none => simp [hget] at h
  | some actions =>
    simp only [hget, Option.getD_some] at h
    simp only
    have : set_add action_equals actions (action.Push t) = actions := by
      have := set_add_decide actions (action.Push t)
      rw [if_pos h] at this
      exact this
    rw [this]
    exact dict_set_get_self table _ actions hget

theorem srnglr_generate_symbol_of_done (g : Grammar) (firsts : List fset) (st : srnglr_state)
    (i : Nat) (Ii : List metaitem) (X : Nat) (hinv : generate_inv g firsts st)
    (hi : st.itemsets[i]? = some Ii) (hX : X < g.symbols.length)
    (hdone : generate_done g firsts st i) :
    srnglr_generate_symbol g firsts i Ii st X = st := by
  have hG := srnglr_goto_inv g firsts Ii X (hinv.items Ii (List.getElem?_mem hi))
  unfold srnglr_generate_symbol
  by_cases hne : srnglr_goto g firsts Ii X = []
  · simp [hne]
  · have hpos : (srnglr_goto g firsts Ii X).length > 0 := List.length_pos.2 hne
    simp only [hpos, if_true]
    obtain ⟨gidx, Ig, h1, h2, h3⟩ := hdone Ii hi X hX hne
    rcases set_add_return_index_cases set_equals st.itemsets (srnglr_goto g firsts Ii X) with
      ⟨hnone, _⟩ | ⟨i0, e, hr, he, heq⟩
    · have := hnone Ig (List.getElem?_mem h1)
      rw [h2] at this
      cases this
    · have hne' := hinv.nodup e (List.getElem?_mem he)
      have hng := hinv.nodup Ig (List.getElem?_mem h1)
      have hset : set_equals e Ig = true := by
        rw [set_equals_iff_of_nodup _ _ hne' hng]
        rw [set_equals_iff_of_nodup _ _ hne' hG.1] at heq
        rw [set_equals_iff_of_nodup _ _ hng hG.1] at h2
        intro x
        rw [heq x, h2 x]
      have hidx : i0 = gidx := hinv.distinct i0 gidx e Ig he h1 hset
      subst hidx
      rw [hr]
      simp only
      rw [srnglr_insert_push_of_mem _ _ _ _ h3]

theorem foldl_eq_self_of_forall {σ α : Type} (f : σ → α → σ) (s : σ) (l : List α)
    (h : ∀ x ∈ l, f s x = s) : l.foldl f s = s := by
  induction l with
  | nil => rfl
  | cons x xs ih =>
    rw [List.foldl_cons, h x (by simp)]
    exact ih (fun y hy => h y (List.mem_cons_of_mem _ hy))

theorem srnglr_generate_pass_of_done (g : Grammar) (firsts : List fset) (st : srnglr_state)
    (hinv : generate_inv g firsts st) (hdone : ∀ j, generate_done g firsts st j) (fuel : Nat) :
    srnglr_generate_pass g firsts fuel st = st := by
  unfold srnglr_generate_pass
  apply scan_growing_fixed
  intro i hi
  have hi' : i < st.itemsets.length := hi
  unfold srnglr_generate_itemset
  simp only [List.getElem?_eq_getElem hi']
  apply foldl_eq_self_of_forall
  intro X hX
  exact srnglr_generate_symbol_of_done g firsts st i _ X hinv (List.getElem?_eq_getElem hi')
    (List.mem_range.1 hX) (hdone i)

theorem srnglr_generate_pass_enough_fuel (g : Grammar) (firsts : List fset) (st : srnglr_state)
    (hinv : generate_inv g firsts st) (n1 n2 : Nat)
    (h1 : 2 ^ (state_items g firsts).length < n1) (h2 : 2 ^ (state_items g firsts).length < n2) :
    srnglr_generate_pass g firsts n1 st = srnglr_generate_pass g firsts n2 st := by
  unfold srnglr_generate_pass
  refine scan_growing_enough_fuel (fun s : srnglr_state => s.itemsets.length)
    (srnglr_generate_itemset g firsts) (fun s _ => generate_inv g firsts s)
    (2 ^ (state_items g firsts).length) ?_ ?_ n1 n2 0 st hinv (by omega) (by omega)
  · intro s i hs hi
    have hi' : i < s.itemsets.length := hi
    exact (srnglr_generate_itemset_spec g firsts s i _ hs (List.getElem?_eq_getElem hi')).1
  · intro s _ hs
    exact generate_inv_length g firsts s hs

/-- The loops that generate the itemsets terminate within their bounds: with any number of
iterations above `2 ^ |state_items|` and any number of passes from two on, the scan runs to the end
of the itemset table, the loop leaves through its `break`, and the result is that of
`srnglr_generate_gotos`; a further pass over the result changes nothing. -/
theorem srnglr_generate_gotos_enough_fuel (g : Grammar) (firsts : List fset) (st : srnglr_state)
    (hinv : generate_inv g firsts st) (n m : Nat)
    (hn : 2 ^ (state_items g firsts).length < n) :
    loop_until_stable (fun s : srnglr_state => s.itemsets.length)
        (srnglr_generate_pass g firsts n) (m + 2) st = srnglr_generate_gotos g firsts st ∧
      srnglr_generate_pass g firsts n (srnglr_generate_gotos g firsts st) =
        srnglr_generate_gotos g firsts st := by
  have hb : generate_bound g firsts = 2 ^ (state_items g firsts).length + 2 := rfl
  have hfix : ∀ k, 2 ^ (state_items g firsts).length < k →
      srnglr_generate_pass g firsts k (srnglr_generate_pass g firsts k st) =
        srnglr_generate_pass g firsts k st := by
    intro k hk
    obtain ⟨h1, _, h3⟩ := srnglr_generate_pass_spec g firsts st k hinv hk
    exact srnglr_generate_pass_of_done g firsts _ h1 h3 k
  have hgen : srnglr_generate_gotos g firsts st =
      srnglr_generate_pass g firsts (generate_bound g firsts) st := by
    unfold srnglr_generate_gotos
    rw [hb]
    exact loop_until_stable_of_fixed _ _ _ (hfix _ (by omega)) _
  have hsame : srnglr_generate_pass g firsts (generate_bound g firsts) st =
      srnglr_generate_pass g firsts n st :=
    srnglr_generate_pass_enough_fuel g firsts st hinv _ _ (by rw [hb]; omega) hn
  rw [loop_until_stable_of_fixed _ _ _ (hfix n hn), hgen, hsame]
  exact ⟨rfl, hfix n hn⟩

theorem foldl_preserves {σ α : Type} (f : σ → α → σ) (P : σ → Prop) (l : List α)
    (h : ∀ s x, x ∈ l → P s → P (f s x)) : ∀ s, P s → P (l.foldl f s) := by
  induction l with
  | nil => intro s hs; exact hs
  | cons x xs ih =>
    intro s hs
    rw [List.foldl_cons]
    exact ih (fun s y hy hP => h s y (List.mem_cons_of_mem _ hy) hP) _ (h s x (by simp) hs)

theorem first_of_symbol_wf (n : Nat) (firsts : List fset) (h : firsts_wf n firsts) (x : Nat) :
    (first_of_symbol firsts x).terminals.Nodup ∧
      ∀ t ∈ (first_of_symbol firsts x).terminals, t < n := by
  unfold first_of_symbol
  rw [List.getD_eq_getElem?_getD]
  cases hx : firsts[x]? with
  | none => simp [new_fset]
  | some s => exact h.2 s (List.getElem?_mem hx)

theorem fset_union_into_wf (n : Nat) (left right : fset) (d : Bool)
    (hl : left.terminals.Nodup ∧ ∀ t ∈ left.terminals, t < n)
    (hr : right.terminals.Nodup ∧ ∀ t ∈ right.terminals, t < n) :
    (fset_union_into left right d).terminals.Nodup ∧
      ∀ t ∈ (fset_union_into left right d).terminals, t < n := by
  unfold fset_union_into
  obtain ⟨t, h1, h2, h3, _⟩ := foldl_set_add_decide right.terminals left.terminals
  simp only [h1]
  constructor
  · refine List.Nodup.append hl.1 h2 ?_
    intro y hy hy'
    exact (h3 y hy').2 hy
  · intro y hy
    rcases List.mem_append.1 hy with hy | hy
    · exact hl.2 y hy
    · exact hr.2 y (h3 y hy).1

theorem firsts_wf_set (n : Nat) (firsts : List fset) (h : firsts_wf n firsts) (i : Nat)
    (e : fset) (he : e.terminals.Nodup ∧ ∀ t ∈ e.terminals, t < n) :
    firsts_wf n (firsts.set i e) := by
  refine ⟨by rw [List.length_set]; exact h.1, ?_⟩
  intro s hs
  rcases List.mem_or_eq_of_mem_set hs with hs | rfl
  · exact h.2 s hs
  · exact he

theorem srnglr_firsts_body_wf (n symbol_idx : Nat) (body : List Nat) :
    ∀ firsts, firsts_wf n firsts → firsts_wf n (srnglr_firsts_body symbol_idx body firsts) := by
  induction body with
  | nil => intro firsts h; exact h
  | cons x rest ih =>
    intro firsts h
    have hset := firsts_wf_set n firsts h symbol_idx _
      (fset_union_into_wf n _ _ true (first_of_symbol_wf n firsts h symbol_idx)
        (first_of_symbol_wf n firsts h x))
    unfold srnglr_firsts_body
    simp only
    split_ifs
    · exact hset
    · exact ih _ hset

theorem srnglr_firsts_production_wf (n symbol_idx : Nat) (firsts : List fset) (body : List Nat)
    (h : firsts_wf n firsts) : firsts_wf n (srnglr_firsts_production symbol_idx firsts body) := by
  have hb := srnglr_firsts_body_wf n symbol_idx body firsts h
  unfold srnglr_firsts_production
  split_ifs
  · exact firsts_wf_set n _ hb symbol_idx _ (first_of_symbol_wf n _ hb symbol_idx)
  · exact hb

theorem srnglr_firsts_pass_wf (g : Grammar) (firsts : List fset)
    (h : firsts_wf g.symbols.length firsts) :
    firsts_wf g.symbols.length (srnglr_firsts_pass g firsts) := by
  unfold srnglr_firsts_pass
  refine foldl_preserves _ (firsts_wf g.symbols.length) _ ?_ firsts h
  intro s symbol_idx _ hs
  split_ifs
  · exact hs
  · exact foldl_preserves _ (firsts_wf g.symbols.length) _
      (fun s body _ hs => srnglr_firsts_production_wf _ symbol_idx s body hs) s hs

theorem srnglr_firsts_init_wf (g : Grammar) :
    firsts_wf g.symbols.length (srnglr_firsts_init g) := by
  unfold srnglr_firsts_init
  refine foldl_preserves _ (firsts_wf g.symbols.length) _ ?_ _ ?_
  · intro s symbol_idx hidx hs
    simp only
    split_ifs
    · refine firsts_wf_set _ s hs symbol_idx _ ?_
      obtain ⟨h1, h2⟩ := first_of_symbol_wf _ s hs symbol_idx
      unfold fset_add
      simp only [set_add_decide]
      split_ifs with hmem
      · exact ⟨h1, h2⟩
      · constructor
        · exact List.Nodup.append h1 (by simp) (by
            intro a ha ha'
            rw [List.mem_singleton] at ha'
            exact hmem (ha' ▸ ha))
        · intro t ht
          rcases List.mem_append.1 ht with ht | ht
          · exact h2 t ht
          · rw [List.mem_singleton] at ht
            rw [ht]
            exact List.mem_range.1 hidx
    · exact hs
  · refine ⟨by simp, ?_⟩
    intro s hs
    rw [List.eq_of_mem_replicate hs]
    simp [new_fset]

theorem foldl_count_le (c : Nat) (l : List fset)
    (h : ∀ s ∈ l, s.terminals.length + (if s.nullable then 1 else 0) ≤ c) :
    ∀ acc, l.foldl (fun count s => count + (s.terminals.length + (if s.nullable then 1 else 0)))
      acc ≤ acc + l.length * c := by
  induction l with
  | nil => intro acc; simp
  | cons s rest ih =>
    intro acc
    rw [List.foldl_cons]
    have h1 := ih (fun s' hs' => h s' (List.mem_cons_of_mem _ hs')) (acc +
      (s.terminals.length + (if s.nullable then 1 else 0)))
    have h2 := h s (by simp)
    rw [List.length_cons, Nat.succ_mul]
    omega

theorem srnglr_count_firsts_size_le (n : Nat) (firsts : List fset) (h : firsts_wf n firsts) :
    srnglr_count_firsts_size firsts ≤ n * (n + 1) := by
  unfold srnglr_count_firsts_size
  have := foldl_count_le (n + 1) firsts ?_ 0
  · rw [h.1] at this
    omega
  · intro s hs
    obtain ⟨h1, h2⟩ := h.2 s hs
    have hlen : s.terminals.length ≤ n := by
      have := (List.Nodup.subperm h1 (fun t ht => List.mem_range.2 (h2 t ht))).length_le
      simpa using this
    split_ifs <;> omega

theorem srnglr_firsts_loop_enough_fuel (g : Grammar) :
    ∀ fuel1 fuel2 firsts, firsts_wf g.symbols.length firsts →
      g.symbols.length * (g.symbols.length + 1) < srnglr_count_firsts_size firsts + fuel1 →
      g.symbols.length * (g.symbols.length + 1) < srnglr_count_firsts_size firsts + fuel2 →
      srnglr_firsts_loop g fuel1 firsts = srnglr_firsts_loop g fuel2 firsts := by
  intro fuel1
  induction fuel1 with
  | zero =>
    intro fuel2 firsts hwf h1 _
    have := srnglr_count_firsts_size_le _ firsts hwf
    omega
  | succ n ih =>
    intro fuel2 firsts hwf h1 h2
    have hle := srnglr_count_firsts_size_le _ firsts hwf
    cases fuel2 with
    | zero => omega
    | succ m =>
      simp only [srnglr_firsts_loop]
      split_ifs with hlt
      · exact ih m _ (srnglr_firsts_pass_wf g firsts hwf) (by omega) (by omega)
      · rfl

/-- The loop of `srnglr_compute_symbol_firsts` terminates within its bound: every number of
passes above `|symbols| * (|symbols| + 1)` produces the same table, the table
`srnglr_compute_symbol_firsts`. -/
theorem srnglr_compute_symbol_firsts_enough_fuel (g : Grammar) (fuel : Nat)
    (h : g.symbols.length * (g.symbols.length + 1) < fuel) :
    srnglr_firsts_loop g fuel (srnglr_firsts_init g) = srnglr_compute_symbol_firsts g := by
  unfold srnglr_compute_symbol_firsts
  exact srnglr_firsts_loop_enough_fuel g _ _ _ (srnglr_firsts_init_wf g) (by omega)
    (by unfold firsts_bound; omega)

/-! ## Well-formed items and terminal lookaheads -/

theorem closure_candidates_wf (g : Grammar) (firsts : List fset) (y : metaitem)
    (h : y ∈ closure_candidates g firsts) : metaitem_wf g y := by
  unfold closure_candidates at h
  simp only [List.mem_flatMap, List.mem_range, List.mem_map] at h
  obtain ⟨B, _, p, hp, b, _, rfl⟩ := h
  exact ⟨(metaparser_get_production_bodies g B)[p], by
    unfold metaparser_get_production_body
    exact List.getElem?_eq_getElem hp, Nat.zero_le _⟩

theorem srnglr_closure_wf (g : Grammar) (firsts : List fset) (I : List metaitem)
    (hI : ∀ x ∈ I, metaitem_wf g x) : ∀ x ∈ srnglr_closure g firsts I, metaitem_wf g x := by
  obtain ⟨⟨added, hadd, _, hsub⟩, _⟩ := srnglr_closure_spec g firsts I
  intro x hx
  rw [hadd] at hx
  rcases List.mem_append.1 hx with hx | hx
  · exact hI x hx
  · exact closure_candidates_wf g firsts x (hsub x hx).1

theorem srnglr_goto_kernel_wf (g : Grammar) (I : List metaitem) (X : Nat) :
    ∀ x ∈ srnglr_goto_kernel g I X, metaitem_wf g x := by
  intro x hx
  obtain ⟨item, _, body, hbody, hlt, _, rfl⟩ := ((srnglr_goto_kernel_spec g X I).2 x).1 hx
  exact ⟨body, hbody, hlt⟩

/-- C11: item well-formedness is preserved by the construction. If every item of `I` has an
existing production and a position that is at most the length of its body, so has every item of
`srnglr_closure(I)`; every item of `srnglr_goto(I, X)` has, for every `X` (whatever `I` is); and
when the augmented start rule (production 0 of the start symbol) exists, so has every item of
every state that `srnglr_generate_grammar_itemsets` produces. -/
theorem srnglr_items_stay_well_formed (g : Grammar) :
    (∀ (firsts : List fset) (I : List metaitem),
        (∀ x ∈ I, metaitem_wf g x) → ∀ x ∈ srnglr_closure g firsts I, metaitem_wf g x) ∧
      (∀ (firsts : List fset) (I : List metaitem) (X : Nat),
        (∀ x ∈ I, metaitem_wf g x) → ∀ x ∈ srnglr_goto g firsts I X, metaitem_wf g x) ∧
      ((∃ body, metaparser_get_production_body g g.start_idx 0 = some body) →
        ∀ I ∈ (srnglr_generate_grammar_itemsets g).srnglr_itemsets, ∀ x ∈ I,
          metaitem_wf g x) := by
  refine ⟨fun firsts I hI => srnglr_closure_wf g firsts I hI, ?_, ?_⟩
  · intro firsts I X _
    exact srnglr_closure_wf g firsts _ (srnglr_goto_kernel_wf g I X)
  · rintro ⟨body0, hbody0⟩ I hI x hx
    obtain ⟨_, hinv, _, _, _⟩ := srnglr_generate_grammar_itemsets_spec g
    have hmem := hinv.items I hI x hx
    rw [mem_state_items] at hmem
    obtain ⟨hbase, hle⟩ := hmem
    rcases List.mem_cons.1 hbase with hs | hc
    · have h1 : x.head_idx = g.start_idx := congrArg metaitem.head_idx hs
      have h2 : x.production_idx = 0 := congrArg metaitem.production_idx hs
      rw [h1, h2, hbody0] at hle
      exact ⟨body0, by rw [h1, h2]; exact hbody0, hle⟩
    · obtain ⟨body, hbody, _⟩ := closure_candidates_wf g _ _ hc
      simp only at hbody
      rw [hbody] at hle
      exact ⟨body, hbody, hle⟩

set_option maxRecDepth 100000 in
/-- C11 at the grammar `S → S + S | a`: the start kernel is well formed, and so is the item
`[S → ·S+S, $]` of its closure, of the goto of the kernel on `S`, and of state 0. -/
theorem srnglr_items_stay_well_formed_witness :
    (∀ x ∈ [(⟨0, 0, 0, 4⟩ : metaitem)], metaitem_wf grammar_sum x) ∧
      (∃ body, metaparser_get_production_body grammar_sum grammar_sum.start_idx 0 = some body) ∧
      (∀ x ∈ srnglr_closure grammar_sum (srnglr_compute_symbol_firsts grammar_sum)
          [⟨0, 0, 0, 4⟩], metaitem_wf grammar_sum x) ∧
      (∀ x ∈ srnglr_goto grammar_sum (srnglr_compute_symbol_firsts grammar_sum)
          [⟨0, 0, 0, 4⟩] 1, metaitem_wf grammar_sum x) ∧
      (∀ I ∈ (srnglr_generate_grammar_itemsets grammar_sum).srnglr_itemsets, ∀ x ∈ I,
          metaitem_wf grammar_sum x) :=
  have h1 : ∀ x ∈ [(⟨0, 0, 0, 4⟩ : metaitem)], metaitem_wf grammar_sum x := by
    intro x hx
    rw [List.mem_singleton] at hx
    subst hx
    exact ⟨[1], by decide!, by decide⟩
  have h2 : ∃ body,
      metaparser_get_production_body grammar_sum grammar_sum.start_idx 0 = some body :=
    ⟨[1], by decide!⟩
  ⟨h1, h2, (srnglr_items_stay_well_formed grammar_sum).1 _ _ h1,
    (srnglr_items_stay_well_formed grammar_sum).2.1 _ _ 1 h1,
    (srnglr_items_stay_well_formed grammar_sum).2.2 h2⟩

set_option maxRecDepth 100000 in
/-- C13: scenario S1. For the augmented grammar `S' → S`, `S → a` the table produced by
`srnglr_generate_grammar_itemsets` has `Push(q)` in cell `(0, a)` for a state `q`,
`Reduce(S, 1)` in cell `(q, $)`, and `Accept` in cell `(r, $)` where `r` is the target of the
push of cell `(0, S)`. -/
theorem srnglr_generate_scenario_s1 :
    ∃ q r,
      action.Push q ∈ table_cell (srnglr_generate_grammar_itemsets grammar_s1).srnglr_table 0 2 ∧
        action.Reduce 1 1 ∈
          table_cell (srnglr_generate_grammar_itemsets grammar_s1).srnglr_table q 3 ∧
        action.Push r ∈
          table_cell (srnglr_generate_grammar_itemsets grammar_s1).srnglr_table 0 1 ∧
        action.Accept ∈
          table_cell (srnglr_generate_grammar_itemsets grammar_s1).srnglr_table r 3 :=
  ⟨2, 1, by decide!⟩

theorem first_of_symbol_all (P : Nat → Prop) (firsts : List fset) (h : firsts_all P firsts)
    (x : Nat) : ∀ t ∈ (first_of_symbol firsts x).terminals, P t := by
  unfold first_of_symbol
  rw [List.getD_eq_getElem?_getD]
  cases hx : firsts[x]? with
  | none => simp [new_fset]
  | some s => exact h s (List.getElem?_mem hx)

theorem firsts_all_set (P : Nat → Prop) (firsts : List fset) (h : firsts_all P firsts) (i : Nat)
    (e : fset) (he : ∀ t ∈ e.terminals, P t) : firsts_all P (firsts.set i e) := by
  intro s hs
  rcases List.mem_or_eq_of_mem_set hs with hs | rfl
  · exact h s hs
  · exact he

theorem fset_union_into_all (P : Nat → Prop) (left right : fset) (d : Bool)
    (hl : ∀ t ∈ left.terminals, P t) (hr : ∀ t ∈ right.terminals, P t) :
    ∀ t ∈ (fset_union_into left right d).terminals, P t := by
  intro t ht
  rcases (fset_union_into_terminals left right d t).1 ht with h | h
  · exact hl t h
  · exact hr t h

theorem srnglr_firsts_body_all (P : Nat → Prop) (symbol_idx : Nat) (body : List Nat) :
    ∀ firsts, firsts_all P firsts → firsts_all P (srnglr_firsts_body symbol_idx body firsts) := by
  induction body with
  | nil => intro firsts h; exact h
  | cons x rest ih =>
    intro firsts h
    have hset := firsts_all_set P firsts h symbol_idx _
      (fset_union_into_all P _ _ true (first_of_symbol_all P firsts h symbol_idx)
        (first_of_symbol_all P firsts h x))
    unfold srnglr_firsts_body
    simp only
    split_ifs
    · exact hset
    · exact ih _ hset

theorem srnglr_firsts_production_all (P : Nat → Prop) (symbol_idx : Nat) (firsts : List fset)
    (body : List Nat) (h : firsts_all P firsts) :
    firsts_all P (srnglr_firsts_production symbol_idx firsts body) := by
  have hb := srnglr_firsts_body_all P symbol_idx body firsts h
  unfold srnglr_firsts_production
  split_ifs
  · exact firsts_all_set P _ hb symbol_idx _ (first_of_symbol_all P _ hb symbol_idx)
  · exact hb

theorem srnglr_firsts_pass_all (P : Nat → Prop) (g : Grammar) (firsts : List fset)
    (h : firsts_all P firsts) : firsts_all P (srnglr_firsts_pass g firsts) := by
  unfold srnglr_firsts_pass
  refine foldl_preserves _ (firsts_all P) _ ?_ firsts h
  intro s symbol_idx _ hs
  split_ifs
  · exact hs
  · exact foldl_preserves _ (firsts_all P) _
      (fun s body _ hs => srnglr_firsts_production_all P symbol_idx s body hs) s hs

theorem srnglr_firsts_loop_all (P : Nat → Prop) (g : Grammar) (fuel : Nat) :
    ∀ firsts, firsts_all P firsts → firsts_all P (srnglr_firsts_loop g fuel firsts) := by
  induction fuel with
  | zero => intro firsts h; exact h
  | succ n ih =>
    intro firsts h
    unfold srnglr_firsts_loop
    simp only
    split_ifs
    · exact ih _ (srnglr_firsts_pass_all P g firsts h)
    · exact srnglr_firsts_pass_all P g firsts h

theorem srnglr_firsts_init_all_terminal (g : Grammar) :
    firsts_all (fun t => metaparser_is_symbol_terminal g t = true) (srnglr_firsts_init g) := by
  intro s hs t ht
  obtain ⟨a, ha⟩ := List.mem_iff_getElem?.1 hs
  unfold srnglr_firsts_init at ha
  rw [srnglr_firsts_init_step g _ _ ?_ a] at ha
  · split_ifs at ha with hc
    · cases ha
      simp only [List.mem_singleton] at ht
      rw [ht]
      exact hc.2.1
    · rw [List.getElem?_replicate] at ha
      split_ifs at ha
      cases ha
      simp [new_fset] at ht
  · intro b
    rw [List.getElem?_replicate]
    by_cases hb : b < g.symbols.length
    · simp [hb]
    · simp [hb]

/-- Every element of every first set of the computed table is a terminal of the symbol table. -/
theorem srnglr_compute_symbol_firsts_all_terminal (g : Grammar) :
    firsts_all (fun t => metaparser_is_symbol_terminal g t = true)
      (srnglr_compute_symbol_firsts g) :=
  srnglr_firsts_loop_all _ g _ _ (srnglr_firsts_init_all_terminal g)

/-- C12: when the endmarker symbol is a terminal of the symbol table (as
`metaparser_get_endmarker_symbol_idx` ensures), every item of every state produced by
`srnglr_generate_grammar_itemsets` has a lookahead that is the index of a terminal symbol; no
item carries a nonterminal as lookahead. -/
theorem srnglr_generate_lookaheads_are_terminals (g : Grammar)
    (hend : metaparser_is_symbol_terminal g g.endmarker_idx = true) :
    ∀ I ∈ (srnglr_generate_grammar_itemsets g).srnglr_itemsets, ∀ x ∈ I,
      metaparser_is_symbol_terminal g x.lookahead_idx = true := by
  intro I hI x hx
  obtain ⟨_, hinv, _, _, _⟩ := srnglr_generate_grammar_itemsets_spec g
  have hmem := (mem_state_items g _ x).1 (hinv.items I hI x hx)
  rcases List.mem_cons.1 hmem.1 with hs | hc
  · have h1 : x.lookahead_idx = g.endmarker_idx := congrArg metaitem.lookahead_idx hs
    rw [h1]
    exact hend
  · unfold closure_candidates at hc
    simp only [List.mem_flatMap, List.mem_range, List.mem_map] at hc
    obtain ⟨B, _, p, _, b, hb, heq⟩ := hc
    have h1 : b = x.lookahead_idx := congrArg metaitem.lookahead_idx heq
    rw [← h1]
    unfold first_terminals at hb
    obtain ⟨s, hs, hbs⟩ := List.mem_flatMap.1 hb
    exact srnglr_compute_symbol_firsts_all_terminal g s hs b hbs

set_option maxRecDepth 100000 in
/-- C12 at the grammar `S → S + S | a`, whose endmarker is the terminal 4. -/
theorem srnglr_generate_lookaheads_are_terminals_witness :
    metaparser_is_symbol_terminal grammar_sum grammar_sum.endmarker_idx = true ∧
      ∀ I ∈ (srnglr_generate_grammar_itemsets grammar_sum).srnglr_itemsets, ∀ x ∈ I,
        metaparser_is_symbol_terminal grammar_sum x.lookahead_idx = true :=
  have h : metaparser_is_symbol_terminal grammar_sum grammar_sum.endmarker_idx = true := by
    decide!
  ⟨h, srnglr_generate_lookaheads_are_terminals grammar_sum h⟩

/-! ## parser.c and srnglr.c compute the same first sets -/

theorem parser_firsts_body_eq (symbol_idx : Nat) (body : List Nat) :
    ∀ firsts, parser_firsts_body symbol_idx body firsts =
      srnglr_firsts_body symbol_idx body firsts := by
  induction body with
  | nil => intro firsts; rfl
  | cons x rest ih =>
    intro firsts
    unfold parser_firsts_body srnglr_firsts_body
    simp only [ih]

theorem parser_firsts_production_eq (symbol_idx : Nat) (firsts : List fset) (body : List Nat) :
    parser_firsts_production symbol_idx firsts body =
      srnglr_firsts_production symbol_idx firsts body := by
  unfold parser_firsts_production srnglr_firsts_production
  simp only [parser_firsts_body_eq]

theorem parser_firsts_pass_eq (g : Grammar) (firsts : List fset) :
    parser_firsts_pass g firsts = srnglr_firsts_pass g firsts := by
  unfold parser_firsts_pass srnglr_firsts_pass
  have : parser_firsts_production = srnglr_firsts_production := by
    funext a b c
    exact parser_firsts_production_eq a b c
  rw [this]

theorem srnglr_firsts_loop_eq_do_while (g : Grammar) (fuel : Nat) :
    ∀ firsts, srnglr_firsts_loop g fuel firsts =
      do_while_grows srnglr_count_firsts_size (srnglr_firsts_pass g) fuel firsts := by
  induction fuel with
  | zero => intro firsts; rfl
  | succ n ih =>
    intro firsts
    unfold srnglr_firsts_loop do_while_grows
    simp only [ih]

/-- `parser_compute_symbol_firsts` and `srnglr_compute_symbol_firsts` run the same statements
and build the same table. -/
theorem parser_compute_symbol_firsts_eq (g : Grammar) :
    parser_compute_symbol_firsts g = srnglr_compute_symbol_firsts g := by
  unfold parser_compute_symbol_firsts srnglr_compute_symbol_firsts
  rw [srnglr_firsts_loop_eq_do_while]
  have h1 : parser_firsts_pass g = srnglr_firsts_pass g := funext (parser_firsts_pass_eq g)
  have h2 : parser_count_fsets_size = srnglr_count_firsts_size := rfl
  have h3 : parser_firsts_init g = srnglr_firsts_init g := rfl
  rw [h1, h2, h3]

theorem parser_first_of_string_loop_eq (firsts : List fset) (string : slice) (n : Nat) :
    ∀ i result, parser_first_of_string_loop firsts string n i result =
      srnglr_first_of_string_loop firsts string n i result := by
  induction n with
  | zero => intro i result; rfl
  | succ n ih =>
    intro i result
    unfold parser_first_of_string_loop srnglr_first_of_string_loop
    cases slice_get string i with
    | none => rfl
    | some x => simp only [ih]

theorem parser_first_of_string_eq (firsts : List fset) (string : slice) :
    parser_first_of_string firsts string = srnglr_first_of_string firsts string := by
  unfold parser_first_of_string srnglr_first_of_string
  simp only [parser_first_of_string_loop_eq]

theorem do_while_grows_getElem? {σ : Type} (size : List σ → Nat) (pass : List σ → List σ)
    (a : Nat) (h : ∀ s, (pass s)[a]? = s[a]?) (fuel : Nat) :
    ∀ s, (do_while_grows size pass fuel s)[a]? = s[a]? := by
  induction fuel with
  | zero => intro s; rfl
  | succ n ih =>
    intro s
    unfold do_while_grows
    simp only
    split_ifs
    · rw [ih, h]
    · exact h s

/-- C14: after `parser_compute_symbol_firsts`, and likewise after
`srnglr_compute_symbol_firsts`, the first set of every terminal symbol `t` holds exactly `t` and
its flag (`special`, `nullable`) is false; and the fixed-point loop never alters the first set of
a terminal: neither a pass nor any number of passes changes the entry of `t`, whatever table
they start from. -/
theorem firsts_of_terminal_is_itself (g : Grammar) (t : Nat)
    (ht : metaparser_is_symbol_terminal g t = true) :
    parser_first_of_symbol (parser_compute_symbol_firsts g) t = ⟨[t], false⟩ ∧
      first_of_symbol (srnglr_compute_symbol_firsts g) t = ⟨[t], false⟩ ∧
      (∀ firsts : List fset, (parser_firsts_pass g firsts)[t]? = firsts[t]?) ∧
      (∀ (fuel : Nat) (firsts : List fset),
        (do_while_grows parser_count_fsets_size (parser_firsts_pass g) fuel firsts)[t]? =
          firsts[t]?) ∧
      (∀ (fuel : Nat) (firsts : List fset), (srnglr_firsts_loop g fuel firsts)[t]? =
          firsts[t]?) := by
  have hpass : ∀ firsts : List fset, (parser_firsts_pass g firsts)[t]? = firsts[t]? := by
    intro firsts
    rw [parser_firsts_pass_eq]
    exact srnglr_firsts_pass_terminal g t ht firsts
  refine ⟨?_, srnglr_compute_symbol_firsts_terminal g t ht, hpass, ?_, ?_⟩
  · unfold parser_first_of_symbol
    rw [parser_compute_symbol_firsts_eq]
    exact srnglr_compute_symbol_firsts_terminal g t ht
  · intro fuel firsts
    exact do_while_grows_getElem? _ _ t hpass fuel firsts
  · intro fuel firsts
    exact srnglr_firsts_loop_terminal g t ht fuel firsts

/-- C14 at the grammar `S → S + S | a` and its terminal `a`. -/
theorem firsts_of_terminal_is_itself_witness :
    metaparser_is_symbol_terminal grammar_sum 3 = true ∧
      parser_first_of_symbol (parser_compute_symbol_firsts grammar_sum) 3 = ⟨[3], false⟩ :=
  have h : metaparser_is_symbol_terminal grammar_sum 3 = true := by decide
  ⟨h, (firsts_of_terminal_is_itself grammar_sum 3 h).1⟩

set_option maxRecDepth 100000 in
/-- C15, the code at the grammar `S' → A`, `A → B c`, `B → ε`: the only production of `A` is
the nullable `B` followed by the terminal `c`, whose first set is not nullable, and still both
`parser_compute_symbol_firsts` and `srnglr_compute_symbol_firsts` mark `A` nullable. -/
theorem compute_symbol_firsts_marks_nullable_prefix :
    metaparser_get_production_bodies grammar_nullable_prefix 1 = [[2, 3]] ∧
      (parser_first_of_symbol (parser_compute_symbol_firsts grammar_nullable_prefix) 2).nullable =
        true ∧
      (parser_first_of_symbol (parser_compute_symbol_firsts grammar_nullable_prefix) 3).nullable =
        false ∧
      (parser_first_of_symbol (parser_compute_symbol_firsts grammar_nullable_prefix) 1).nullable =
        true ∧
      (first_of_symbol (srnglr_compute_symbol_firsts grammar_nullable_prefix) 1).nullable =
        true := by
  decide!

/-! ## Tables of sets that only grow -/

theorem fset_le_refl (a : fset) : fset_le a a := ⟨List.prefix_refl _, fun h => h⟩

theorem fset_le_trans {a b c : fset} (h1 : fset_le a b) (h2 : fset_le b c) : fset_le a c :=
  ⟨h1.1.trans h2.1, fun h => h2.2 (h1.2 h)⟩

theorem fset_le_mem {a b : fset} (h : fset_le a b) (t : Nat) (ht : t ∈ a.terminals) :
    t ∈ b.terminals := h.1.subset ht

theorem fset_le_antisymm {a b : fset} (h1 : fset_le a b) (h2 : fset_le b a) : a = b := by
  obtain ⟨ta, na⟩ := a
  obtain ⟨tb, nb⟩ := b
  have ht : ta = tb := h1.1.eq_of_length (Nat.le_antisymm h1.1.length_le h2.1.length_le)
  have hn : na = nb := by
    have := h1.2
    have := h2.2
    cases na <;> cases nb <;> simp_all
  rw [ht, hn]

theorem fset_le_union_into (a b : fset) (d : Bool) : fset_le a (fset_union_into a b d) := by
  unfold fset_union_into
  obtain ⟨t, h1, _⟩ := foldl_set_add_decide b.terminals a.terminals
  refine ⟨?_, ?_⟩
  · simp only [h1]
    exact List.prefix_append _ _
  · intro h
    simp only
    split_ifs
    · simp [h]
    · exact h

theorem fset_le_set_flag (a : fset) : fset_le a { a with nullable := true } :=
  ⟨List.prefix_refl _, fun _ => rfl⟩

theorem first_of_symbol_set (F : List fset) (i j : Nat) (e : fset) :
    first_of_symbol (F.set i e) j =
      if i = j ∧ i < F.length then e else first_of_symbol F j := by
  unfold first_of_symbol
  rw [List.getD_eq_getElem?_getD, List.getD_eq_getElem?_getD, List.getElem?_set]
  by_cases hij : i = j
  · subst hij
    by_cases hlt : i < F.length
    · simp [hlt]
    · have : F[i]? = none := List.getElem?_eq_none (by omega)
      simp [hlt, this]
  · simp [hij]

theorem firsts_le_refl (F : List fset) : firsts_le F F := ⟨rfl, fun _ => fset_le_refl _⟩

theorem firsts_le_trans {F G H : List fset} (h1 : firsts_le F G) (h2 : firsts_le G H) :
    firsts_le F H :=
  ⟨h1.1.trans h2.1, fun i => fset_le_trans (h1.2 i) (h2.2 i)⟩

theorem firsts_le_set (F : List fset) (i : Nat) (e : fset)
    (h : fset_le (first_of_symbol F i) e) : firsts_le F (F.set i e) := by
  refine ⟨by rw [List.length_set], fun j => ?_⟩
  rw [first_of_symbol_set]
  split_ifs with hc
  · rw [← hc.1]
    exact h
  · exact fset_le_refl _

theorem firsts_le_antisymm {F G : List fset} (h1 : firsts_le F G) (h2 : firsts_le G F)
    (i : Nat) : first_of_symbol F i = first_of_symbol G i :=
  fset_le_antisymm (h1.2 i) (h2.2 i)

theorem firsts_le_foldl {α : Type} (f : List fset → α → List fset) (l : List α)
    (h : ∀ G x, x ∈ l → firsts_le G (f G x)) : ∀ G, firsts_le G (l.foldl f G) := by
  induction l with
  | nil => intro G; exact firsts_le_refl G
  | cons x xs ih =>
    intro G
    rw [List.foldl_cons]
    exact firsts_le_trans (h G x (by simp))
      (ih (fun G y hy => h G y (List.mem_cons_of_mem _ hy)) _)

/-- When a fold of growing steps starting above `F` ends below `F`, every step started above
`F` and ended below `F`. -/
theorem firsts_le_foldl_sandwich {α : Type} (F : List fset) (f : List fset → α → List fset)
    (l : List α) (Q : α → Prop) (hmono : ∀ G x, x ∈ l → firsts_le G (f G x))
    (hQ : ∀ G x, x ∈ l → firsts_le F G → firsts_le (f G x) F → Q x) :
    ∀ G, firsts_le F G → firsts_le (l.foldl f G) F → ∀ x ∈ l, Q x := by
  induction l with
  | nil => intro G _ _ x hx; simp at hx
  | cons y ys ih =>
    intro G hFG hend x hx
    rw [List.foldl_cons] at hend
    have hmono' : ∀ G x, x ∈ ys → firsts_le G (f G x) :=
      fun G x hx => hmono G x (List.mem_cons_of_mem _ hx)
    have h1 : firsts_le (f G y) F := firsts_le_trans (firsts_le_foldl f ys hmono' _) hend
    rcases List.mem_cons.1 hx with rfl | hx
    · exact hQ G x (by simp) hFG h1
    · exact ih hmono' (fun G x hx => hQ G x (List.mem_cons_of_mem _ hx)) (f G y)
        (firsts_le_trans hFG (hmono G y (by simp))) hend x hx

theorem foldl_count_shift (l : List fset) : ∀ acc,
    l.foldl (fun count s => count + (s.terminals.length + (if s.nullable then 1 else 0))) acc =
      acc + l.foldl
        (fun count s => count + (s.terminals.length + (if s.nullable then 1 else 0))) 0 := by
  induction l with
  | nil => intro acc; simp
  | cons s rest ih =>
    intro acc
    rw [List.foldl_cons, List.foldl_cons, ih, ih (0 + _)]
    omega

theorem parser_count_fsets_size_cons (a : fset) (F : List fset) :
    parser_count_fsets_size (a :: F) =
      (a.terminals.length + (if a.nullable then 1 else 0)) + parser_count_fsets_size F := by
  unfold parser_count_fsets_size
  rw [List.foldl_cons, foldl_count_shift]
  omega

theorem parser_count_fsets_size_mono : ∀ F F' : List fset, F.length = F'.length →
    (∀ i, fset_le (F.getD i new_fset) (F'.getD i new_fset)) →
    parser_count_fsets_size F ≤ parser_count_fsets_size F' ∧
      (parser_count_fsets_size F' ≤ parser_count_fsets_size F → F' = F) := by
  intro F
  induction F with
  | nil =>
    intro F' hlen _
    cases F' with
    | nil => exact ⟨Nat.le_refl _, fun _ => rfl⟩
    | cons b F'' => simp at hlen
  | cons a F ih =>
    intro F' hlen hle
    cases F' with
    | nil => simp at hlen
    | cons b F'' =>
      have h0 : fset_le a b := by simpa using hle 0
      obtain ⟨h1, h2⟩ := ih F'' (by simpa using hlen) (fun i => by simpa using hle (i + 1))
      rw [parser_count_fsets_size_cons, parser_count_fsets_size_cons]
      have hlen0 := h0.1.length_le
      have hflag : (if a.nullable then 1 else 0) ≤ (if b.nullable then 1 else 0) := by
        by_cases ha : a.nullable = true
        · simp [ha, h0.2 ha]
        · simp [ha]
      refine ⟨by omega, fun hcount => ?_⟩
      have hrest : F'' = F := h2 (by omega)
      have hab : a = b := by
        apply fset_le_antisymm h0
        refine ⟨?_, ?_⟩
        · have : a.terminals = b.terminals := h0.1.eq_of_length (by omega)
          rw [this]
        · intro hb
          by_contra ha
          simp [ha, hb] at hflag hcount
          omega
      rw [hrest, hab]

theorem firsts_le_count {F F' : List fset} (h : firsts_le F F') :
    parser_count_fsets_size F ≤ parser_count_fsets_size F' ∧
      (parser_count_fsets_size F' ≤ parser_count_fsets_size F → F' = F) :=
  parser_count_fsets_size_mono F F' h.1 h.2

/-- A loop `do ... while (count < size)` over a table that only grows and whose size is bounded
by `B` ends, when it may run more than `B - size` passes, on a table that a further pass leaves
unchanged. -/
theorem do_while_grows_fixed (pass : List fset → List fset) (P : List fset → Prop) (B : Nat)
    (hP : ∀ F, P F → P (pass F)) (hmono : ∀ F, P F → firsts_le F (pass F))
    (hB : ∀ F, P F → parser_count_fsets_size F ≤ B) :
    ∀ fuel F, P F → B < parser_count_fsets_size F + fuel →
      pass (do_while_grows parser_count_fsets_size pass fuel F) =
          do_while_grows parser_count_fsets_size pass fuel F ∧
        P (do_while_grows parser_count_fsets_size pass fuel F) ∧
        firsts_le F (do_while_grows parser_count_fsets_size pass fuel F) := by
  intro fuel
  induction fuel with
  | zero =>
    intro F hF hlt
    have := hB F hF
    omega
  | succ n ih =>
    intro F hF hlt
    unfold do_while_grows
    simp only
    split_ifs with hc
    · obtain ⟨h1, h2, h3⟩ := ih (pass F) (hP F hF) (by omega)
      exact ⟨h1, h2, firsts_le_trans (hmono F hF) h3⟩
    · have heq : pass F = F := (firsts_le_count (hmono F hF)).2 (by omega)
      rw [heq]
      exact ⟨heq, hF, firsts_le_refl F⟩

/-- Two runs of such a loop that may both run enough passes end on the same table. -/
theorem do_while_grows_enough_fuel (pass : List fset → List fset) (P : List fset → Prop)
    (B : Nat) (hP : ∀ F, P F → P (pass F))
    (hB : ∀ F, P F → parser_count_fsets_size F ≤ B) :
    ∀ fuel1 fuel2 F, P F → B < parser_count_fsets_size F + fuel1 →
      B < parser_count_fsets_size F + fuel2 →
      do_while_grows parser_count_fsets_size pass fuel1 F =
        do_while_grows parser_count_fsets_size pass fuel2 F := by
  intro fuel1
  induction fuel1 with
  | zero =>
    intro fuel2 F hF h1 _
    have := hB F hF
    omega
  | succ n ih =>
    intro fuel2 F hF h1 h2
    have hle := hB F hF
    cases fuel2 with
    | zero => omega
    | succ m =>
      simp only [do_while_grows]
      split_ifs with hlt
      · exact ih m _ (hP F hF) (by omega) (by omega)
      · rfl

/-! ## The first sets are a fixed point of their rule -/

theorem srnglr_firsts_body_cons (A Y0 : Nat) (rest : List Nat) (G : List fset) :
    srnglr_firsts_body A (Y0 :: rest) G =
      if (first_of_symbol (G.set A (fset_union_into (first_of_symbol G A)
          (first_of_symbol G Y0) true)) Y0).nullable = false then
        G.set A (fset_union_into (first_of_symbol G A) (first_of_symbol G Y0) true)
      else srnglr_firsts_body A rest
        (G.set A (fset_union_into (first_of_symbol G A) (first_of_symbol G Y0) true)) := rfl

theorem srnglr_firsts_body_mono (A : Nat) (body : List Nat) :
    ∀ G, firsts_le G (srnglr_firsts_body A body G) := by
  induction body with
  | nil => intro G; exact firsts_le_refl G
  | cons Y0 rest ih =>
    intro G
    rw [srnglr_firsts_body_cons]
    have h1 := firsts_le_set G A _ (fset_le_union_into (first_of_symbol G A)
      (first_of_symbol G Y0) true)
    split_ifs
    · exact h1
    · exact firsts_le_trans h1 (ih _)

theorem srnglr_firsts_production_mono (A : Nat) (G : List fset) (body : List Nat) :
    firsts_le G (srnglr_firsts_production A G body) ∧
      firsts_le (srnglr_firsts_body A body G) (srnglr_firsts_production A G body) := by
  have h1 := srnglr_firsts_body_mono A body G
  unfold srnglr_firsts_production
  simp only
  split_ifs
  · have h2 := firsts_le_set (srnglr_firsts_body A body G) A _
      (fset_le_set_flag (first_of_symbol (srnglr_firsts_body A body G) A))
    exact ⟨firsts_le_trans h1 h2, h2⟩
  · exact ⟨h1, firsts_le_refl _⟩

theorem srnglr_firsts_pass_mono (g : Grammar) (G : List fset) :
    firsts_le G (srnglr_firsts_pass g G) := by
  unfold srnglr_firsts_pass
  apply firsts_le_foldl
  intro G A _
  split_ifs
  · exact firsts_le_refl G
  · exact firsts_le_foldl _ _ (fun G body _ => (srnglr_firsts_production_mono A G body).1) G

theorem srnglr_firsts_body_closed (F : List fset) (A : Nat) (hA : A < F.length) :
    ∀ (rest : List Nat) (G : List fset), firsts_le F G →
      firsts_le (srnglr_firsts_body A rest G) F →
      ∀ i Y : Nat, rest[i]? = some Y →
        (∀ j : Nat, j < i → ∀ Yj : Nat, rest[j]? = some Yj → (first_of_symbol F Yj).nullable = true) →
        ∀ t ∈ (first_of_symbol F Y).terminals, t ∈ (first_of_symbol F A).terminals := by
  intro rest
  induction rest with
  | nil => intro G _ _ i Y hi; simp at hi
  | cons Y0 rest ih =>
    intro G hFG hend i Y hi hpre t ht
    have hG1 := firsts_le_set G A _ (fset_le_union_into (first_of_symbol G A)
      (first_of_symbol G Y0) true)
    have hres : firsts_le (G.set A (fset_union_into (first_of_symbol G A)
        (first_of_symbol G Y0) true)) (srnglr_firsts_body A (Y0 :: rest) G) := by
      rw [srnglr_firsts_body_cons]
      split_ifs
      · exact firsts_le_refl _
      · exact srnglr_firsts_body_mono A rest _
    have hG1F := firsts_le_trans hres hend
    have hFG1 := firsts_le_trans hFG hG1
    have eqG1 := firsts_le_antisymm hFG1 hG1F
    have eqG := firsts_le_antisymm hFG (firsts_le_trans hG1 hG1F)
    cases i with
    | zero =>
      simp only [List.getElem?_cons_zero, Option.some.injEq] at hi
      subst hi
      rw [eqG1 A, first_of_symbol_set, if_pos ⟨rfl, by rw [← hFG.1]; exact hA⟩]
      rw [eqG Y0] at ht
      exact (fset_union_into_terminals _ _ _ t).2 (Or.inr ht)
    | succ i' =>
      have h0 : (first_of_symbol F Y0).nullable = true :=
        hpre 0 (Nat.succ_pos _) Y0 (by simp)
      rw [eqG1 Y0] at h0
      rw [srnglr_firsts_body_cons, if_neg (by rw [h0]; simp)] at hend
      simp only [List.getElem?_cons_succ] at hi
      exact ih _ hFG1 hend i' Y hi
        (fun j hj Yj hYj => hpre (j + 1) (by omega) Yj (by simpa using hYj)) t ht

theorem srnglr_firsts_pass_closed (g : Grammar) (F : List fset)
    (hlen : F.length = g.symbols.length) (hfix : srnglr_firsts_pass g F = F) (A : Nat)
    (hA : A < g.symbols.length) (hnt : metaparser_is_symbol_terminal g A = false)
    (body : List Nat) (hbody : body ∈ metaparser_get_production_bodies g A) (i Y : Nat)
    (hi : body[i]? = some Y)
    (hpre : ∀ j, j < i → ∀ Yj, body[j]? = some Yj → (first_of_symbol F Yj).nullable = true)
    (t : Nat) (ht : t ∈ (first_of_symbol F Y).terminals) :
    t ∈ (first_of_symbol F A).terminals := by
  have hend : firsts_le (srnglr_firsts_pass g F) F := by rw [hfix]; exact firsts_le_refl F
  unfold srnglr_firsts_pass at hend
  have hmono : ∀ (G : List fset) (A' : Nat), A' ∈ List.range g.symbols.length →
      firsts_le G ((fun firsts symbol_idx =>
        if metaparser_is_symbol_terminal g symbol_idx then firsts
        else (metaparser_get_production_bodies g symbol_idx).foldl
          (srnglr_firsts_production symbol_idx) firsts) G A') := by
    intro G A' _
    simp only
    split_ifs
    · exact firsts_le_refl G
    · exact firsts_le_foldl _ _ (fun G body _ => (srnglr_firsts_production_mono A' G body).1) G
  have hQ : ∀ (G : List fset) (A' : Nat), A' ∈ List.range g.symbols.length → firsts_le F G →
      firsts_le ((fun firsts symbol_idx =>
        if metaparser_is_symbol_terminal g symbol_idx then firsts
        else (metaparser_get_production_bodies g symbol_idx).foldl
          (srnglr_firsts_production symbol_idx) firsts) G A') F →
      (metaparser_is_symbol_terminal g A' = false →
        ∀ body ∈ metaparser_get_production_bodies g A', ∀ i Y : Nat, body[i]? = some Y →
          (∀ j : Nat, j < i → ∀ Yj : Nat, body[j]? = some Yj →
            (first_of_symbol F Yj).nullable = true) →
          ∀ t ∈ (first_of_symbol F Y).terminals, t ∈ (first_of_symbol F A').terminals) := by
    intro G A' hA' hFG hend' hnt'
    simp only [hnt', Bool.false_eq_true, if_false] at hend'
    have hA'' : A' < F.length := by rw [hlen]; exact List.mem_range.1 hA'
    exact firsts_le_foldl_sandwich F (srnglr_firsts_production A')
      (metaparser_get_production_bodies g A')
      (fun body => ∀ i Y : Nat, body[i]? = some Y →
        (∀ j : Nat, j < i → ∀ Yj : Nat, body[j]? = some Yj →
          (first_of_symbol F Yj).nullable = true) →
        ∀ t ∈ (first_of_symbol F Y).terminals, t ∈ (first_of_symbol F A').terminals)
      (fun G body _ => (srnglr_firsts_production_mono A' G body).1)
      (fun G body _ hFG hend'' =>
        srnglr_firsts_body_closed F A' hA'' body G hFG
          (firsts_le_trans (srnglr_firsts_production_mono A' G body).2 hend''))
      G hFG hend'
  exact firsts_le_foldl_sandwich F _ (List.range g.symbols.length)
    (fun A' => metaparser_is_symbol_terminal g A' = false →
      ∀ body ∈ metaparser_get_production_bodies g A', ∀ i Y : Nat, body[i]? = some Y →
        (∀ j : Nat, j < i → ∀ Yj : Nat, body[j]? = some Yj →
          (first_of_symbol F Yj).nullable = true) →
        ∀ t ∈ (first_of_symbol F Y).terminals, t ∈ (first_of_symbol F A').terminals)
    hmono hQ F (firsts_le_refl F) hend A (List.mem_range.2 hA) hnt body hbody i Y hi hpre t ht

theorem firsts_sound_step (g : Grammar) (F F' : List fset) (hs : firsts_sound g F)
    (hle : firsts_le F F')
    (hnew : ∀ A, metaparser_is_symbol_terminal g A = false →
      ∀ t ∈ (first_of_symbol F' A).terminals, t ∈ (first_of_symbol F A).terminals ∨
        ∃ body ∈ metaparser_get_production_bodies g A, ∃ i Y : Nat, body[i]? = some Y ∧
          (∀ j : Nat, j < i → ∀ Yj : Nat, body[j]? = some Yj → (first_of_symbol F' Yj).nullable = true) ∧
          t ∈ (first_of_symbol F' Y).terminals) :
    firsts_sound g F' := by
  intro A hA t ht
  rcases hnew A hA t ht with h | h
  · obtain ⟨body, hbody, i, Y, hi, hpre, hY⟩ := hs A hA t h
    exact ⟨body, hbody, i, Y, hi, fun j hj Yj hYj => (hle.2 Yj).2 (hpre j hj Yj hYj),
      fset_le_mem (hle.2 Y) t hY⟩
  · exact h

theorem srnglr_firsts_body_sound (g : Grammar) (A : Nat) (body : List Nat)
    (hbody : body ∈ metaparser_get_production_bodies g A) :
    ∀ (rest pre : List Nat) (G : List fset), body = pre ++ rest → firsts_sound g G →
      (∀ Yj ∈ pre, (first_of_symbol G Yj).nullable = true) →
      firsts_sound g (srnglr_firsts_body A rest G) := by
  intro rest
  induction rest with
  | nil => intro pre G _ hs _; exact hs
  | cons Y0 rest ih =>
    intro pre G hb hs hpre
    have hG1 := firsts_le_set G A _ (fset_le_union_into (first_of_symbol G A)
      (first_of_symbol G Y0) true)
    have hs1 : firsts_sound g (G.set A (fset_union_into (first_of_symbol G A)
        (first_of_symbol G Y0) true)) := by
      refine firsts_sound_step g G _ hs hG1 ?_
      intro A' hA' t ht
      rw [first_of_symbol_set] at ht
      split_ifs at ht with hc
      · obtain ⟨rfl, _⟩ := hc
        rcases (fset_union_into_terminals _ _ _ t).1 ht with h | h
        · exact Or.inl h
        · refine Or.inr ⟨body, hbody, pre.length, Y0, ?_, ?_, fset_le_mem (hG1.2 Y0) t h⟩
          · rw [hb, List.getElem?_append_right (Nat.le_refl _)]
            simp
          · intro j hj Yj hYj
            rw [hb, List.getElem?_append_left hj] at hYj
            exact (hG1.2 Yj).2 (hpre Yj (List.getElem?_mem hYj))
      · exact Or.inl ht
    rw [srnglr_firsts_body_cons]
    split_ifs with hc
    · exact hs1
    · refine ih (pre ++ [Y0]) _ (by rw [hb]; simp) hs1 ?_
      intro Yj hYj
      rcases List.mem_append.1 hYj with h | h
      · exact (hG1.2 Yj).2 (hpre Yj h)
      · rw [List.mem_singleton] at h
        rw [h]
        simpa using hc

theorem srnglr_firsts_production_sound (g : Grammar) (A : Nat) (body : List Nat)
    (hbody : body ∈ metaparser_get_production_bodies g A) (G : List fset)
    (hs : firsts_sound g G) : firsts_sound g (srnglr_firsts_production A G body) := by
  have h1 := srnglr_firsts_body_sound g A body hbody body [] G rfl hs (by simp)
  unfold srnglr_firsts_production
  simp only
  split_ifs
  · refine firsts_sound_step g _ _ h1 (firsts_le_set _ A _ (fset_le_set_flag _)) ?_
    intro A' _ t ht
    rw [first_of_symbol_set] at ht
    split_ifs at ht with hc
    · obtain ⟨rfl, _⟩ := hc
      exact Or.inl ht
    · exact Or.inl ht
  · exact h1

theorem srnglr_firsts_pass_sound (g : Grammar) (G : List fset) (hs : firsts_sound g G) :
    firsts_sound g (srnglr_firsts_pass g G) := by
  unfold srnglr_firsts_pass
  refine foldl_preserves _ (firsts_sound g) _ ?_ G hs
  intro G A _ hG
  split_ifs with ht
  · exact hG
  · exact foldl_preserves _ (firsts_sound g) _
      (fun G body hbody hG => srnglr_firsts_production_sound g A body hbody G hG) G hG

theorem srnglr_firsts_init_nonterminal (g : Grammar) (A : Nat)
    (hA : metaparser_is_symbol_terminal g A = false) :
    first_of_symbol (srnglr_firsts_init g) A = new_fset := by
  unfold first_of_symbol srnglr_firsts_init
  rw [List.getD_eq_getElem?_getD, srnglr_firsts_init_step g _ _ ?_ A]
  · simp only [hA, Bool.false_eq_true, false_and, and_false, if_false]
    rw [List.getElem?_replicate]
    split_ifs <;> rfl
  · intro b
    rw [List.getElem?_replicate]
    by_cases hb : b < g.symbols.length
    · simp [hb]
    · simp [hb]

theorem do_while_grows_preserves {σ : Type} (size : σ → Nat) (pass : σ → σ) (P : σ → Prop)
    (hP : ∀ s, P s → P (pass s)) (fuel : Nat) :
    ∀ s, P s → P (do_while_grows size pass fuel s) := by
  induction fuel with
  | zero => intro s hs; exact hs
  | succ n ih =>
    intro s hs
    unfold do_while_grows
    simp only
    split_ifs
    · exact ih _ (hP s hs)
    · exact hP s hs

theorem parser_compute_symbol_firsts_unfold (g : Grammar) :
    parser_compute_symbol_firsts g =
      do_while_grows parser_count_fsets_size (srnglr_firsts_pass g) (firsts_bound g)
        (srnglr_firsts_init g) := by
  unfold parser_compute_symbol_firsts
  have h1 : parser_firsts_pass g = srnglr_firsts_pass g := funext (parser_firsts_pass_eq g)
  have h3 : parser_firsts_init g = srnglr_firsts_init g := rfl
  rw [h1, h3]

/-- The table of first sets that the loop leaves is well formed, is left unchanged by a further
pass, and every terminal of it comes from a production. -/
theorem parser_compute_symbol_firsts_spec (g : Grammar) :
    firsts_wf g.symbols.length (parser_compute_symbol_firsts g) ∧
      srnglr_firsts_pass g (parser_compute_symbol_firsts g) = parser_compute_symbol_firsts g ∧
      firsts_sound g (parser_compute_symbol_firsts g) := by
  rw [parser_compute_symbol_firsts_unfold]
  obtain ⟨h1, h2, _⟩ := do_while_grows_fixed (srnglr_firsts_pass g)
    (firsts_wf g.symbols.length) (g.symbols.length * (g.symbols.length + 1))
    (fun F hF => srnglr_firsts_pass_wf g F hF)
    (fun F _ => srnglr_firsts_pass_mono g F)
    (fun F hF => srnglr_count_firsts_size_le _ F hF)
    (firsts_bound g) (srnglr_firsts_init g) (srnglr_firsts_init_wf g)
    (by unfold firsts_bound; omega)
  refine ⟨h2, h1, ?_⟩
  refine do_while_grows_preserves _ _ (firsts_sound g) (srnglr_firsts_pass_sound g) _ _ ?_
  intro A hA t ht
  rw [srnglr_firsts_init_nonterminal g A hA] at ht
  simp [new_fset] at ht

theorem first_derives_mono (g : Grammar) (F F' : List fset) (hle : firsts_le F F') (t X : Nat)
    (h : first_derives g F t X) : first_derives g F' t X := by
  induction h with
  | terminal ht => exact first_derives.terminal ht
  | production A body i Y hlt hA hbody hi hpre _ ih =>
    exact first_derives.production A body i Y hlt hA hbody hi
      (fun j hj Yj hYj => (hle.2 Yj).2 (hpre j hj Yj hYj)) ih

theorem firsts_derivable_step (g : Grammar) (F F' : List fset) (hs : firsts_derivable g F)
    (hle : firsts_le F F')
    (hnew : ∀ X, ∀ t ∈ (first_of_symbol F' X).terminals, t ∈ (first_of_symbol F X).terminals ∨
      (X < g.symbols.length ∧ metaparser_is_symbol_terminal g X = false ∧
        ∃ body ∈ metaparser_get_production_bodies g X, ∃ i Y : Nat, body[i]? = some Y ∧
          (∀ j : Nat, j < i → ∀ Yj : Nat, body[j]? = some Yj →
            (first_of_symbol F' Yj).nullable = true) ∧
          t ∈ (first_of_symbol F Y).terminals)) :
    firsts_derivable g F' := by
  intro X t ht
  rcases hnew X t ht with h | ⟨hlt, hX, body, hbody, i, Y, hi, hpre, hY⟩
  · exact first_derives_mono g F F' hle t X (hs X t h)
  · exact first_derives.production X body i Y hlt hX hbody hi hpre
      (first_derives_mono g F F' hle t Y (hs Y t hY))

theorem srnglr_firsts_body_derivable (g : Grammar) (A : Nat) (hlt : A < g.symbols.length)
    (hA : metaparser_is_symbol_terminal g A = false) (body : List Nat)
    (hbody : body ∈ metaparser_get_production_bodies g A) :
    ∀ (rest pre : List Nat) (G : List fset), body = pre ++ rest → firsts_derivable g G →
      (∀ Yj ∈ pre, (first_of_symbol G Yj).nullable = true) →
      firsts_derivable g (srnglr_firsts_body A rest G) := by
  intro rest
  induction rest with
  | nil => intro pre G _ hs _; exact hs
  | cons Y0 rest ih =>
    intro pre G hb hs hpre
    have hG1 := firsts_le_set G A _ (fset_le_union_into (first_of_symbol G A)
      (first_of_symbol G Y0) true)
    have hs1 : firsts_derivable g (G.set A (fset_union_into (first_of_symbol G A)
        (first_of_symbol G Y0) true)) := by
      refine firsts_derivable_step g G _ hs hG1 ?_
      intro A' t ht
      rw [first_of_symbol_set] at ht
      split_ifs at ht with hc
      · obtain ⟨rfl, _⟩ := hc
        rcases (fset_union_into_terminals _ _ _ t).1 ht with h | h
        · exact Or.inl h
        · refine Or.inr ⟨hlt, hA, body, hbody, pre.length, Y0, ?_, ?_, h⟩
          · rw [hb, List.getElem?_append_right (Nat.le_refl _)]
            simp
          · intro j hj Yj hYj
            rw [hb, List.getElem?_append_left hj] at hYj
            exact (hG1.2 Yj).2 (hpre Yj (List.getElem?_mem hYj))
      · exact Or.inl ht
    rw [srnglr_firsts_body_cons]
    split_ifs with hc
    · exact hs1
    · refine ih (pre ++ [Y0]) _ (by rw [hb]; simp) hs1 ?_
      intro Yj hYj
      rcases List.mem_append.1 hYj with h | h
      · exact (hG1.2 Yj).2 (hpre Yj h)
      · rw [List.mem_singleton] at h
        rw [h]
        simpa using hc

theorem srnglr_firsts_production_derivable (g : Grammar) (A : Nat) (hlt : A < g.symbols.length)
    (hA : metaparser_is_symbol_terminal g A = false) (body : List Nat)
    (hbody : body ∈ metaparser_get_production_bodies g A) (G : List fset)
    (hs : firsts_derivable g G) : firsts_derivable g (srnglr_firsts_production A G body) := by
  have h1 := srnglr_firsts_body_derivable g A hlt hA body hbody body [] G rfl hs (by simp)
  unfold srnglr_firsts_production
  simp only
  split_ifs
  · refine firsts_derivable_step g _ _ h1 (firsts_le_set _ A _ (fset_le_set_flag _)) ?_
    intro A' t ht
    rw [first_of_symbol_set] at ht
    split_ifs at ht with hc
    · obtain ⟨rfl, _⟩ := hc
      exact Or.inl ht
    · exact Or.inl ht
  · exact h1

theorem srnglr_firsts_pass_derivable (g : Grammar) (G : List fset)
    (hs : firsts_derivable g G) : firsts_derivable g (srnglr_firsts_pass g G) := by
  unfold srnglr_firsts_pass
  refine foldl_preserves _ (firsts_derivable g) _ ?_ G hs
  intro G A hmem hG
  have hlt : A < g.symbols.length := List.mem_range.1 hmem
  by_cases ht : metaparser_is_symbol_terminal g A = true
  · simp only [ht, if_true]
    exact hG
  · have hA : metaparser_is_symbol_terminal g A = false := by simpa using ht
    simp only [hA, Bool.false_eq_true, if_false]
    exact foldl_preserves _ (firsts_derivable g) _
      (fun G body hbody hG => srnglr_firsts_production_derivable g A hlt hA body hbody G hG) G hG

theorem srnglr_firsts_init_derivable (g : Grammar) :
    firsts_derivable g (srnglr_firsts_init g) := by
  intro X t ht
  by_cases hX : metaparser_is_symbol_terminal g X = true
  · have h := srnglr_firsts_init_terminal g X hX
    unfold first_of_symbol at ht
    rw [List.getD_eq_getElem?_getD, h] at ht
    simp only [Option.getD_some, List.mem_singleton] at ht
    rw [ht]
    exact first_derives.terminal hX
  · have hX' : metaparser_is_symbol_terminal g X = false := by simpa using hX
    rw [srnglr_firsts_init_nonterminal g X hX'] at ht
    simp [new_fset] at ht

theorem parser_compute_symbol_firsts_derivable (g : Grammar) :
    firsts_derivable g (parser_compute_symbol_firsts g) := by
  rw [parser_compute_symbol_firsts_unfold]
  exact do_while_grows_preserves _ _ (firsts_derivable g) (srnglr_firsts_pass_derivable g) _ _
    (srnglr_firsts_init_derivable g)

theorem first_derives_mem (g : Grammar) (t X : Nat)
    (h : first_derives g (parser_compute_symbol_firsts g) t X) :
    t ∈ (first_of_symbol (parser_compute_symbol_firsts g) X).terminals := by
  obtain ⟨hwf, hfix, _⟩ := parser_compute_symbol_firsts_spec g
  induction h with
  | terminal ht =>
    rw [parser_compute_symbol_firsts_eq, srnglr_compute_symbol_firsts_terminal g t ht]
    simp
  | production A body i Y hlt hA hbody hi hpre _ ih =>
    exact srnglr_firsts_pass_closed g _ hwf.1 hfix A hlt hA body hbody i Y hi hpre t ih

theorem first_derives_least (g : Grammar) (F T : List fset) (hT : firsts_rule_closed g F T)
    (t X : Nat) (h : first_derives g F t X) : t ∈ (first_of_symbol T X).terminals := by
  induction h with
  | terminal ht => exact hT.1 t ht
  | production A body i Y hlt hA hbody hi hpre _ ih =>
    exact hT.2 A hlt hA body hbody i Y hi hpre t ih

/-- C16: after `parser_compute_symbol_firsts`, for every nonterminal `A` of the symbol table and
every `t`: `t` is in the terminals of `first(A)` if and only if `A` has a production body
`Y1…Yk` and an index `i` such that the flag of `first(Yj)` is set for every `j < i` and `t` is
in the terminals of `first(Yi)`; the first sets and the flags are those of the computed table.
The table is the least one that the rule closes: `t` is in `first(A)` exactly when it is derived
for `A` by finitely many uses of the rule from a terminal (`first_derives`), the table is closed
under the rule, and every table closed under the rule holds `t` in its entry of `A` when the
computed table does. -/
theorem parser_compute_symbol_firsts_terminals_iff (g : Grammar) (A t : Nat)
    (hA : A < g.symbols.length) (hnt : metaparser_is_symbol_terminal g A = false) :
    (t ∈ (parser_first_of_symbol (parser_compute_symbol_firsts g) A).terminals ↔
      ∃ body ∈ metaparser_get_production_bodies g A, ∃ i Y : Nat, body[i]? = some Y ∧
        (∀ j : Nat, j < i → ∀ Yj : Nat, body[j]? = some Yj →
          (parser_first_of_symbol (parser_compute_symbol_firsts g) Yj).nullable = true) ∧
        t ∈ (parser_first_of_symbol (parser_compute_symbol_firsts g) Y).terminals) ∧
      (t ∈ (parser_first_of_symbol (parser_compute_symbol_firsts g) A).terminals ↔
        first_derives g (parser_compute_symbol_firsts g) t A) ∧
      firsts_rule_closed g (parser_compute_symbol_firsts g) (parser_compute_symbol_firsts g) ∧
      ∀ T : List fset, firsts_rule_closed g (parser_compute_symbol_firsts g) T →
        t ∈ (parser_first_of_symbol (parser_compute_symbol_firsts g) A).terminals →
        t ∈ (first_of_symbol T A).terminals := by
  obtain ⟨hwf, hfix, hsound⟩ := parser_compute_symbol_firsts_spec g
  have hder := parser_compute_symbol_firsts_derivable g
  unfold parser_first_of_symbol
  refine ⟨⟨hsound A hnt t, ?_⟩, ⟨hder A t, first_derives_mem g t A⟩, ⟨?_, ?_⟩, ?_⟩
  · rintro ⟨body, hbody, i, Y, hi, hpre, ht⟩
    exact srnglr_firsts_pass_closed g _ hwf.1 hfix A hA hnt body hbody i Y hi hpre t ht
  · intro a ha
    rw [parser_compute_symbol_firsts_eq, srnglr_compute_symbol_firsts_terminal g a ha]
    simp
  · intro A' hlt' hA' body hbody i Y hi hpre t' ht'
    exact srnglr_firsts_pass_closed g _ hwf.1 hfix A' hlt' hA' body hbody i Y hi hpre t' ht'
  · intro T hT ht
    exact first_derives_least g _ T hT t A (hder A t ht)

set_option maxRecDepth 100000 in
/-- C16 at the nonterminal `S` of the grammar `S → S + S | a`: the terminal `a` is in `first(S)`
and is derived for `S`; the terminal `+` is not in `first(S)` and is not derived for `S`. -/
theorem parser_compute_symbol_firsts_terminals_iff_witness :
    1 < grammar_sum.symbols.length ∧ metaparser_is_symbol_terminal grammar_sum 1 = false ∧
      3 ∈ (parser_first_of_symbol (parser_compute_symbol_firsts grammar_sum) 1).terminals ∧
      first_derives grammar_sum (parser_compute_symbol_firsts grammar_sum) 3 1 ∧
      2 ∉ (parser_first_of_symbol (parser_compute_symbol_firsts grammar_sum) 1).terminals ∧
      ¬ first_derives grammar_sum (parser_compute_symbol_firsts grammar_sum) 2 1 :=
  ⟨by decide, by decide, by decide,
    (parser_compute_symbol_firsts_terminals_iff grammar_sum 1 3 (by decide) (by decide)).2.1.1
      (by decide),
    by decide,
    fun h => absurd
      ((parser_compute_symbol_firsts_terminals_iff grammar_sum 1 2 (by decide)
        (by decide)).2.1.2 h) (by decide)⟩

/-! ## The first set of a string -/

theorem slice_get_lt (s : slice) (j x : Nat) (h : slice_get s j = some x) : j < slice_size s := by
  unfold slice_get at h
  unfold slice_size
  split_ifs at h with h1 h2
  · omega
  · rw [h] at *
    simp
    omega

theorem slice_get_some_of_lt (s : slice) (hwf : s.stop ≤ s.v.length) (j : Nat)
    (h : j < slice_size s) : ∃ x, slice_get s j = some x := by
  unfold slice_size at h
  unfold slice_get
  by_cases h1 : j < s.stop - s.start
  · rw [if_pos h1]
    exact ⟨s.v[s.start + j], List.getElem?_eq_getElem (by omega)⟩
  · rw [if_neg h1]
    cases hl : s.lookahead with
    | none => simp [hl] at h; omega
    | some a =>
      simp [hl] at h
      rw [if_pos (by omega)]
      exact ⟨a, rfl⟩

theorem fset_union_into_false_nullable (a b : fset) :
    (fset_union_into a b false).nullable = a.nullable := by
  simp [fset_union_into]

theorem parser_first_of_string_loop_succ_nonnull (firsts : List fset) (s : slice)
    (k i x0 : Nat) (result : fset) (hget : slice_get s i = some x0)
    (hn : (first_of_symbol firsts x0).nullable = false) :
    parser_first_of_string_loop firsts s (k + 1) i result =
      fset_union_into result (first_of_symbol firsts x0) false := by
  unfold parser_first_of_string_loop
  simp [hget, hn]

theorem parser_first_of_string_loop_succ_null (firsts : List fset) (s : slice)
    (k i x0 : Nat) (result : fset) (hget : slice_get s i = some x0)
    (hn : (first_of_symbol firsts x0).nullable = true) :
    parser_first_of_string_loop firsts s (k + 1) i result =
      parser_first_of_string_loop firsts s k (i + 1)
        (if i = slice_size s - 1 then
          { fset_union_into result (first_of_symbol firsts x0) false with nullable := true }
        else fset_union_into result (first_of_symbol firsts x0) false) := by
  conv_lhs => unfold parser_first_of_string_loop
  simp [hget, hn]

theorem parser_first_of_string_loop_spec (firsts : List fset) (s : slice)
    (hwf : s.stop ≤ s.v.length) :
    ∀ (k i : Nat) (result : fset), i + k = slice_size s →
      ((parser_first_of_string_loop firsts s k i result).nullable = true ↔
        result.nullable = true ∨ (0 < k ∧ ∀ j x : Nat, i ≤ j → slice_get s j = some x →
          (first_of_symbol firsts x).nullable = true)) ∧
      ∀ t, t ∈ (parser_first_of_string_loop firsts s k i result).terminals ↔
        t ∈ result.terminals ∨ ∃ j x : Nat, i ≤ j ∧ slice_get s j = some x ∧
          (∀ j' y : Nat, i ≤ j' → j' < j → slice_get s j' = some y →
            (first_of_symbol firsts y).nullable = true) ∧
          t ∈ (first_of_symbol firsts x).terminals := by
  intro k
  induction k with
  | zero =>
    intro i result hik
    simp only [parser_first_of_string_loop, Nat.lt_irrefl, false_and, or_false, true_and]
    intro t
    constructor
    · exact Or.inl
    · rintro (h | ⟨j, x, hj, hget, _⟩)
      · exact h
      · have := slice_get_lt s j x hget
        omega
  | succ k ih =>
    intro i result hik
    obtain ⟨x0, hget⟩ := slice_get_some_of_lt s hwf i (by omega)
    cases hn : (first_of_symbol firsts x0).nullable with
    | false =>
      rw [parser_first_of_string_loop_succ_nonnull firsts s k i x0 result hget hn]
      constructor
      · rw [fset_union_into_false_nullable]
        constructor
        · exact Or.inl
        · rintro (h | ⟨_, h⟩)
          · exact h
          · have := h i x0 (Nat.le_refl _) hget
            rw [hn] at this
            cases this
      · intro t
        rw [fset_union_into_terminals]
        constructor
        · rintro (h | h)
          · exact Or.inl h
          · exact Or.inr ⟨i, x0, Nat.le_refl _, hget, fun j' y h1 h2 => by omega, h⟩
        · rintro (h | ⟨j, x, hj, hgetj, hpre, ht⟩)
          · exact Or.inl h
          · rcases Nat.eq_or_lt_of_le hj with rfl | hlt
            · rw [hget] at hgetj
              cases hgetj
              exact Or.inr ht
            · have := hpre i x0 (Nat.le_refl _) hlt hget
              rw [hn] at this
              cases this
    | true =>
      rw [parser_first_of_string_loop_succ_null firsts s k i x0 result hget hn]
      obtain ⟨iha, ihb⟩ := ih (i + 1)
        (if i = slice_size s - 1 then
          { fset_union_into result (first_of_symbol firsts x0) false with nullable := true }
        else fset_union_into result (first_of_symbol firsts x0) false) (by omega)
      constructor
      · rw [iha]
        by_cases hlast : i = slice_size s - 1
        · simp only [if_pos hlast, true_or, true_iff]
          refine Or.inr ⟨Nat.succ_pos _, ?_⟩
          intro j x hj hgetj
          have := slice_get_lt s j x hgetj
          have hji : j = i := by omega
          subst hji
          rw [hget] at hgetj
          cases hgetj
          exact hn
        · simp only [if_neg hlast, fset_union_into_false_nullable]
          constructor
          · rintro (h | ⟨_, h⟩)
            · exact Or.inl h
            · refine Or.inr ⟨Nat.succ_pos _, ?_⟩
              intro j x hj hgetj
              rcases Nat.eq_or_lt_of_le hj with rfl | hlt
              · rw [hget] at hgetj
                cases hgetj
                exact hn
              · exact h j x hlt hgetj
          · rintro (h | ⟨_, h⟩)
            · exact Or.inl h
            · exact Or.inr ⟨by omega, fun j x hj hgetj => h j x (by omega) hgetj⟩
      · intro t
        rw [ihb]
        have hterm : t ∈ (if i = slice_size s - 1 then
            ({ fset_union_into result (first_of_symbol firsts x0) false with nullable := true } :
              fset)
            else fset_union_into result (first_of_symbol firsts x0) false).terminals ↔
            t ∈ result.terminals ∨ t ∈ (first_of_symbol firsts x0).terminals := by
          split_ifs
          · exact fset_union_into_terminals result (first_of_symbol firsts x0) false t
          · exact fset_union_into_terminals result (first_of_symbol firsts x0) false t
        rw [hterm]
        constructor
        · rintro ((h | h) | ⟨j, x, hj, hgetj, hpre, ht⟩)
          · exact Or.inl h
          · exact Or.inr ⟨i, x0, Nat.le_refl _, hget, fun j' y h1 h2 => by omega, h⟩
          · refine Or.inr ⟨j, x, by omega, hgetj, ?_, ht⟩
            intro j' y h1 h2 hgety
            rcases Nat.eq_or_lt_of_le h1 with rfl | hlt
            · rw [hget] at hgety
              cases hgety
              exact hn
            · exact hpre j' y hlt h2 hgety
        · rintro (h | ⟨j, x, hj, hgetj, hpre, ht⟩)
          · exact Or.inl (Or.inl h)
          · rcases Nat.eq_or_lt_of_le hj with rfl | hlt
            · rw [hget] at hgetj
              cases hgetj
              exact Or.inl (Or.inr ht)
            · exact Or.inr ⟨j, x, hlt, hgetj,
                fun j' y h1 h2 hgety => hpre j' y (by omega) h2 hgety, ht⟩

/-- C17: for every slice `β = X1…Xn` inside its vector, the flag of
`parser_first_of_string(β)` is set if and only if `n = 0` or the flag of `first(Xi)` is set for
every `i`; and its terminals are exactly the union of the terminals of `first(Xi)` over the
indices `i` up to and including the first `Xi` whose first set has no flag.
`srnglr_first_of_string` computes the same set. -/
theorem parser_first_of_string_spec (firsts : List fset) (s : slice)
    (hwf : s.stop ≤ s.v.length) :
    ((parser_first_of_string firsts s).nullable = true ↔
        slice_size s = 0 ∨ ∀ i x : Nat, slice_get s i = some x →
          (parser_first_of_symbol firsts x).nullable = true) ∧
      (∀ t, t ∈ (parser_first_of_string firsts s).terminals ↔
        ∃ i x : Nat, slice_get s i = some x ∧
          (∀ j y : Nat, j < i → slice_get s j = some y →
            (parser_first_of_symbol firsts y).nullable = true) ∧
          t ∈ (parser_first_of_symbol firsts x).terminals) ∧
      srnglr_first_of_string firsts s = parser_first_of_string firsts s := by
  refine ⟨?_, ?_, (parser_first_of_string_eq firsts s).symm⟩
  · unfold parser_first_of_string parser_first_of_symbol
    by_cases h0 : slice_size s = 0
    · simp [h0]
    · rw [if_neg h0]
      obtain ⟨ha, _⟩ := parser_first_of_string_loop_spec firsts s hwf (slice_size s) 0 new_fset
        (by omega)
      rw [ha]
      constructor
      · rintro (h | ⟨_, h⟩)
        · simp [new_fset] at h
        · exact Or.inr (fun i x hget => h i x (Nat.zero_le _) hget)
      · rintro (h | h)
        · exact absurd h h0
        · exact Or.inr ⟨by omega, fun j x _ hget => h j x hget⟩
  · intro t
    unfold parser_first_of_string parser_first_of_symbol
    by_cases h0 : slice_size s = 0
    · rw [if_pos h0]
      simp only [List.not_mem_nil, false_iff]
      rintro ⟨i, x, hget, _⟩
      have := slice_get_lt s i x hget
      omega
    · rw [if_neg h0]
      obtain ⟨_, hb⟩ := parser_first_of_string_loop_spec firsts s hwf (slice_size s) 0 new_fset
        (by omega)
      rw [hb]
      constructor
      · rintro (h | ⟨j, x, _, hget, hpre, ht⟩)
        · simp [new_fset] at h
        · exact ⟨j, x, hget, fun j' y h2 hgety => hpre j' y (Nat.zero_le _) h2 hgety, ht⟩
      · rintro ⟨j, x, hget, hpre, ht⟩
        exact Or.inr ⟨j, x, Nat.zero_le _, hget, fun j' y _ h2 hgety => hpre j' y h2 hgety, ht⟩

/-- C17 at the slice `A B` of the body of `S` in the grammar `S → A B`, `A → a`, `B → ε`. -/
theorem parser_first_of_string_spec_witness :
    (2 : Nat) ≤ [2, 3].length ∧
      (((parser_first_of_string (parser_compute_symbol_firsts grammar_nullable)
            ⟨[2, 3], 0, 2, none⟩).nullable = true ↔
          slice_size ⟨[2, 3], 0, 2, none⟩ = 0 ∨
            ∀ i x : Nat, slice_get ⟨[2, 3], 0, 2, none⟩ i = some x →
              (parser_first_of_symbol (parser_compute_symbol_firsts grammar_nullable)
                x).nullable = true) ∧
        (∀ t, t ∈ (parser_first_of_string (parser_compute_symbol_firsts grammar_nullable)
            ⟨[2, 3], 0, 2, none⟩).terminals ↔
          ∃ i x : Nat, slice_get ⟨[2, 3], 0, 2, none⟩ i = some x ∧
            (∀ j y : Nat, j < i → slice_get ⟨[2, 3], 0, 2, none⟩ j = some y →
              (parser_first_of_symbol (parser_compute_symbol_firsts grammar_nullable)
                y).nullable = true) ∧
            t ∈ (parser_first_of_symbol (parser_compute_symbol_firsts grammar_nullable)
              x).terminals) ∧
        srnglr_first_of_string (parser_compute_symbol_firsts grammar_nullable)
            ⟨[2, 3], 0, 2, none⟩ =
          parser_first_of_string (parser_compute_symbol_firsts grammar_nullable)
            ⟨[2, 3], 0, 2, none⟩) :=
  ⟨by decide, parser_first_of_string_spec (parser_compute_symbol_firsts grammar_nullable)
    ⟨[2, 3], 0, 2, none⟩ (by decide)⟩

/-! ## The memoized first set of a string -/

theorem slice_equals_iff (a b : slice) :
    slice_equals a b = true ↔
      a.stop - a.start = b.stop - b.start ∧
        (∀ i, i < a.stop - a.start → a.v[a.start + i]? = b.v[b.start + i]?) ∧
        a.lookahead = b.lookahead := by
  simp [slice_equals, and_assoc]

theorem slice_equals_size (a b : slice) (h : slice_equals a b = true) :
    slice_size a = slice_size b := by
  obtain ⟨h1, _, h3⟩ := (slice_equals_iff a b).1 h
  unfold slice_size
  rw [h1, h3]

theorem slice_equals_get (a b : slice) (h : slice_equals a b = true) (i : Nat) :
    slice_get a i = slice_get b i := by
  obtain ⟨h1, h2, h3⟩ := (slice_equals_iff a b).1 h
  unfold slice_get
  rw [← h1, h3]
  split_ifs with hlt
  · exact h2 i hlt
  · rfl
  · rfl

theorem slice_equals_symm (a b : slice) (h : slice_equals a b = true) :
    slice_equals b a = true := by
  obtain ⟨h1, h2, h3⟩ := (slice_equals_iff a b).1 h
  exact (slice_equals_iff b a).2 ⟨h1.symm, fun i hi => (h2 i (by omega)).symm, h3.symm⟩

theorem slice_equals_trans (a b c : slice) (h : slice_equals a b = true)
    (h' : slice_equals b c = true) : slice_equals a c = true := by
  obtain ⟨h1, h2, h3⟩ := (slice_equals_iff a b).1 h
  obtain ⟨h1', h2', h3'⟩ := (slice_equals_iff b c).1 h'
  exact (slice_equals_iff a c).2
    ⟨h1.trans h1', fun i hi => (h2 i hi).trans (h2' i (by omega)), h3.trans h3'⟩

theorem slice_equals_right (s s' : slice) (h : slice_equals s s' = true) (k : slice) :
    slice_equals k s = slice_equals k s' := by
  cases h1 : slice_equals k s with
  | true => exact (slice_equals_trans k s s' h1 h).symm
  | false =>
    cases h2 : slice_equals k s' with
    | false => rfl
    | true =>
      have := slice_equals_trans k s' s h2 (slice_equals_symm s s' h)
      rw [h1] at this
      cases this

theorem parser_first_of_string_loop_congr (firsts : List fset) (a b : slice)
    (hsize : slice_size a = slice_size b) (hget : ∀ i, slice_get a i = slice_get b i) (n : Nat) :
    ∀ i result, parser_first_of_string_loop firsts a n i result =
      parser_first_of_string_loop firsts b n i result := by
  induction n with
  | zero => intro i result; rfl
  | succ n ih =>
    intro i result
    unfold parser_first_of_string_loop
    rw [hget i, hsize]
    cases slice_get b i with
    | none => rfl
    | some x => simp only [ih]

/-- Equal slices have the same first set. -/
theorem parser_first_of_string_congr (firsts : List fset) (a b : slice)
    (h : slice_equals a b = true) :
    parser_first_of_string firsts a = parser_first_of_string firsts b := by
  unfold parser_first_of_string
  rw [slice_equals_size a b h,
    parser_first_of_string_loop_congr firsts a b (slice_equals_size a b h)
      (slice_equals_get a b h)]

theorem dict_get_by_congr {κ ν : Type} (eq : κ → κ → Bool) (s s' : κ)
    (h : ∀ k, eq k s = eq k s') (d : List (κ × ν)) :
    dict_get_by eq d s = dict_get_by eq d s' := by
  induction d with
  | nil => rfl
  | cons e rest ih =>
    obtain ⟨k, v⟩ := e
    simp only [dict_get_by, h k, ih]

theorem dict_get_by_some {κ ν : Type} (eq : κ → κ → Bool) (d : List (κ × ν)) (s : κ) (v : ν)
    (h : dict_get_by eq d s = some v) : ∃ k, (k, v) ∈ d ∧ eq k s = true := by
  induction d with
  | nil => simp [dict_get_by] at h
  | cons e rest ih =>
    obtain ⟨k, v'⟩ := e
    by_cases hk : eq k s = true
    · simp only [dict_get_by, hk, if_true, Option.some.injEq] at h
      subst h
      exact ⟨k, by simp, hk⟩
    · simp only [dict_get_by, hk, if_false] at h
      obtain ⟨k', hk', he⟩ := ih h
      exact ⟨k', List.mem_cons_of_mem _ hk', he⟩

theorem dict_set_by_of_none {κ ν : Type} (eq : κ → κ → Bool) (d : List (κ × ν)) (s : κ) (v : ν)
    (h : dict_get_by eq d s = none) : dict_set_by eq d s v = d ++ [(s, v)] := by
  induction d with
  | nil => rfl
  | cons e rest ih =>
    obtain ⟨k, v'⟩ := e
    by_cases hk : eq k s = true
    · simp [dict_get_by, hk] at h
    · simp only [dict_get_by, hk, if_false] at h
      simp [dict_set_by, hk, ih h]

theorem dict_get_by_append_of_none {κ ν : Type} (eq : κ → κ → Bool) (d : List (κ × ν))
    (s s' : κ) (v : ν) (h : dict_get_by eq d s' = none) :
    dict_get_by eq (d ++ [(s, v)]) s' = if eq s s' then some v else none := by
  induction d with
  | nil => simp [dict_get_by]
  | cons e rest ih =>
    obtain ⟨k, v'⟩ := e
    by_cases hk : eq k s' = true
    · simp [dict_get_by, hk] at h
    · simp only [dict_get_by, hk, if_false] at h
      simp only [List.cons_append, dict_get_by, hk, if_false]
      exact ih h

theorem memo_reachable_entries (firsts : List fset) (dict : List (slice × fset))
    (h : memo_reachable firsts dict) :
    ∀ k v, (k, v) ∈ dict → v = parser_first_of_string firsts k := by
  induction h with
  | empty => intro k v hkv; simp at hkv
  | call d s _ ih =>
    intro k v hkv
    unfold parser_memo_first_of_string at hkv
    cases hget : dict_get_by slice_equals d s with
    | some r =>
      simp only [hget] at hkv
      exact ih k v hkv
    | none =>
      simp only [hget, dict_set_by_of_none slice_equals d s _ hget] at hkv
      rcases List.mem_append.1 hkv with hkv | hkv
      · exact ih k v hkv
      · simp only [List.mem_singleton, Prod.mk.injEq] at hkv
        rw [hkv.1, hkv.2]

/-- C18: with the table of first sets fixed, for every state of the memo dictionary that calls
of `parser_memo_first_of_string` reach from the empty dictionary and every slice `s`,
`parser_memo_first_of_string(s)` returns the set `parser_first_of_string(s)` (same terminals,
same flag). After the call the dictionary holds that set under `s`: a lookup with a slice `s'`
that denotes the same symbol sequence finds it, and a second call with `s'` returns the stored set
and leaves the dictionary unchanged. A call that finds no entry appends the entry
`(s, parser_first_of_string(s))` to the dictionary; a call on any dictionary that holds a set
under the slice returns that stored set, whatever it is, and leaves the dictionary as it is. -/
theorem parser_memo_first_of_string_refines (firsts : List fset) (dict : List (slice × fset))
    (hreach : memo_reachable firsts dict) (s s' : slice) (heq : slice_equals s s' = true) :
    (parser_memo_first_of_string firsts dict s).1 = parser_first_of_string firsts s ∧
      dict_get_by slice_equals (parser_memo_first_of_string firsts dict s).2 s' =
        some (parser_memo_first_of_string firsts dict s).1 ∧
      parser_memo_first_of_string firsts (parser_memo_first_of_string firsts dict s).2 s' =
        ((parser_memo_first_of_string firsts dict s).1,
          (parser_memo_first_of_string firsts dict s).2) ∧
      (dict_get_by slice_equals dict s = none →
        (parser_memo_first_of_string firsts dict s).2 =
          dict ++ [(s, parser_first_of_string firsts s)]) ∧
      (∀ (d : List (slice × fset)) (r : fset), dict_get_by slice_equals d s' = some r →
        parser_memo_first_of_string firsts d s' = (r, d)) ∧
      memo_reachable firsts (parser_memo_first_of_string firsts dict s).2 := by
  have hent := memo_reachable_entries firsts dict hreach
  have hcongr : ∀ d : List (slice × fset),
      dict_get_by slice_equals d s' = dict_get_by slice_equals d s :=
    fun d => (dict_get_by_congr slice_equals s s' (slice_equals_right s s' heq) d).symm
  have hhit : ∀ (d : List (slice × fset)) (r : fset), dict_get_by slice_equals d s' = some r →
      parser_memo_first_of_string firsts d s' = (r, d) := by
    intro d r hr
    unfold parser_memo_first_of_string
    rw [hr]
  have hreach' : memo_reachable firsts (parser_memo_first_of_string firsts dict s).2 :=
    memo_reachable.call dict s hreach
  cases hget : dict_get_by slice_equals dict s with
  | some r =>
    have h1 : parser_memo_first_of_string firsts dict s = (r, dict) := by
      unfold parser_memo_first_of_string
      rw [hget]
    have hstored : dict_get_by slice_equals dict s' = some r := by rw [hcongr, hget]
    rw [h1] at hreach' ⊢
    refine ⟨?_, hstored, hhit dict r hstored, fun h => by simp at h, hhit, hreach'⟩
    obtain ⟨k, hk, hks⟩ := dict_get_by_some slice_equals dict s r hget
    rw [hent k r hk]
    exact parser_first_of_string_congr firsts k s hks
  | none =>
    have h1 : parser_memo_first_of_string firsts dict s =
        (parser_first_of_string firsts s,
          dict ++ [(s, parser_first_of_string firsts s)]) := by
      unfold parser_memo_first_of_string
      rw [hget]
      simp only [dict_set_by_of_none slice_equals dict s _ hget]
    have hstored : dict_get_by slice_equals (dict ++ [(s, parser_first_of_string firsts s)]) s' =
        some (parser_first_of_string firsts s) := by
      rw [dict_get_by_append_of_none slice_equals dict s s' _ (by rw [hcongr, hget]), heq]
      simp
    rw [h1] at hreach' ⊢
    exact ⟨rfl, hstored, hhit _ _ hstored, fun _ => rfl, hhit, hreach'⟩

/-- C18 at the empty dictionary and the slice `A B` of the grammar `S → A B`, `A → a`,
`B → ε`, asked for twice, the second time as a slice of another vector: the first call stores
the set, the second call finds it. On a dictionary that holds another set under the slice, the
call returns that set: the result comes from the lookup. -/
theorem parser_memo_first_of_string_refines_witness :
    memo_reachable (parser_compute_symbol_firsts grammar_nullable) [] ∧
      slice_equals ⟨[2, 3], 0, 2, none⟩ ⟨[1, 2, 3], 1, 3, none⟩ = true ∧
      parser_memo_first_of_string (parser_compute_symbol_firsts grammar_nullable) []
          ⟨[2, 3], 0, 2, none⟩ =
        (parser_first_of_string (parser_compute_symbol_firsts grammar_nullable)
            ⟨[2, 3], 0, 2, none⟩,
          [(⟨[2, 3], 0, 2, none⟩,
            parser_first_of_string (parser_compute_symbol_firsts grammar_nullable)
              ⟨[2, 3], 0, 2, none⟩)]) ∧
      parser_memo_first_of_string (parser_compute_symbol_firsts grammar_nullable)
          [(⟨[2, 3], 0, 2, none⟩, ⟨[99], false⟩)] ⟨[1, 2, 3], 1, 3, none⟩ =
        (⟨[99], false⟩, [(⟨[2, 3], 0, 2, none⟩, ⟨[99], false⟩)]) ∧
      dict_get_by slice_equals
          (parser_memo_first_of_string (parser_compute_symbol_firsts grammar_nullable) []
            ⟨[2, 3], 0, 2, none⟩).2 ⟨[1, 2, 3], 1, 3, none⟩ =
        some (parser_memo_first_of_string (parser_compute_symbol_firsts grammar_nullable) []
          ⟨[2, 3], 0, 2, none⟩).1 :=
  have h1 : memo_reachable (parser_compute_symbol_firsts grammar_nullable) [] :=
    memo_reachable.empty
  have h2 : slice_equals ⟨[2, 3], 0, 2, none⟩ ⟨[1, 2, 3], 1, 3, none⟩ = true := by decide
  ⟨h1, h2, by decide, by decide,
    (parser_memo_first_of_string_refines _ [] h1 _ _ h2).2.1⟩

/-! ## Follow sets -/

theorem parser_follows_element_some (firsts : List fset) (A : Nat) (body : List Nat)
    (G : List fset) (i B : Nat) (h : body[i]? = some B) :
    parser_follows_element firsts A body G i =
      if (parser_first_of_string firsts ⟨body, i + 1, body.length, none⟩).nullable = true then
        (G.set B (fset_union_into (first_of_symbol G B)
          (parser_first_of_string firsts ⟨body, i + 1, body.length, none⟩) false)).set B
          (fset_union_into
            (first_of_symbol (G.set B (fset_union_into (first_of_symbol G B)
              (parser_first_of_string firsts ⟨body, i + 1, body.length, none⟩) false)) B)
            (first_of_symbol (G.set B (fset_union_into (first_of_symbol G B)
              (parser_first_of_string firsts ⟨body, i + 1, body.length, none⟩) false)) A) true)
      else G.set B (fset_union_into (first_of_symbol G B)
        (parser_first_of_string firsts ⟨body, i + 1, body.length, none⟩) false) := by
  simp only [parser_follows_element, h]

theorem parser_follows_element_none (firsts : List fset) (A : Nat) (body : List Nat)
    (G : List fset) (i : Nat) (h : body[i]? = none) :
    parser_follows_element firsts A body G i = G := by
  simp only [parser_follows_element, h]

theorem parser_follows_element_mono (firsts : List fset) (A : Nat) (body : List Nat)
    (G : List fset) (i : Nat) : firsts_le G (parser_follows_element firsts A body G i) := by
  cases h : body[i]? with
  | none => rw [parser_follows_element_none firsts A body G i h]; exact firsts_le_refl G
  | some B =>
    rw [parser_follows_element_some firsts A body G i B h]
    have h1 := firsts_le_set G B _ (fset_le_union_into (first_of_symbol G B)
      (parser_first_of_string firsts ⟨body, i + 1, body.length, none⟩) false)
    split_ifs
    · exact firsts_le_trans h1 (firsts_le_set _ B _ (fset_le_union_into _ _ true))
    · exact h1

theorem parser_follows_body_mono (firsts : List fset) (A : Nat) (G : List fset)
    (body : List Nat) : firsts_le G (parser_follows_body firsts A G body) :=
  firsts_le_foldl _ _ (fun G i _ => parser_follows_element_mono firsts A body G i) G

theorem parser_follows_body_at_mono (g : Grammar) (firsts : List fset) (A : Nat)
    (G : List fset) (body_idx : Nat) :
    firsts_le G (parser_follows_body_at g firsts A G body_idx) := by
  unfold parser_follows_body_at
  cases metaparser_get_production_body g A body_idx with
  | none => exact firsts_le_refl G
  | some body => exact parser_follows_body_mono firsts A G body

theorem parser_follows_entry_mono (g : Grammar) (firsts : List fset) (G : List fset)
    (entry : Nat × List (List Nat)) : firsts_le G (parser_follows_entry g firsts G entry) :=
  firsts_le_foldl _ _ (fun G i _ => parser_follows_body_at_mono g firsts entry.1 G i) G

theorem parser_follows_pass_mono (g : Grammar) (firsts : List fset) (G : List fset) :
    firsts_le G (parser_follows_pass g firsts G) :=
  firsts_le_foldl _ _ (fun G entry _ => parser_follows_entry_mono g firsts G entry) G

theorem parser_first_of_string_loop_wf (n : Nat) (firsts : List fset)
    (h : firsts_wf n firsts) (s : slice) :
    ∀ (k i : Nat) (result : fset),
      (result.terminals.Nodup ∧ ∀ t ∈ result.terminals, t < n) →
      (parser_first_of_string_loop firsts s k i result).terminals.Nodup ∧
        ∀ t ∈ (parser_first_of_string_loop firsts s k i result).terminals, t < n := by
  intro k
  induction k with
  | zero => intro i result hr; exact hr
  | succ k ih =>
    intro i result hr
    unfold parser_first_of_string_loop
    cases slice_get s i with
    | none => exact hr
    | some x =>
      have hu := fset_union_into_wf n result (first_of_symbol firsts x) false hr
        (first_of_symbol_wf n firsts h x)
      simp only
      split_ifs
      all_goals first | exact hu | exact ih _ _ hu

theorem parser_first_of_string_wf (n : Nat) (firsts : List fset) (h : firsts_wf n firsts)
    (s : slice) :
    (parser_first_of_string firsts s).terminals.Nodup ∧
      ∀ t ∈ (parser_first_of_string firsts s).terminals, t < n := by
  unfold parser_first_of_string
  split_ifs
  · simp
  · exact parser_first_of_string_loop_wf n firsts h s _ _ _ (by simp [new_fset])

theorem parser_follows_element_wf (n : Nat) (firsts : List fset) (h : firsts_wf n firsts)
    (A : Nat) (body : List Nat) (G : List fset) (i : Nat) (hG : firsts_wf n G) :
    firsts_wf n (parser_follows_element firsts A body G i) := by
  cases hi : body[i]? with
  | none => rw [parser_follows_element_none firsts A body G i hi]; exact hG
  | some B =>
    rw [parser_follows_element_some firsts A body G i B hi]
    have h1 := firsts_wf_set n G hG B _
      (fset_union_into_wf n _ _ false (first_of_symbol_wf n G hG B)
        (parser_first_of_string_wf n firsts h ⟨body, i + 1, body.length, none⟩))
    split_ifs
    · exact firsts_wf_set n _ h1 B _
        (fset_union_into_wf n _ _ true (first_of_symbol_wf n _ h1 B)
          (first_of_symbol_wf n _ h1 A))
    · exact h1

theorem parser_follows_pass_wf (g : Grammar) (firsts : List fset)
    (h : firsts_wf g.symbols.length firsts) (G : List fset)
    (hG : firsts_wf g.symbols.length G) :
    firsts_wf g.symbols.length (parser_follows_pass g firsts G) := by
  unfold parser_follows_pass
  refine foldl_preserves _ (firsts_wf g.symbols.length) _ ?_ G hG
  intro G entry _ hG
  unfold parser_follows_entry
  refine foldl_preserves _ (firsts_wf g.symbols.length) _ ?_ G hG
  intro G body_idx _ hG
  unfold parser_follows_body_at
  cases metaparser_get_production_body g entry.1 body_idx with
  | none => exact hG
  | some body =>
    exact foldl_preserves _ (firsts_wf g.symbols.length) _
      (fun G i _ hG => parser_follows_element_wf _ firsts h entry.1 body G i hG) G hG

theorem first_of_symbol_replicate (n x : Nat) :
    first_of_symbol (List.replicate n new_fset) x = new_fset := by
  unfold first_of_symbol
  rw [List.getD_eq_getElem?_getD, List.getElem?_replicate]
  split_ifs <;> rfl

theorem parser_follows_init_wf (g : Grammar) :
    firsts_wf g.symbols.length (parser_follows_init g) := by
  unfold parser_follows_init
  rw [first_of_symbol_replicate]
  refine firsts_wf_set _ _ ⟨by simp, ?_⟩ _ _ (by simp [new_fset])
  intro s hs
  rw [List.eq_of_mem_replicate hs]
  simp [new_fset]

theorem parser_follows_init_flag (g : Grammar) (B : Nat) :
    (first_of_symbol (parser_follows_init g) B).nullable = true ↔
      B = g.start_idx ∧ g.start_idx < g.symbols.length := by
  unfold parser_follows_init
  rw [first_of_symbol_set]
  simp only [first_of_symbol_replicate, List.length_replicate]
  split_ifs with h
  · simp [h.1.symm, h.2]
  · simp only [new_fset, Bool.false_eq_true, false_iff]
    rintro ⟨h1, h2⟩
    exact h ⟨h1.symm, h2⟩

theorem parser_compute_symbol_follows_fixed (g : Grammar) (firsts : List fset)
    (h : firsts_wf g.symbols.length firsts) :
    parser_follows_pass g firsts (parser_compute_symbol_follows g firsts) =
        parser_compute_symbol_follows g firsts ∧
      firsts_wf g.symbols.length (parser_compute_symbol_follows g firsts) :=
  have key := do_while_grows_fixed (parser_follows_pass g firsts)
    (firsts_wf g.symbols.length) (g.symbols.length * (g.symbols.length + 1))
    (fun F hF => parser_follows_pass_wf g firsts h F hF)
    (fun F _ => parser_follows_pass_mono g firsts F)
    (fun F hF => srnglr_count_firsts_size_le _ F hF)
    (firsts_bound g) (parser_follows_init g) (parser_follows_init_wf g)
    (by unfold firsts_bound; omega)
  ⟨key.1, key.2.1⟩

theorem parser_compute_symbol_follows_ge_init (g : Grammar) (firsts : List fset) :
    firsts_le (parser_follows_init g) (parser_compute_symbol_follows g firsts) :=
  do_while_grows_preserves _ _ (fun F => firsts_le (parser_follows_init g) F)
    (fun F hF => firsts_le_trans hF (parser_follows_pass_mono g firsts F)) _ _
    (firsts_le_refl _)

theorem fset_union_into_true_nullable (a b : fset) :
    (fset_union_into a b true).nullable = (a.nullable || b.nullable) := by
  simp [fset_union_into]

theorem parser_follows_element_closed (firsts F : List fset) (A : Nat) (body : List Nat)
    (G : List fset) (i B : Nat) (hi : body[i]? = some B) (hB : B < F.length)
    (hFG : firsts_le F G) (hGF : firsts_le (parser_follows_element firsts A body G i) F) :
    follows_closed_at firsts F A body i B := by
  rw [parser_follows_element_some firsts A body G i B hi] at hGF
  have hBG : B < G.length := by rw [← hFG.1]; exact hB
  have h1 := firsts_le_set G B _ (fset_le_union_into (first_of_symbol G B)
    (parser_first_of_string firsts ⟨body, i + 1, body.length, none⟩) false)
  have hG1B : first_of_symbol (G.set B (fset_union_into (first_of_symbol G B)
      (parser_first_of_string firsts ⟨body, i + 1, body.length, none⟩) false)) B =
      fset_union_into (first_of_symbol G B)
        (parser_first_of_string firsts ⟨body, i + 1, body.length, none⟩) false := by
    rw [first_of_symbol_set]
    simp [hBG]
  have h2 := firsts_le_set (G.set B (fset_union_into (first_of_symbol G B)
      (parser_first_of_string firsts ⟨body, i + 1, body.length, none⟩) false)) B _
    (fset_le_union_into
      (first_of_symbol (G.set B (fset_union_into (first_of_symbol G B)
        (parser_first_of_string firsts ⟨body, i + 1, body.length, none⟩) false)) B)
      (first_of_symbol (G.set B (fset_union_into (first_of_symbol G B)
        (parser_first_of_string firsts ⟨body, i + 1, body.length, none⟩) false)) A) true)
  have hG1F : firsts_le (G.set B (fset_union_into (first_of_symbol G B)
      (parser_first_of_string firsts ⟨body, i + 1, body.length, none⟩) false)) F := by
    split_ifs at hGF
    · exact firsts_le_trans h2 hGF
    · exact hGF
  constructor
  · intro t ht
    have := hG1F.2 B
    rw [hG1B] at this
    exact fset_le_mem this t ((fset_union_into_terminals _ _ false t).2 (Or.inr ht))
  · intro hn
    rw [if_pos hn] at hGF
    have hu := hGF.2 B
    rw [first_of_symbol_set] at hu
    simp only [List.length_set, hBG, and_self, if_true] at hu
    have hA := (firsts_le_trans hFG h1).2 A
    constructor
    · intro t ht
      exact fset_le_mem hu t
        ((fset_union_into_terminals _ _ true t).2 (Or.inr (fset_le_mem hA t ht)))
    · intro hflag
      refine hu.2 ?_
      rw [fset_union_into_true_nullable, hA.2 hflag, Bool.or_true]

theorem parser_follows_body_closed (firsts F : List fset) (A : Nat) (body : List Nat)
    (G : List fset) (hFG : firsts_le F G)
    (hGF : firsts_le (parser_follows_body firsts A G body) F) (i B : Nat)
    (hi : body[i]? = some B) (hB : B < F.length) : follows_closed_at firsts F A body i B := by
  have hlt : i < body.length := by
    by_contra hge
    rw [List.getElem?_eq_none (not_lt.1 hge)] at hi
    cases hi
  exact firsts_le_foldl_sandwich F (parser_follows_element firsts A body)
    (List.range body.length)
    (fun i => ∀ B : Nat, body[i]? = some B → B < F.length →
      follows_closed_at firsts F A body i B)
    (fun G i _ => parser_follows_element_mono firsts A body G i)
    (fun G i _ hFG hGF B hi hB =>
      parser_follows_element_closed firsts F A body G i B hi hB hFG hGF)
    G hFG hGF i (List.mem_range.2 hlt) B hi hB

theorem parser_follows_body_at_closed (g : Grammar) (firsts F : List fset) (A : Nat)
    (G : List fset) (body_idx : Nat) (hFG : firsts_le F G)
    (hGF : firsts_le (parser_follows_body_at g firsts A G body_idx) F) (body : List Nat)
    (hbody : metaparser_get_production_body g A body_idx = some body) (i B : Nat)
    (hi : body[i]? = some B) (hB : B < F.length) : follows_closed_at firsts F A body i B := by
  unfold parser_follows_body_at at hGF
  simp only [hbody] at hGF
  exact parser_follows_body_closed firsts F A body G hFG hGF i B hi hB

theorem parser_follows_entry_closed (g : Grammar) (firsts F : List fset) (G : List fset)
    (entry : Nat × List (List Nat)) (hFG : firsts_le F G)
    (hGF : firsts_le (parser_follows_entry g firsts G entry) F) (body_idx : Nat)
    (hidx : body_idx < entry.2.length) (body : List Nat)
    (hbody : metaparser_get_production_body g entry.1 body_idx = some body) (i B : Nat)
    (hi : body[i]? = some B) (hB : B < F.length) :
    follows_closed_at firsts F entry.1 body i B :=
  firsts_le_foldl_sandwich F (parser_follows_body_at g firsts entry.1)
    (List.range entry.2.length)
    (fun body_idx => ∀ body : List Nat,
      metaparser_get_production_body g entry.1 body_idx = some body → ∀ i B : Nat,
        body[i]? = some B → B < F.length → follows_closed_at firsts F entry.1 body i B)
    (fun G body_idx _ => parser_follows_body_at_mono g firsts entry.1 G body_idx)
    (fun G body_idx _ hFG hGF body hbody i B hi hB =>
      parser_follows_body_at_closed g firsts F entry.1 G body_idx hFG hGF body hbody i B hi hB)
    G hFG hGF body_idx (List.mem_range.2 hidx) body hbody i B hi hB

theorem parser_follows_pass_closed (g : Grammar) (firsts F : List fset)
    (hfix : parser_follows_pass g firsts F = F) (A : Nat) (body : List Nat)
    (hbody : body ∈ metaparser_get_production_bodies g A) (i B : Nat)
    (hi : body[i]? = some B) (hB : B < F.length) : follows_closed_at firsts F A body i B := by
  have hend : firsts_le (parser_follows_pass g firsts F) F := by
    rw [hfix]
    exact firsts_le_refl F
  unfold metaparser_get_production_bodies at hbody
  cases hget : dict_get g.productions A with
  | none => simp [hget] at hbody
  | some bodies =>
    simp only [hget] at hbody
    obtain ⟨body_idx, hidx, hb⟩ := List.getElem_of_mem hbody
    have hbody' : metaparser_get_production_body g A body_idx = some body := by
      unfold metaparser_get_production_body metaparser_get_production_bodies
      simp only [hget]
      rw [List.getElem?_eq_getElem hidx, hb]
    exact firsts_le_foldl_sandwich F (parser_follows_entry g firsts) g.productions
      (fun entry => ∀ body_idx : Nat, body_idx < entry.2.length → ∀ body : List Nat,
        metaparser_get_production_body g entry.1 body_idx = some body → ∀ i B : Nat,
          body[i]? = some B → B < F.length → follows_closed_at firsts F entry.1 body i B)
      (fun G entry _ => parser_follows_entry_mono g firsts G entry)
      (fun G entry _ hFG hGF body_idx hidx body hbody i B hi hB =>
        parser_follows_entry_closed g firsts F G entry hFG hGF body_idx hidx body hbody i B hi
          hB)
      F (firsts_le_refl F) hend (A, bodies) (dict_get_mem g.productions A bodies hget)
      body_idx hidx body hbody' i B hi hB

theorem follows_sound_step (g : Grammar) (firsts F F' : List fset)
    (hs : follows_sound g firsts F) (hle : firsts_le F F')
    (hnew : ∀ B, (first_of_symbol F' B).nullable = true →
      (first_of_symbol F B).nullable = true ∨
        ∃ A : Nat, ∃ body ∈ metaparser_get_production_bodies g A, ∃ i : Nat,
          body[i]? = some B ∧
          (parser_first_of_string firsts ⟨body, i + 1, body.length, none⟩).nullable = true ∧
          (first_of_symbol F' A).nullable = true) :
    follows_sound g firsts F' := by
  intro B hB
  rcases hnew B hB with h | h
  · rcases hs B h with h | ⟨A, body, hbody, i, hi, hn, hA⟩
    · exact Or.inl h
    · exact Or.inr ⟨A, body, hbody, i, hi, hn, (hle.2 A).2 hA⟩
  · exact Or.inr h

theorem parser_follows_element_sound (g : Grammar) (firsts : List fset) (A : Nat)
    (body : List Nat) (hbody : body ∈ metaparser_get_production_bodies g A) (G : List fset)
    (i : Nat) (hs : follows_sound g firsts G) :
    follows_sound g firsts (parser_follows_element firsts A body G i) := by
  cases hi : body[i]? with
  | none => rw [parser_follows_element_none firsts A body G i hi]; exact hs
  | some B =>
    rw [parser_follows_element_some firsts A body G i B hi]
    have h1 := firsts_le_set G B _ (fset_le_union_into (first_of_symbol G B)
      (parser_first_of_string firsts ⟨body, i + 1, body.length, none⟩) false)
    have hs1 : follows_sound g firsts (G.set B (fset_union_into (first_of_symbol G B)
        (parser_first_of_string firsts ⟨body, i + 1, body.length, none⟩) false)) := by
      refine follows_sound_step g firsts G _ hs h1 ?_
      intro B' hB'
      rw [first_of_symbol_set] at hB'
      split_ifs at hB' with hc
      · rw [fset_union_into_false_nullable] at hB'
        rw [← hc.1]
        exact Or.inl hB'
      · exact Or.inl hB'
    split_ifs with hn
    · have h2 := firsts_le_set (G.set B (fset_union_into (first_of_symbol G B)
          (parser_first_of_string firsts ⟨body, i + 1, body.length, none⟩) false)) B _
        (fset_le_union_into
          (first_of_symbol (G.set B (fset_union_into (first_of_symbol G B)
            (parser_first_of_string firsts ⟨body, i + 1, body.length, none⟩) false)) B)
          (first_of_symbol (G.set B (fset_union_into (first_of_symbol G B)
            (parser_first_of_string firsts ⟨body, i + 1, body.length, none⟩) false)) A) true)
      refine follows_sound_step g firsts _ _ hs1 h2 ?_
      intro B' hB'
      rw [first_of_symbol_set] at hB'
      split_ifs at hB' with hc
      · rw [fset_union_into_true_nullable, Bool.or_eq_true] at hB'
        rcases hB' with hB' | hB'
        · rw [← hc.1]
          exact Or.inl hB'
        · refine Or.inr ⟨A, body, hbody, i, ?_, hn, (h2.2 A).2 hB'⟩
          rw [← hc.1]
          exact hi
      · exact Or.inl hB'
    · exact hs1

theorem parser_follows_pass_sound (g : Grammar) (firsts : List fset) (G : List fset)
    (hs : follows_sound g firsts G) : follows_sound g firsts (parser_follows_pass g firsts G) := by
  unfold parser_follows_pass
  refine foldl_preserves _ (follows_sound g firsts) _ ?_ G hs
  intro G entry _ hG
  unfold parser_follows_entry
  refine foldl_preserves _ (follows_sound g firsts) _ ?_ G hG
  intro G body_idx _ hG
  unfold parser_follows_body_at
  cases hb : metaparser_get_production_body g entry.1 body_idx with
  | none => exact hG
  | some body =>
    have hbody : body ∈ metaparser_get_production_bodies g entry.1 := List.getElem?_mem hb
    exact foldl_preserves _ (follows_sound g firsts) _
      (fun G i _ hG => parser_follows_element_sound g firsts entry.1 body hbody G i hG) G hG

theorem parser_compute_symbol_follows_sound (g : Grammar) (firsts : List fset) :
    follows_sound g firsts (parser_compute_symbol_follows g firsts) := by
  refine do_while_grows_preserves _ _ (follows_sound g firsts)
    (parser_follows_pass_sound g firsts) _ _ ?_
  intro B hB
  exact Or.inl ((parser_follows_init_flag g B).1 hB).1

/-- C19: after `parser_compute_symbol_follows`, whatever the table of first sets, the follow set
of the start symbol (the symbol that `metaparser_get_start_symbol_idx` returns, a symbol of the
symbol table) has its flag `special` set: `$` is in the follow set of the start symbol. -/
theorem parser_compute_symbol_follows_start_special (g : Grammar) (firsts : List fset)
    (hstart : g.start_idx < g.symbols.length) :
    (parser_follow_of_symbol (parser_compute_symbol_follows g firsts) g.start_idx).nullable =
      true :=
  ((parser_compute_symbol_follows_ge_init g firsts).2 g.start_idx).2
    ((parser_follows_init_flag g g.start_idx).2 ⟨rfl, hstart⟩)

/-- C19 at the grammar `S' → A`, `A → B c`, `B → ε` with its computed first sets. -/
theorem parser_compute_symbol_follows_start_special_witness :
    grammar_nullable_prefix.start_idx < grammar_nullable_prefix.symbols.length ∧
      (parser_follow_of_symbol
        (parser_compute_symbol_follows grammar_nullable_prefix
          (parser_compute_symbol_firsts grammar_nullable_prefix))
        grammar_nullable_prefix.start_idx).nullable = true :=
  ⟨by decide, parser_compute_symbol_follows_start_special grammar_nullable_prefix
    (parser_compute_symbol_firsts grammar_nullable_prefix) (by decide)⟩

/-- C20: after `parser_compute_symbol_follows`, run on the table of `parser_compute_symbol_firsts`,
a further pass over the productions changes nothing, and for every production `A → αBβ` (every
occurrence `i` of a symbol `B` of the symbol table in a body of `A`): the terminals of
`parser_first_of_string(β)` are in `follow(B)`; if the flag of `parser_first_of_string(β)` is set
then the terminals of `follow(A)` are in `follow(B)` and the flag of `follow(A)` implies the flag
of `follow(B)`; and the flag of `follow(B)` is never a copy of the flag of the first set of `β`:
when it is set, `B` is the start symbol or some production `A' → α'Bβ'` has the flag of
`parser_first_of_string(β')` and the flag of `follow(A')` set. -/
theorem parser_compute_symbol_follows_closed (g : Grammar) (A : Nat) (body : List Nat)
    (i B : Nat) (hbody : body ∈ metaparser_get_production_bodies g A)
    (hi : body[i]? = some B) (hB : B < g.symbols.length) :
    parser_follows_pass g (parser_compute_symbol_firsts g)
        (parser_compute_symbol_follows g (parser_compute_symbol_firsts g)) =
      parser_compute_symbol_follows g (parser_compute_symbol_firsts g) ∧
    (∀ t ∈ (parser_first_of_string (parser_compute_symbol_firsts g)
        ⟨body, i + 1, body.length, none⟩).terminals,
      t ∈ (parser_follow_of_symbol
        (parser_compute_symbol_follows g (parser_compute_symbol_firsts g)) B).terminals) ∧
    ((parser_first_of_string (parser_compute_symbol_firsts g)
        ⟨body, i + 1, body.length, none⟩).nullable = true →
      (∀ t ∈ (parser_follow_of_symbol
          (parser_compute_symbol_follows g (parser_compute_symbol_firsts g)) A).terminals,
        t ∈ (parser_follow_of_symbol
          (parser_compute_symbol_follows g (parser_compute_symbol_firsts g)) B).terminals) ∧
      ((parser_follow_of_symbol
          (parser_compute_symbol_follows g (parser_compute_symbol_firsts g)) A).nullable = true →
        (parser_follow_of_symbol
          (parser_compute_symbol_follows g (parser_compute_symbol_firsts g)) B).nullable =
            true)) ∧
    ((parser_follow_of_symbol
        (parser_compute_symbol_follows g (parser_compute_symbol_firsts g)) B).nullable = true →
      B = g.start_idx ∨
        ∃ A' : Nat, ∃ body' ∈ metaparser_get_production_bodies g A', ∃ i' : Nat,
          body'[i']? = some B ∧
          (parser_first_of_string (parser_compute_symbol_firsts g)
            ⟨body', i' + 1, body'.length, none⟩).nullable = true ∧
          (parser_follow_of_symbol
            (parser_compute_symbol_follows g (parser_compute_symbol_firsts g)) A').nullable =
              true) := by
  obtain ⟨hfix, hwf⟩ := parser_compute_symbol_follows_fixed g (parser_compute_symbol_firsts g)
    (parser_compute_symbol_firsts_spec g).1
  have hclosed := parser_follows_pass_closed g (parser_compute_symbol_firsts g) _ hfix A body
    hbody i B hi (by rw [hwf.1]; exact hB)
  exact ⟨hfix, hclosed.1, hclosed.2,
    parser_compute_symbol_follows_sound g (parser_compute_symbol_firsts g) B⟩

/-- C20 at the occurrence of `A` in the body `A B` of `S`, in the grammar `S' → S`, `S → A B`,
`A → a`, `B → ε`: the rest `B` of the body is nullable. -/
theorem parser_compute_symbol_follows_closed_witness :
    [2, 3] ∈ metaparser_get_production_bodies grammar_nullable 1 ∧
    [2, 3][0]? = some 2 ∧ 2 < grammar_nullable.symbols.length ∧
    parser_follows_pass grammar_nullable (parser_compute_symbol_firsts grammar_nullable)
        (parser_compute_symbol_follows grammar_nullable
          (parser_compute_symbol_firsts grammar_nullable)) =
      parser_compute_symbol_follows grammar_nullable
        (parser_compute_symbol_firsts grammar_nullable) ∧
    (∀ t ∈ (parser_first_of_string (parser_compute_symbol_firsts grammar_nullable)
        ⟨[2, 3], 0 + 1, [2, 3].length, none⟩).terminals,
      t ∈ (parser_follow_of_symbol
        (parser_compute_symbol_follows grammar_nullable
          (parser_compute_symbol_firsts grammar_nullable)) 2).terminals) ∧
    ((parser_first_of_string (parser_compute_symbol_firsts grammar_nullable)
        ⟨[2, 3], 0 + 1, [2, 3].length, none⟩).nullable = true →
      (∀ t ∈ (parser_follow_of_symbol
          (parser_compute_symbol_follows grammar_nullable
            (parser_compute_symbol_firsts grammar_nullable)) 1).terminals,
        t ∈ (parser_follow_of_symbol
          (parser_compute_symbol_follows grammar_nullable
            (parser_compute_symbol_firsts grammar_nullable)) 2).terminals) ∧
      ((parser_follow_of_symbol
          (parser_compute_symbol_follows grammar_nullable
            (parser_compute_symbol_firsts grammar_nullable)) 1).nullable = true →
        (parser_follow_of_symbol
          (parser_compute_symbol_follows grammar_nullable
            (parser_compute_symbol_firsts grammar_nullable)) 2).nullable = true)) ∧
    ((parser_follow_of_symbol
        (parser_compute_symbol_follows grammar_nullable
          (parser_compute_symbol_firsts grammar_nullable)) 2).nullable = true →
      2 = grammar_nullable.start_idx ∨
        ∃ A' : Nat, ∃ body' ∈ metaparser_get_production_bodies grammar_nullable A',
          ∃ i' : Nat, body'[i']? = some 2 ∧
          (parser_first_of_string (parser_compute_symbol_firsts grammar_nullable)
            ⟨body', i' + 1, body'.length, none⟩).nullable = true ∧
          (parser_follow_of_symbol
            (parser_compute_symbol_follows grammar_nullable
              (parser_compute_symbol_firsts grammar_nullable)) A').nullable = true) :=
  ⟨by decide, by decide, by decide,
    parser_compute_symbol_follows_closed grammar_nullable 1 [2, 3] 0 2 (by decide) (by decide)
      (by decide)⟩

/-! ## The order of the visits does not matter -/

theorem fset_sub_refl (a : fset) : fset_sub a a := ⟨fun _ h => h, fun h => h⟩

theorem fset_sub_trans {a b c : fset} (h1 : fset_sub a b) (h2 : fset_sub b c) : fset_sub a c :=
  ⟨fun t ht => h2.1 t (h1.1 t ht), fun h => h2.2 (h1.2 h)⟩

theorem fset_sub_of_le {a b : fset} (h : fset_le a b) : fset_sub a b :=
  ⟨fun t ht => fset_le_mem h t ht, h.2⟩

theorem firsts_sub_refl (F : List fset) : firsts_sub F F := ⟨rfl, fun _ => fset_sub_refl _⟩

theorem firsts_sub_trans {F G H : List fset} (h1 : firsts_sub F G) (h2 : firsts_sub G H) :
    firsts_sub F H :=
  ⟨h1.1.trans h2.1, fun i => fset_sub_trans (h1.2 i) (h2.2 i)⟩

theorem firsts_sub_of_le {F G : List fset} (h : firsts_le F G) : firsts_sub F G :=
  ⟨h.1, fun i => fset_sub_of_le (h.2 i)⟩

theorem fset_same_of_sub {a b : fset} (h1 : fset_sub a b) (h2 : fset_sub b a) : fset_same a b := by
  refine ⟨fun t => ⟨h1.1 t, h2.1 t⟩, ?_⟩
  cases ha : a.nullable with
  | true => exact (h1.2 ha).symm
  | false =>
    cases hb : b.nullable with
    | false => rfl
    | true =>
      have := h2.2 hb
      rw [ha] at this
      cases this

theorem fset_union_into_sub {a a' b b' : fset} (d : Bool) (ha : fset_sub a a')
    (hb : fset_sub b b') : fset_sub (fset_union_into a b d) (fset_union_into a' b' d) := by
  constructor
  · intro t ht
    rcases (fset_union_into_terminals a b d t).1 ht with h | h
    · exact (fset_union_into_terminals a' b' d t).2 (Or.inl (ha.1 t h))
    · exact (fset_union_into_terminals a' b' d t).2 (Or.inr (hb.1 t h))
  · cases d with
    | false =>
      rw [fset_union_into_false_nullable, fset_union_into_false_nullable]
      exact ha.2
    | true =>
      rw [fset_union_into_true_nullable, fset_union_into_true_nullable, Bool.or_eq_true,
        Bool.or_eq_true]
      rintro (h | h)
      · exact Or.inl (ha.2 h)
      · exact Or.inr (hb.2 h)

theorem firsts_sub_set {G F : List fset} (h : firsts_sub G F) (i : Nat) {e e' : fset}
    (he : fset_sub e e') : firsts_sub (G.set i e) (F.set i e') := by
  refine ⟨by rw [List.length_set, List.length_set]; exact h.1, ?_⟩
  intro j
  rw [first_of_symbol_set, first_of_symbol_set, h.1]
  split_ifs
  · exact he
  · exact h.2 j

theorem srnglr_firsts_body_sub (A : Nat) (body : List Nat) :
    ∀ G F, firsts_sub G F →
      firsts_sub (srnglr_firsts_body A body G) (srnglr_firsts_body A body F) := by
  induction body with
  | nil => intro G F h; exact h
  | cons Y0 rest ih =>
    intro G F h
    have h1 : firsts_sub
        (G.set A (fset_union_into (first_of_symbol G A) (first_of_symbol G Y0) true))
        (F.set A (fset_union_into (first_of_symbol F A) (first_of_symbol F Y0) true)) :=
      firsts_sub_set h A (fset_union_into_sub true (h.2 A) (h.2 Y0))
    rw [srnglr_firsts_body_cons, srnglr_firsts_body_cons]
    split_ifs with hG hF hF
    · exact h1
    · exact firsts_sub_trans h1 (firsts_sub_of_le (srnglr_firsts_body_mono A rest _))
    · have := (h1.2 Y0).2 (by simpa using hG)
      rw [hF] at this
      cases this
    · exact ih _ _ h1

theorem srnglr_firsts_production_sub (A : Nat) (body : List Nat) (G F : List fset)
    (h : firsts_sub G F) :
    firsts_sub (srnglr_firsts_production A G body) (srnglr_firsts_production A F body) := by
  have hb := srnglr_firsts_body_sub A body G F h
  unfold srnglr_firsts_production
  simp only
  split_ifs
  · exact firsts_sub_set hb A ⟨(hb.2 A).1, fun _ => rfl⟩
  · exact hb

theorem firsts_le_eq {F G : List fset} (h1 : firsts_le F G) (h2 : firsts_le G F) : G = F :=
  (firsts_le_count h1).2 (firsts_le_count h2).1

theorem foldl_flatMap_eq {α β σ : Type} (f : α → List β) (step : σ → β → σ) (l : List α) :
    ∀ s, (l.flatMap f).foldl step s = l.foldl (fun s x => (f x).foldl step s) s := by
  induction l with
  | nil => intro s; rfl
  | cons x xs ih =>
    intro s
    simp only [List.flatMap_cons, List.foldl_append, List.foldl_cons]
    exact ih _

/-- A table that a pass over the visits `l` leaves unchanged is left unchanged by every single
visit of `l`, when a visit only extends the sets. -/
theorem foldl_fixed_step {α : Type} (step : α → List fset → List fset) (l : List α)
    (hmono : ∀ s F, firsts_le F (step s F)) (R : List fset)
    (hfix : l.foldl (fun F s => step s F) R = R) : ∀ s ∈ l, step s R = R := by
  have hend : firsts_le (l.foldl (fun F s => step s F) R) R := by
    rw [hfix]
    exact firsts_le_refl R
  refine firsts_le_foldl_sandwich R (fun F s => step s F) l (fun s => step s R = R)
    (fun G s _ => hmono s G) ?_ R (firsts_le_refl R) hend
  intro G s _ hRG hGR
  have hG : G = R := firsts_le_eq hRG (firsts_le_trans (hmono s G) hGR)
  rw [hG] at hGR
  exact firsts_le_eq (hmono s R) hGR

/-- Two fixed-point computations from the same table, the visits of the first among the visits
of the second, every visit of the first inside the same visit of the second: the result of the
first is inside the result of the second. -/
theorem do_while_grows_sub {α : Type} (n : Nat) (step1 step2 : α → List fset → List fset)
    (l1 l2 : List α) (init : List fset) (hinit : firsts_wf n init)
    (hwf2 : ∀ s F, firsts_wf n F → firsts_wf n (step2 s F))
    (hmono2 : ∀ s F, firsts_le F (step2 s F))
    (hsub : ∀ s G F, firsts_sub G F → firsts_sub (step1 s G) (step2 s F))
    (hl : ∀ s ∈ l1, s ∈ l2) (fuel1 fuel2 : Nat) (hfuel2 : n * (n + 1) < fuel2) :
    firsts_sub
      (do_while_grows parser_count_fsets_size (fun F => l1.foldl (fun F s => step1 s F) F)
        fuel1 init)
      (do_while_grows parser_count_fsets_size (fun F => l2.foldl (fun F s => step2 s F) F)
        fuel2 init) := by
  obtain ⟨hfix, _, hle⟩ := do_while_grows_fixed (fun F => l2.foldl (fun F s => step2 s F) F)
    (firsts_wf n) (n * (n + 1))
    (fun F hF => foldl_preserves _ (firsts_wf n) l2 (fun G s _ hG => hwf2 s G hG) F hF)
    (fun F _ => firsts_le_foldl _ l2 (fun G s _ => hmono2 s G) F)
    (fun F hF => srnglr_count_firsts_size_le _ F hF) fuel2 init hinit (by omega)
  have hstep := foldl_fixed_step step2 l2 hmono2 _ hfix
  refine do_while_grows_preserves _ _
    (fun G => firsts_sub G (do_while_grows parser_count_fsets_size
      (fun F => l2.foldl (fun F s => step2 s F) F) fuel2 init)) ?_ fuel1 init
    (firsts_sub_of_le hle)
  intro F hF
  refine foldl_preserves _
    (fun G => firsts_sub G (do_while_grows parser_count_fsets_size
      (fun F => l2.foldl (fun F s => step2 s F) F) fuel2 init)) l1 ?_ F hF
  intro G s hs hG
  have := hsub s G _ hG
  rw [hstep s (hl s hs)] at this
  exact this

theorem parser_firsts_pass_eq_along (g : Grammar) (firsts : List fset) :
    parser_firsts_pass g firsts = parser_firsts_pass_along (parser_firsts_steps g) firsts := by
  unfold parser_firsts_pass parser_firsts_pass_along parser_firsts_steps
  rw [foldl_flatMap_eq]
  congr 1
  funext F symbol_idx
  split_ifs
  · rfl
  · rw [List.foldl_map]

theorem parser_compute_symbol_firsts_eq_along (g : Grammar) :
    parser_compute_symbol_firsts g =
      parser_compute_symbol_firsts_along g (parser_firsts_steps g) := by
  unfold parser_compute_symbol_firsts parser_compute_symbol_firsts_along
  have : parser_firsts_pass g = parser_firsts_pass_along (parser_firsts_steps g) :=
    funext (parser_firsts_pass_eq_along g)
  rw [this]

theorem parser_firsts_production_mono (s : Nat × List Nat) (F : List fset) :
    firsts_le F (parser_firsts_production s.1 F s.2) := by
  rw [parser_firsts_production_eq]
  exact (srnglr_firsts_production_mono s.1 F s.2).1

theorem parser_firsts_init_wf (g : Grammar) :
    firsts_wf g.symbols.length (parser_firsts_init g) :=
  srnglr_firsts_init_wf g

/-- The first sets computed along the visits `l1` are inside those computed along `l2`, when
every visit of `l1` is one of `l2`. -/
theorem parser_compute_symbol_firsts_along_sub (g : Grammar) (l1 l2 : List (Nat × List Nat))
    (hl : ∀ s ∈ l1, s ∈ l2) :
    firsts_sub (parser_compute_symbol_firsts_along g l1)
      (parser_compute_symbol_firsts_along g l2) :=
  do_while_grows_sub g.symbols.length
    (fun (s : Nat × List Nat) F => parser_firsts_production s.1 F s.2)
    (fun (s : Nat × List Nat) F => parser_firsts_production s.1 F s.2) l1 l2
    (parser_firsts_init g) (parser_firsts_init_wf g)
    (fun s F hF => by
      simp only [parser_firsts_production_eq]
      exact srnglr_firsts_production_wf _ s.1 F s.2 hF)
    (fun s F => parser_firsts_production_mono s F)
    (fun s G F h => by
      simp only [parser_firsts_production_eq]
      exact srnglr_firsts_production_sub s.1 s.2 G F h)
    hl (firsts_bound g) (firsts_bound g) (by unfold firsts_bound; omega)

theorem parser_compute_symbol_firsts_along_wf (g : Grammar) (l : List (Nat × List Nat)) :
    firsts_wf g.symbols.length (parser_compute_symbol_firsts_along g l) :=
  do_while_grows_preserves _ _ (firsts_wf g.symbols.length)
    (fun F hF => foldl_preserves _ (firsts_wf g.symbols.length) l
      (fun G s _ hG => by
        rw [parser_firsts_production_eq]
        exact srnglr_firsts_production_wf _ s.1 G s.2 hG) F hF) _ _
    (parser_firsts_init_wf g)

theorem parser_first_of_string_loop_infl (firsts : List fset) (s : slice) :
    ∀ (n i : Nat) (result : fset),
      fset_sub result (parser_first_of_string_loop firsts s n i result) := by
  intro n
  induction n with
  | zero => intro i result; exact fset_sub_refl result
  | succ n ih =>
    intro i result
    unfold parser_first_of_string_loop
    cases slice_get s i with
    | none => exact fset_sub_refl result
    | some x =>
      have hu : fset_sub result (fset_union_into result (first_of_symbol firsts x) false) :=
        fset_sub_of_le (fset_le_union_into result _ false)
      have hu' : fset_sub result
          { fset_union_into result (first_of_symbol firsts x) false with nullable := true } :=
        ⟨hu.1, fun _ => rfl⟩
      simp only
      split_ifs
      all_goals first
        | exact hu
        | exact hu'
        | exact fset_sub_trans hu (ih _ _)
        | exact fset_sub_trans hu' (ih _ _)

theorem parser_first_of_string_loop_sub (F1 F2 : List fset)
    (h : ∀ x, fset_sub (first_of_symbol F1 x) (first_of_symbol F2 x)) (s : slice) :
    ∀ (n i : Nat) (r1 r2 : fset), fset_sub r1 r2 →
      fset_sub (parser_first_of_string_loop F1 s n i r1)
        (parser_first_of_string_loop F2 s n i r2) := by
  intro n
  induction n with
  | zero => intro i r1 r2 hr; exact hr
  | succ n ih =>
    intro i r1 r2 hr
    unfold parser_first_of_string_loop
    cases slice_get s i with
    | none => exact hr
    | some x =>
      have hu : fset_sub (fset_union_into r1 (first_of_symbol F1 x) false)
          (fset_union_into r2 (first_of_symbol F2 x) false) :=
        fset_union_into_sub false hr (h x)
      have hu' : fset_sub
          { fset_union_into r1 (first_of_symbol F1 x) false with nullable := true }
          { fset_union_into r2 (first_of_symbol F2 x) false with nullable := true } :=
        ⟨hu.1, fun _ => rfl⟩
      have hx := (h x).2
      simp only
      by_cases hlast : i = slice_size s - 1
      · cases h1 : (first_of_symbol F1 x).nullable with
        | false =>
          cases h2 : (first_of_symbol F2 x).nullable with
          | false => simpa [hlast, h1, h2] using hu
          | true =>
            simp only [hlast, h1, h2, and_true, and_false, if_true, if_false,
              Bool.true_eq_false, Bool.false_eq_true]
            have hu2 : fset_sub (fset_union_into r1 (first_of_symbol F1 x) false)
                { fset_union_into r2 (first_of_symbol F2 x) false with nullable := true } :=
              ⟨hu.1, fun _ => rfl⟩
            exact fset_sub_trans hu2 (parser_first_of_string_loop_infl F2 s n _ _)
        | true =>
          have h2 := hx h1
          simp only [hlast, h1, h2, and_true, if_true, Bool.true_eq_false, if_false]
          exact ih _ _ _ hu'
      · cases h1 : (first_of_symbol F1 x).nullable with
        | false =>
          cases h2 : (first_of_symbol F2 x).nullable with
          | false => simpa [hlast, h1, h2] using hu
          | true =>
            simp only [hlast, h1, h2, false_and, if_false, if_true, Bool.true_eq_false]
            exact fset_sub_trans hu (parser_first_of_string_loop_infl F2 s n _ _)
        | true =>
          have h2 := hx h1
          simp only [hlast, h1, h2, false_and, if_false, Bool.true_eq_false]
          exact ih _ _ _ hu

theorem parser_first_of_string_sub (F1 F2 : List fset)
    (h : ∀ x, fset_sub (first_of_symbol F1 x) (first_of_symbol F2 x)) (s : slice) :
    fset_sub (parser_first_of_string F1 s) (parser_first_of_string F2 s) := by
  unfold parser_first_of_string
  split_ifs
  · exact fset_sub_refl _
  · exact parser_first_of_string_loop_sub F1 F2 h s _ _ _ _ (fset_sub_refl _)

theorem parser_follows_element_sub (firsts1 firsts2 : List fset)
    (h : ∀ x, fset_sub (first_of_symbol firsts1 x) (first_of_symbol firsts2 x)) (A : Nat)
    (body : List Nat) (i : Nat) (G F : List fset) (hGF : firsts_sub G F) :
    firsts_sub (parser_follows_element firsts1 A body G i)
      (parser_follows_element firsts2 A body F i) := by
  cases hi : body[i]? with
  | none =>
    rw [parser_follows_element_none firsts1 A body G i hi,
      parser_follows_element_none firsts2 A body F i hi]
    exact hGF
  | some B =>
    rw [parser_follows_element_some firsts1 A body G i B hi,
      parser_follows_element_some firsts2 A body F i B hi]
    have hb := parser_first_of_string_sub firsts1 firsts2 h ⟨body, i + 1, body.length, none⟩
    have h1 : firsts_sub
        (G.set B (fset_union_into (first_of_symbol G B)
          (parser_first_of_string firsts1 ⟨body, i + 1, body.length, none⟩) false))
        (F.set B (fset_union_into (first_of_symbol F B)
          (parser_first_of_string firsts2 ⟨body, i + 1, body.length, none⟩) false)) :=
      firsts_sub_set hGF B (fset_union_into_sub false (hGF.2 B) hb)
    split_ifs with hn1 hn2 hn2
    · exact firsts_sub_set h1 B (fset_union_into_sub true (h1.2 B) (h1.2 A))
    · exact absurd (hb.2 hn1) hn2
    · exact firsts_sub_trans h1
        (firsts_sub_of_le (firsts_le_set _ B _ (fset_le_union_into _ _ true)))
    · exact h1

theorem parser_follows_pass_eq_along (g : Grammar) (firsts follows : List fset) :
    parser_follows_pass g firsts follows =
      parser_follows_pass_along firsts (parser_follows_steps g) follows := by
  unfold parser_follows_pass parser_follows_pass_along parser_follows_steps
  rw [foldl_flatMap_eq]
  congr 1
  funext F entry
  unfold parser_follows_entry
  rw [foldl_flatMap_eq]
  congr 1
  funext F body_idx
  unfold parser_follows_body_at
  cases metaparser_get_production_body g entry.1 body_idx with
  | none => rfl
  | some body =>
    simp only [List.foldl_map]
    rfl

theorem parser_compute_symbol_follows_eq_along (g : Grammar) (firsts : List fset) :
    parser_compute_symbol_follows g firsts =
      parser_compute_symbol_follows_along g firsts (parser_follows_steps g) := by
  unfold parser_compute_symbol_follows parser_compute_symbol_follows_along
  have : parser_follows_pass g firsts =
      parser_follows_pass_along firsts (parser_follows_steps g) :=
    funext (parser_follows_pass_eq_along g firsts)
  rw [this]

/-- The follow sets computed along the visits `l1` from the first sets `firsts1` are inside
those computed along `l2` from `firsts2`, when every visit of `l1` is one of `l2` and the first
sets `firsts1` are inside `firsts2`. -/
theorem parser_compute_symbol_follows_along_sub (g : Grammar) (firsts1 firsts2 : List fset)
    (hwf : firsts_wf g.symbols.length firsts2)
    (h : ∀ x, fset_sub (first_of_symbol firsts1 x) (first_of_symbol firsts2 x))
    (l1 l2 : List (Nat × List Nat × Nat)) (hl : ∀ s ∈ l1, s ∈ l2) :
    firsts_sub (parser_compute_symbol_follows_along g firsts1 l1)
      (parser_compute_symbol_follows_along g firsts2 l2) :=
  do_while_grows_sub g.symbols.length
    (fun (s : Nat × List Nat × Nat) F => parser_follows_element firsts1 s.1 s.2.1 F s.2.2)
    (fun (s : Nat × List Nat × Nat) F => parser_follows_element firsts2 s.1 s.2.1 F s.2.2)
    l1 l2 (parser_follows_init g) (parser_follows_init_wf g)
    (fun s F hF => parser_follows_element_wf _ firsts2 hwf s.1 s.2.1 F s.2.2 hF)
    (fun s F => parser_follows_element_mono firsts2 s.1 s.2.1 F s.2.2)
    (fun s G F hGF => parser_follows_element_sub firsts1 firsts2 h s.1 s.2.1 s.2.2 G F hGF)
    hl (firsts_bound g) (firsts_bound g) (by unfold firsts_bound; omega)

/-- C21: the passes of `parser_compute_symbol_firsts` and of `parser_compute_symbol_follows` are
a sequence of visits (a nonterminal and one of its bodies; a head, a body and one of its
elements), and the tables do not depend on the order of the visits: for every permutation `lf`
of the visits of the first pass and every permutation `lw` of the visits of the follow pass, the
computation that makes the visits in the permuted order ends with the same first set and the
same follow set for every symbol (the same terminals, the same flag); and along every order the
size `parser_count_fsets_size` of the table after a pass is at least its size before. -/
theorem parser_first_follow_order_independent (g : Grammar) (lf : List (Nat × List Nat))
    (lw : List (Nat × List Nat × Nat)) (hlf : lf.Perm (parser_firsts_steps g))
    (hlw : lw.Perm (parser_follows_steps g)) :
    parser_compute_symbol_firsts g =
        parser_compute_symbol_firsts_along g (parser_firsts_steps g) ∧
      (∀ firsts, parser_compute_symbol_follows g firsts =
        parser_compute_symbol_follows_along g firsts (parser_follows_steps g)) ∧
      (∀ A, fset_same (parser_first_of_symbol (parser_compute_symbol_firsts_along g lf) A)
        (parser_first_of_symbol (parser_compute_symbol_firsts g) A)) ∧
      (∀ A, fset_same
        (parser_follow_of_symbol
          (parser_compute_symbol_follows_along g (parser_compute_symbol_firsts_along g lf) lw)
          A)
        (parser_follow_of_symbol
          (parser_compute_symbol_follows g (parser_compute_symbol_firsts g)) A)) ∧
      (∀ F, parser_count_fsets_size F ≤
        parser_count_fsets_size (parser_firsts_pass_along lf F)) ∧
      (∀ firsts F, parser_count_fsets_size F ≤
        parser_count_fsets_size (parser_follows_pass_along firsts lw F)) := by
  have h1 := parser_compute_symbol_firsts_along_sub g lf (parser_firsts_steps g)
    (fun s hs => hlf.mem_iff.1 hs)
  have h2 := parser_compute_symbol_firsts_along_sub g (parser_firsts_steps g) lf
    (fun s hs => hlf.mem_iff.2 hs)
  have h3 := parser_compute_symbol_follows_along_sub g
    (parser_compute_symbol_firsts_along g lf)
    (parser_compute_symbol_firsts_along g (parser_firsts_steps g))
    (parser_compute_symbol_firsts_along_wf g _) h1.2 lw (parser_follows_steps g)
    (fun s hs => hlw.mem_iff.1 hs)
  have h4 := parser_compute_symbol_follows_along_sub g
    (parser_compute_symbol_firsts_along g (parser_firsts_steps g))
    (parser_compute_symbol_firsts_along g lf)
    (parser_compute_symbol_firsts_along_wf g _) h2.2 (parser_follows_steps g) lw
    (fun s hs => hlw.mem_iff.2 hs)
  refine ⟨parser_compute_symbol_firsts_eq_along g, parser_compute_symbol_follows_eq_along g,
    ?_, ?_, ?_, ?_⟩
  · intro A
    rw [parser_compute_symbol_firsts_eq_along]
    exact fset_same_of_sub (h1.2 A) (h2.2 A)
  · intro A
    rw [parser_compute_symbol_follows_eq_along, parser_compute_symbol_firsts_eq_along]
    exact fset_same_of_sub (h3.2 A) (h4.2 A)
  · intro F
    exact (firsts_le_count (firsts_le_foldl _ lf
      (fun G s _ => parser_firsts_production_mono s G) F)).1
  · intro firsts F
    exact (firsts_le_count (firsts_le_foldl _ lw
      (fun G s _ => parser_follows_element_mono firsts s.1 s.2.1 G s.2.2) F)).1

/-- C21 at the grammar `S' → A`, `A → B c`, `B → ε`, the visits of both passes made in the
reverse order. -/
theorem parser_first_follow_order_independent_witness :
    (parser_firsts_steps grammar_nullable_prefix).reverse.Perm
        (parser_firsts_steps grammar_nullable_prefix) ∧
      (parser_follows_steps grammar_nullable_prefix).reverse.Perm
        (parser_follows_steps grammar_nullable_prefix) ∧
      (∀ A, fset_same
        (parser_first_of_symbol
          (parser_compute_symbol_firsts_along grammar_nullable_prefix
            (parser_firsts_steps grammar_nullable_prefix).reverse) A)
        (parser_first_of_symbol (parser_compute_symbol_firsts grammar_nullable_prefix) A)) ∧
      (∀ A, fset_same
        (parser_follow_of_symbol
          (parser_compute_symbol_follows_along grammar_nullable_prefix
            (parser_compute_symbol_firsts_along grammar_nullable_prefix
              (parser_firsts_steps grammar_nullable_prefix).reverse)
            (parser_follows_steps grammar_nullable_prefix).reverse) A)
        (parser_follow_of_symbol
          (parser_compute_symbol_follows grammar_nullable_prefix
            (parser_compute_symbol_firsts grammar_nullable_prefix)) A)) :=
  ⟨List.reverse_perm _, List.reverse_perm _,
    (parser_first_follow_order_independent grammar_nullable_prefix _ _ (List.reverse_perm _)
      (List.reverse_perm _)).2.2.1,
    (parser_first_follow_order_independent grammar_nullable_prefix _ _ (List.reverse_perm _)
      (List.reverse_perm _)).2.2.2.1⟩

/-! ## The clustered nonterminal parser -/

theorem parser_memo_first_of_string_fst (firsts : List fset) (dict : List (slice × fset))
    (hreach : memo_reachable firsts dict) (s : slice) :
    (parser_memo_first_of_string firsts dict s).1 = parser_first_of_string firsts s := by
  have hent := memo_reachable_entries firsts dict hreach
  unfold parser_memo_first_of_string
  cases hget : dict_get_by slice_equals dict s with
  | some r =>
    obtain ⟨k, hk, hks⟩ := dict_get_by_some slice_equals dict s r hget
    simp only
    rw [hent k r hk]
    exact parser_first_of_string_congr firsts k s hks
  | none => rfl

theorem parser_test_select_fst (g : Grammar) (firsts follows : List fset)
    (dict : List (slice × fset)) (c head_idx : Nat) (string : slice) :
    (parser_test_select g firsts follows dict c head_idx string).1 = true ↔
      fset_contains_c g (parser_memo_first_of_string firsts dict string).1 c = true ∨
        ((parser_memo_first_of_string firsts dict string).1.nullable = true ∧
          fset_contains_c g (parser_follow_of_symbol follows head_idx) c = true) := by
  unfold parser_test_select
  simp only
  split_ifs <;> simp_all

theorem parser_test_select_snd (g : Grammar) (firsts follows : List fset)
    (dict : List (slice × fset)) (c head_idx : Nat) (string : slice) :
    (parser_test_select g firsts follows dict c head_idx string).2 =
      (parser_memo_first_of_string firsts dict string).2 := by
  unfold parser_test_select
  simp only
  split_ifs <;> rfl

theorem parser_test_select_spec (g : Grammar) (firsts follows : List fset)
    (dict : List (slice × fset)) (hreach : memo_reachable firsts dict) (c head_idx : Nat)
    (string : slice) :
    ((parser_test_select g firsts follows dict c head_idx string).1 = true ↔
        TEST_SELECT g firsts follows c head_idx string) ∧
      memo_reachable firsts (parser_test_select g firsts follows dict c head_idx string).2 := by
  constructor
  · rw [parser_test_select_fst, parser_memo_first_of_string_fst firsts dict hreach]
    rfl
  · rw [parser_test_select_snd]
    exact memo_reachable.call dict string hreach

/-- C22: for every code point `c`, head `A` and slice `σ`, `parser_test_select(c, A, σ)` returns
true if and only if `c` is contained in the memoized first set of `σ`, or the flag of that set
is set and `c` is contained in `follow(A)`, whatever the memo dictionary holds; and in every
state of the memo dictionary that calls of `parser_memo_first_of_string` reach, that is the test
`TEST_SELECT` on `parser_first_of_string(σ)`, and the dictionary after the call is such a state
again. -/
theorem parser_test_select_iff (g : Grammar) (firsts follows : List fset)
    (dict : List (slice × fset)) (hreach : memo_reachable firsts dict) (c head_idx : Nat)
    (string : slice) :
    (∀ d : List (slice × fset),
      (parser_test_select g firsts follows d c head_idx string).1 = true ↔
        fset_contains_c g (parser_memo_first_of_string firsts d string).1 c = true ∨
          ((parser_memo_first_of_string firsts d string).1.nullable = true ∧
            fset_contains_c g (parser_follow_of_symbol follows head_idx) c = true)) ∧
      ((parser_test_select g firsts follows dict c head_idx string).1 = true ↔
        fset_contains_c g (parser_first_of_string firsts string) c = true ∨
          ((parser_first_of_string firsts string).nullable = true ∧
            fset_contains_c g (parser_follow_of_symbol follows head_idx) c = true)) ∧
      memo_reachable firsts (parser_test_select g firsts follows dict c head_idx string).2 :=
  ⟨fun d => parser_test_select_fst g firsts follows d c head_idx string,
    (parser_test_select_spec g firsts follows dict hreach c head_idx string).1,
    (parser_test_select_spec g firsts follows dict hreach c head_idx string).2⟩

/-- C22 at the grammar `S' → S`, `S → a`, the empty memo dictionary, the code point `a`, the
head `S` and the whole body of `S`. -/
theorem parser_test_select_iff_witness :
    memo_reachable (parser_compute_symbol_firsts grammar_s1) [] ∧
      ((parser_test_select grammar_s1 (parser_compute_symbol_firsts grammar_s1)
          (parser_compute_symbol_follows grammar_s1 (parser_compute_symbol_firsts grammar_s1))
          [] 97 1 ⟨[2], 0, 1, none⟩).1 = true ↔
        fset_contains_c grammar_s1
            (parser_first_of_string (parser_compute_symbol_firsts grammar_s1)
              ⟨[2], 0, 1, none⟩) 97 = true ∨
          ((parser_first_of_string (parser_compute_symbol_firsts grammar_s1)
              ⟨[2], 0, 1, none⟩).nullable = true ∧
            fset_contains_c grammar_s1
              (parser_follow_of_symbol
                (parser_compute_symbol_follows grammar_s1
                  (parser_compute_symbol_firsts grammar_s1)) 1) 97 = true)) :=
  ⟨memo_reachable.empty,
    (parser_test_select_iff grammar_s1 _ _ [] memo_reachable.empty 97 1
      ⟨[2], 0, 1, none⟩).2.1⟩

/-- C30: `UNICODE_ENDMARKER_POINT` is `0x200000`, that is `2 ^ 21`, it is greater than
`MAX_UNICODE_POINT`, which is `0x10FFFF`, and so it differs from every code point `c` with
`0 ≤ c ≤ MAX_UNICODE_POINT`; it fits the 32 bits of a `uint32_t`. -/
theorem unicode_endmarker_out_of_band (c : Nat) (hc : c ≤ MAX_UNICODE_POINT) :
    UNICODE_ENDMARKER_POINT = 0x200000 ∧ UNICODE_ENDMARKER_POINT = 2 ^ 21 ∧
      MAX_UNICODE_POINT = 0x10FFFF ∧ MAX_UNICODE_POINT < UNICODE_ENDMARKER_POINT ∧
      UNICODE_ENDMARKER_POINT < 2 ^ 32 ∧ c ≠ UNICODE_ENDMARKER_POINT := by
  unfold MAX_UNICODE_POINT at hc
  unfold UNICODE_ENDMARKER_POINT MAX_UNICODE_POINT
  refine ⟨rfl, by norm_num, rfl, by norm_num, by norm_num, ?_⟩
  omega

/-- C30 at the code point `MAX_UNICODE_POINT` itself. -/
theorem unicode_endmarker_out_of_band_witness :
    MAX_UNICODE_POINT ≤ MAX_UNICODE_POINT ∧ MAX_UNICODE_POINT ≠ UNICODE_ENDMARKER_POINT :=
  ⟨Nat.le_refl _, (unicode_endmarker_out_of_band MAX_UNICODE_POINT (Nat.le_refl _)).2.2.2.2.2⟩

theorem mem_foldl_iff {α β : Type} (f : List β → α → List β) (P : α → β → Prop)
    (hf : ∀ acc a s, s ∈ f acc a ↔ s ∈ acc ∨ P a s) :
    ∀ (l : List α) (acc : List β) (s : β),
      s ∈ l.foldl f acc ↔ s ∈ acc ∨ ∃ a ∈ l, P a s := by
  intro l
  induction l with
  | nil => intro acc s; simp
  | cons x xs ih =>
    intro acc s
    rw [List.foldl_cons, ih, hf]
    constructor
    · rintro ((h | h) | ⟨a, ha, h⟩)
      · exact Or.inl h
      · exact Or.inr ⟨x, by simp, h⟩
      · exact Or.inr ⟨a, List.mem_cons_of_mem _ ha, h⟩
    · rintro (h | ⟨a, ha, h⟩)
      · exact Or.inl (Or.inl h)
      · rcases List.mem_cons.1 ha with rfl | ha
        · exact Or.inl (Or.inr h)
        · exact Or.inr ⟨a, ha, h⟩

theorem mem_parser_generate_labels_dots (g : Grammar) (head_idx body_idx : Nat)
    (body : List Nat) (labels : List slot) (s : slot) :
    s ∈ parser_generate_labels_dots g head_idx body_idx body labels ↔
      s ∈ labels ∨ ∃ dot Y : Nat, 1 ≤ dot ∧ dot ≤ body.length ∧ body[dot - 1]? = some Y ∧
        metaparser_is_symbol_terminal g Y = false ∧ s = ⟨head_idx, body_idx, dot⟩ := by
  unfold parser_generate_labels_dots
  rw [mem_foldl_iff _
    (fun (dot : Nat) (s : slot) => ∃ Y : Nat, body[dot - 1]? = some Y ∧
      metaparser_is_symbol_terminal g Y = false ∧ s = ⟨head_idx, body_idx, dot⟩)]
  · constructor
    · rintro (h | ⟨dot, hdot, Y, hY, hnt, hs⟩)
      · exact Or.inl h
      · rw [List.mem_range'_1] at hdot
        exact Or.inr ⟨dot, Y, hdot.1, by omega, hY, hnt, hs⟩
    · rintro (h | ⟨dot, Y, h1, h2, hY, hnt, hs⟩)
      · exact Or.inl h
      · exact Or.inr ⟨dot, List.mem_range'_1.2 ⟨h1, by omega⟩, Y, hY, hnt, hs⟩
  · intro acc dot s
    cases hY : body[dot - 1]? with
    | none => simp
    | some Y =>
      by_cases hnt : metaparser_is_symbol_terminal g Y = false
      · simp [hnt]
      · simp [hnt]

theorem mem_parser_generate_labels_body (g : Grammar) (head_idx : Nat) (labels : List slot)
    (body_idx : Nat) (s : slot) :
    s ∈ parser_generate_labels_body g head_idx labels body_idx ↔
      s ∈ labels ∨ s = ⟨head_idx, body_idx, 0⟩ ∨
        ∃ body, metaparser_get_production_body g head_idx body_idx = some body ∧
          ∃ dot Y : Nat, 1 ≤ dot ∧ dot ≤ body.length ∧ body[dot - 1]? = some Y ∧
            metaparser_is_symbol_terminal g Y = false ∧ s = ⟨head_idx, body_idx, dot⟩ := by
  unfold parser_generate_labels_body
  cases hb : metaparser_get_production_body g head_idx body_idx with
  | none => simp [or_assoc]
  | some body =>
    simp only [mem_parser_generate_labels_dots, List.mem_append, List.mem_singleton,
      Option.some.injEq, exists_eq_left', or_assoc]

theorem mem_parser_generate_labels (g : Grammar) (labels : List slot) (s : slot) :
    s ∈ parser_generate_labels g labels ↔
      s ∈ labels ∨ ∃ entry ∈ g.productions, ∃ body_idx ∈ List.range entry.2.length,
        s = ⟨entry.1, body_idx, 0⟩ ∨
          ∃ body, metaparser_get_production_body g entry.1 body_idx = some body ∧
            ∃ dot Y : Nat, 1 ≤ dot ∧ dot ≤ body.length ∧ body[dot - 1]? = some Y ∧
              metaparser_is_symbol_terminal g Y = false ∧ s = ⟨entry.1, body_idx, dot⟩ := by
  unfold parser_generate_labels
  refine mem_foldl_iff (parser_generate_labels_entry g)
    (fun (entry : Nat × List (List Nat)) (s : slot) =>
      ∃ body_idx ∈ List.range entry.2.length,
        s = ⟨entry.1, body_idx, 0⟩ ∨
          ∃ body, metaparser_get_production_body g entry.1 body_idx = some body ∧
            ∃ dot Y : Nat, 1 ≤ dot ∧ dot ≤ body.length ∧ body[dot - 1]? = some Y ∧
              metaparser_is_symbol_terminal g Y = false ∧ s = ⟨entry.1, body_idx, dot⟩)
    ?_ g.productions labels s
  intro acc entry s
  unfold parser_generate_labels_entry
  refine mem_foldl_iff (parser_generate_labels_body g entry.1)
    (fun (body_idx : Nat) (s : slot) =>
      s = ⟨entry.1, body_idx, 0⟩ ∨
        ∃ body, metaparser_get_production_body g entry.1 body_idx = some body ∧
          ∃ dot Y : Nat, 1 ≤ dot ∧ dot ≤ body.length ∧ body[dot - 1]? = some Y ∧
            metaparser_is_symbol_terminal g Y = false ∧ s = ⟨entry.1, body_idx, dot⟩)
    ?_ (List.range entry.2.length) acc s
  intro acc body_idx s
  exact mem_parser_generate_labels_body g entry.1 acc body_idx s

theorem metaparser_get_production_body_entry (g : Grammar) (head_idx body_idx : Nat)
    (body : List Nat) (h : metaparser_get_production_body g head_idx body_idx = some body) :
    ∃ entry ∈ g.productions, entry.1 = head_idx ∧ body_idx < entry.2.length := by
  unfold metaparser_get_production_body metaparser_get_production_bodies at h
  cases hget : dict_get g.productions head_idx with
  | none => simp [hget] at h
  | some bodies =>
    simp only [hget] at h
    refine ⟨(head_idx, bodies), dict_get_mem g.productions head_idx bodies hget, rfl, ?_⟩
    by_contra hge
    rw [List.getElem?_eq_none (not_lt.1 hge)] at h
    cases h

/-- C23, as amended: after `parser_generate_labels` on an empty label vector, for every
production (a head, the index of a body of the head, the body) the vector contains the slot with
the dot at 0, and for every `i` in `1..|body|` it contains the slot with the dot at `i` if and
only if the symbol at `i − 1` is a nonterminal. So the slot with the dot at the end is in the
vector when the body is empty or its last symbol is a nonterminal, and is not when the last
symbol is a terminal. -/
theorem parser_generate_labels_slots (g : Grammar) (head_idx body_idx : Nat) (body : List Nat)
    (hbody : metaparser_get_production_body g head_idx body_idx = some body) :
    (⟨head_idx, body_idx, 0⟩ : slot) ∈ parser_generate_labels g [] ∧
      ∀ i Y : Nat, 1 ≤ i → body[i - 1]? = some Y →
        ((⟨head_idx, body_idx, i⟩ : slot) ∈ parser_generate_labels g [] ↔
          metaparser_is_symbol_terminal g Y = false) := by
  obtain ⟨entry, hentry, hhead, hidx⟩ :=
    metaparser_get_production_body_entry g head_idx body_idx body hbody
  subst hhead
  constructor
  · rw [mem_parser_generate_labels]
    exact Or.inr ⟨entry, hentry, body_idx, List.mem_range.2 hidx, Or.inl rfl⟩
  · intro i Y hi hY
    rw [mem_parser_generate_labels]
    constructor
    · rintro (h | ⟨entry', _, body_idx', _, h | ⟨body', hbody', dot, Y', _, _, hY', hnt, hs⟩⟩)
      · simp at h
      · injection h with _ _ h3
        omega
      · injection hs with h1 h2 h3
        subst h3
        rw [← h1, ← h2, hbody] at hbody'
        injection hbody' with hb
        subst hb
        rw [hY] at hY'
        injection hY' with hYY
        rw [hYY]
        exact hnt
    · intro hnt
      have hlt : i - 1 < body.length := by
        by_contra hge
        rw [List.getElem?_eq_none (not_lt.1 hge)] at hY
        cases hY
      exact Or.inr ⟨entry, hentry, body_idx, List.mem_range.2 hidx,
        Or.inr ⟨body, hbody, i, Y, hi, by omega, hY, hnt, rfl⟩⟩

/-- C23 at the body `S + S` of `S` in the grammar `S → S + S | a`. -/
theorem parser_generate_labels_slots_witness :
    metaparser_get_production_body grammar_sum 1 0 = some [1, 2, 1] ∧
      (⟨1, 0, 0⟩ : slot) ∈ parser_generate_labels grammar_sum [] ∧
      (⟨1, 0, 3⟩ : slot) ∈ parser_generate_labels grammar_sum [] ∧
      (⟨1, 0, 2⟩ : slot) ∉ parser_generate_labels grammar_sum [] :=
  have h : metaparser_get_production_body grammar_sum 1 0 = some [1, 2, 1] := by decide
  ⟨h, (parser_generate_labels_slots grammar_sum 1 0 [1, 2, 1] h).1,
    ((parser_generate_labels_slots grammar_sum 1 0 [1, 2, 1] h).2 3 1 (by decide)
      (by decide)).2 (by decide),
    fun hmem => absurd
      (((parser_generate_labels_slots grammar_sum 1 0 [1, 2, 1] h).2 2 2 (by decide)
        (by decide)).1 hmem) (by decide)⟩

/-- C23 as it is written fails at the grammar `S' → S`, `S → a`: `S → a` is a production whose
last symbol is a terminal, and the slot with the dot at the end of it, `(S, 0, 1)`, is not in
the vector that `parser_generate_labels` fills. -/
theorem parser_generate_labels_no_accept_slot_after_terminal :
    metaparser_get_production_body grammar_s1 1 0 = some [2] ∧
      metaparser_is_symbol_terminal grammar_s1 2 = true ∧
      (⟨1, 0, [2].length⟩ : slot) ∉ parser_generate_labels grammar_s1 [] := by
  decide

theorem parser_bsr_add_eq (g : Grammar) (con : parser_context) (s : slot) (i k j : Nat) :
    parser_bsr_add g con s i k j = con := by
  unfold parser_bsr_add
  cases metaparser_get_production_body g s.head_idx s.production_idx with
  | none => rfl
  | some body =>
    simp only
    split_ifs <;> rfl

theorem takeWhile_stop {α : Type} (p : α → Bool) :
    ∀ (l : List α), (l.takeWhile p).length < l.length →
      ∃ y, l[(l.takeWhile p).length]? = some y ∧ p y = false := by
  intro l
  induction l with
  | nil => intro h; simp at h
  | cons x xs ih =>
    intro h
    by_cases hx : p x = true
    · rw [List.takeWhile_cons_of_pos hx] at h ⊢
      obtain ⟨y, hy, hp⟩ := ih (by simpa using h)
      exact ⟨y, by simpa using hy, hp⟩
    · rw [List.takeWhile_cons_of_neg hx]
      exact ⟨x, by simp, by simpa using hx⟩

theorem parser_terminal_run_stop (g : Grammar) (body : List Nat) (dot : Nat)
    (h : dot + parser_terminal_run g body dot < body.length) :
    ∃ y, body[dot + parser_terminal_run g body dot]? = some y ∧
      metaparser_is_symbol_terminal g y = false := by
  obtain ⟨y, hy, hp⟩ := takeWhile_stop
    (fun symbol_idx => metaparser_is_symbol_terminal g symbol_idx) (body.drop dot)
    (by rw [List.length_drop]; unfold parser_terminal_run at h; omega)
  rw [List.getElem?_drop] at hy
  exact ⟨y, hy, hp⟩

theorem parser_nt_add_body_con (g : Grammar) (firsts follows : List fset) (head_idx j : Nat)
    (run : parser_run) (body_idx : Nat) :
    (parser_nt_add_body g firsts follows head_idx j run body_idx).con = run.con := by
  unfold parser_nt_add_body
  cases metaparser_get_production_body_idx g head_idx body_idx with
  | none => rfl
  | some production_idx =>
    cases metaparser_get_production_body g head_idx body_idx with
    | none => rfl
    | some body =>
      simp only
      split_ifs <;> rfl

theorem parser_nt_add_con (g : Grammar) (firsts follows : List fset) (head_idx j : Nat)
    (run : parser_run) : (parser_nt_add g firsts follows head_idx j run).con = run.con := by
  unfold parser_nt_add
  exact foldl_preserves _ (fun r : parser_run => r.con = run.con) _
    (fun r body_idx _ hr =>
      (parser_nt_add_body_con g firsts follows head_idx j r body_idx).trans hr)
    run rfl

set_option maxRecDepth 100000 in
/-- C24, the code at the grammar `S' → S`, `S → a`, the input `a` and a fresh context. For the
label `S → · a` the shift calls `parser_bsr_add` with the arguments `(cU, cI, cI + 1)` and moves
`cI` on by one, but the slot it passes is the label itself, `(S, 0, 0)`, where
`parser_print_label` prints the slot `(S, 0, 1)`. For the label `S' → · S` the slot passed to
`parser_call` is the label `(S', 0, 0)`, where `parser_print_label` prints `(S', 0, 1)`. -/
theorem parser_handle_label_passes_label_itself :
    parser_handle_label grammar_s1 (parser_compute_symbol_firsts grammar_s1)
        (parser_compute_symbol_follows grammar_s1 (parser_compute_symbol_firsts grammar_s1))
        ⟨1, 0, 0⟩ ⟨new_parser_context [97, UNICODE_ENDMARKER_POINT] 1, [], []⟩ =
      ⟨{ new_parser_context [97, UNICODE_ENDMARKER_POINT] 1 with cI := 1 }, [],
        [parser_call_record.bsr_add ⟨1, 0, 0⟩ 0 0 1]⟩ ∧
    parser_print_label grammar_s1 ⟨1, 0, 0⟩ =
      [parser_print.label ⟨1, 0, 0⟩, parser_print.bsr_add ⟨1, 0, 1⟩, parser_print.rtn 1,
        parser_print.goto_L0] ∧
    (parser_handle_label grammar_s1 (parser_compute_symbol_firsts grammar_s1)
        (parser_compute_symbol_follows grammar_s1 (parser_compute_symbol_firsts grammar_s1))
        ⟨0, 0, 0⟩ ⟨new_parser_context [97, UNICODE_ENDMARKER_POINT] 1, [], []⟩).calls =
      [parser_call_record.call ⟨0, 0, 0⟩ 0 0] ∧
    parser_print_label grammar_s1 ⟨0, 0, 0⟩ =
      [parser_print.label ⟨0, 0, 0⟩, parser_print.call ⟨0, 0, 1⟩, parser_print.goto_L0] := by
  decide!

set_option maxRecDepth 100000 in
/-- C26, the code at the grammar `S' → S`, `S → a`, the input `a` and a fresh context:
`parser_nt_add(S, 0, con)` tests the body 0 of `S`, the test passes, and the slot it passes to
`parser_dsc_add` is `(S, 1, 0)`: its production index is the element of the set of bodies, the
index of the body `a` in the table of bodies, not the index 0 with which the body was fetched;
`S` has no production 1, and `parser_generate_labels` has no such slot. For the head `S'` the
slot is `(S', 0, 0)`: the body 0 of `S'` and the body 0 of `S` get different indices. -/
theorem parser_nt_add_slot_holds_set_element :
    metaparser_get_production_body grammar_s1 1 0 = some [2] ∧
    (parser_test_select grammar_s1 (parser_compute_symbol_firsts grammar_s1)
      (parser_compute_symbol_follows grammar_s1 (parser_compute_symbol_firsts grammar_s1))
      [] (parser_input (new_parser_context [97, UNICODE_ENDMARKER_POINT] 1) 0) 1
      ⟨[2], 0, 1, none⟩).1 = true ∧
    (parser_nt_add grammar_s1 (parser_compute_symbol_firsts grammar_s1)
        (parser_compute_symbol_follows grammar_s1 (parser_compute_symbol_firsts grammar_s1))
        1 0 ⟨new_parser_context [97, UNICODE_ENDMARKER_POINT] 1, [], []⟩).calls =
      [parser_call_record.dsc_add ⟨1, 1, 0⟩ 0 0] ∧
    metaparser_get_production_body grammar_s1 1 1 = none ∧
    (⟨1, 1, 0⟩ : slot) ∉ parser_generate_labels grammar_s1 [] ∧
    (⟨1, 0, 0⟩ : slot) ∈ parser_generate_labels grammar_s1 [] ∧
    metaparser_get_production_body grammar_s1 0 0 = some [1] ∧
    (parser_nt_add grammar_s1 (parser_compute_symbol_firsts grammar_s1)
        (parser_compute_symbol_follows grammar_s1 (parser_compute_symbol_firsts grammar_s1))
        0 0 ⟨new_parser_context [97, UNICODE_ENDMARKER_POINT] 1, [], []⟩).calls =
      [parser_call_record.dsc_add ⟨0, 0, 0⟩ 0 0] := by
  decide!

/-- C27, the code: `parser_dsc_add` leaves every context as it is, so a descriptor that is not
in `U` before the call is in neither `U` nor `R` after it; here the descriptor
`((S, 0, 0), 0, 0)` and a fresh context. -/
theorem parser_dsc_add_adds_nothing :
    (∀ (con : parser_context) (s : slot) (k j : Nat), parser_dsc_add con s k j = con) ∧
      ((⟨0, 0, 0⟩, 0, 0) : slot × Nat × Nat) ∉
        (new_parser_context [97, UNICODE_ENDMARKER_POINT] 1).U ∧
      ((⟨0, 0, 0⟩, 0, 0) : slot × Nat × Nat) ∉
        (parser_dsc_add (new_parser_context [97, UNICODE_ENDMARKER_POINT] 1)
          ⟨0, 0, 0⟩ 0 0).U ∧
      ((⟨0, 0, 0⟩, 0, 0) : slot × Nat × Nat) ∉
        (parser_dsc_add (new_parser_context [97, UNICODE_ENDMARKER_POINT] 1)
          ⟨0, 0, 0⟩ 0 0).R :=
  ⟨fun _ _ _ _ => rfl, by decide, by decide, by decide⟩

/-- C28, the code: `parser_bsr_add` leaves every context as it is; here the slot `(S, 0, 1)` of
the grammar `S → a`, whose dot is at the end of the body, and the positions `0 ≤ 0 ≤ 1`: after
the call the store `Y` does not hold the entry `(S, 0, 0, 0, 1)`. -/
theorem parser_bsr_add_stores_nothing :
    (∀ (g : Grammar) (con : parser_context) (s : slot) (i k j : Nat),
      parser_bsr_add g con s i k j = con) ∧
      metaparser_get_production_body grammar_cnp_s1 0 0 = some [1] ∧
      bsr.complete 0 0 0 0 1 ∉
        (parser_bsr_add grammar_cnp_s1 (new_parser_context [97, UNICODE_ENDMARKER_POINT] 1)
          ⟨0, 0, 1⟩ 0 0 1).Y :=
  ⟨parser_bsr_add_eq, by decide, by decide⟩

set_option maxRecDepth 100000 in
/-- C29, the code: `parser_parse` leaves the store `Y` of every context as it is; on the grammar
`S → a`, the input `a` followed by the endmarker and a fresh context, `Y` is empty after
`parser_parse`, no descriptor was added to `R` or `U`, and so no entry of `S` spanning `(0, 1)`
is in `Y`, whatever the pivot. The only call made is `parser_dsc_add((S, 0, 0), 0, 0)`. -/
theorem parser_parse_leaves_bsr_empty :
    (∀ (g : Grammar) (firsts follows : List fset) (run : parser_run),
      (parser_parse g firsts follows run).con.Y = run.con.Y) ∧
      (parser_parse grammar_cnp_s1 (parser_compute_symbol_firsts grammar_cnp_s1)
          (parser_compute_symbol_follows grammar_cnp_s1
            (parser_compute_symbol_firsts grammar_cnp_s1))
          ⟨new_parser_context [97, UNICODE_ENDMARKER_POINT] 1, [], []⟩).con =
        { new_parser_context [97, UNICODE_ENDMARKER_POINT] 1 with
          CRF := { cluster_nodes := [(⟨0, 0⟩, [])], label_nodes := [] } } ∧
      (parser_parse grammar_cnp_s1 (parser_compute_symbol_firsts grammar_cnp_s1)
          (parser_compute_symbol_follows grammar_cnp_s1
            (parser_compute_symbol_firsts grammar_cnp_s1))
          ⟨new_parser_context [97, UNICODE_ENDMARKER_POINT] 1, [], []⟩).calls =
        [parser_call_record.dsc_add ⟨0, 0, 0⟩ 0 0] ∧
      ∀ k, bsr.complete 0 0 0 k 1 ∉
        (parser_parse grammar_cnp_s1 (parser_compute_symbol_firsts grammar_cnp_s1)
          (parser_compute_symbol_follows grammar_cnp_s1
            (parser_compute_symbol_firsts grammar_cnp_s1))
          ⟨new_parser_context [97, UNICODE_ENDMARKER_POINT] 1, [], []⟩).con.Y := by
  have hY : ∀ (g : Grammar) (firsts follows : List fset) (run : parser_run),
      (parser_parse g firsts follows run).con.Y = run.con.Y := by
    intro g firsts follows run
    unfold parser_parse
    simp only [parser_nt_add_con]
  refine ⟨hY, by decide!, by decide!, ?_⟩
  intro k
  rw [hY]
  simp [new_parser_context]

/-! ## The calls and the reads of `parser_handle_label` -/

/-- The loop of `parser_handle_label` records calls of `parser_bsr_add` only, and when it does
not return from the function it ends behind the last of the terminals at the front of `rest`. -/
theorem parser_handle_label_walk_shape (g : Grammar) (firsts follows : List fset) (label : slot)
    (body : List Nat) :
    ∀ (rest : List Nat) (dot : Nat) (run : parser_run),
      (∃ extra, (parser_handle_label_walk g firsts follows label body rest dot run).2.calls =
          run.calls ++ extra ∧
        ∀ e ∈ extra, ∃ i k j, e = parser_call_record.bsr_add label i k j) ∧
      ∀ dot', (parser_handle_label_walk g firsts follows label body rest dot run).1 =
          some dot' →
        dot' = dot + (rest.takeWhile (fun y => metaparser_is_symbol_terminal g y)).length := by
  intro rest
  induction rest with
  | nil =>
    intro dot run
    refine ⟨⟨[], by simp [parser_handle_label_walk], by simp⟩, ?_⟩
    intro dot' h
    simp only [parser_handle_label_walk, Option.some.injEq] at h
    simp [h]
  | cons y rest ih =>
    intro dot run
    unfold parser_handle_label_walk
    by_cases hy : metaparser_is_symbol_terminal g y = false
    · rw [if_pos hy]
      refine ⟨⟨[], by simp, by simp⟩, ?_⟩
      intro dot' h
      simp only [Option.some.injEq] at h
      simp [List.takeWhile, hy, h]
    · rw [if_neg hy]
      have hyt : metaparser_is_symbol_terminal g y = true := by
        cases h : metaparser_is_symbol_terminal g y with
        | true => rfl
        | false => exact absurd h hy
      by_cases ht : (parser_handle_label_guard g firsts follows label body dot run).1 = false
      · simp only [ht, if_true]
        refine ⟨⟨[], by simp, by simp⟩, ?_⟩
        intro dot' h
        cases h
      · have htt : (parser_handle_label_guard g firsts follows label body dot run).1 = true := by
          cases h : (parser_handle_label_guard g firsts follows label body dot run).1 with
          | true => rfl
          | false => exact absurd h ht
        simp only [htt, Bool.true_eq_false, if_false]
        obtain ⟨⟨extra, h1, h2⟩, h3⟩ := ih (dot + 1)
          { con := { parser_bsr_add g run.con label run.con.cU run.con.cI (run.con.cI + 1) with
              cI := (parser_bsr_add g run.con label run.con.cU run.con.cI
                (run.con.cI + 1)).cI + 1 }
            dict := (parser_handle_label_guard g firsts follows label body dot run).2
            calls := run.calls ++
              [parser_call_record.bsr_add label run.con.cU run.con.cI (run.con.cI + 1)] }
        refine ⟨⟨parser_call_record.bsr_add label run.con.cU run.con.cI (run.con.cI + 1) ::
          extra, ?_, ?_⟩, ?_⟩
        · rw [h1]
          simp
        · intro e he
          rcases List.mem_cons.1 he with h | h
          · exact ⟨_, _, _, h⟩
          · exact h2 e h
        · intro dot' h
          rw [h3 dot' h]
          simp only [List.takeWhile, hyt, List.length_cons]
          omega

theorem parser_handle_label_return_calls (g : Grammar) (follows : List fset) (label : slot)
    (body : List Nat) (dot : Nat) (run : parser_run) :
    (parser_handle_label_return g follows label body dot run).calls = run.calls ∨
      ((parser_handle_label_return g follows label body dot run).calls =
          run.calls ++ [parser_call_record.rtn label.head_idx run.con.cU run.con.cI] ∧
        (label.dot = body.length ∨
          (dot = body.length ∧
            (match body[dot - 1]? with
              | some symbol_idx => metaparser_is_symbol_terminal g symbol_idx
              | none => false) = true))) := by
  unfold parser_handle_label_return
  simp only
  split_ifs with h1 h2
  · exact Or.inr ⟨rfl, h1⟩
  · exact Or.inl rfl
  · exact Or.inl rfl

/-- C38: in one execution of `parser_handle_label`, for every label and every context (and
whatever the memo dictionary holds), `parser_call` and `parser_return` are never both called:
the calls that the execution adds to the record never hold a call of `parser_call` and a call of
`parser_return`. When the call branch runs, the symbol before the dot is the nonterminal that
ended the walk, so the last condition is false. -/
theorem parser_handle_label_call_excludes_return (g : Grammar) (firsts follows : List fset)
    (label : slot) (run : parser_run) :
    ∃ extra, (parser_handle_label g firsts follows label run).calls = run.calls ++ extra ∧
      ((∃ s i j, parser_call_record.call s i j ∈ extra) →
        ∀ a b c, parser_call_record.rtn a b c ∉ extra) := by
  unfold parser_handle_label
  cases hbody : metaparser_get_production_body g label.head_idx label.production_idx with
  | none => exact ⟨[], by simp, by simp⟩
  | some body =>
    simp only
    unfold parser_handle_label_actions
    by_cases h0 : label.dot = 0 ∧ body.length = 0
    · rw [if_pos h0]
      simp only
      rcases parser_handle_label_return_calls g follows label body label.dot run with h | ⟨h, _⟩
      · exact ⟨[], by simpa using h, by simp⟩
      · exact ⟨_, h, by simp⟩
    · rw [if_neg h0]
      obtain ⟨⟨extra, w1, w2⟩, w3⟩ := parser_handle_label_walk_shape g firsts follows label body
        (body.drop label.dot) label.dot run
      have hnocall : ∀ s i j, parser_call_record.call s i j ∉ extra := by
        intro s i j hmem
        obtain ⟨_, _, _, h⟩ := w2 _ hmem
        cases h
      have hnortn : ∀ a b c, parser_call_record.rtn a b c ∉ extra := by
        intro a b c hmem
        obtain ⟨_, _, _, h⟩ := w2 _ hmem
        cases h
      rcases hW : parser_handle_label_walk g firsts follows label body (body.drop label.dot)
        label.dot run with ⟨_ | dotw, runw⟩
      · rw [hW] at w1
        exact ⟨extra, w1, fun _ => hnortn⟩
      · rw [hW] at w1 w3
        simp only at w1
        have hdotw : dotw = label.dot + parser_terminal_run g body label.dot := w3 dotw rfl
        simp only
        unfold parser_handle_label_call
        by_cases hlt : dotw < body.length
        · rw [if_pos hlt]
          by_cases ht : (parser_handle_label_guard g firsts follows label body dotw runw).1 =
              false
          · simp only [ht, if_true]
            exact ⟨extra, w1, fun _ => hnortn⟩
          · have htt : (parser_handle_label_guard g firsts follows label body dotw runw).1 =
                true := by
              cases h : (parser_handle_label_guard g firsts follows label body dotw runw).1 with
              | true => rfl
              | false => exact absurd h ht
            simp only [htt, Bool.true_eq_false, if_false]
            obtain ⟨y, hy, hynt⟩ := parser_terminal_run_stop g body label.dot (by omega)
            have hcond : ¬ (label.dot = body.length ∨
                (dotw + 1 = body.length ∧
                  (match body[dotw + 1 - 1]? with
                    | some symbol_idx => metaparser_is_symbol_terminal g symbol_idx
                    | none => false) = true)) := by
              rintro (h | ⟨_, h⟩)
              · omega
              · rw [Nat.add_sub_cancel, hdotw, hy] at h
                simp only at h
                rw [hynt] at h
                cases h
            rcases parser_handle_label_return_calls g follows label body (dotw + 1)
              { con := parser_call runw.con label runw.con.cU runw.con.cI
                dict := (parser_handle_label_guard g firsts follows label body dotw runw).2
                calls := runw.calls ++
                  [parser_call_record.call label runw.con.cU runw.con.cI] } with h | ⟨_, h⟩
            · refine ⟨extra ++ [parser_call_record.call label runw.con.cU runw.con.cI],
                by rw [h]; simp only [w1, List.append_assoc], ?_⟩
              intro _ a b c hmem
              rcases List.mem_append.1 hmem with h | h
              · exact hnortn a b c h
              · simp at h
            · exact absurd h hcond
        · rw [if_neg hlt]
          simp only
          rcases parser_handle_label_return_calls g follows label body dotw runw with
            h | ⟨h, _⟩
          · exact ⟨extra, by rw [h, w1], fun _ => hnortn⟩
          · refine ⟨extra ++ [parser_call_record.rtn label.head_idx runw.con.cU runw.con.cI],
              by rw [h]; simp only [w1, List.append_assoc], ?_⟩
            rintro ⟨s, i, j, hmem⟩
            rcases List.mem_append.1 hmem with h | h
            · exact absurd h (hnocall s i j)
            · simp at h

theorem drop_eq_cons {α : Type} (l : List α) (n : Nat) (y : α) (rest : List α)
    (h : l.drop n = y :: rest) : n < l.length ∧ l[n]? = some y ∧ l.drop (n + 1) = rest := by
  have hlen : n < l.length := by
    by_contra hge
    rw [List.drop_eq_nil_of_le (not_lt.1 hge)] at h
    cases h
  refine ⟨hlen, ?_, ?_⟩
  · have h2 : (l.drop n)[0]? = l[n]? := by simp [List.getElem?_drop]
    rw [h] at h2
    simpa using h2.symm
  · have := congrArg List.tail h
    rw [List.tail_drop] at this
    simpa using this

theorem parser_handle_label_walk_reads_spec (g : Grammar) (firsts follows : List fset)
    (label : slot) (body : List Nat) :
    ∀ (rest : List Nat) (dot : Nat) (run : parser_run), body.drop dot = rest →
      ∀ r ∈ parser_handle_label_walk_reads g firsts follows label body rest dot run,
        ∃ d, r = parser_body_read.at_dot d ∧ dot ≤ d ∧ d < body.length := by
  intro rest
  induction rest with
  | nil =>
    intro dot run _ r hr
    simp [parser_handle_label_walk_reads] at hr
  | cons y rest ih =>
    intro dot run hdrop r hr
    obtain ⟨hlt, _, hrest⟩ := drop_eq_cons body dot y rest hdrop
    unfold parser_handle_label_walk_reads at hr
    rcases List.mem_cons.1 hr with h | h
    · exact ⟨dot, h, Nat.le_refl _, hlt⟩
    · by_cases hy : metaparser_is_symbol_terminal g y = false
      · rw [if_pos hy] at h
        simp at h
      · rw [if_neg hy] at h
        simp only at h
        by_cases ht : (parser_handle_label_guard g firsts follows label body dot run).1 = false
        · rw [if_pos ht] at h
          simp at h
        · rw [if_neg ht] at h
          obtain ⟨d, h1, h2, h3⟩ := ih (dot + 1) _ hrest r h
          exact ⟨d, h1, by omega, h3⟩

theorem parser_handle_label_actions_dot (g : Grammar) (firsts follows : List fset)
    (label : slot) (body : List Nat) (run : parser_run) (dot : Nat)
    (h : (parser_handle_label_actions g firsts follows label body run).1 = some dot) :
    label.dot ≤ dot := by
  unfold parser_handle_label_actions at h
  by_cases h0 : label.dot = 0 ∧ body.length = 0
  · rw [if_pos h0] at h
    simp only [Option.some.injEq] at h
    omega
  · rw [if_neg h0] at h
    obtain ⟨_, w3⟩ := parser_handle_label_walk_shape g firsts follows label body
      (body.drop label.dot) label.dot run
    rcases hW : parser_handle_label_walk g firsts follows label body (body.drop label.dot)
      label.dot run with ⟨_ | dotw, runw⟩
    · rw [hW] at h
      cases h
    · rw [hW] at h w3
      have hdotw := w3 dotw rfl
      simp only at h
      unfold parser_handle_label_call at h
      by_cases hlt : dotw < body.length
      · rw [if_pos hlt] at h
        simp only at h
        by_cases ht : (parser_handle_label_guard g firsts follows label body dotw runw).1 = false
        · rw [if_pos ht] at h
          cases h
        · rw [if_neg ht] at h
          simp only [Option.some.injEq] at h
          omega
      · rw [if_neg hlt] at h
        simp only [Option.some.injEq] at h
        omega

/-- C39: the reads of the body in `parser_handle_label` are in bounds, for every label whose
body the production store returns and every context: every read `vect_get(body, dot)` of the
loop is made with `dot < |body|` (and at or behind the dot of the label), and the read
`vect_get(body, dot - 1)` of the last condition is made only with `1 ≤ dot ≤ |body|`, so
`dot - 1` does not wrap and is below `|body|`; for an empty body with the dot at 0 no read is
made, the first disjunct of the last condition being true. -/
theorem parser_handle_label_reads_in_bounds (g : Grammar) (firsts follows : List fset)
    (label : slot) (run : parser_run) (body : List Nat)
    (hbody : metaparser_get_production_body g label.head_idx label.production_idx = some body) :
    (∀ r ∈ parser_handle_label_reads g firsts follows label run,
        (∃ dot, r = parser_body_read.at_dot dot ∧ label.dot ≤ dot ∧ dot < body.length) ∨
          (∃ dot, r = parser_body_read.before_dot dot ∧ 1 ≤ dot ∧ dot ≤ body.length ∧
            dot - 1 < body.length)) ∧
      (label.dot = 0 → body.length = 0 →
        parser_handle_label_reads g firsts follows label run = []) := by
  unfold parser_handle_label_reads
  rw [hbody]
  simp only
  constructor
  · intro r hr
    rcases List.mem_append.1 hr with h | h
    · split_ifs at h
      · simp at h
      · obtain ⟨d, h1, h2, h3⟩ := parser_handle_label_walk_reads_spec g firsts follows label
          body (body.drop label.dot) label.dot run rfl r h
        exact Or.inl ⟨d, h1, h2, h3⟩
    · cases hA : (parser_handle_label_actions g firsts follows label body run).1 with
      | none =>
        rw [hA] at h
        simp at h
      | some dot =>
        rw [hA] at h
        have hge := parser_handle_label_actions_dot g firsts follows label body run dot hA
        simp only at h
        split_ifs at h with h1 h2
        · simp at h
        · rw [List.mem_singleton] at h
          exact Or.inr ⟨dot, h, by omega, by omega, by omega⟩
        · simp at h
  · intro hd hb
    simp only [hd, hb, and_self, if_true, List.nil_append]
    cases (parser_handle_label_actions g firsts follows label body run).1 <;> rfl

/-- C39 at the grammar `S → a`, the label `S → · a`, the input `a` and a fresh context. -/
theorem parser_handle_label_reads_in_bounds_witness :
    metaparser_get_production_body grammar_cnp_s1 0 0 = some [1] ∧
      parser_handle_label_reads grammar_cnp_s1 (parser_compute_symbol_firsts grammar_cnp_s1)
          (parser_compute_symbol_follows grammar_cnp_s1
            (parser_compute_symbol_firsts grammar_cnp_s1))
          ⟨0, 0, 0⟩ ⟨new_parser_context [97, UNICODE_ENDMARKER_POINT] 1, [], []⟩ =
        [parser_body_read.at_dot 0, parser_body_read.before_dot 1] ∧
      ∀ r ∈ parser_handle_label_reads grammar_cnp_s1
          (parser_compute_symbol_firsts grammar_cnp_s1)
          (parser_compute_symbol_follows grammar_cnp_s1
            (parser_compute_symbol_firsts grammar_cnp_s1))
          ⟨0, 0, 0⟩ ⟨new_parser_context [97, UNICODE_ENDMARKER_POINT] 1, [], []⟩,
        (∃ dot, r = parser_body_read.at_dot dot ∧ (⟨0, 0, 0⟩ : slot).dot ≤ dot ∧
            dot < [1].length) ∨
          (∃ dot, r = parser_body_read.before_dot dot ∧ 1 ≤ dot ∧ dot ≤ [1].length ∧
            dot - 1 < [1].length) :=
  ⟨by decide, by decide,
    (parser_handle_label_reads_in_bounds grammar_cnp_s1 _ _ ⟨0, 0, 0⟩
      ⟨new_parser_context [97, UNICODE_ENDMARKER_POINT] 1, [], []⟩ [1] (by decide)).1⟩

/-! ## At most one push in a cell of the table -/

theorem scan_growing_preserves {σ : Type} (size : σ → Nat) (step : σ → Nat → σ) (P : σ → Prop)
    (h : ∀ s i, P s → P (step s i)) : ∀ fuel i s, P s → P (scan_growing size step fuel i s) := by
  intro fuel
  induction fuel with
  | zero => intro i s hs; exact hs
  | succ n ih =>
    intro i s hs
    by_cases hlt : i < size s
    · simp only [scan_growing, if_pos hlt]
      exact ih (i + 1) _ (h s i hs)
    · simp only [scan_growing, if_neg hlt]
      exact hs

theorem loop_until_stable_preserves {σ : Type} (size : σ → Nat) (pass : σ → σ) (P : σ → Prop)
    (h : ∀ s, P s → P (pass s)) : ∀ fuel s, P s → P (loop_until_stable size pass fuel s) := by
  intro fuel
  induction fuel with
  | zero => intro s hs; exact hs
  | succ n ih =>
    intro s hs
    simp only [loop_until_stable]
    split_ifs
    · exact h s hs
    · exact ih _ (h s hs)

theorem table_cell_insert_nodup (table : List (gotokey × List action)) (s X : Nat) (a : action)
    (h : ∀ s' X', (table_cell table s' X').Nodup) (s' X' : Nat) :
    (table_cell (dict_set (srnglr_get_table_actions table s X).1 ⟨s, X⟩
        (set_add action_equals (srnglr_get_table_actions table s X).2 a)) s' X').Nodup := by
  rw [table_cell_insert]
  by_cases hk : s = s' ∧ X = X'
  · rw [if_pos hk]
    by_cases ha : a ∈ table_cell table s X
    · rw [if_pos ha]
      exact h s X
    · rw [if_neg ha]
      exact List.Nodup.append (h s X) (List.nodup_singleton a)
        (by
          intro x hx hx'
          rw [List.mem_singleton] at hx'
          exact ha (hx' ▸ hx))
  · rw [if_neg hk]
    exact h s' X'

theorem srnglr_generate_gotos_cells_nodup (g : Grammar) (firsts : List fset) (st : srnglr_state)
    (h : ∀ s X, (table_cell st.table s X).Nodup) :
    ∀ s X, (table_cell (srnglr_generate_gotos g firsts st).table s X).Nodup := by
  have hsym : ∀ (i : Nat) (Ii : List metaitem) (st : srnglr_state) (X : Nat),
      (∀ s X, (table_cell st.table s X).Nodup) →
      ∀ s X', (table_cell (srnglr_generate_symbol g firsts i Ii st X).table s X').Nodup := by
    intro i Ii st X hst
    unfold srnglr_generate_symbol
    by_cases hpos : (srnglr_goto g firsts Ii X).length > 0
    · simp only [hpos, if_true]
      intro s X'
      exact table_cell_insert_nodup st.table i X _ hst s X'
    · simp only [hpos, if_false]
      exact hst
  have hset : ∀ (st : srnglr_state) (i : Nat), (∀ s X, (table_cell st.table s X).Nodup) →
      ∀ s X, (table_cell (srnglr_generate_itemset g firsts st i).table s X).Nodup := by
    intro st i hst
    unfold srnglr_generate_itemset
    cases hi : st.itemsets[i]? with
    | none => exact hst
    | some Ii =>
      exact foldl_preserves (srnglr_generate_symbol g firsts i Ii)
        (fun st => ∀ s X, (table_cell st.table s X).Nodup) _
        (fun st X _ hst => hsym i Ii st X hst) st hst
  have hpass : ∀ (bound : Nat) (st : srnglr_state), (∀ s X, (table_cell st.table s X).Nodup) →
      ∀ s X, (table_cell (srnglr_generate_pass g firsts bound st).table s X).Nodup := by
    intro bound st hst
    exact scan_growing_preserves (fun st : srnglr_state => st.itemsets.length)
      (srnglr_generate_itemset g firsts)
      (fun st => ∀ s X, (table_cell st.table s X).Nodup) hset bound 0 st hst
  exact loop_until_stable_preserves (fun st : srnglr_state => st.itemsets.length)
    (srnglr_generate_pass g firsts (generate_bound g firsts))
    (fun st => ∀ s X, (table_cell st.table s X).Nodup)
    (hpass (generate_bound g firsts)) (generate_bound g firsts) st h

theorem srnglr_generate_reductions_cells_nodup (g : Grammar) (itemsets : List (List metaitem))
    (table : List (gotokey × List action)) (h : ∀ s X, (table_cell table s X).Nodup) :
    ∀ s X, (table_cell (srnglr_generate_reductions g itemsets table) s X).Nodup := by
  have hred : ∀ (i : Nat) (table : List (gotokey × List action)) (item : metaitem),
      (∀ s X, (table_cell table s X).Nodup) →
      ∀ s X, (table_cell (srnglr_generate_reduction g i table item) s X).Nodup := by
    intro i table item ht
    unfold srnglr_generate_reduction
    split_ifs
    · intro s X
      exact table_cell_insert_nodup table i item.lookahead_idx _ ht s X
    · intro s X
      exact table_cell_insert_nodup table i item.lookahead_idx _ ht s X
    · exact ht
  unfold srnglr_generate_reductions
  refine foldl_preserves _ (fun table => ∀ s X, (table_cell table s X).Nodup) _ ?_ table h
  intro table i _ ht
  cases hi : itemsets[i]? with
  | none => exact ht
  | some Ii =>
    exact foldl_preserves (srnglr_generate_reduction g i)
      (fun table => ∀ s X, (table_cell table s X).Nodup) _
      (fun table item _ ht => hred i table item ht) table ht

theorem srnglr_table_cells_nodup (g : Grammar) (s X : Nat) :
    (table_cell (srnglr_generate_grammar_itemsets g).srnglr_table s X).Nodup := by
  unfold srnglr_generate_grammar_itemsets
  simp only
  apply srnglr_generate_reductions_cells_nodup
  apply srnglr_generate_gotos_cells_nodup
  intro s X
  simp [table_cell, dict_get]

theorem generate_inv_push_unique (g : Grammar) (firsts : List fset) (st : srnglr_state)
    (hinv : generate_inv g firsts st) (s X t t' : Nat)
    (h : action.Push t ∈ table_cell st.table s X)
    (h' : action.Push t' ∈ table_cell st.table s X) : t = t' := by
  obtain ⟨gidx, Is, Ig, ha, -, hs, hg, -, heq⟩ := hinv.sound s X _ h
  obtain ⟨gidx', Is', Ig', ha', -, hs', hg', -, heq'⟩ := hinv.sound s X _ h'
  injection ha with ha
  injection ha' with ha'
  subst ha ha'
  rw [hs] at hs'
  injection hs' with hs'
  subst hs'
  rw [set_equals_iff] at heq heq'
  have hnd' : Ig'.Nodup := hinv.nodup Ig' (List.getElem?_mem hg')
  have hperm : Ig'.Perm (srnglr_goto g firsts Is X) :=
    (hnd'.subperm heq'.2).perm_of_length_le (by omega)
  refine hinv.distinct t t' Ig Ig' hg hg' ?_
  rw [set_equals_iff]
  exact ⟨by omega, fun x hx => hperm.mem_iff.2 (heq.2 x hx)⟩

theorem srnglr_table_push_unique (g : Grammar) (s X t t' : Nat)
    (h : action.Push t ∈ table_cell (srnglr_generate_grammar_itemsets g).srnglr_table s X)
    (h' : action.Push t' ∈ table_cell (srnglr_generate_grammar_itemsets g).srnglr_table s X) :
    t = t' := by
  obtain ⟨table0, hinv, -, -, hcell⟩ := srnglr_generate_grammar_itemsets_spec g
  have hpush : ∀ u, action.Push u ∈
      table_cell (srnglr_generate_grammar_itemsets g).srnglr_table s X →
      action.Push u ∈ table_cell table0 s X := by
    intro u hu
    rcases (hcell s X _).1 hu with h0 | ⟨Is, item, -, -, -, -, hb⟩
    · exact h0
    · unfold reduction_action at hb
      split_ifs at hb
  exact generate_inv_push_unique g _ _ hinv s X t t' (hpush t h) (hpush t' h')

theorem length_le_one_of_nodup_of_all_eq {α : Type} (l : List α) (hnd : l.Nodup)
    (h : ∀ a ∈ l, ∀ b ∈ l, a = b) : l.length ≤ 1 := by
  match l, hnd, h with
  | [], _, _ => simp
  | [_], _, _ => simp
  | a :: b :: rest, hnd, h =>
    have hab : a = b := h a (by simp) b (by simp)
    rw [List.nodup_cons] at hnd
    exact absurd (by simp [hab]) hnd.1

/-- C40. After `srnglr_generate_grammar_itemsets` every cell of the table has at most one push
action: the pushes of a cell, counted with multiplicity, are at most one, and two pushes of a cell
have the same target. Inserting a push that the cell already has, as the generation does when it
visits a state again, leaves the table as it is. -/
theorem srnglr_table_cell_at_most_one_push (g : Grammar) (s X : Nat) :
    ((table_cell (srnglr_generate_grammar_itemsets g).srnglr_table s X).filter
        action_is_push).length ≤ 1 ∧
      (∀ t t', action.Push t ∈ table_cell (srnglr_generate_grammar_itemsets g).srnglr_table s X →
        action.Push t' ∈ table_cell (srnglr_generate_grammar_itemsets g).srnglr_table s X →
        t = t') ∧
      (∀ (table : List (gotokey × List action)) (t : Nat),
        action.Push t ∈ table_cell table s X → srnglr_insert_push table s X t = table) := by
  refine ⟨?_, fun t t' => srnglr_table_push_unique g s X t t',
    fun table t => srnglr_insert_push_of_mem table s X t⟩
  apply length_le_one_of_nodup_of_all_eq _ ((srnglr_table_cells_nodup g s X).filter _)
  intro a ha b hb
  rw [List.mem_filter] at ha hb
  cases a with
  | Push t =>
    cases b with
    | Push t' => rw [srnglr_table_push_unique g s X t t' ha.1 hb.1]
    | Reduce _ _ => exact absurd hb.2 (by simp [action_is_push])
    | Accept => exact absurd hb.2 (by simp [action_is_push])
  | Reduce _ _ => exact absurd ha.2 (by simp [action_is_push])
  | Accept => exact absurd ha.2 (by simp [action_is_push])

/-! ## Termination of srnglr_closure -/

theorem closure_candidates_in_grammar (g : Grammar) (y : metaitem)
    (h : y ∈ closure_candidates g (srnglr_compute_symbol_firsts g)) :
    y.position = 0 ∧ (y.head_idx, y.production_idx) ∈ grammar_productions g ∧
      metaparser_is_symbol_terminal g y.lookahead_idx = true ∧
      y.lookahead_idx ∈ grammar_terminals g := by
  unfold closure_candidates at h
  simp only [List.mem_flatMap, List.mem_range, List.mem_map] at h
  obtain ⟨B, _, p, hp, b, hb, rfl⟩ := h
  have hterm : metaparser_is_symbol_terminal g b = true := by
    unfold first_terminals at hb
    rw [List.mem_flatMap] at hb
    obtain ⟨s, hs, hbs⟩ := hb
    exact srnglr_compute_symbol_firsts_all_terminal g s hs b hbs
  refine ⟨rfl, ?_, hterm, ?_⟩
  · unfold metaparser_get_production_bodies at hp
    cases hget : dict_get g.productions B with
    | none => simp [hget] at hp
    | some bodies =>
      simp only [hget] at hp
      unfold grammar_productions
      simp only [List.mem_flatMap, List.mem_map, List.mem_range]
      exact ⟨(B, bodies), dict_get_mem _ _ _ hget, p, hp, rfl⟩
  · unfold grammar_terminals
    rw [List.mem_filter, List.mem_range]
    refine ⟨?_, hterm⟩
    unfold metaparser_is_symbol_terminal at hterm
    by_contra hlt
    have hlt' : g.symbols.length ≤ b := Nat.le_of_not_lt hlt
    rw [List.getElem?_eq_none hlt'] at hterm
    simp at hterm

theorem closure_added_length_le (g : Grammar) (added : List metaitem) (hnd : added.Nodup)
    (h : ∀ y ∈ added, y ∈ closure_candidates g (srnglr_compute_symbol_firsts g)) :
    added.length ≤ (grammar_productions g).length * (grammar_terminals g).length := by
  have hinj : (added.map (fun y : metaitem =>
      ((y.head_idx, y.production_idx), y.lookahead_idx))).Nodup := by
    refine List.Nodup.map_on ?_ hnd
    intro x hx y hy hxy
    have hx0 := (closure_candidates_in_grammar g x (h x hx)).1
    have hy0 := (closure_candidates_in_grammar g y (h y hy)).1
    obtain ⟨xh, xp, xpos, xl⟩ := x
    obtain ⟨yh, yp, ypos, yl⟩ := y
    simp only [Prod.mk.injEq] at hxy
    simp only at hx0 hy0
    obtain ⟨⟨h1, h2⟩, h3⟩ := hxy
    subst h1 h2 h3 hx0 hy0
    rfl
  have hsub : ∀ z ∈ added.map (fun y : metaitem =>
      ((y.head_idx, y.production_idx), y.lookahead_idx)),
      z ∈ (grammar_productions g) ×ˢ (grammar_terminals g) := by
    intro z hz
    rw [List.mem_map] at hz
    obtain ⟨y, hy, rfl⟩ := hz
    have := closure_candidates_in_grammar g y (h y hy)
    exact List.mem_product.2 ⟨this.2.1, this.2.2.2⟩
  have := (List.Nodup.subperm hinj hsub).length_le
  rw [List.length_map] at this
  exact le_of_le_of_eq this (List.length_product _ _)

theorem srnglr_closure_pass_enough_fuel_of_bound (g : Grammar) (firsts : List fset)
    (kernel : List metaitem) (B n1 n2 : Nat)
    (hB : ∀ added : List metaitem, added.Nodup →
      (∀ y ∈ added, y ∈ closure_candidates g firsts) → added.length ≤ B)
    (h1 : kernel.length + B < n1) (h2 : kernel.length + B < n2) :
    srnglr_closure_pass g firsts n1 kernel = srnglr_closure_pass g firsts n2 kernel := by
  unfold srnglr_closure_pass
  refine scan_growing_enough_fuel List.length (srnglr_closure_step g firsts)
    (fun cl _ => ∃ added, cl = kernel ++ added ∧ added.Nodup ∧
        (∀ y ∈ added, y ∈ closure_candidates g firsts ∧ y ∉ kernel))
    (kernel.length + B) ?_ ?_ n1 n2 0 kernel
    ⟨[], by simp⟩ (by omega) (by omega)
  · rintro cl i ⟨added, rfl, hnd, hsub⟩ hi
    obtain ⟨item, hitem⟩ : ∃ item, (kernel ++ added)[i]? = some item :=
      ⟨(kernel ++ added)[i], List.getElem?_eq_getElem hi⟩
    rw [srnglr_closure_step_eq g firsts _ i item hitem]
    obtain ⟨t, h1, h2, h3, _⟩ :=
      foldl_set_add_decide (closure_derived g firsts item) (kernel ++ added)
    rw [h1]
    refine ⟨added ++ t, by simp, ?_, ?_⟩
    · refine List.Nodup.append hnd h2 ?_
      intro y hya hyt
      exact (h3 y hyt).2 (List.mem_append_right _ hya)
    · intro y hy
      rcases List.mem_append.1 hy with hy | hy
      · exact hsub y hy
      · exact ⟨closure_derived_subset_candidates g firsts item y (h3 y hy).1,
          fun hc => (h3 y hy).2 (List.mem_append_left _ hc)⟩
  · rintro cl i ⟨added, rfl, hnd, hsub⟩
    have : added.length ≤ B := hB added hnd (fun y hy => (hsub y hy).1)
    simp only [List.length_append]
    omega

theorem srnglr_closure_pass_appends (g : Grammar) (firsts : List fset) (cl : List metaitem)
    (fuel : Nat) :
    ∃ added, srnglr_closure_pass g firsts fuel cl = cl ++ added ∧ ∀ y ∈ added, y ∉ cl := by
  unfold srnglr_closure_pass
  refine scan_growing_preserves List.length (srnglr_closure_step g firsts)
    (fun c => ∃ added, c = cl ++ added ∧ ∀ y ∈ added, y ∉ cl) ?_ fuel 0 cl ⟨[], by simp⟩
  rintro c i ⟨added, rfl, hsub⟩
  cases hitem : (cl ++ added)[i]? with
  | none =>
    refine ⟨added, ?_, hsub⟩
    unfold srnglr_closure_step
    simp only [hitem]
  | some item =>
    rw [srnglr_closure_step_eq g firsts _ i item hitem]
    obtain ⟨t, h1, -, h3, -⟩ :=
      foldl_set_add_decide (closure_derived g firsts item) (cl ++ added)
    rw [h1]
    refine ⟨added ++ t, by simp, ?_⟩
    intro y hy
    rcases List.mem_append.1 hy with hy | hy
    · exact hsub y hy
    · exact fun hc => (h3 y hy).2 (List.mem_append_left _ hc)

/-- C37. `srnglr_closure` terminates, for every grammar and every kernel, on the table of first
sets that `srnglr_compute_symbol_firsts` computes. The closure is the kernel followed by pairwise
different new items, each with position 0, a production of the grammar and a terminal lookahead,
so at most (number of productions) × (number of terminals) of them. A pass of the outer loop only
appends items that were not there, so a pass after which the loop goes on has added at least one.
With any number of iterations above the size of the kernel plus that bound the scan reaches the
end of the item set, and with any number of passes from two on the loop leaves through its
`break` with `srnglr_closure`, which a further pass leaves as it is. -/
theorem srnglr_closure_terminates (g : Grammar) (kernel : List metaitem) (n m : Nat)
    (hn : kernel.length + (grammar_productions g).length * (grammar_terminals g).length < n) :
    (∃ added, srnglr_closure g (srnglr_compute_symbol_firsts g) kernel = kernel ++ added ∧
        added.Nodup ∧
        (∀ y ∈ added, y ∉ kernel ∧ y.position = 0 ∧
          (y.head_idx, y.production_idx) ∈ grammar_productions g ∧
          metaparser_is_symbol_terminal g y.lookahead_idx = true) ∧
        added.length ≤ (grammar_productions g).length * (grammar_terminals g).length) ∧
      (∀ (cl : List metaitem) (fuel : Nat), ∃ added,
        srnglr_closure_pass g (srnglr_compute_symbol_firsts g) fuel cl = cl ++ added ∧
          (∀ y ∈ added, y ∉ cl) ∧
          ((srnglr_closure_pass g (srnglr_compute_symbol_firsts g) fuel cl).length ≠ cl.length →
            added ≠ [])) ∧
      loop_until_stable List.length
          (srnglr_closure_pass g (srnglr_compute_symbol_firsts g) n) (m + 2) kernel =
        srnglr_closure g (srnglr_compute_symbol_firsts g) kernel ∧
      srnglr_closure_pass g (srnglr_compute_symbol_firsts g) n
          (srnglr_closure g (srnglr_compute_symbol_firsts g) kernel) =
        srnglr_closure g (srnglr_compute_symbol_firsts g) kernel ∧
      closed_under g (srnglr_compute_symbol_firsts g)
        (srnglr_closure g (srnglr_compute_symbol_firsts g) kernel) := by
  obtain ⟨⟨added, hadd, hnd, hsub⟩, hclosed⟩ :=
    srnglr_closure_spec g (srnglr_compute_symbol_firsts g) kernel
  have hfix := srnglr_closure_pass_closed g (srnglr_compute_symbol_firsts g) _ hclosed n
  have heq : srnglr_closure g (srnglr_compute_symbol_firsts g) kernel =
      srnglr_closure_pass g (srnglr_compute_symbol_firsts g) n kernel := by
    rw [srnglr_closure_eq_pass]
    refine srnglr_closure_pass_enough_fuel_of_bound g _ kernel
      (min (closure_candidates g (srnglr_compute_symbol_firsts g)).length
        ((grammar_productions g).length * (grammar_terminals g).length)) _ _ ?_ ?_ ?_
    · intro added hnd hsub
      exact Nat.le_min.2 ⟨(List.Nodup.subperm hnd hsub).length_le,
        closure_added_length_le g added hnd hsub⟩
    · have := Nat.min_le_left (closure_candidates g (srnglr_compute_symbol_firsts g)).length
        ((grammar_productions g).length * (grammar_terminals g).length)
      unfold closure_bound
      omega
    · have := Nat.min_le_right (closure_candidates g (srnglr_compute_symbol_firsts g)).length
        ((grammar_productions g).length * (grammar_terminals g).length)
      omega
  refine ⟨⟨added, hadd, hnd, ?_, ?_⟩, ?_, ?_, hfix, hclosed⟩
  · intro y hy
    have := closure_candidates_in_grammar g y (hsub y hy).1
    exact ⟨(hsub y hy).2, this.1, this.2.1, this.2.2.1⟩
  · exact closure_added_length_le g added hnd (fun y hy => (hsub y hy).1)
  · intro cl fuel
    obtain ⟨t, h1, h2⟩ := srnglr_closure_pass_appends g (srnglr_compute_symbol_firsts g) cl fuel
    refine ⟨t, h1, h2, ?_⟩
    intro hlen ht
    rw [h1, ht] at hlen
    simp at hlen
  · rw [heq] at hfix
    rw [loop_until_stable_of_fixed _ _ _ hfix, heq]

/-- C37 at the grammar `S' → S`, `S → S + S | a` and the kernel `[S' → · S, $]`: three
productions and three terminals, so eleven iterations are above the bound, and the loop with two
passes returns the closure. -/
theorem srnglr_closure_terminates_witness :
    [(⟨0, 0, 0, 4⟩ : metaitem)].length +
        (grammar_productions grammar_sum).length * (grammar_terminals grammar_sum).length < 11 ∧
      loop_until_stable List.length
          (srnglr_closure_pass grammar_sum (srnglr_compute_symbol_firsts grammar_sum) 11) 2
          [⟨0, 0, 0, 4⟩] =
        srnglr_closure grammar_sum (srnglr_compute_symbol_firsts grammar_sum) [⟨0, 0, 0, 4⟩] :=
  ⟨by decide, (srnglr_closure_terminates grammar_sum [⟨0, 0, 0, 4⟩] 11 0 (by decide)).2.2.1⟩

/-! ## charset_add_range keeps the canonical form -/

theorem charset_contains_c_iff (s : List urange) (c : Nat) :
    charset_contains_c s c = true ↔ ∃ r ∈ s, r.start ≤ c ∧ c ≤ r.stop := by
  simp [charset_contains_c, urange_contains_c]

theorem charset_reduce_loop_spec (rest : List urange) :
    ∀ cur : urange, cur.start ≤ cur.stop → (∀ r ∈ rest, r.start ≤ r.stop) →
      rest.Pairwise (fun a b => a.start ≤ b.start) → (∀ r ∈ rest, cur.start ≤ r.start) →
      (∀ r ∈ charset_reduce_loop cur rest, r.start ≤ r.stop) ∧
        (charset_reduce_loop cur rest).Pairwise (fun a b => a.stop + 1 < b.start) ∧
        (∀ r ∈ charset_reduce_loop cur rest, cur.start ≤ r.start) ∧
        ∀ c, (∃ r ∈ charset_reduce_loop cur rest, r.start ≤ c ∧ c ≤ r.stop) ↔
          ((cur.start ≤ c ∧ c ≤ cur.stop) ∨ ∃ r ∈ rest, r.start ≤ c ∧ c ≤ r.stop) := by
  induction rest with
  | nil =>
    intro cur hcur _ _ _
    simp only [charset_reduce_loop, List.mem_singleton, forall_eq, List.pairwise_singleton,
      le_refl, true_and, exists_eq_left, List.not_mem_nil, false_and, exists_false, or_false,
      implies_true, and_true]
    exact hcur
  | cons b rest ih =>
    intro cur hcur hvalid hsorted hle
    have hb : b.start ≤ b.stop := hvalid b (by simp)
    have hcb : cur.start ≤ b.start := hle b (by simp)
    have hvalid' : ∀ r ∈ rest, r.start ≤ r.stop := fun r hr => hvalid r (List.mem_cons_of_mem _ hr)
    rw [List.pairwise_cons] at hsorted
    by_cases hm : b.start ≤ cur.stop + 1
    · simp only [charset_reduce_loop, if_pos hm]
      obtain ⟨h1, h2, h3, h4⟩ := ih ⟨cur.start, max cur.stop b.stop⟩
        (le_trans hcur (le_max_left _ _)) hvalid' hsorted.2
        (fun r hr => hle r (List.mem_cons_of_mem _ hr))
      refine ⟨h1, h2, h3, fun c => ?_⟩
      rw [h4 c]
      simp only [List.mem_cons, exists_eq_or_imp]
      constructor
      · rintro (⟨ha, hb'⟩ | h)
        · rcases le_max_iff.1 hb' with h | h
          · exact Or.inl ⟨ha, h⟩
          · by_cases hc : c ≤ cur.stop
            · exact Or.inl ⟨ha, hc⟩
            · exact Or.inr (Or.inl ⟨by omega, h⟩)
        · exact Or.inr (Or.inr h)
      · rintro (⟨ha, hb'⟩ | ⟨ha, hb'⟩ | h)
        · exact Or.inl ⟨ha, le_trans hb' (le_max_left _ _)⟩
        · exact Or.inl ⟨le_trans hcb ha, le_trans hb' (le_max_right _ _)⟩
        · exact Or.inr h
    · simp only [charset_reduce_loop, if_neg hm]
      obtain ⟨h1, h2, h3, h4⟩ := ih b hb hvalid' hsorted.2 hsorted.1
      refine ⟨?_, ?_, ?_, fun c => ?_⟩
      · intro r hr
        rcases List.mem_cons.1 hr with rfl | hr
        · exact hcur
        · exact h1 r hr
      · rw [List.pairwise_cons]
        refine ⟨fun r hr => ?_, h2⟩
        have := h3 r hr
        omega
      · intro r hr
        rcases List.mem_cons.1 hr with rfl | hr
        · exact le_refl _
        · exact le_trans hcb (h3 r hr)
      · simp only [List.mem_cons, exists_eq_or_imp]
        rw [h4 c]

theorem charset_rectify_spec (s : List urange) (hvalid : ∀ r ∈ s, r.start ≤ r.stop) :
    charset_canonical (charset_rectify s) ∧
      ∀ c, charset_contains_c (charset_rectify s) c = charset_contains_c s c := by
  haveI : IsTotal urange (fun a b => a.start ≤ b.start) := ⟨fun a b => Nat.le_total _ _⟩
  haveI : IsTrans urange (fun a b => a.start ≤ b.start) := ⟨fun _ _ _ h1 h2 => le_trans h1 h2⟩
  have hsorted : (charset_sort s).Pairwise (fun a b => a.start ≤ b.start) :=
    List.sorted_insertionSort (fun a b : urange => a.start ≤ b.start) s
  have hperm : (charset_sort s).Perm s :=
    List.perm_insertionSort (fun a b : urange => a.start ≤ b.start) s
  have hmem : ∀ c, charset_contains_c (charset_sort s) c = charset_contains_c s c := by
    intro c
    rw [Bool.eq_iff_iff, charset_contains_c_iff, charset_contains_c_iff]
    exact ⟨fun ⟨r, hr, h⟩ => ⟨r, hperm.mem_iff.1 hr, h⟩, fun ⟨r, hr, h⟩ => ⟨r, hperm.mem_iff.2 hr, h⟩⟩
  have hvalid' : ∀ r ∈ charset_sort s, r.start ≤ r.stop :=
    fun r hr => hvalid r (hperm.mem_iff.1 hr)
  unfold charset_rectify
  generalize charset_sort s = t at hsorted hmem hvalid'
  cases t with
  | nil =>
    refine ⟨⟨by simp [charset_reduce], by simp [charset_reduce]⟩, fun c => ?_⟩
    rw [← hmem c]
    rfl
  | cons a rest =>
    rw [List.pairwise_cons] at hsorted
    obtain ⟨h1, h2, -, h4⟩ := charset_reduce_loop_spec rest a (hvalid' a (by simp))
      (fun r hr => hvalid' r (List.mem_cons_of_mem _ hr)) hsorted.2 hsorted.1
    refine ⟨⟨h1, h2⟩, fun c => ?_⟩
    rw [← hmem c, Bool.eq_iff_iff, charset_contains_c_iff, charset_contains_c_iff]
    simp only [charset_reduce, List.mem_cons, exists_eq_or_imp]
    exact h4 c

/-- C31 (on the model of the missing charset.c). For a canonical charset `s` and a range `r` with
`r.start ≤ r.stop`, `charset_add_range` accepts the range, and the charset it leaves is canonical:
its ranges are valid and, of any two, the earlier one ends more than one code point before the
later one starts, so they are sorted by `start`, do not overlap and are not adjacent. A code point
is in that charset if and only if it was in `s` or lies in `r`. -/
theorem charset_add_range_canonical (s : List urange) (r : urange) (hs : charset_canonical s)
    (hr : r.start ≤ r.stop) :
    ∃ s', charset_add_range s r = some s' ∧ charset_canonical s' ∧
      (∀ a ∈ s', a.start ≤ a.stop) ∧
      s'.Pairwise (fun a b => a.start < b.start ∧ a.stop < b.start ∧ a.stop + 1 ≠ b.start) ∧
      ∀ c, charset_contains_c s' c = true ↔
        (charset_contains_c s c = true ∨ (r.start ≤ c ∧ c ≤ r.stop)) := by
  have hvalid : ∀ a ∈ s ++ [r], a.start ≤ a.stop := by
    intro a ha
    rcases List.mem_append.1 ha with ha | ha
    · exact hs.1 a ha
    · rw [List.mem_singleton] at ha
      rw [ha]
      exact hr
  obtain ⟨hcan, hmem⟩ := charset_rectify_spec (s ++ [r]) hvalid
  refine ⟨charset_rectify (s ++ [r]), ?_, hcan, hcan.1, ?_, fun c => ?_⟩
  · unfold charset_add_range
    rw [if_neg (by omega)]
  · refine List.Pairwise.imp_of_mem ?_ hcan.2
    intro a b ha _ hab
    have := hcan.1 a ha
    omega
  · rw [hmem c, charset_contains_c_iff, charset_contains_c_iff]
    simp only [List.mem_append, List.mem_singleton]
    constructor
    · rintro ⟨a, ha | rfl, h⟩
      · exact Or.inl ⟨a, ha, h⟩
      · exact Or.inr h
    · rintro (⟨a, ha, h⟩ | h)
      · exact ⟨a, Or.inl ha, h⟩
      · exact ⟨r, Or.inr rfl, h⟩

/-- C31 at the charset `[10-20] [30-40] [50-60]` and the range `[21-29]`, which is adjacent to
the first two ranges: the three are merged into `[10-40]`. -/
theorem charset_add_range_canonical_witness :
    charset_canonical [⟨10, 20⟩, ⟨30, 40⟩, ⟨50, 60⟩] ∧ (⟨21, 29⟩ : urange).start ≤ (⟨21, 29⟩ : urange).stop ∧
      charset_add_range [⟨10, 20⟩, ⟨30, 40⟩, ⟨50, 60⟩] ⟨21, 29⟩ = some [⟨10, 40⟩, ⟨50, 60⟩] ∧
      ∃ s', charset_add_range [⟨10, 20⟩, ⟨30, 40⟩, ⟨50, 60⟩] ⟨21, 29⟩ = some s' ∧
        charset_canonical s' ∧ (∀ a ∈ s', a.start ≤ a.stop) ∧
        s'.Pairwise (fun a b => a.start < b.start ∧ a.stop < b.start ∧ a.stop + 1 ≠ b.start) ∧
        ∀ c, charset_contains_c s' c = true ↔
          (charset_contains_c [⟨10, 20⟩, ⟨30, 40⟩, ⟨50, 60⟩] c = true ∨
            ((⟨21, 29⟩ : urange).start ≤ c ∧ c ≤ (⟨21, 29⟩ : urange).stop)) :=
  ⟨by decide, by decide, by decide,
    charset_add_range_canonical [⟨10, 20⟩, ⟨30, 40⟩, ⟨50, 60⟩] ⟨21, 29⟩ (by decide) (by decide)⟩

/-! ## dewy0alpha: the union of two sets -/

theorem dewy0alpha_set_contains_iff {α : Type} [DecidableEq α] (S : List (Option α)) (x : α) :
    dewy0alpha.set_contains S x = true ↔ some x ∈ S := by
  unfold dewy0alpha.set_contains
  rw [List.any_eq_true]
  constructor
  · rintro ⟨e, he, h⟩
    cases e with
    | none => simp at h
    | some key =>
      simp only [decide_eq_true_eq] at h
      rw [← h]
      exact he
  · intro h
    exact ⟨some x, h, by simp⟩

/-- What a loop that adds the selected keys of a table leaves: no empty slot and no key twice if
it started so, and the keys it started with and the selected keys of the table. -/
theorem dewy0alpha_add_loop_spec {α : Type} [DecidableEq α] (p : α → Bool) (T : List (Option α)) :
    ∀ S : List (Option α), S.Nodup → none ∉ S →
      let R := T.foldl (fun S e => match e with
        | some key => if p key then dewy0alpha.set_add S key else S
        | none => S) S
      R.Nodup ∧ none ∉ R ∧ ∀ x, some x ∈ R ↔ (some x ∈ S ∨ (some x ∈ T ∧ p x = true)) := by
  induction T with
  | nil =>
    intro S hnd hnone
    simp only [List.foldl_nil, List.not_mem_nil, false_and, or_false, implies_true, and_true]
    exact ⟨hnd, hnone⟩
  | cons e T ih =>
    intro S hnd hnone
    simp only [List.foldl_cons]
    cases e with
    | none =>
      obtain ⟨h1, h2, h3⟩ := ih S hnd hnone
      refine ⟨h1, h2, fun x => ?_⟩
      rw [h3 x]
      simp
    | some key =>
      by_cases hp : p key = true
      · simp only [hp, if_true]
        by_cases hc : dewy0alpha.set_contains S key = true
        · have hadd : dewy0alpha.set_add S key = S := by
            unfold dewy0alpha.set_add
            rw [if_pos hc]
          rw [hadd]
          obtain ⟨h1, h2, h3⟩ := ih S hnd hnone
          refine ⟨h1, h2, fun x => ?_⟩
          rw [h3 x]
          rw [dewy0alpha_set_contains_iff] at hc
          constructor
          · rintro (h | ⟨h, hx⟩)
            · exact Or.inl h
            · exact Or.inr ⟨List.mem_cons_of_mem _ h, hx⟩
          · rintro (h | ⟨h, hx⟩)
            · exact Or.inl h
            · rcases List.mem_cons.1 h with h | h
              · injection h with h
                rw [h]
                exact Or.inl hc
              · exact Or.inr ⟨h, hx⟩
        · have hadd : dewy0alpha.set_add S key = S ++ [some key] := by
            unfold dewy0alpha.set_add
            rw [if_neg hc]
          rw [hadd]
          rw [dewy0alpha_set_contains_iff] at hc
          obtain ⟨h1, h2, h3⟩ := ih (S ++ [some key])
            (List.Nodup.append hnd (List.nodup_singleton _)
              (by
                intro y hy hy'
                rw [List.mem_singleton] at hy'
                exact hc (hy' ▸ hy)))
            (by simp [hnone])
          refine ⟨h1, h2, fun x => ?_⟩
          rw [h3 x]
          simp only [List.mem_append, List.mem_singleton, List.mem_cons, Option.some.injEq,
            List.not_mem_nil, or_false]
          constructor
          · rintro ((h | h) | ⟨h, hx⟩)
            · exact Or.inl h
            · exact Or.inr ⟨Or.inl h, h ▸ hp⟩
            · exact Or.inr ⟨Or.inr h, hx⟩
          · rintro (h | ⟨h | h, hx⟩)
            · exact Or.inl (Or.inl h)
            · exact Or.inl (Or.inr h)
            · exact Or.inr ⟨h, hx⟩
      · simp only [hp, Bool.false_eq_true, if_false]
        obtain ⟨h1, h2, h3⟩ := ih S hnd hnone
        refine ⟨h1, h2, fun x => ?_⟩
        rw [h3 x]
        constructor
        · rintro (h | ⟨h, hx⟩)
          · exact Or.inl h
          · exact Or.inr ⟨List.mem_cons_of_mem _ h, hx⟩
        · rintro (h | ⟨h, hx⟩)
          · exact Or.inl h
          · rcases List.mem_cons.1 h with h | h
            · injection h with h
              rw [h] at hx
              exact absurd hx hp
            · exact Or.inr ⟨h, hx⟩

theorem foldl_range_slots {α σ : Type} (T : List α) (f : σ → Nat → σ) (g : σ → α → σ)
    (h : ∀ S i e, T[i]? = some e → f S i = g S e) (S : σ) :
    (List.range T.length).foldl f S = T.foldl g S := by
  induction T using List.reverseRecOn generalizing S with
  | nil => rfl
  | append_singleton l x ih =>
    rw [List.length_append, List.length_singleton, List.range_succ, List.foldl_append,
      List.foldl_append]
    simp only [List.foldl_cons, List.foldl_nil]
    rw [ih (fun S i e hi => h S i e (by
      have hlt : i < l.length := (List.getElem?_eq_some.1 hi).1
      rw [List.getElem?_append_left hlt]
      exact hi)) S]
    exact h _ l.length x (by simp)

theorem dewy0alpha_loops_eq {α : Type} [DecidableEq α] (A B : List (Option α)) :
    dewy0alpha.set_union A B =
        B.foldl (fun S e => match e with
          | some key => if (fun _ => true) key then dewy0alpha.set_add S key else S
          | none => S)
        (A.foldl (fun S e => match e with
          | some key => if (fun _ => true) key then dewy0alpha.set_add S key else S
          | none => S) []) ∧
      dewy0alpha.set_intersect A B =
        A.foldl (fun S e => match e with
          | some key =>
            if (fun key => dewy0alpha.set_contains B key) key then dewy0alpha.set_add S key else S
          | none => S) [] := by
  constructor
  · unfold dewy0alpha.set_union dewy0alpha.set_capacity dewy0alpha.new_set
    simp only
    have hA := foldl_range_slots A
      (fun (S : List (Option α)) i =>
        match A[i]? with
        | some (some key) => dewy0alpha.set_add S key
        | _ => S)
      (fun S e => match e with
        | some key => if (fun _ => true) key then dewy0alpha.set_add S key else S
        | none => S)
      (by
        intro S i e hi
        simp only [hi]
        cases e with
        | none => rfl
        | some key => rfl) []
    have hB := foldl_range_slots B
      (fun (S : List (Option α)) i =>
        match B[i]? with
        | some (some key) =>
          if !dewy0alpha.set_contains S key then dewy0alpha.set_add S key else S
        | _ => S)
      (fun S e => match e with
        | some key => if (fun _ => true) key then dewy0alpha.set_add S key else S
        | none => S)
      (by
        intro S i e hi
        simp only [hi]
        cases e with
        | none => rfl
        | some key =>
          simp only [dewy0alpha.set_add]
          cases dewy0alpha.set_contains S key <;> simp)
    refine (hB _).trans ?_
    exact congrArg (fun X => List.foldl _ X B) hA
  · unfold dewy0alpha.set_intersect dewy0alpha.set_capacity dewy0alpha.new_set
    exact foldl_range_slots A
      (fun (S : List (Option α)) i =>
        match A[i]? with
        | some (some key) => if dewy0alpha.set_contains B key then dewy0alpha.set_add S key else S
        | _ => S)
      (fun S e => match e with
          | some key =>
            if (fun key => dewy0alpha.set_contains B key) key then dewy0alpha.set_add S key else S
          | none => S)
      (by
        intro S i e hi
        simp only [hi]
        cases e with
        | none => rfl
        | some key => rfl) []

/-- C36. For two sets of dewy0alpha that hold each of their elements once, `set_union(A, B)`
contains an item if and only if `A` or `B` contains it, it holds each element once, and its size
is the size of `A` plus the size of `B` minus the size of `set_intersect(A, B)`. -/
theorem dewy0alpha_set_union_spec {α : Type} [DecidableEq α] (A B : List (Option α))
    (hA : (A.filter Option.isSome).Nodup) (hB : (B.filter Option.isSome).Nodup) :
    (∀ x, dewy0alpha.set_contains (dewy0alpha.set_union A B) x =
        (dewy0alpha.set_contains A x || dewy0alpha.set_contains B x)) ∧
      ((dewy0alpha.set_union A B).filter Option.isSome).Nodup ∧
      dewy0alpha.set_size (dewy0alpha.set_union A B) =
        dewy0alpha.set_size A + dewy0alpha.set_size B -
          dewy0alpha.set_size (dewy0alpha.set_intersect A B) ∧
      dewy0alpha.set_size (dewy0alpha.set_intersect A B) ≤ dewy0alpha.set_size A := by
  obtain ⟨hUeq, hIeq⟩ := dewy0alpha_loops_eq A B
  obtain ⟨u1, u2, u3⟩ := dewy0alpha_add_loop_spec (fun _ => true) A ([] : List (Option α))
    (by simp) (by simp)
  obtain ⟨v1, v2, v3⟩ := dewy0alpha_add_loop_spec (fun _ => true) B _ u1 u2
  obtain ⟨i1, i2, i3⟩ := dewy0alpha_add_loop_spec (fun key => dewy0alpha.set_contains B key) A
    ([] : List (Option α)) (by simp) (by simp)
  have hU : ∀ x, some x ∈ dewy0alpha.set_union A B ↔ (some x ∈ A ∨ some x ∈ B) := by
    intro x
    rw [hUeq]
    refine (v3 x).trans ?_
    rw [u3 x]
    simp
  have hUnd : (dewy0alpha.set_union A B).Nodup := by
    rw [hUeq]
    exact v1
  have hUnone : none ∉ dewy0alpha.set_union A B := by
    rw [hUeq]
    exact v2
  have hI : ∀ x, some x ∈ dewy0alpha.set_intersect A B ↔ (some x ∈ A ∧ some x ∈ B) := by
    intro x
    rw [hIeq]
    refine (i3 x).trans ?_
    rw [dewy0alpha_set_contains_iff]
    simp
  have hInd : (dewy0alpha.set_intersect A B).Nodup := by
    rw [hIeq]
    exact i1
  have hInone : none ∉ dewy0alpha.set_intersect A B := by
    rw [hIeq]
    exact i2
  have hfilter : ∀ S : List (Option α), none ∉ S → S.filter Option.isSome = S := by
    intro S hS
    rw [List.filter_eq_self]
    intro e he
    cases e with
    | none => exact absurd he hS
    | some _ => rfl
  have hmemf : ∀ (S : List (Option α)) (e : Option α),
      e ∈ S.filter Option.isSome ↔ ∃ x, e = some x ∧ some x ∈ S := by
    intro S e
    rw [List.mem_filter]
    cases e with
    | none => simp
    | some x => simp
  have hcardU : (dewy0alpha.set_union A B).toFinset =
      (A.filter Option.isSome).toFinset ∪ (B.filter Option.isSome).toFinset := by
    ext e
    rw [Finset.mem_union, List.mem_toFinset, List.mem_toFinset, List.mem_toFinset, hmemf, hmemf]
    cases e with
    | none => simp [hUnone]
    | some x => simp [hU x]
  have hcardI : (dewy0alpha.set_intersect A B).toFinset =
      (A.filter Option.isSome).toFinset ∩ (B.filter Option.isSome).toFinset := by
    ext e
    rw [Finset.mem_inter, List.mem_toFinset, List.mem_toFinset, List.mem_toFinset, hmemf, hmemf]
    cases e with
    | none => simp [hInone]
    | some x => simp [hI x]
  have hsum := Finset.card_union_add_card_inter (A.filter Option.isSome).toFinset
    (B.filter Option.isSome).toFinset
  rw [← hcardU, ← hcardI, List.toFinset_card_of_nodup hUnd, List.toFinset_card_of_nodup hInd,
    List.toFinset_card_of_nodup hA, List.toFinset_card_of_nodup hB] at hsum
  have hle : (dewy0alpha.set_intersect A B).length ≤ (A.filter Option.isSome).length := by
    rw [← List.toFinset_card_of_nodup hInd, ← List.toFinset_card_of_nodup hA, hcardI]
    exact Finset.card_le_card Finset.inter_subset_left
  refine ⟨fun x => ?_, ?_, ?_, ?_⟩
  · rw [Bool.eq_iff_iff, Bool.or_eq_true, dewy0alpha_set_contains_iff,
      dewy0alpha_set_contains_iff, dewy0alpha_set_contains_iff]
    exact hU x
  · rw [hfilter _ hUnone]
    exact hUnd
  · unfold dewy0alpha.set_size
    rw [hfilter _ hUnone, hfilter _ hInone]
    omega
  · unfold dewy0alpha.set_size
    rw [hfilter _ hInone]
    exact hle

/-- C36 at the sets `{1, 2, 3}` and `{3, 4}`, each in a table with a free slot: the union holds
`1, 2, 3, 4`, the intersection `3`, and 4 = 3 + 2 − 1. -/
theorem dewy0alpha_set_union_spec_witness :
    ([some 1, none, some 2, some 3].filter Option.isSome).Nodup ∧
      ([some 3, none, some 4].filter Option.isSome).Nodup ∧
      dewy0alpha.set_union [some 1, none, some 2, some 3] [some 3, none, some 4] =
        [some 1, some 2, some 3, some 4] ∧
      dewy0alpha.set_intersect [some 1, none, some 2, some 3] [some 3, none, some 4] =
        [some 3] ∧
      dewy0alpha.set_size (dewy0alpha.set_union [some 1, none, some 2, some 3]
          [some 3, none, some 4]) =
        dewy0alpha.set_size [some 1, none, some 2, some 3] +
          dewy0alpha.set_size [some 3, none, some 4] -
          dewy0alpha.set_size (dewy0alpha.set_intersect [some 1, none, some 2, some 3]
            [some 3, none, some 4]) :=
  ⟨by decide, by decide, by decide, by decide,
    (dewy0alpha_set_union_spec [some 1, none, some 2, some 3] [some 3, none, some 4]
      (by decide) (by decide)).2.2.1⟩

/-! ## object.c: comparison, equality and copy -/

theorem wrapping_sub_char_eq_zero (l r : Nat) (hl : l < 2 ^ 32) (hr : r < 2 ^ 32) :
    wrapping_sub 32 l r = 0 ↔ l = r := by
  unfold wrapping_sub to_int64
  norm_num at hl hr ⊢
  omega

theorem wrapping_sub_char_nonneg (l r : Nat) : 0 ≤ wrapping_sub 32 l r := by
  unfold wrapping_sub to_int64
  norm_num
  omega

theorem wrapping_sub_int_eq_zero (l r : Int) (hl : -(2 ^ 63) ≤ l ∧ l < 2 ^ 63)
    (hr : -(2 ^ 63) ≤ r ∧ r < 2 ^ 63) : wrapping_sub 64 l r = 0 ↔ l = r := by
  unfold wrapping_sub to_int64
  norm_num at hl hr ⊢
  split_ifs <;> omega

theorem wrapping_sub_uint_eq_zero (l r : Nat) (hl : l < 2 ^ 64) (hr : r < 2 ^ 64) :
    wrapping_sub 64 l r = 0 ↔ l = r := by
  unfold wrapping_sub to_int64
  norm_num at hl hr ⊢
  split_ifs <;> omega

theorem wrapping_sub_self (w : Nat) (l : Int) : wrapping_sub w l l = 0 := by
  unfold wrapping_sub to_int64
  simp

/-- C33, the code: the unsigned difference of two characters is converted to `int64_t` without
ever being negative, so `obj_compare` is positive on `'a'`, `'b'` and on `'b'`, `'a'`. The
wrap-around also gives a positive result on the integers `INT64_MIN`, `1` and on the unsigned
integers `0`, `2 ^ 63 + 1`, whose left value is the smaller one. On booleans the sign of the
result is the order of the values. -/
theorem obj_compare_character_never_negative :
    (∀ (δ : Type) (data_compare : obj_type → Option δ → Option δ → Int) (l r : Nat),
      ∃ v, obj_compare data_compare (some (obj.Character l)) (some (obj.Character r)) = some v ∧
        0 ≤ v) ∧
      obj_compare (fun _ (_ _ : Option Nat) => 0) (some (obj.Character 97))
          (some (obj.Character 98)) = some 4294967295 ∧
      obj_compare (fun _ (_ _ : Option Nat) => 0) (some (obj.Character 98))
          (some (obj.Character 97)) = some 1 ∧
      obj_compare (fun _ (_ _ : Option Nat) => 0) (some (obj.Integer (-(2 ^ 63))))
          (some (obj.Integer 1)) = some (2 ^ 63 - 1) ∧
      obj_compare (fun _ (_ _ : Option Nat) => 0) (some (obj.UInteger 0))
          (some (obj.UInteger (2 ^ 63 + 1))) = some (2 ^ 63 - 1) ∧
      ∀ (δ : Type) (data_compare : obj_type → Option δ → Option δ → Int) (l r : Bool),
        ∃ v, obj_compare data_compare (some (obj.Boolean l)) (some (obj.Boolean r)) = some v ∧
          (v < 0 ↔ l < r) ∧ (0 < v ↔ r < l) := by
  refine ⟨?_, by decide, by decide, by decide, by decide, ?_⟩
  · intro δ data_compare l r
    exact ⟨wrapping_sub 32 l r, rfl, wrapping_sub_char_nonneg l r⟩
  · intro δ data_compare l r
    cases l <;> cases r <;> exact ⟨_, rfl, by decide, by decide⟩

/-- C34. `obj_equals` on `NULL` and on the primitive types: two `NULL`s are equal, `NULL` and an
object are not, and a well-formed object of a primitive type (Boolean, Character, Integer,
UInteger) is equal to a well-formed object exactly when the two are the same object, that is
have the same type and the same value, whatever the values are: the difference that `obj_compare`
computes wraps around, but it is zero only for equal values. Objects that `obj_equals` finds
equal have the same type. -/
theorem obj_equals_primitive_iff {δ : Type} [DecidableEq δ]
    (data_compare : obj_type → Option δ → Option δ → Int)
    (data_equals : obj_type → Option δ → Option δ → Bool) (left right : obj δ)
    (hprim : left.type = obj_type.Boolean_t ∨ left.type = obj_type.Character_t ∨
      left.type = obj_type.Integer_t ∨ left.type = obj_type.UInteger_t)
    (hl : obj_wf left) (hr : obj_wf right) :
    obj_equals data_compare data_equals (some left) (some right) = some (decide (left = right)) ∧
      (obj_equals data_compare data_equals (some left) (some right) = some true ↔
        left.type = right.type ∧ left = right) ∧
      obj_equals data_compare data_equals none none = some true ∧
      obj_equals data_compare data_equals none (some right) = some false ∧
      obj_equals data_compare data_equals (some left) none = some false ∧
      ∀ a b : obj δ, obj_equals data_compare data_equals (some a) (some b) = some true →
        a.type = b.type := by
  have hmain : obj_equals data_compare data_equals (some left) (some right) =
      some (decide (left = right)) := by
    cases left with
    | other t d =>
      simp only [obj.type] at hprim
      unfold obj_wf at hl
      rcases hprim with h | h | h | h
      · exact absurd h hl.1
      · exact absurd h hl.2.1
      · exact absurd h hl.2.2.1
      · exact absurd h hl.2.2.2
    | Boolean l =>
      cases right with
      | Boolean r => cases l <;> cases r <;> rfl
      | other t d =>
        unfold obj_wf at hr
        have : obj.type (obj.Boolean l : obj δ) ≠ (obj.other t d).type := fun h => hr.1 h.symm
        simp [obj_equals, this]
      | _ => simp [obj_equals, obj.type]
    | Character l =>
      cases right with
      | Character r =>
        simp [obj_equals, obj_compare, obj.type, wrapping_sub_char_eq_zero l r hl hr]
      | other t d =>
        unfold obj_wf at hr
        have : obj.type (obj.Character l : obj δ) ≠ (obj.other t d).type :=
          fun h => hr.2.1 h.symm
        simp [obj_equals, this]
      | _ => simp [obj_equals, obj.type]
    | Integer l =>
      cases right with
      | Integer r =>
        simp [obj_equals, obj_compare, obj.type, wrapping_sub_int_eq_zero l r hl hr]
      | other t d =>
        unfold obj_wf at hr
        have : obj.type (obj.Integer l : obj δ) ≠ (obj.other t d).type :=
          fun h => hr.2.2.1 h.symm
        simp [obj_equals, this]
      | _ => simp [obj_equals, obj.type]
    | UInteger l =>
      cases right with
      | UInteger r =>
        simp [obj_equals, obj_compare, obj.type, wrapping_sub_uint_eq_zero l r hl hr]
      | other t d =>
        unfold obj_wf at hr
        have : obj.type (obj.UInteger l : obj δ) ≠ (obj.other t d).type :=
          fun h => hr.2.2.2 h.symm
        simp [obj_equals, this]
      | _ => simp [obj_equals, obj.type]
  refine ⟨hmain, ?_, rfl, rfl, rfl, ?_⟩
  · rw [hmain]
    simp only [Option.some.injEq, decide_eq_true_eq]
    exact ⟨fun h => ⟨by rw [h], h⟩, fun h => h.2⟩
  · intro a b hab
    by_contra hne
    have : obj_equals data_compare data_equals (some a) (some b) = some false := by
      simp [obj_equals, hne]
    rw [this] at hab
    simp at hab

/-- C34 at the integers `INT64_MIN` and `INT64_MAX`, whose difference wraps around to 1: they are
not equal. -/
theorem obj_equals_primitive_iff_witness :
    ((obj.Integer (-(2 ^ 63)) : obj Nat).type = obj_type.Boolean_t ∨
        (obj.Integer (-(2 ^ 63)) : obj Nat).type = obj_type.Character_t ∨
        (obj.Integer (-(2 ^ 63)) : obj Nat).type = obj_type.Integer_t ∨
        (obj.Integer (-(2 ^ 63)) : obj Nat).type = obj_type.UInteger_t) ∧
      obj_wf (obj.Integer (-(2 ^ 63)) : obj Nat) ∧ obj_wf (obj.Integer (2 ^ 63 - 1) : obj Nat) ∧
      obj_compare (fun _ (_ _ : Option Nat) => 0) (some (obj.Integer (-(2 ^ 63))))
          (some (obj.Integer (2 ^ 63 - 1))) = some 1 ∧
      obj_equals (fun _ (_ _ : Option Nat) => 0) (fun _ _ _ => false)
          (some (obj.Integer (-(2 ^ 63)))) (some (obj.Integer (2 ^ 63 - 1))) =
        some (decide ((obj.Integer (-(2 ^ 63)) : obj Nat) = obj.Integer (2 ^ 63 - 1))) :=
  ⟨by decide, by decide, by decide, by decide,
    (obj_equals_primitive_iff (fun _ (_ _ : Option Nat) => 0) (fun _ _ _ => false)
      (obj.Integer (-(2 ^ 63))) (obj.Integer (2 ^ 63 - 1)) (by decide) (by decide)
      (by decide)).1⟩

/-- C35, the code: `obj_copy` does not copy the data of an object of type `Slot_t`. The call
returns an object of type `Slot_t` whose data is `NULL`: it is not the object with a copy of the
data, and `obj_equals`, with the equality of values as `slot_equals`, finds the object and its
copy different. The same holds for every type that reaches the default branch of the switch and
has a hash (CharSet, Pointer, MetaAST, Slot, Slice, Descriptor, Set), whatever the data. The
branches that are written do copy: the copy of a String holds what the copy function of strings
returns, and the copy of a primitive is equal to the primitive. `obj_copy(NULL)` is `NULL`. -/
theorem obj_copy_slot_data_null :
    obj_copy (fun _ => 0) (fun _ d => d) (some (obj.other obj_type.Slot_t (some (7 : Nat)))) =
        some (some (obj.other obj_type.Slot_t none)) ∧
      obj_copy (fun _ => 0) (fun _ d => d) (some (obj.other obj_type.Slot_t (some (7 : Nat)))) ≠
        some (some (obj.other obj_type.Slot_t (some 7))) ∧
      obj_equals (fun _ _ _ => 0) (fun _ l r => decide (l = r))
          (some (obj.other obj_type.Slot_t (some (7 : Nat))))
          (some (obj.other obj_type.Slot_t none)) = some false ∧
      (∀ (δ : Type) (_ : DecidableEq δ) (hash : obj δ → Nat)
          (data_copy : obj_type → Option δ → Option δ) (data : Option δ),
        ∀ type ∈ [obj_type.CharSet_t, obj_type.Pointer_t, obj_type.MetaAST_t, obj_type.Slot_t,
            obj_type.Slice_t, obj_type.Descriptor_t, obj_type.Set_t],
          obj_copy hash data_copy (some (obj.other type data)) =
            some (some (obj.other type none))) ∧
      (∀ (δ : Type) (_ : DecidableEq δ) (hash : obj δ → Nat)
          (data_copy : obj_type → Option δ → Option δ) (data : Option δ),
        obj_copy hash data_copy (some (obj.other obj_type.String_t data)) =
          some (some (obj.other obj_type.String_t (data_copy obj_type.String_t data)))) ∧
      (∀ (δ : Type) (_ : DecidableEq δ) (hash : obj δ → Nat)
          (data_copy : obj_type → Option δ → Option δ) (c : Nat),
        obj_copy hash data_copy (some (obj.Character c)) = some (some (obj.Character c))) ∧
      (∀ (δ : Type) (_ : DecidableEq δ) (hash : obj δ → Nat)
          (data_copy : obj_type → Option δ → Option δ),
        obj_copy hash data_copy none = some none) := by
  refine ⟨by decide, by decide, by decide, ?_, ?_, ?_, ?_⟩
  · intro δ _ hash data_copy data type ht
    simp only [List.mem_cons, List.mem_singleton, List.not_mem_nil, or_false] at ht
    rcases ht with h | h | h | h | h | h | h <;> subst h <;> rfl
  · intro δ _ hash data_copy data
    rfl
  · intro δ _ hash data_copy c
    rfl
  · intro δ _ hash data_copy
    rfl

/-! ## The exit status of main -/

end Dewy
